import Mathlib

/-!
# Botan multi-precision core (`src/lib/math/mp/mp_core.h`)

A shallow embedding of the word-array kernels of `mp_core.h`, and of the DSA parameter
generation of `src/lib/math/numbertheory/dsa_gen.cpp`.

* A machine word of `w` bits (`WordInfo<W>::bits = w`) is a natural number below `2 ^ w`;
  every arithmetic operation that can wrap is written with an explicit `% 2 ^ w`.
* A word array is a `List Nat`, least significant word first; `x[i]` is `rd x i`,
  `z[i] = v` is `List.set`.
* A C loop `for(size_t i = lo; i != hi; ++i)` is `forRange lo hi body`, the state being the
  tuple of the variables the loop body assigns.
* Code that can throw returns `Except Failure _`.
-/

namespace Botan

/-! ## Control flow and memory -/

/-- The two ways a function of the library gives up: `BOTAN_ARG_CHECK` throws
`Invalid_Argument`, `BOTAN_ASSERT` aborts with an assertion failure. -/
inductive Failure where
  | invalid_argument (msg : String)
  | assertion_failure (msg : String)
  deriving DecidableEq, Repr

/-- The loop `for(size_t i = lo; i != hi; ++i) s = body i s` (for `lo ≤ hi`, which is the
only way the source enters such a loop). -/
def forRange {σ : Type} (lo hi : Nat) (body : Nat → σ → σ) (s : σ) : σ :=
  (List.range' lo (hi - lo)).foldl (fun acc i => body i acc) s

/-- Read `x[i]`. -/
def rd (x : List Nat) (i : Nat) : Nat := x.getD i 0

/-- The integer a little-endian word array stands for. -/
def value (w : Nat) : List Nat → Nat
  | [] => 0
  | a :: as => a + 2 ^ w * value w as

/-- Every element of the array is a `w`-bit word. -/
def IsWords (w : Nat) (x : List Nat) : Prop := ∀ a ∈ x, a < 2 ^ w

instance (w : Nat) (x : List Nat) : Decidable (IsWords w x) := by
  unfold IsWords; infer_instance

/-! ## Constants of `WordInfo<W>` -/

/-- Modelled from the spec: `WordInfo<W>::max` of `botan/types.h` (not in `src/`), the
all-ones word. -/
def word_max (w : Nat) : Nat := 2 ^ w - 1

/-! ## `monty_inverse` -/

/-- One pass of the loop body of `monty_inverse`; the state is `(b, r)`. -/
def monty_inverse_body (w a : Nat) (s : Nat × Nat) : Nat × Nat :=
  let b := s.1
  let r := s.2
  let bi := b % 2
  let r := r / 2                                              -- r >>= 1
  let r := (r + (bi * 2 ^ (w - 1)) % 2 ^ w) % 2 ^ w           -- r += bi << (bits - 1)
  let b := (b + 2 ^ w - (a * bi) % 2 ^ w) % 2 ^ w             -- b -= a * bi
  let b := b / 2                                              -- b >>= 1
  (b, r)

/-- `monty_inverse(a)`: Koç's bit-serial inversion followed by negation. -/
def monty_inverse (w a : Nat) : Except Failure Nat :=
  if a % 2 = 1 then
    let s := forRange 0 w (fun _ s => monty_inverse_body w a s) (1 % 2 ^ w, 0)
    let r := s.2
    .ok (((word_max w - r) + 1) % 2 ^ w)                      -- r = (max - r) + 1
  else
    .error (.invalid_argument "Cannot compute Montgomery inverse of an even integer")

/-! ## Word primitives (`mp_asmi.h`) -/

/-- Modelled from the spec: `word_add(a, b, &carry)` of `mp_asmi.h` (not in `src/`): the
single-word sum `a + b + carry`; the overflow is captured in the carry output. The pair is
(returned word, new `*carry`). -/
def word_add (w a b carry : Nat) : Nat × Nat :=
  ((a + b + carry) % 2 ^ w, (a + b + carry) / 2 ^ w)

/-- Modelled from the spec: `word_sub(a, b, &borrow)` of `mp_asmi.h` (not in `src/`): the
single-word difference `a - b - borrow`; the underflow is captured in the borrow output.
The pair is (returned word, new `*borrow`). -/
def word_sub (w a b borrow : Nat) : Nat × Nat :=
  ((a + (2 ^ w - (b + borrow) % 2 ^ w)) % 2 ^ w, if a < b + borrow then 1 else 0)

/-- Modelled from the spec: `word_madd2(a, b, &c)` of `mp_asmi.h` (not in `src/`): the
double-word value `a * b + c`, low word returned, high word left in `*c`. -/
def word_madd2 (w a b c : Nat) : Nat × Nat :=
  ((a * b + c) % 2 ^ w, (a * b + c) / 2 ^ w)

/-- Modelled from the spec: `word_madd3(a, b, c, &d)` of `mp_asmi.h` (not in `src/`): the
double-word value `a * b + c + d`, low word returned, high word left in `*d`. -/
def word_madd3 (w a b c d : Nat) : Nat × Nat :=
  ((a * b + c + d) % 2 ^ w, (a * b + c + d) / 2 ^ w)

/-- Modelled from the spec: `word8_add2(x + off, y + off, carry)` of `mp_asmi.h` (not in
`src/`): eight consecutive `word_add` steps in place on `x[off .. off + 8)`. -/
def word8_add2 (w : Nat) (x y : List Nat) (off carry : Nat) : List Nat × Nat :=
  forRange 0 8 (fun k s =>
    let r := word_add w (rd s.1 (off + k)) (rd y (off + k)) s.2
    (s.1.set (off + k) r.1, r.2)) (x, carry)

/-- Modelled from the spec: `word8_add3(z + off, x + off, y + off, carry)` of `mp_asmi.h`
(not in `src/`): eight consecutive `word_add` steps writing `z[off .. off + 8)`. -/
def word8_add3 (w : Nat) (z x y : List Nat) (off carry : Nat) : List Nat × Nat :=
  forRange 0 8 (fun k s =>
    let r := word_add w (rd x (off + k)) (rd y (off + k)) s.2
    (s.1.set (off + k) r.1, r.2)) (z, carry)

/-- Modelled from the spec: `word8_sub2(x + off, y + off, borrow)` of `mp_asmi.h` (not in
`src/`): eight consecutive `word_sub` steps in place on `x[off .. off + 8)`. -/
def word8_sub2 (w : Nat) (x y : List Nat) (off borrow : Nat) : List Nat × Nat :=
  forRange 0 8 (fun k s =>
    let r := word_sub w (rd s.1 (off + k)) (rd y (off + k)) s.2
    (s.1.set (off + k) r.1, r.2)) (x, borrow)

/-- Modelled from the spec: `word8_sub3(z + off, x + off, y + off, borrow)` of `mp_asmi.h`
(not in `src/`): eight consecutive `word_sub` steps writing `z[off .. off + 8)`. -/
def word8_sub3 (w : Nat) (z x y : List Nat) (off borrow : Nat) : List Nat × Nat :=
  forRange 0 8 (fun k s =>
    let r := word_sub w (rd x (off + k)) (rd y (off + k)) s.2
    (s.1.set (off + k) r.1, r.2)) (z, borrow)

/-- The loop `for(size_t i = 0; i != blocks; i += 8)`, `blocks` being a multiple of 8. -/
def forBlocks8 {σ : Type} (blocks : Nat) (body : Nat → σ → σ) (s : σ) : σ :=
  forRange 0 (blocks / 8) (fun j acc => body (8 * j) acc) s

/-! ## Constant-time masks (`ct_utils.h`) -/

/-- Modelled from the spec: `CT::Mask<W>::expand(v)` of `ct_utils.h` (not in `src/`):
nonzero gives the all-ones word, zero gives the all-zeros word. -/
def Mask.expand (w v : Nat) : Nat := if v ≠ 0 then word_max w else 0

/-- Modelled from the spec: `CT::Mask<W>::is_zero(v)` of `ct_utils.h` (not in `src/`). -/
def Mask.is_zero (w v : Nat) : Nat := if v = 0 then word_max w else 0

/-- Modelled from the spec: `CT::Mask<W>::is_equal(a, b)` of `ct_utils.h` (not in `src/`). -/
def Mask.is_equal (w a b : Nat) : Nat := if a = b then word_max w else 0

/-- Modelled from the spec: `CT::Mask<W>::is_lt(a, b)` of `ct_utils.h` (not in `src/`). -/
def Mask.is_lt (w a b : Nat) : Nat := if a < b then word_max w else 0

/-- Modelled from the spec: `mask.select(a, b)` of `ct_utils.h` (not in `src/`), the
branch-free ternary `mask ? a : b`, computed bitwise as `b ^ (mask & (a ^ b))`. -/
def Mask.select (mask a b : Nat) : Nat := b ^^^ (mask &&& (a ^^^ b))

/-- Modelled from the spec: `mask.select_mask(a, b)` of `ct_utils.h` (not in `src/`), the
mask-level ternary: `select` on the values of the two masks. -/
def Mask.select_mask (mask a b : Nat) : Nat := Mask.select mask a b

/-- Modelled from the spec: `mask.if_set_return(v)` of `ct_utils.h` (not in `src/`):
`v` when the mask is set, `0` otherwise, computed as `mask & v`. -/
def Mask.if_set_return (mask v : Nat) : Nat := mask &&& v

/-- A word is a mask when it is all zeros or all ones. -/
def IsMask (w m : Nat) : Prop := m = 0 ∨ m = word_max w

/-! ## Addition and subtraction -/

/-- `bigint_add2(x, x_size, y, y_size)`: the pair is (`x` after the call, returned carry). -/
def bigint_add2 (w : Nat) (x : List Nat) (x_size : Nat) (y : List Nat) (y_size : Nat) :
    Except Failure (List Nat × Nat) :=
  if ¬ (x_size ≥ y_size) then .error (.assertion_failure "Expected sizes") else
  let blocks := y_size - (y_size % 8)
  let s := forBlocks8 blocks (fun i s => word8_add2 w s.1 y i s.2) (x, 0)
  let s := forRange blocks y_size (fun i s =>
    let r := word_add w (rd s.1 i) (rd y i) s.2
    (s.1.set i r.1, r.2)) s
  let s := forRange y_size x_size (fun i s =>
    let r := word_add w (rd s.1 i) 0 s.2
    (s.1.set i r.1, r.2)) s
  .ok s

/-- The body of `bigint_add3` after the size test, for `x_size ≥ y_size`. -/
def bigint_add3_main (w : Nat) (z x : List Nat) (x_size : Nat) (y : List Nat) (y_size : Nat) :
    List Nat × Nat :=
  let blocks := y_size - (y_size % 8)
  let s := forBlocks8 blocks (fun i s => word8_add3 w s.1 x y i s.2) (z, 0)
  let s := forRange blocks y_size (fun i s =>
    let r := word_add w (rd x i) (rd y i) s.2
    (s.1.set i r.1, r.2)) s
  let s := forRange y_size x_size (fun i s =>
    let r := word_add w (rd x i) 0 s.2
    (s.1.set i r.1, r.2)) s
  s

/-- `bigint_add3(z, x, x_size, y, y_size)`: the pair is (`z` after the call, returned
carry). With `x_size < y_size` the function calls itself with the operands exchanged. -/
def bigint_add3 (w : Nat) (z x : List Nat) (x_size : Nat) (y : List Nat) (y_size : Nat) :
    List Nat × Nat :=
  if x_size < y_size then bigint_add3_main w z y y_size x x_size
  else bigint_add3_main w z x x_size y y_size

/-- `bigint_sub2(x, x_size, y, y_size)`: the pair is (`x` after the call, returned
borrow). -/
def bigint_sub2 (w : Nat) (x : List Nat) (x_size : Nat) (y : List Nat) (y_size : Nat) :
    Except Failure (List Nat × Nat) :=
  if ¬ (x_size ≥ y_size) then .error (.assertion_failure "Expected sizes") else
  let blocks := y_size - (y_size % 8)
  let s := forBlocks8 blocks (fun i s => word8_sub2 w s.1 y i s.2) (x, 0)
  let s := forRange blocks y_size (fun i s =>
    let r := word_sub w (rd s.1 i) (rd y i) s.2
    (s.1.set i r.1, r.2)) s
  let s := forRange y_size x_size (fun i s =>
    let r := word_sub w (rd s.1 i) 0 s.2
    (s.1.set i r.1, r.2)) s
  .ok s

/-- `bigint_sub3(z, x, x_size, y, y_size)`: the pair is (`z` after the call, returned
borrow). Every pass reads `x[i]` before it writes `z[i]` and no pass reads an index below
its own, so the call with `x` aliasing `z` is the call with `x` the content of `z` on
entry. -/
def bigint_sub3 (w : Nat) (z x : List Nat) (x_size : Nat) (y : List Nat) (y_size : Nat) :
    Except Failure (List Nat × Nat) :=
  if ¬ (x_size ≥ y_size) then .error (.assertion_failure "Expected sizes") else
  let blocks := y_size - (y_size % 8)
  let s := forBlocks8 blocks (fun i s => word8_sub3 w s.1 x y i s.2) (z, 0)
  let s := forRange blocks y_size (fun i s =>
    let r := word_sub w (rd x i) (rd y i) s.2
    (s.1.set i r.1, r.2)) s
  let s := forRange y_size x_size (fun i s =>
    let r := word_sub w (rd x i) 0 s.2
    (s.1.set i r.1, r.2)) s
  .ok s

/-! ## Comparison -/

/-- The conversion `static_cast<int32_t>(result)` of a word: its low 32 bits read as a
two's-complement integer. -/
def to_int32 (v : Nat) : Int :=
  if v % 2 ^ 32 < 2 ^ 31 then ((v % 2 ^ 32 : Nat) : Int) else ((v % 2 ^ 32 : Nat) : Int) - 2 ^ 32

/-- `bigint_cmp(x, x_size, y, y_size)`, for a word type of at least 32 bits
(`static_assert(sizeof(W) >= sizeof(uint32_t))`). -/
def bigint_cmp (w : Nat) (x : List Nat) (x_size : Nat) (y : List Nat) (y_size : Nat) : Int :=
  let LT := word_max w                                        -- static_cast<W>(-1)
  let EQ := 0
  let GT := 1
  let common_elems := min x_size y_size
  let result := forRange 0 common_elems (fun i result =>
    let is_eq := Mask.is_equal w (rd x i) (rd y i)
    let is_lt := Mask.is_lt w (rd x i) (rd y i)
    Mask.select is_eq result (Mask.select is_lt LT GT)) EQ
  let result :=
    if x_size < y_size then
      let mask := forRange x_size y_size (fun i mask => mask ||| rd y i) 0
      Mask.select (Mask.is_zero w mask) result LT
    else if y_size < x_size then
      let mask := forRange y_size x_size (fun i mask => mask ||| rd x i) 0
      Mask.select (Mask.is_zero w mask) result GT
    else result
  to_int32 result

/-- `bigint_ct_is_lt(x, x_size, y, y_size, lt_or_equal)`; the result is the value of the
returned `CT::Mask<W>`. -/
def bigint_ct_is_lt (w : Nat) (x : List Nat) (x_size : Nat) (y : List Nat) (y_size : Nat)
    (lt_or_equal : Bool) : Nat :=
  let common_elems := min x_size y_size
  let is_lt := Mask.expand w (if lt_or_equal then 1 else 0)
  let is_lt := forRange 0 common_elems (fun i is_lt =>
    let eq := Mask.is_equal w (rd x i) (rd y i)
    let lt := Mask.is_lt w (rd x i) (rd y i)
    Mask.select_mask eq is_lt lt) is_lt
  if x_size < y_size then
    let mask := forRange x_size y_size (fun i mask => mask ||| rd y i) 0
    is_lt ||| Mask.expand w mask
  else if y_size < x_size then
    let mask := forRange y_size x_size (fun i mask => mask ||| rd x i) 0
    is_lt &&& Mask.is_zero w mask
  else is_lt

/-- `bigint_ct_is_eq(x, x_size, y, y_size)`; the result is the value of the returned
`CT::Mask<W>`. -/
def bigint_ct_is_eq (w : Nat) (x : List Nat) (x_size : Nat) (y : List Nat) (y_size : Nat) :
    Nat :=
  let common_elems := min x_size y_size
  let diff := forRange 0 common_elems (fun i diff => diff ||| (rd x i ^^^ rd y i)) 0
  let diff :=
    if x_size < y_size then
      forRange x_size y_size (fun i diff => diff ||| rd y i) diff
    else if y_size < x_size then
      forRange y_size x_size (fun i diff => diff ||| rd x i) diff
    else diff
  Mask.is_zero w diff

/-! ## Comba multiplication -/

/-- Modelled from the spec: `word3<W>::mul(x, y)` of `mp_asmi.h` (not in `src/`): the wide
accumulator of `comba_mul`, three words long as its name says, receives `x * y`. The
accumulator is kept as the integer its three words stand for, below `2 ^ (3 * w)`. -/
def word3.mul (w accum x y : Nat) : Nat := (accum + x * y) % 2 ^ (3 * w)

/-- Modelled from the spec: `word3<W>::extract()` of `mp_asmi.h` (not in `src/`): returns
the low word of the accumulator and shifts the accumulator down by one word. The pair is
(returned word, accumulator after the call). -/
def word3.extract (w accum : Nat) : Nat × Nat := (accum % 2 ^ w, accum / 2 ^ w)

/-- The generic (portable loop) path of `comba_mul<N>(z, x, y)`: `z` after the call. -/
def comba_mul (w N : Nat) (z x y : List Nat) : List Nat :=
  (forRange 0 (2 * N) (fun i (s : List Nat × Nat) =>
    let start := if i + 1 < N then 0 else i + 1 - N
    let end_ := min N (i + 1)
    let accum := forRange start end_ (fun j accum =>
      word3.mul w accum (rd x j) (rd y (i - j))) s.2
    let r := word3.extract w accum
    (s.1.set i r.1, r.2)) (z, 0)).1

/-! ## Crandall reduction -/

/-- Modelled from the spec: `CT::conditional_assign_mem(cnd, dest, src, n)` of `ct_utils.h`
(not in `src/`), the constant-time conditional assignment: with `cnd` nonzero
`dest[0:n]` becomes `src[0:n]`, with `cnd` zero `dest` is left as it is; every word is
chosen by `select` under the mask of `cnd`. -/
def conditional_assign_mem (w cnd : Nat) (dest src : List Nat) (n : Nat) : List Nat :=
  let mask := Mask.expand w cnd
  forRange 0 n (fun i dest => dest.set i (Mask.select mask (rd src i) (rd dest i))) dest

/-- The portable path of `redc_crandall<W, N, C>(z)`, for `p = 2^(N*w) - C`. The template
carries `static_assert(N >= 2)`; below that the call of `bigint_add2` would fail its size
assertion. -/
def redc_crandall (w N C : Nat) (z : List Nat) : Except Failure (List Nat) := do
  let hi := List.replicate N 0
  -- hi = hi * c + lo
  let s := forRange 0 N (fun i s =>
    ((s.1.set i (word_madd3 w (rd z (i + N)) C (rd z i) s.2).1),
      (word_madd3 w (rd z (i + N)) C (rd z i) s.2).2)) (hi, 0)
  let hi := s.1
  let carry := s.2
  -- hi += carry * C
  let carry_c := [0, 0]
  let m := word_madd2 w carry C (rd carry_c 1)
  let carry_c := (carry_c.set 1 m.2).set 0 m.1
  let a ← bigint_add2 w hi N carry_c 2
  let hi := a.1
  let carry := a.2
  let P0 := (word_max w + (2 ^ w - (C - 1) % 2 ^ w)) % 2 ^ w
  let r := List.replicate N 0
  let t := word_sub w (rd hi 0) P0 0
  let r := r.set 0 t.1
  let s := forRange 1 N (fun i s =>
    ((s.1.set i (word_sub w (rd hi i) (word_max w) s.2).1),
      (word_sub w (rd hi i) (word_max w) s.2).2)) (r, t.2)
  let r := s.1
  let borrow := s.2
  -- borrow = (carry - borrow) > carry
  let borrow := if (carry + (2 ^ w - borrow % 2 ^ w)) % 2 ^ w > carry then 1 else 0
  return conditional_assign_mem w borrow r hi N

/-! ## Conditional operations -/

/-- `bigint_cnd_swap(cnd, x, y, size)`: the pair is (`x`, `y`) after the call. -/
def bigint_cnd_swap (w cnd : Nat) (x y : List Nat) (size : Nat) : List Nat × List Nat :=
  let mask := Mask.expand w cnd
  forRange 0 size (fun i s =>
    let a := rd s.1 i
    let b := rd s.2 i
    (s.1.set i (Mask.select mask b a), s.2.set i (Mask.select mask a b))) (x, y)

/-- `bigint_cnd_add(cnd, x, y, size)`: the pair is (`x` after the call, returned word). -/
def bigint_cnd_add (w cnd : Nat) (x y : List Nat) (size : Nat) : List Nat × Nat :=
  let mask := Mask.expand w cnd                               -- .value()
  let s := forRange 0 size (fun i s =>
    ((s.1.set i (word_add w (rd s.1 i) (rd y i &&& mask) s.2).1),
      (word_add w (rd s.1 i) (rd y i &&& mask) s.2).2)) (x, 0)
  (s.1, mask &&& s.2)

/-- `bigint_cnd_sub(cnd, x, y, size)`: the pair is (`x` after the call, returned word). -/
def bigint_cnd_sub (w cnd : Nat) (x y : List Nat) (size : Nat) : List Nat × Nat :=
  let mask := Mask.expand w cnd                               -- .value()
  let s := forRange 0 size (fun i s =>
    ((s.1.set i (word_sub w (rd s.1 i) (rd y i &&& mask) s.2).1),
      (word_sub w (rd s.1 i) (rd y i &&& mask) s.2).2)) (x, 0)
  (s.1, mask &&& s.2)

/-- The complement `~a` of a `w`-bit word. -/
def word_not (w a : Nat) : Nat := word_max w - a

/-- `bigint_cnd_abs(cnd, x, size)`: `x` after the call. -/
def bigint_cnd_abs (w cnd : Nat) (x : List Nat) (size : Nat) : List Nat :=
  let mask := Mask.expand w cnd
  let carry := Mask.if_set_return mask 1
  (forRange 0 size (fun i s =>
    ((s.1.set i (Mask.select mask (word_add w (word_not w (rd s.1 i)) 0 s.2).1 (rd s.1 i))),
      (word_add w (word_not w (rd s.1 i)) 0 s.2).2)) (x, carry)).1

/-! ## Conditional subtraction of Montgomery reduction -/

/-- `bigint_monty_maybe_sub(N, z, x0, x, p)`, the overload with the length as an argument:
`z` after the call. -/
def bigint_monty_maybe_sub (w N : Nat) (z : List Nat) (x0 : Nat) (x p : List Nat) : List Nat :=
  let blocks := N - (N % 8)
  let s := forBlocks8 blocks (fun i s => word8_sub3 w s.1 x p i s.2) (z, 0)
  let s := forRange blocks N (fun i s =>
    ((s.1.set i (word_sub w (rd x i) (rd p i) s.2).1), (word_sub w (rd x i) (rd p i) s.2).2)) s
  -- borrow = (x0 - borrow) > x0
  let borrow := if (x0 + (2 ^ w - s.2 % 2 ^ w)) % 2 ^ w > x0 then 1 else 0
  conditional_assign_mem w borrow s.1 x N

/-- `bigint_monty_maybe_sub<N>(z, x0, x, y)`, the overload with the length as a template
argument: `z` after the call. -/
def bigint_monty_maybe_sub_N (w N : Nat) (z : List Nat) (x0 : Nat) (x y : List Nat) :
    List Nat :=
  let s := forRange 0 N (fun i s =>
    ((s.1.set i (word_sub w (rd x i) (rd y i) s.2).1), (word_sub w (rd x i) (rd y i) s.2).2))
    (z, 0)
  -- borrow = (x0 - borrow) > x0
  let borrow := if (x0 + (2 ^ w - s.2 % 2 ^ w)) % 2 ^ w > x0 then 1 else 0
  conditional_assign_mem w borrow s.1 x N

/-- Modelled from the spec: `CT::conditional_copy_mem(cnd, to, from0, from1, n)` of
`ct_utils.h` (not in `src/`), the constant-time conditional copy into `to` (here `dest`):
with `cnd` nonzero `to[0:n]` becomes `from0[0:n]`, with `cnd` zero it becomes
`from1[0:n]`; every word is chosen by `select` under the mask of `cnd`, and that mask is
returned. The pair is (`to` after the call, value of the returned mask). -/
def conditional_copy_mem (w cnd : Nat) (dest from0 from1 : List Nat) (n : Nat) :
    List Nat × Nat :=
  let mask := Mask.expand w cnd
  (forRange 0 n (fun i t => t.set i (Mask.select mask (rd from0 i) (rd from1 i))) dest, mask)

/-- `bigint_sub_abs(z, x, y, N, ws)`. The two halves `ws0 = ws` and `ws1 = ws + N` of the
workspace are kept as two arrays. The triple is (`z` after the call, `ws` after the call,
value of the returned mask). -/
def bigint_sub_abs (w : Nat) (z x y : List Nat) (N : Nat) (ws : List Nat) :
    List Nat × List Nat × Nat :=
  let ws0 := ws.take N
  let ws1 := ws.drop N
  let blocks := N - (N % 8)
  -- the state is ((ws0, borrow0), (ws1, borrow1))
  let s := forBlocks8 blocks (fun i (s : (List Nat × Nat) × (List Nat × Nat)) =>
    (word8_sub3 w s.1.1 x y i s.1.2, word8_sub3 w s.2.1 y x i s.2.2)) ((ws0, 0), (ws1, 0))
  let s := forRange blocks N (fun i (s : (List Nat × Nat) × (List Nat × Nat)) =>
    (((s.1.1.set i (word_sub w (rd x i) (rd y i) s.1.2).1),
        (word_sub w (rd x i) (rd y i) s.1.2).2),
      ((s.2.1.set i (word_sub w (rd y i) (rd x i) s.2.2).1),
        (word_sub w (rd y i) (rd x i) s.2.2).2))) s
  let r := conditional_copy_mem w s.1.2 z s.2.1 s.1.1 N
  (r.1, s.1.1 ++ s.2.1, r.2)

/-! ## Shifts -/

/-- Modelled from the spec: `copy_mem(out + off, in + soff, n)` of `botan/mem_ops.h` (not in
`src/`): `n` words are copied; the two ranges may overlap, the words copied being those
`in` (here `src`) held on entry. -/
def copy_mem (out : List Nat) (off : Nat) (src : List Nat) (soff n : Nat) : List Nat :=
  forRange 0 n (fun k o => o.set (off + k) (rd src (soff + k))) out

/-- Modelled from the spec: `clear_mem(ptr + off, n)` of `botan/mem_ops.h` (not in `src/`):
`n` words are set to zero. -/
def clear_mem (x : List Nat) (off n : Nat) : List Nat :=
  forRange 0 n (fun k o => o.set (off + k) 0) x

/-- The loop `for(size_t i = n; i > 0; --i) s = body i s`. -/
def forDown {σ : Type} : Nat → (Nat → σ → σ) → σ → σ
  | 0, _, s => s
  | n + 1, body, s => forDown n body (body (n + 1) s)

/-- `bigint_shl1(x, x_size, x_words, shift)`: `x` after the call, for a call that stays
inside the buffer: `x_words + shift / w ≤ x_size` (a larger `x_words` or `shift` makes
`copy_mem` or `clear_mem` write past `x[x_size - 1]`, which no statement below covers). -/
def bigint_shl1 (w : Nat) (x : List Nat) (x_size x_words shift : Nat) : List Nat :=
  let word_shift := shift / w
  let bit_shift := shift % w
  let x := copy_mem x word_shift x 0 x_words
  let x := clear_mem x 0 word_shift
  let carry_mask := Mask.expand w bit_shift
  let carry_shift := Mask.if_set_return carry_mask (w - bit_shift)
  (forRange word_shift x_size (fun i s =>
    ((s.1.set i ((rd s.1 i * 2 ^ bit_shift) % 2 ^ w ||| s.2)),      -- (w << bit_shift) | carry
      Mask.if_set_return carry_mask (rd s.1 i / 2 ^ carry_shift))) (x, 0)).1

/-- `bigint_shr1(x, x_size, shift)`: `x` after the call. -/
def bigint_shr1 (w : Nat) (x : List Nat) (x_size shift : Nat) : List Nat :=
  let word_shift := shift / w
  let bit_shift := shift % w
  let top := if x_size ≥ word_shift then x_size - word_shift else 0
  let x := if top > 0 then copy_mem x 0 x word_shift top else x
  let x := clear_mem x top (min word_shift x_size)
  let carry_mask := Mask.expand w bit_shift
  let carry_shift := Mask.if_set_return carry_mask (w - bit_shift)
  (forRange 0 top (fun i s =>
    ((s.1.set (top - i - 1) (rd s.1 (top - i - 1) / 2 ^ bit_shift ||| s.2)),
      Mask.if_set_return carry_mask ((rd s.1 (top - i - 1) * 2 ^ carry_shift) % 2 ^ w)))
    (x, 0)).1

/-- `bigint_shl2(y, x, x_size, shift)`: `y` after the call. -/
def bigint_shl2 (w : Nat) (y x : List Nat) (x_size shift : Nat) : List Nat :=
  let word_shift := shift / w
  let bit_shift := shift % w
  let y := copy_mem y word_shift x 0 x_size
  let carry_mask := Mask.expand w bit_shift
  let carry_shift := Mask.if_set_return carry_mask (w - bit_shift)
  (forRange word_shift (x_size + word_shift + 1) (fun i s =>
    ((s.1.set i ((rd s.1 i * 2 ^ bit_shift) % 2 ^ w ||| s.2)),
      Mask.if_set_return carry_mask (rd s.1 i / 2 ^ carry_shift))) (y, 0)).1

/-- `bigint_shr2(y, x, x_size, shift)`: `y` after the call. -/
def bigint_shr2 (w : Nat) (y x : List Nat) (x_size shift : Nat) : List Nat :=
  let word_shift := shift / w
  let bit_shift := shift % w
  let new_size := if x_size < word_shift then 0 else x_size - word_shift
  let y := if new_size > 0 then copy_mem y 0 x word_shift new_size else y
  let carry_mask := Mask.expand w bit_shift
  let carry_shift := Mask.if_set_return carry_mask (w - bit_shift)
  (forDown new_size (fun i s =>
    ((s.1.set (i - 1) (rd s.1 (i - 1) / 2 ^ bit_shift ||| s.2)),
      Mask.if_set_return carry_mask ((rd s.1 (i - 1) * 2 ^ carry_shift) % 2 ^ w)))
    (y, 0)).1

/-! ## Reverse subtraction -/

/-- `bigint_sub2_rev(x, y, y_size)`: `x` after the call. The assertion on the borrow is
made after the loop. -/
def bigint_sub2_rev (w : Nat) (x y : List Nat) (y_size : Nat) : Except Failure (List Nat) :=
  let s := forRange 0 y_size (fun i s =>
    ((s.1.set i (word_sub w (rd y i) (rd s.1 i) s.2).1),
      (word_sub w (rd y i) (rd s.1 i) s.2).2)) (x, 0)
  if ¬ (s.2 = 0) then .error (.assertion_failure "y must be greater than x") else
  .ok s.1

/-! ## Double-word by word division -/

/-- `bigint_divop_vartime(n1, n0, d)`. The flag is `WordInfo<W>::dword_is_native`, which
chooses at compile time between the division of the native double word and the bit-serial
loop; the state of that loop is `(high, quotient)`. -/
def bigint_divop_vartime (w : Nat) (dword_is_native : Bool) (n1 n0 d : Nat) :
    Except Failure Nat :=
  if ¬ (d ≠ 0) then .error (.invalid_argument "Division by zero") else
  if dword_is_native then
    let n := n1                                               -- dword n = n1
    let n := (n * 2 ^ w) % 2 ^ (2 * w)                        -- n <<= bits
    let n := n ||| n0                                         -- n |= n0
    .ok ((n / d) % 2 ^ w)                                     -- static_cast<W>(n / d)
  else
    let high := n1 % d
    let s := forRange 0 w (fun i (s : Nat × Nat) =>
      let high_top_bit := s.1 / 2 ^ (w - 1)                   -- high >> (bits - 1)
      let high := (s.1 * 2) % 2 ^ w                           -- high <<= 1
      let high := high ||| ((n0 / 2 ^ (w - 1 - i)) &&& 1)     -- high |= (n0 >> (bits-1-i)) & 1
      let quotient := (s.2 * 2) % 2 ^ w                       -- quotient <<= 1
      if high_top_bit ≠ 0 ∨ high ≥ d then
        ((high + (2 ^ w - d % 2 ^ w)) % 2 ^ w, quotient ||| 1)
      else (high, quotient)) (high, 0)
    .ok s.2

/-- `bigint_modop_vartime(n1, n0, d)`. -/
def bigint_modop_vartime (w : Nat) (dword_is_native : Bool) (n1 n0 d : Nat) :
    Except Failure Nat :=
  if ¬ (d ≠ 0) then .error (.invalid_argument "Division by zero") else
  match bigint_divop_vartime w dword_is_native n1 n0 d with
  | .error e => .error e
  | .ok z =>
    let z := (word_madd2 w z d 0).1                           -- carry = 0
    .ok ((n0 + (2 ^ w - z % 2 ^ w)) % 2 ^ w)                  -- n0 - z

/-! ## Crandall reduction: the x86-64 path -/

/-- The x86-64 instruction `subq src, dst` on 64-bit operands: the pair is (`dst` after the
instruction, carry flag), the flag being the borrow of `dst - src`. -/
def subq (src dst : Nat) : Nat × Nat :=
  ((dst + (2 ^ 64 - src % 2 ^ 64)) % 2 ^ 64, if dst < src then 1 else 0)

/-- The x86-64 instruction `sbbq src, dst` on 64-bit operands, `cf` being the carry flag on
entry: `dst - (src + cf)`; the pair is (`dst` after the instruction, carry flag), the flag
being the borrow of that subtraction. -/
def sbbq (src dst cf : Nat) : Nat × Nat :=
  ((dst + (2 ^ 65 - (src + cf) % 2 ^ 65)) % 2 ^ 64, if dst < src + cf then 1 else 0)

/-- The x86-64 instruction `negq dst` on a 64-bit operand: `0 - dst`. -/
def negq (dst : Nat) : Nat := (2 ^ 64 - dst % 2 ^ 64) % 2 ^ 64

/-- The path of `redc_crandall<uint64_t, 4, C>(z)` compiled under
`BOTAN_MP_USE_X86_64_ASM` with GCC, outside constant evaluation: the trial subtraction is
the inline assembly block. `%[x]` is `hi.data()`, `%[r]` is `r.data()`, `%[p0]` is `P0`;
the byte offsets `0`, `8`, `16`, `24` are the words `0`, `1`, `2`, `3`. The register
`%[borrow]` and the carry flag are threaded through the instructions in program order. -/
def redc_crandall_asm (C : Nat) (z : List Nat) : Except Failure (List Nat) := do
  let hi := List.replicate 4 0
  -- hi = hi * c + lo
  let s := forRange 0 4 (fun i s =>
    ((s.1.set i (word_madd3 64 (rd z (i + 4)) C (rd z i) s.2).1),
      (word_madd3 64 (rd z (i + 4)) C (rd z i) s.2).2)) (hi, 0)
  let hi := s.1
  let carry := s.2
  -- hi += carry * C
  let carry_c := [0, 0]
  let m := word_madd2 64 carry C (rd carry_c 1)
  let carry_c := (carry_c.set 1 m.2).set 0 m.1
  let a ← bigint_add2 64 hi 4 carry_c 2
  let hi := a.1
  let carry := a.2
  let P0 := (word_max 64 + (2 ^ 64 - (C - 1) % 2 ^ 64)) % 2 ^ 64
  let r := List.replicate 4 0
  -- movq 0(%[x]), %[borrow] ; subq %[p0], %[borrow] ; movq %[borrow], 0(%[r])
  let t := subq P0 (rd hi 0)
  let r := r.set 0 t.1
  -- movq 16(%[x]), %[borrow] ; sbbq $-1, %[borrow] ; movq %[borrow], 8(%[r])
  let t := sbbq (2 ^ 64 - 1) (rd hi 2) t.2
  let r := r.set 1 t.1
  -- movq 16(%[x]), %[borrow] ; sbbq $-1, %[borrow] ; movq %[borrow], 16(%[r])
  let t := sbbq (2 ^ 64 - 1) (rd hi 2) t.2
  let r := r.set 2 t.1
  -- movq 24(%[x]), %[borrow] ; sbbq $-1, %[borrow] ; movq %[borrow], 24(%[r])
  let t := sbbq (2 ^ 64 - 1) (rd hi 3) t.2
  let r := r.set 3 t.1
  -- sbbq %[borrow], %[borrow] ; negq %[borrow]
  let t := sbbq t.1 t.1 t.2
  let borrow := negq t.1
  -- borrow = (carry - borrow) > carry
  let borrow := if (carry + (2 ^ 64 - borrow % 2 ^ 64)) % 2 ^ 64 > carry then 1 else 0
  return conditional_assign_mem 64 borrow r hi 4

/-! ## Montgomery reduction -/

/-- Modelled from the spec: `bigint_monty_redc_generic(r, z, z_size, p, p_size, p_dash, ws)`,
which `mp_core.h` declares and does not define (its body is not in `src/`). Given the
`2 * p_size`-word input `z`, the odd modulus `p` of `p_size` words and `p_dash`, it produces
the Montgomery-reduced `p_size`-word result: one word at a time the multiple of `p` that
clears the lowest remaining word is added, the `p_size` low words are dropped, and the
final subtraction of `p` is made when the rest is not below `p`. The unreduced words pass
through the workspace; `r[0:p_size]` receives the result and no other word of `r` is
written (the remark on `&r[0] == &z[0]` in the comment of `bigint_monty_redc`). The pair is
(`r` after the call, `ws` after the call). -/
def bigint_monty_redc_generic (w : Nat) (r z : List Nat) (z_size : Nat) (p : List Nat)
    (p_size p_dash : Nat) (ws : List Nat) : List Nat × List Nat :=
  let P := value w (p.take p_size)
  let t := forRange 0 p_size (fun i t =>
    t + (((t / 2 ^ (i * w)) % 2 ^ w * p_dash) % 2 ^ w) * P * 2 ^ (i * w))
    (value w (z.take z_size))
  let t := t / 2 ^ (p_size * w)
  let ws := forRange 0 p_size (fun i ws => ws.set i ((t / 2 ^ (i * w)) % 2 ^ w)) ws
  let t := if t ≥ P then t - P else t
  (forRange 0 p_size (fun i r => r.set i ((t / 2 ^ (i * w)) % 2 ^ w)) r, ws)

/-- Modelled from the spec: `bigint_monty_redc_4(r, z, p, p_dash, ws)`, declared in
`mp_core.h` and defined outside `src/`: the fixed-size result equals the result of the
generic routine for the same inputs. -/
def bigint_monty_redc_4 (w : Nat) (r z p : List Nat) (p_dash : Nat) (ws : List Nat) :
    List Nat × List Nat :=
  bigint_monty_redc_generic w r z 8 p 4 p_dash ws

/-- Modelled from the spec: `bigint_monty_redc_6`, as `bigint_monty_redc_4`. -/
def bigint_monty_redc_6 (w : Nat) (r z p : List Nat) (p_dash : Nat) (ws : List Nat) :
    List Nat × List Nat :=
  bigint_monty_redc_generic w r z 12 p 6 p_dash ws

/-- Modelled from the spec: `bigint_monty_redc_8`, as `bigint_monty_redc_4`. -/
def bigint_monty_redc_8 (w : Nat) (r z p : List Nat) (p_dash : Nat) (ws : List Nat) :
    List Nat × List Nat :=
  bigint_monty_redc_generic w r z 16 p 8 p_dash ws

/-- Modelled from the spec: `bigint_monty_redc_12`, as `bigint_monty_redc_4`. -/
def bigint_monty_redc_12 (w : Nat) (r z p : List Nat) (p_dash : Nat) (ws : List Nat) :
    List Nat × List Nat :=
  bigint_monty_redc_generic w r z 24 p 12 p_dash ws

/-- Modelled from the spec: `bigint_monty_redc_16`, as `bigint_monty_redc_4`. -/
def bigint_monty_redc_16 (w : Nat) (r z p : List Nat) (p_dash : Nat) (ws : List Nat) :
    List Nat × List Nat :=
  bigint_monty_redc_generic w r z 32 p 16 p_dash ws

/-- Modelled from the spec: `bigint_monty_redc_24`, as `bigint_monty_redc_4`. -/
def bigint_monty_redc_24 (w : Nat) (r z p : List Nat) (p_dash : Nat) (ws : List Nat) :
    List Nat × List Nat :=
  bigint_monty_redc_generic w r z 48 p 24 p_dash ws

/-- Modelled from the spec: `bigint_monty_redc_32`, as `bigint_monty_redc_4`. -/
def bigint_monty_redc_32 (w : Nat) (r z p : List Nat) (p_dash : Nat) (ws : List Nat) :
    List Nat × List Nat :=
  bigint_monty_redc_generic w r z 64 p 32 p_dash ws

/-- `bigint_monty_redc(r, z, p, p_size, p_dash, ws, ws_size)`. The triple is (`r` when the
function is left, `ws` when the function is left, outcome): the buffers are given in the
failing case as well, as the caller finds them after the throw. -/
def bigint_monty_redc (w : Nat) (r z p : List Nat) (p_size p_dash : Nat) (ws : List Nat)
    (ws_size : Nat) : List Nat × List Nat × Except Failure Unit :=
  let z_size := 2 * p_size
  if ¬ (ws_size ≥ p_size) then
    (r, ws, .error (.invalid_argument "Montgomery reduction workspace too small"))
  else
  let s :=
    if p_size = 4 then bigint_monty_redc_4 w r z p p_dash ws
    else if p_size = 6 then bigint_monty_redc_6 w r z p p_dash ws
    else if p_size = 8 then bigint_monty_redc_8 w r z p p_dash ws
    else if p_size = 12 then bigint_monty_redc_12 w r z p p_dash ws
    else if p_size = 16 then bigint_monty_redc_16 w r z p p_dash ws
    else if p_size = 24 then bigint_monty_redc_24 w r z p p_dash ws
    else if p_size = 32 then bigint_monty_redc_32 w r z p p_dash ws
    else bigint_monty_redc_generic w r z z_size p p_size p_dash ws
  (s.1, s.2, .ok ())

/-- `bigint_monty_redc_inplace(z, p, p_size, p_dash, ws, ws_size)`: the call
`bigint_monty_redc(z, z, …)` has `r` and `z` on the same buffer; when it throws,
`clear_mem` is not reached. The triple is as for `bigint_monty_redc`, with `z` for `r`. -/
def bigint_monty_redc_inplace (w : Nat) (z p : List Nat) (p_size p_dash : Nat)
    (ws : List Nat) (ws_size : Nat) : List Nat × List Nat × Except Failure Unit :=
  let s := bigint_monty_redc w z z p p_size p_dash ws ws_size
  match s.2.2 with
  | .error e => (s.1, s.2.1, .error e)
  | .ok _ => (clear_mem s.1 p_size p_size, s.2.1, .ok ())

/-! ## Comba squaring and fixed shifts -/

/-- The generic (portable loop) path of `comba_sqr<N>(z, x)`: `z` after the call. -/
def comba_sqr (w N : Nat) (z x : List Nat) : List Nat :=
  (forRange 0 (2 * N) (fun i (s : List Nat × Nat) =>
    let start := if i + 1 < N then 0 else i + 1 - N
    let end_ := min N (i + 1)
    let accum := forRange start end_ (fun j accum =>
      word3.mul w accum (rd x j) (rd x (i - j))) s.2
    let r := word3.extract w accum
    (s.1.set i r.1, r.2)) (z, 0)).1

/-- The loop of `Seed::operator++`, `for(size_t j = m_seed.size(); j > 0; --j)` with its
`break`, entered with the loop variable at `j`; a byte is a natural number below 256. -/
def Seed.increment_from : Nat → List Nat → List Nat
  | 0, m_seed => m_seed
  | j + 1, m_seed =>
    let m_seed := m_seed.set j ((rd m_seed j + 1) % 256)      -- m_seed[j - 1] += 1
    if rd m_seed j ≠ 0 then m_seed                            -- break
    else Seed.increment_from j m_seed

/-- `Seed::operator++`: `m_seed` after the call. -/
def Seed.increment (m_seed : List Nat) : List Nat :=
  Seed.increment_from m_seed.length m_seed

/-- Modelled from the spec: `BigInt::_assign_from_bytes(bytes)` of `botan/bigint.h` (not in
`src/`): the non-negative integer the byte sequence stands for, most significant byte
first. -/
def be_value (bytes : List Nat) : Nat := bytes.foldl (fun acc b => acc * 256 + b) 0

/-- Modelled from the spec: `BigInt::set_bit(n)` of `botan/bigint.h` (not in `src/`), on a
non-negative value: bit `n` is forced to one. -/
def set_bit (x n : Nat) : Nat := x ||| (1 <<< n)

/-- The number of binary digits of `x`, counted by halving `x` until it is zero; `fuel`
bounds the number of halvings. -/
def bit_length : Nat → Nat → Nat
  | 0, _ => 0
  | fuel + 1, x => if x = 0 then 0 else bit_length fuel (x / 2) + 1

/-- Modelled from the spec: `BigInt::bits()` of `botan/bigint.h` (not in `src/`): the number
of significant bits of the magnitude, zero for zero. -/
def BigInt.bits (x : Int) : Nat := bit_length x.natAbs x.natAbs

/-- `fips186_3_valid_size(pbits, qbits)`. -/
def fips186_3_valid_size (pbits qbits : Nat) : Bool :=
  if qbits = 160 then pbits = 1024
  else if qbits = 224 then pbits = 2048
  else if qbits = 256 then (pbits = 2048 || pbits = 3072)
  else false

/-- `hash_function_for(qbits)`. -/
def hash_function_for (qbits : Nat) : String :=
  if qbits = 160 then "SHA-1" else "SHA-" ++ toString qbits

/-- A call the generator makes to one of its collaborators, in the order made. -/
inductive Call where
  | randomize (n : Nat)
  | hash (name : String) (input : List Nat)
  | is_prime (n : Int) (verdict : Bool)
  deriving DecidableEq, Repr

/-- Modelled from the spec: the collaborators of the generator, whose code is not in
`src/`, over a random number generator with states in `ρ`. `output_length name` and
`digest name input` are `HashFunction::create_or_throw(name)` followed by
`output_length()` and by `update(input)`, `final(out)` (or `process(input)`), the named
hash being available; `is_prime n rng` is `is_prime(n, rng, 128, true)`, giving the verdict
and the generator state it leaves; `randomize n rng` is `rng.randomize(buf, n)`, giving the
bytes and the generator state it leaves. -/
structure Collaborators (ρ : Type) where
  output_length : String → Nat
  digest : String → List Nat → List Nat
  is_prime : Int → ρ → Bool × ρ
  randomize : Nat → ρ → List Nat × ρ

/-- What a call of the generator can change: the caller's `p` and `q`, the state of the
random number generator, and the calls made to the collaborators so far. -/
structure DsaState (ρ : Type) where
  p : Int
  q : Int
  rng : ρ
  calls : List Call

/-- The call `is_prime(n, rng, 128, true)`: the verdict and the state after it. -/
def dsa_is_prime {ρ : Type} (c : Collaborators ρ) (n : Int) (s : DsaState ρ) :
    Bool × DsaState ρ :=
  ((c.is_prime n s.rng).1,
    { s with rng := (c.is_prime n s.rng).2,
             calls := s.calls ++ [Call.is_prime n (c.is_prime n s.rng).1] })

/-- The loop `for(size_t k = 0; k <= n; ++k)` of one round: the seed is incremented, hashed,
and the digest stored at `V[HASH_SIZE * (n - k)]`. The state is (`seed`, `V`, calls). -/
def dsa_fill_V {ρ : Type} (c : Collaborators ρ) (hash_name : String) (HASH_SIZE n : Nat)
    (st : List Nat × List Nat × List Call) : List Nat × List Nat × List Call :=
  forRange 0 (n + 1) (fun k st =>
    let seed := Seed.increment st.1                           -- ++seed
    (seed, copy_mem st.2.1 (HASH_SIZE * (n - k)) (c.digest hash_name seed) 0 HASH_SIZE,
      st.2.2 ++ [Call.hash hash_name seed])) st

/-- The loop `for(size_t j = 0; j != 4 * pbits; ++j)` of the seeded generator with `rounds`
passes left, the loop variable at `j`: the state after the loop and the returned
boolean. -/
def dsa_rounds {ρ : Type} (c : Collaborators ρ) (hash_name : String)
    (pbits HASH_SIZE n b offset : Nat) (q2 : Int) :
    Nat → Nat → List Nat → List Nat → DsaState ρ → DsaState ρ × Bool
  | 0, _, _, _, s => (s, false)
  | rounds + 1, j, seed, V, s =>
    let f := dsa_fill_V c hash_name HASH_SIZE n (seed, V, s.calls)
    let seed := f.1
    let V := f.2.1
    let s := { s with calls := f.2.2 }
    if j ≥ offset then
      let X := be_value (V.drop (HASH_SIZE - 1 - b / 8))      -- X._assign_from_bytes(subspan)
      let X := set_bit X (pbits - 1)
      let s := { s with p := (X : Int) - ((X : Int) % q2 - 1) }
      if BigInt.bits s.p = pbits then
        let t := dsa_is_prime c s.p s
        if t.1 then (t.2, true)
        else dsa_rounds c hash_name pbits HASH_SIZE n b offset q2 rounds (j + 1) seed V t.2
      else dsa_rounds c hash_name pbits HASH_SIZE n b offset q2 rounds (j + 1) seed V s
    else dsa_rounds c hash_name pbits HASH_SIZE n b offset q2 rounds (j + 1) seed V s

/-- The seeded `generate_dsa_primes(rng, p, q, pbits, qbits, seed_c, offset)`: the state
when the function is left, and its outcome (the returned boolean, or the exception). -/
def generate_dsa_primes {ρ : Type} (c : Collaborators ρ) (s : DsaState ρ) (pbits qbits : Nat)
    (seed_c : List Nat) (offset : Nat) : DsaState ρ × Except Failure Bool :=
  if ¬ (fips186_3_valid_size pbits qbits = true) then
    (s, .error (.invalid_argument ("FIPS 186-3 does not allow DSA domain parameters of "
      ++ toString pbits ++ "/" ++ toString qbits ++ " bits long")))
  else if seed_c.length * 8 < qbits then
    (s, .error (.invalid_argument ("Generating a DSA parameter set with a "
      ++ toString qbits ++ " bit long q requires a seed at least as many bits long")))
  else
    let hash_name := hash_function_for qbits
    let HASH_SIZE := c.output_length hash_name
    let seed := seed_c
    -- q._assign_from_bytes(hash->process(seed.value()))
    let s := { s with q := (be_value (c.digest hash_name seed) : Int),
                      calls := s.calls ++ [Call.hash hash_name seed] }
    let s := { s with q := (set_bit s.q.toNat (qbits - 1) : Int) }
    let s := { s with q := (set_bit s.q.toNat 0 : Int) }
    let t := dsa_is_prime c s.q s
    if ¬ (t.1 = true) then (t.2, .ok false)
    else
      let s := t.2
      let n := (pbits - 1) / (HASH_SIZE * 8)
      let b := (pbits - 1) % (HASH_SIZE * 8)
      let V := List.replicate (HASH_SIZE * (n + 1)) 0
      let q2 := 2 * s.q
      let r := dsa_rounds c hash_name pbits HASH_SIZE n b offset q2 (4 * pbits) 0 seed V s
      (r.1, .ok r.2)

/-- The unseeded `generate_dsa_primes(rng, p, q, pbits, qbits)`, its `while(true)` loop run
for at most `fuel` passes: the state when the function is left and its outcome (the
returned seed, or the exception), `none` when the passes allowed are used up. -/
def generate_dsa_primes_unseeded {ρ : Type} (c : Collaborators ρ) (pbits qbits : Nat) :
    Nat → DsaState ρ → DsaState ρ × Option (Except Failure (List Nat))
  | 0, s => (s, none)
  | fuel + 1, s =>
    -- std::vector<uint8_t> seed(qbits / 8); rng.randomize(seed.data(), seed.size())
    let seed := (List.range (qbits / 8)).map (rd (c.randomize (qbits / 8) s.rng).1)
    let s := { s with rng := (c.randomize (qbits / 8) s.rng).2,
                      calls := s.calls ++ [Call.randomize (qbits / 8)] }
    match generate_dsa_primes c s pbits qbits seed 0 with
    | (s, .error e) => (s, some (.error e))
    | (s, .ok true) => (s, some (.ok seed))
    | (s, .ok false) => generate_dsa_primes_unseeded c pbits qbits fuel s

/-! ## Window extraction -/

/-- `read_window_bits<WindowBits>(words, offset)` on a span of words of `w` bits, most
significant word first. -/
def read_window_bits (w WindowBits : Nat) (words : List Nat) (offset : Nat) : Nat :=
  let WindowMask := (2 ^ WindowBits) % 256 - 1                -- uint8_t(1 << WindowBits) - 1
  let W_bits := w
  let bit_shift := offset % W_bits
  let word_offset := words.length - 1 - offset / W_bits
  let single_byte_window := decide (bit_shift ≤ W_bits - WindowBits) || decide (word_offset = 0)
  let w0 := rd words word_offset
  if single_byte_window then
    (w0 / 2 ^ bit_shift) &&& WindowMask
  else
    -- Otherwise we must join two words and extract the result
    let w1 := rd words (word_offset - 1)
    let combined := (w0 / 2 ^ bit_shift) ||| ((w1 * 2 ^ (W_bits - bit_shift)) % 2 ^ W_bits)
    combined &&& WindowMask

/-! ## Traces of the constant-time kernels -/

/-- What a run does that an observer of control flow and of addresses sees: a read or a
write of one element of an argument array, or the outcome of the test of a loop, of an `if`
or of an operand of `||`. The calls into `ct_utils.h` and `mp_asmi.h` (`Mask::expand`,
`select`, `is_equal`, `is_lt`, `is_zero`, `word_add`, `word_sub`; not in `src/`) work on
word values and appear as no event. In the runs below every element read or written goes
through `Run.load_x`, `Run.load_y`, `Run.store_x` or `Run.store_y` and every condition
tested through `Run.test`, which record the event as they act. -/
inductive Access where
  | read (array : String) (index : Nat)
  | write (array : String) (index : Nat)
  | branch (taken : Bool)
  deriving DecidableEq, Repr

/-- A run in progress: the argument arrays `x` and `y` as they stand, and what an observer
has seen so far, in order. -/
structure Run where
  x : List Nat
  y : List Nat
  trace : List Access

/-- The read `x[i]`: the word read, and the run with the read recorded. -/
def Run.load_x (i : Nat) (r : Run) : Nat × Run :=
  (rd r.x i, { r with trace := r.trace ++ [Access.read "x" i] })

/-- The read `y[i]`: the word read, and the run with the read recorded. -/
def Run.load_y (i : Nat) (r : Run) : Nat × Run :=
  (rd r.y i, { r with trace := r.trace ++ [Access.read "y" i] })

/-- The write `x[i] = v`: the run with the word stored and the write recorded. -/
def Run.store_x (i v : Nat) (r : Run) : Run :=
  { r with x := r.x.set i v, trace := r.trace ++ [Access.write "x" i] }

/-- The write `y[i] = v`: the run with the word stored and the write recorded. -/
def Run.store_y (i v : Nat) (r : Run) : Run :=
  { r with y := r.y.set i v, trace := r.trace ++ [Access.write "y" i] }

/-- The test of a condition by a loop, an `if` or an operand of `||`: the outcome, on which
the run goes on, and the run with the outcome recorded. -/
def Run.test (c : Bool) (r : Run) : Bool × Run :=
  (c, { r with trace := r.trace ++ [Access.branch c] })

/-- The loop `for(size_t i = lo; i != hi; ++i)` of a run, the loop variable at `i`, with
local variables of type `σ`: `i != hi` is tested and the outcome recorded; on `true` the
body runs and the loop goes on at `i + 1`, on `false` the loop is left. `fuel` bounds the
number of tests. -/
def forT_from {σ : Type} (hi : Nat) (body : Nat → σ × Run → σ × Run) :
    Nat → Nat → σ × Run → σ × Run
  | 0, _, s => s
  | fuel + 1, i, s =>
    if (Run.test (decide (i ≠ hi)) s.2).1 then
      forT_from hi body fuel (i + 1) (body i (s.1, (Run.test (decide (i ≠ hi)) s.2).2))
    else (s.1, (Run.test (decide (i ≠ hi)) s.2).2)

/-- The loop `for(size_t i = lo; i != hi; ++i)` of a run, for `lo ≤ hi`: the `hi - lo + 1`
tests it makes are allowed. -/
def forT {σ : Type} (lo hi : Nat) (body : Nat → σ × Run → σ × Run) (s : σ × Run) :
    σ × Run :=
  forT_from hi body (hi - lo + 1) lo s

/-- `bigint_cnd_swap(cnd, x, y, size)` as a run: the run after the call. -/
def bigint_cnd_swap_traced (w cnd size : Nat) (r : Run) : Run :=
  let mask := Mask.expand w cnd
  (forT 0 size (fun i (s : Unit × Run) =>
    let a := Run.load_x i s.2                                 -- const W a = x[i]
    let b := Run.load_y i a.2                                 -- const W b = y[i]
    let r := Run.store_x i (Mask.select mask b.1 a.1) b.2     -- x[i] = mask.select(b, a)
    ((), Run.store_y i (Mask.select mask a.1 b.1) r))         -- y[i] = mask.select(a, b)
    ((), r)).2

/-- `bigint_cnd_add(cnd, x, y, size)` as a run: the returned word and the run after the
call; of the two operands of `word_add`, `x[i]` is read first. -/
def bigint_cnd_add_traced (w cnd size : Nat) (r : Run) : Nat × Run :=
  let mask := Mask.expand w cnd                               -- .value()
  let s := forT 0 size (fun i (s : Nat × Run) =>              -- the local is carry
    let a := Run.load_x i s.2                                 -- x[i]
    let b := Run.load_y i a.2                                 -- y[i]
    let z := word_add w a.1 (b.1 &&& mask) s.1
    (z.2, Run.store_x i z.1 b.2)) (0, r)                      -- x[i] = ...
  (mask &&& s.1, s.2)

/-- `bigint_cnd_sub(cnd, x, y, size)` as a run: the returned word and the run after the
call; of the two operands of `word_sub`, `x[i]` is read first. -/
def bigint_cnd_sub_traced (w cnd size : Nat) (r : Run) : Nat × Run :=
  let mask := Mask.expand w cnd                               -- .value()
  let s := forT 0 size (fun i (s : Nat × Run) =>              -- the local is carry
    let a := Run.load_x i s.2                                 -- x[i]
    let b := Run.load_y i a.2                                 -- y[i]
    let z := word_sub w a.1 (b.1 &&& mask) s.1
    (z.2, Run.store_x i z.1 b.2)) (0, r)                      -- x[i] = ...
  (mask &&& s.1, s.2)

/-- `bigint_cnd_abs(cnd, x, size)` as a run: the run after the call. -/
def bigint_cnd_abs_traced (w cnd size : Nat) (r : Run) : Run :=
  let mask := Mask.expand w cnd
  let carry := Mask.if_set_return mask 1
  (forT 0 size (fun i (s : Nat × Run) =>                      -- the local is carry
    let a := Run.load_x i s.2                                 -- ~x[i]
    let z := word_add w (word_not w a.1) 0 s.1
    let b := Run.load_x i a.2                                 -- x[i] in select(z, x[i])
    (z.2, Run.store_x i (Mask.select mask z.1 b.1) b.2)) (carry, r)).2

/-- `bigint_cmp(x, x_size, y, y_size)` as a run: the outcome (the returned value, or the
failure of the assertion) and the run after the call. `BOTAN_DEBUG_ASSERT` (`botan/assert.h`,
not in `src/`) is `BOTAN_ASSERT_NOMSG` in a build with debug assertions and empty in a build
without; `debug_asserts` says which build runs. The operands of `||` are tested from the
left until one holds. `std::min` works on the two sizes and appears as no event. -/
def bigint_cmp_traced (debug_asserts : Bool) (w x_size y_size : Nat) (r : Run) :
    Except Failure Int × Run :=
  let LT := word_max w                                        -- static_cast<W>(-1)
  let EQ := 0
  let GT := 1
  let common_elems := min x_size y_size
  let s := forT 0 common_elems (fun i (s : Nat × Run) =>      -- the local is result
    let a := Run.load_x i s.2                                 -- is_equal(x[i], y[i])
    let b := Run.load_y i a.2
    let is_eq := Mask.is_equal w a.1 b.1
    let c := Run.load_x i b.2                                 -- is_lt(x[i], y[i])
    let d := Run.load_y i c.2
    let is_lt := Mask.is_lt w c.1 d.1
    (Mask.select is_eq s.1 (Mask.select is_lt LT GT), d.2)) (EQ, r)
  let t1 := Run.test (decide (x_size < y_size)) s.2
  let s :=
    if t1.1 then
      let m := forT x_size y_size (fun i (m : Nat × Run) =>   -- the local is mask
        let v := Run.load_y i m.2
        (m.1 ||| v.1, v.2)) (0, t1.2)
      (Mask.select (Mask.is_zero w m.1) s.1 LT, m.2)
    else
      let t2 := Run.test (decide (y_size < x_size)) t1.2
      if t2.1 then
        let m := forT y_size x_size (fun i (m : Nat × Run) => -- the local is mask
          let v := Run.load_x i m.2
          (m.1 ||| v.1, v.2)) (0, t2.2)
        (Mask.select (Mask.is_zero w m.1) s.1 GT, m.2)
      else (s.1, t2.2)
  -- CT::unpoison(result); BOTAN_DEBUG_ASSERT(result == LT || result == GT || result == EQ)
  if debug_asserts then
    let u1 := Run.test (decide (s.1 = LT)) s.2
    if u1.1 then (.ok (to_int32 s.1), u1.2)
    else
      let u2 := Run.test (decide (s.1 = GT)) u1.2
      if u2.1 then (.ok (to_int32 s.1), u2.2)
      else
        let u3 := Run.test (decide (s.1 = EQ)) u2.2
        if u3.1 then (.ok (to_int32 s.1), u3.2)
        else (.error (.assertion_failure "result == LT || result == GT || result == EQ"),
          u3.2)
  else (.ok (to_int32 s.1), s.2)

/-- `bigint_ct_is_lt(x, x_size, y, y_size, lt_or_equal)` as a run: the value of the returned
mask and the run after the call. -/
def bigint_ct_is_lt_traced (w x_size y_size : Nat) (lt_or_equal : Bool) (r : Run) :
    Nat × Run :=
  let common_elems := min x_size y_size
  let is_lt := Mask.expand w (if lt_or_equal then 1 else 0)
  let s := forT 0 common_elems (fun i (s : Nat × Run) =>      -- the local is is_lt
    let a := Run.load_x i s.2                                 -- is_equal(x[i], y[i])
    let b := Run.load_y i a.2
    let eq := Mask.is_equal w a.1 b.1
    let c := Run.load_x i b.2                                 -- is_lt(x[i], y[i])
    let d := Run.load_y i c.2
    let lt := Mask.is_lt w c.1 d.1
    (Mask.select_mask eq s.1 lt, d.2)) (is_lt, r)
  let t1 := Run.test (decide (x_size < y_size)) s.2
  if t1.1 then
    let m := forT x_size y_size (fun i (m : Nat × Run) =>     -- the local is mask
      let v := Run.load_y i m.2
      (m.1 ||| v.1, v.2)) (0, t1.2)
    (s.1 ||| Mask.expand w m.1, m.2)
  else
    let t2 := Run.test (decide (y_size < x_size)) t1.2
    if t2.1 then
      let m := forT y_size x_size (fun i (m : Nat × Run) =>   -- the local is mask
        let v := Run.load_x i m.2
        (m.1 ||| v.1, v.2)) (0, t2.2)
      (s.1 &&& Mask.is_zero w m.1, m.2)
    else (s.1, t2.2)

/-- `bigint_ct_is_eq(x, x_size, y, y_size)` as a run: the value of the returned mask and the
run after the call. -/
def bigint_ct_is_eq_traced (w x_size y_size : Nat) (r : Run) : Nat × Run :=
  let common_elems := min x_size y_size
  let s := forT 0 common_elems (fun i (s : Nat × Run) =>      -- the local is diff
    let a := Run.load_x i s.2
    let b := Run.load_y i a.2
    (s.1 ||| (a.1 ^^^ b.1), b.2)) (0, r)
  let t1 := Run.test (decide (x_size < y_size)) s.2
  let s :=
    if t1.1 then
      forT x_size y_size (fun i (s : Nat × Run) =>
        let v := Run.load_y i s.2
        (s.1 ||| v.1, v.2)) (s.1, t1.2)
    else
      let t2 := Run.test (decide (y_size < x_size)) t1.2
      if t2.1 then
        forT y_size x_size (fun i (s : Nat × Run) =>
          let v := Run.load_x i s.2
          (s.1 ||| v.1, v.2)) (s.1, t2.2)
      else (s.1, t2.2)
  (Mask.is_zero w s.1, s.2)

/-! ## Proof vocabulary -/

/-- The words a carry chain writes at indices `lo, lo + 1, …, lo + n - 1`, and the carry it
leaves, when the pass at index `i` maps the incoming carry `c` to `g i c`. -/
def chainList (g : Nat → Nat → Nat × Nat) : Nat → Nat → Nat → List Nat × Nat
  | _, 0, c => ([], c)
  | lo, n + 1, c =>
    let r := g lo c
    let rest := chainList g (lo + 1) n r.2
    (r.1 :: rest.1, rest.2)

/-- The loop body of a carry chain that writes `z[i]`. -/
def chainBody (g : Nat → Nat → Nat × Nat) (i : Nat) (s : List Nat × Nat) : List Nat × Nat :=
  ((s.1.set i (g i s.2).1), (g i s.2).2)

/-- The words `x[lo], …, x[lo + n - 1]`, reading zero past the end of `x`. -/
def slice (x : List Nat) (lo n : Nat) : List Nat := (List.range' lo n).map (rd x)

/-- The pass of an addition chain at index `i`: `word_add(x[i], y[i], &carry)`. -/
def addG (w : Nat) (x y : List Nat) (i c : Nat) : Nat × Nat := word_add w (rd x i) (rd y i) c

/-- The pass of a subtraction chain at index `i`: `word_sub(x[i], y[i], &borrow)`. -/
def subG (w : Nat) (x y : List Nat) (i c : Nat) : Nat × Nat := word_sub w (rd x i) (rd y i) c

/-- The word `bigint_cmp` keeps in `result` for the ordering of two integers: `LT`, `EQ`
or `GT`. -/
def cmpWord (w a b : Nat) : Nat := if a < b then word_max w else if a = b then 0 else 1

/-- The mask `bigint_ct_is_lt` holds for two integers: set when `a < b`, or when `a = b`
in the inclusive mode. -/
def ltWord (w : Nat) (le : Bool) (a b : Nat) : Nat :=
  if a < b ∨ (le = true ∧ a = b) then word_max w else 0

/-- The pass of `comba_mul` for column `i`, from the accumulator `c` to the word written
and the accumulator left. -/
def combaG (w N : Nat) (x y : List Nat) (i c : Nat) : Nat × Nat :=
  word3.extract w (forRange (if i + 1 < N then 0 else i + 1 - N) (min N (i + 1))
    (fun j accum => word3.mul w accum (rd x j) (rd y (i - j))) c)

/-- Column `i` of the schoolbook product: the sum of the `x[j] * y[i - j]`. -/
def column (x y : List Nat) (i : Nat) : Nat :=
  ∑ j ∈ Finset.range (i + 1), rd x j * rd y (i - j)

/-- The pass of the folding loop of `redc_crandall` at index `i`:
`word_madd3(z[i + N], C, z[i], &carry)`. -/
def maddG (w N C : Nat) (z : List Nat) (i c : Nat) : Nat × Nat :=
  word_madd3 w (rd z (i + N)) C (rd z i) c

/-- The words of `p = 2^(N*w) - C` as `redc_crandall` subtracts them: `P0`, then all-ones
words. -/
def crandallP (w N C : Nat) : List Nat :=
  ((word_max w + (2 ^ w - (C - 1) % 2 ^ w)) % 2 ^ w) :: List.replicate (N - 1) (word_max w)

/-- The pass of the sub-word left shift at index `i`: `(x[i] << bit_shift) | carry`, and
the carry it leaves. -/
def shlG (w s : Nat) (x : List Nat) (i c : Nat) : Nat × Nat :=
  ((rd x i * 2 ^ s) % 2 ^ w ||| c,
    Mask.if_set_return (Mask.expand w s)
      (rd x i / 2 ^ Mask.if_set_return (Mask.expand w s) (w - s)))

/-- The pass of the sub-word right shift at index `i`: `(x[i] >> bit_shift) | carry`, and
the carry it leaves. -/
def shrG (w s : Nat) (x : List Nat) (i c : Nat) : Nat × Nat :=
  (rd x i / 2 ^ s ||| c,
    Mask.if_set_return (Mask.expand w s)
      ((rd x i * 2 ^ Mask.if_set_return (Mask.expand w s) (w - s)) % 2 ^ w))

/-- The words a carry chain running downwards writes at indices `n - 1, …, 0`, in index
order, and the carry it leaves. -/
def chainDown (g : Nat → Nat → Nat × Nat) : Nat → Nat → List Nat × Nat
  | 0, c => ([], c)
  | n + 1, c =>
    let r := g n c
    let rest := chainDown g n r.2
    (rest.1 ++ [r.1], rest.2)

/-- The pass of the bit-serial division loop at bit `i`, on the state `(high, quotient)`. -/
def divStep (w n0 d i : Nat) (s : Nat × Nat) : Nat × Nat :=
  if s.1 / 2 ^ (w - 1) ≠ 0 ∨ ((s.1 * 2) % 2 ^ w ||| ((n0 / 2 ^ (w - 1 - i)) &&& 1)) ≥ d then
    ((((s.1 * 2) % 2 ^ w ||| ((n0 / 2 ^ (w - 1 - i)) &&& 1)) + (2 ^ w - d % 2 ^ w)) % 2 ^ w,
      (s.2 * 2) % 2 ^ w ||| 1)
  else ((s.1 * 2) % 2 ^ w ||| ((n0 / 2 ^ (w - 1 - i)) &&& 1), (s.2 * 2) % 2 ^ w)

/-- Every element of the sequence is a byte. -/
def IsBytes (s : List Nat) : Prop := ∀ b ∈ s, b < 256

/-- A primality test by trial division by 2, 3 and 5, which does not use the generator:
what it rejects is composite. -/
def trial_is_prime (n : Int) (rng : Nat) : Bool × Nat :=
  (decide (1 < n ∧ n % 2 ≠ 0 ∧ n % 3 ≠ 0 ∧ n % 5 ≠ 0), rng)

/-- Collaborators for closed evaluations: the generator state counts the bytes drawn, the
digest is the first twenty bytes of its input, the primality test is `trial_is_prime`. -/
def demo_collaborators : Collaborators Nat where
  output_length := fun _ => 20
  digest := fun _ input => (List.range 20).map (rd input)
  is_prime := trial_is_prime
  randomize := fun n rng => (List.replicate n 0, rng + n)

/-- The candidate `q` the seeded generator derives from the seed: the digest of the seed
read as an integer, with bit `qbits - 1` and bit 0 forced. -/
def dsa_q {ρ : Type} (c : Collaborators ρ) (qbits : Nat) (seed_c : List Nat) : Int :=
  ((set_bit (set_bit (be_value (c.digest (hash_function_for qbits) seed_c)) (qbits - 1)) 0 :
    Nat) : Int)

/-- The state of the seeded generator when `q` has been derived and tested. -/
def dsa_state_q {ρ : Type} (c : Collaborators ρ) (s : DsaState ρ) (qbits : Nat)
    (seed_c : List Nat) : DsaState ρ :=
  (dsa_is_prime c (dsa_q c qbits seed_c)
    { p := s.p, q := dsa_q c qbits seed_c, rng := s.rng,
      calls := s.calls ++ [Call.hash (hash_function_for qbits) seed_c] }).2

/-- The rounds of the seeded generator, run from the state `dsa_state_q`. -/
def dsa_main {ρ : Type} (c : Collaborators ρ) (s : DsaState ρ) (pbits qbits : Nat)
    (seed_c : List Nat) (offset : Nat) : DsaState ρ × Bool :=
  dsa_rounds c (hash_function_for qbits) pbits (c.output_length (hash_function_for qbits))
    ((pbits - 1) / (c.output_length (hash_function_for qbits) * 8))
    ((pbits - 1) % (c.output_length (hash_function_for qbits) * 8)) offset
    (2 * dsa_q c qbits seed_c) (4 * pbits) 0 seed_c
    (List.replicate (c.output_length (hash_function_for qbits)
      * ((pbits - 1) / (c.output_length (hash_function_for qbits) * 8) + 1)) 0)
    (dsa_state_q c s qbits seed_c)

/-- The trace of a loop whose body at index `i` makes the accesses `g i`. -/
def loopTrace (lo hi : Nat) (g : Nat → List Access) : List Access :=
  ((List.range' lo (hi - lo)).map (fun i => Access.branch true :: g i)).flatten
    ++ [Access.branch false]

/-- The trace of the three comparison kernels: the loop over the common words, the two size
tests, and the loop over the words one operand has more than the other. -/
def cmpTrace (x_size y_size : Nat) (common : Nat → List Access) : List Access :=
  loopTrace 0 (min x_size y_size) common
    ++ (if x_size < y_size then
          Access.branch true :: loopTrace x_size y_size (fun i => [Access.read "y" i])
        else if y_size < x_size then
          Access.branch false :: Access.branch true
            :: loopTrace y_size x_size (fun i => [Access.read "x" i])
        else [Access.branch false, Access.branch false])

/-- The value `a ^ e mod n`, over the digits of `e` to the base 256, from the most
significant down (`a ^ e = (a ^ (e / 256)) ^ 256 * a ^ (e mod 256)`); `fuel` bounds the
number of digits. -/
def pow_mod (a n : Nat) : Nat → Nat → Nat
  | 0, _ => 1 % n
  | fuel + 1, e =>
    if e = 0 then 1 % n
    else ((pow_mod a n fuel (e / 256) ^ 16 % n) ^ 16 % n) * (a ^ (e % 256) % n) % n

theorem forRange_self {σ : Type} (lo : Nat) (body : Nat → σ → σ) (s : σ) :
    forRange lo lo body s = s := by
  simp [forRange]

theorem forRange_succ {σ : Type} (lo hi : Nat) (h : lo ≤ hi) (body : Nat → σ → σ) (s : σ) :
    forRange lo (hi + 1) body s = body hi (forRange lo hi body s) := by
  unfold forRange
  have e : hi + 1 - lo = (hi - lo) + 1 := by omega
  rw [e, List.range'_concat, List.foldl_append]
  have e2 : lo + (hi - lo) = hi := by omega
  simp [e2]

theorem forRange_split {σ : Type} (lo mid hi : Nat) (h1 : lo ≤ mid) (h2 : mid ≤ hi)
    (body : Nat → σ → σ) (s : σ) :
    forRange lo hi body s = forRange mid hi body (forRange lo mid body s) := by
  obtain ⟨d, rfl⟩ := Nat.exists_eq_add_of_le h2
  induction d with
  | zero => simp [forRange_self]
  | succ d ih =>
    rw [← Nat.add_assoc, forRange_succ lo _ (by omega), forRange_succ mid _ (by omega),
      ih (by omega)]

theorem forRange_first {σ : Type} (lo hi : Nat) (h : lo < hi) (body : Nat → σ → σ) (s : σ) :
    forRange lo hi body s = forRange (lo + 1) hi body (body lo s) := by
  unfold forRange
  have e : hi - lo = (hi - (lo + 1)) + 1 := by omega
  rw [e, List.range'_succ, List.foldl_cons]

theorem forRange_congr {σ : Type} (lo hi : Nat) (body body' : Nat → σ → σ) (s : σ)
    (h : ∀ i t, lo ≤ i → i < hi → body i t = body' i t) :
    forRange lo hi body s = forRange lo hi body' s := by
  rcases Nat.lt_or_ge hi lo with hlt | hge
  · simp [forRange, Nat.sub_eq_zero_of_le hlt.le]
  · obtain ⟨d, rfl⟩ := Nat.exists_eq_add_of_le hge
    clear hge
    induction d with
    | zero => simp [forRange_self]
    | succ d ih =>
      rw [← Nat.add_assoc, forRange_succ lo _ (by omega), forRange_succ lo _ (by omega),
        ih (fun i t h1 h2 => h i t h1 (by omega)), h _ _ (by omega) (by omega)]

theorem forRange_shift {σ : Type} (off n : Nat) (body : Nat → σ → σ) (s : σ) :
    forRange 0 n (fun k acc => body (off + k) acc) s = forRange off (off + n) body s := by
  induction n with
  | zero => simp [forRange_self]
  | succ n ih =>
    rw [forRange_succ 0 n (Nat.zero_le _), ← Nat.add_assoc, forRange_succ off _ (by omega), ih]

/-- A loop over blocks of eight whose block body is eight passes of `body` is the plain
loop over the same indices. -/
theorem forBlocks8_eq {σ : Type} (m : Nat) (body8 body : Nat → σ → σ) (s : σ)
    (h : ∀ i t, body8 i t = forRange i (i + 8) body t) :
    forBlocks8 (8 * m) body8 s = forRange 0 (8 * m) body s := by
  unfold forBlocks8
  rw [Nat.mul_div_cancel_left _ (by norm_num : 0 < 8)]
  induction m with
  | zero => simp [forRange_self]
  | succ m ih =>
    rw [forRange_succ 0 m (Nat.zero_le _), ih, h,
      forRange_split 0 (8 * m) (8 * (m + 1)) (Nat.zero_le _) (by omega), Nat.mul_succ]

theorem blocks_eq (n : Nat) : n - n % 8 = 8 * (n / 8) := by omega

/-! ### Word arrays -/

theorem value_nil (w : Nat) : value w [] = 0 := rfl

theorem value_cons (w a : Nat) (as : List Nat) : value w (a :: as) = a + 2 ^ w * value w as := rfl

theorem value_append (w : Nat) (a b : List Nat) :
    value w (a ++ b) = value w a + 2 ^ (w * a.length) * value w b := by
  induction a with
  | nil => simp [value]
  | cons x xs ih =>
    show x + 2 ^ w * value w (xs ++ b) = x + 2 ^ w * value w xs + _
    rw [ih, List.length_cons, Nat.mul_succ, pow_add]; ring

theorem value_lt (w : Nat) (a : List Nat) (h : IsWords w a) : value w a < 2 ^ (w * a.length) := by
  induction a with
  | nil => simp [value]
  | cons x xs ih =>
    have hx : x < 2 ^ w := h x (List.mem_cons_self _ _)
    have hxs := ih (fun a ha => h a (List.mem_cons_of_mem _ ha))
    simp only [value, List.length_cons]
    rw [Nat.mul_succ, pow_add]
    have h2 : 0 < 2 ^ w := Nat.two_pow_pos w
    nlinarith

theorem value_replicate_zero (w n : Nat) : value w (List.replicate n 0) = 0 := by
  induction n with
  | zero => simp [value]
  | succ n ih => simp [List.replicate_succ, value, ih]

theorem rd_lt (w : Nat) (x : List Nat) (h : IsWords w x) (i : Nat) : rd x i < 2 ^ w := by
  unfold rd
  rcases Nat.lt_or_ge i x.length with hi | hi
  · rw [List.getD_eq_getElem _ _ hi]; exact h _ (List.getElem_mem _)
  · rw [List.getD_eq_default _ _ hi]; exact Nat.two_pow_pos w

theorem rd_eq_getElem (x : List Nat) (i : Nat) (h : i < x.length) : rd x i = x[i] := by
  unfold rd; exact List.getD_eq_getElem _ _ h

theorem rd_of_ge (x : List Nat) (i : Nat) (h : x.length ≤ i) : rd x i = 0 := by
  unfold rd; exact List.getD_eq_default _ _ h

theorem slice_zero (x : List Nat) (lo : Nat) : slice x lo 0 = [] := by simp [slice]

theorem slice_succ (x : List Nat) (lo n : Nat) :
    slice x lo (n + 1) = rd x lo :: slice x (lo + 1) n := by
  simp [slice, List.range'_succ]

theorem slice_length (x : List Nat) (lo n : Nat) : (slice x lo n).length = n := by
  simp [slice]

theorem slice_cons (a : Nat) (x : List Nat) (lo n : Nat) :
    slice (a :: x) (lo + 1) n = slice x lo n := by
  induction n generalizing lo with
  | zero => simp [slice]
  | succ n ih => rw [slice_succ, slice_succ, ih]; simp [rd]

theorem slice_full (x : List Nat) : slice x 0 x.length = x := by
  induction x with
  | nil => simp [slice]
  | cons a as ih => rw [List.length_cons, slice_succ, slice_cons, ih]; simp [rd]

theorem slice_past (x : List Nat) (lo n : Nat) (h : x.length ≤ lo) :
    slice x lo n = List.replicate n 0 := by
  induction n generalizing lo with
  | zero => simp [slice]
  | succ n ih => rw [slice_succ, ih _ (by omega), rd_of_ge x lo h, List.replicate_succ]

theorem slice_add (x : List Nat) (lo m n : Nat) :
    slice x lo (m + n) = slice x lo m ++ slice x (lo + m) n := by
  induction m generalizing lo with
  | zero => simp [slice]
  | succ m ih =>
    rw [Nat.succ_add, slice_succ, slice_succ, ih, List.cons_append]
    congr 3; omega

/-- Reading past the end of `x` reads zeros, which do not change the value. -/
theorem value_slice_ge (w : Nat) (x : List Nat) (n : Nat) (h : x.length ≤ n) :
    value w (slice x 0 n) = value w x := by
  obtain ⟨d, rfl⟩ := Nat.exists_eq_add_of_le h
  rw [slice_add, slice_full, Nat.zero_add, slice_past _ _ _ le_rfl, value_append,
    value_replicate_zero]
  simp

theorem isWords_slice (w : Nat) (x : List Nat) (h : IsWords w x) (lo n : Nat) :
    IsWords w (slice x lo n) := by
  intro a ha
  simp only [slice, List.mem_map] at ha
  obtain ⟨i, -, rfl⟩ := ha
  exact rd_lt w x h i

theorem take_succ_set (z : List Nat) (i v : Nat) (h : i < z.length) :
    (z.set i v).take (i + 1) = z.take i ++ [v] := by
  rw [List.set_eq_take_append_cons_drop, if_pos h, List.take_append_eq_append_take]
  simp [List.length_take, Nat.min_eq_left h.le]

/-! ### Carry chains -/

theorem chainList_length (g : Nat → Nat → Nat × Nat) (lo n c : Nat) :
    (chainList g lo n c).1.length = n := by
  induction n generalizing lo c with
  | zero => simp [chainList]
  | succ n ih => simp [chainList, ih]

theorem chainList_congr (g g' : Nat → Nat → Nat × Nat) (lo n c : Nat)
    (h : ∀ i d, lo ≤ i → i < lo + n → g i d = g' i d) :
    chainList g lo n c = chainList g' lo n c := by
  induction n generalizing lo c with
  | zero => simp [chainList]
  | succ n ih =>
    simp only [chainList]
    rw [h lo c le_rfl (by omega), ih (lo + 1) _ (fun i d h1 h2 => h i d (by omega) (by omega))]

/-- A carry chain over `z[lo .. lo + n)` replaces exactly these words by the chain's
outputs. -/
theorem chain_forRange (g : Nat → Nat → Nat × Nat) (n lo : Nat) (z : List Nat) (c : Nat)
    (h : lo + n ≤ z.length) :
    forRange lo (lo + n) (chainBody g) (z, c)
      = (z.take lo ++ (chainList g lo n c).1 ++ z.drop (lo + n), (chainList g lo n c).2) := by
  induction n generalizing lo z c with
  | zero => simp [forRange_self, chainList]
  | succ n ih =>
    rw [forRange_first lo _ (by omega)]
    have e : lo + (n + 1) = (lo + 1) + n := by omega
    rw [e, chainBody, ih (lo + 1) _ _ (by simp; omega)]
    simp only [chainList]
    have hlo : lo < z.length := by omega
    congr 1
    rw [take_succ_set z lo _ hlo, List.drop_set_of_lt _ _ (by omega : lo < lo + 1 + n)]
    simp

/-- An in-place carry chain reads at index `i` the word that was there on entry. -/
theorem inplace_forRange (h : Nat → Nat → Nat → Nat × Nat) (lo hi : Nat) (z : List Nat)
    (c : Nat) :
    forRange lo hi (fun i s => ((s.1.set i (h i (rd s.1 i) s.2).1), (h i (rd s.1 i) s.2).2))
        (z, c)
      = forRange lo hi (chainBody (fun i d => h i (rd z i) d)) (z, c) := by
  rcases Nat.lt_or_ge hi lo with hlt | hge
  · simp [forRange, Nat.sub_eq_zero_of_le hlt.le]
  · obtain ⟨d, rfl⟩ := Nat.exists_eq_add_of_le hge
    suffices H : forRange lo (lo + d)
          (fun i s => ((s.1.set i (h i (rd s.1 i) s.2).1), (h i (rd s.1 i) s.2).2)) (z, c)
        = forRange lo (lo + d) (chainBody (fun i e => h i (rd z i) e)) (z, c) ∧
        ∀ j, lo + d ≤ j →
          rd (forRange lo (lo + d) (chainBody (fun i e => h i (rd z i) e)) (z, c)).1 j = rd z j
      from H.1
    induction d with
    | zero => simp [forRange_self]
    | succ d ih =>
      obtain ⟨ih1, ih2⟩ := ih (by omega)
      rw [← Nat.add_assoc, forRange_succ lo _ (by omega), forRange_succ lo _ (by omega), ih1]
      refine ⟨?_, ?_⟩
      · simp only [chainBody]; rw [ih2 _ le_rfl]
      · intro j hj
        simp only [chainBody, rd]
        rw [List.getD_eq_getElem?_getD, List.getElem?_set_ne (by omega),
          ← List.getD_eq_getElem?_getD]
        exact ih2 j (by omega)

/-! ### Addition and subtraction chains -/

theorem word_sub_spec (w a b c : Nat) (ha : a < 2 ^ w) (hb : b < 2 ^ w) (hc : c ≤ 1) :
    (word_sub w a b c).1 + (b + c) = a + 2 ^ w * (word_sub w a b c).2 ∧
      (word_sub w a b c).1 < 2 ^ w ∧ (word_sub w a b c).2 ≤ 1 := by
  have h2 : 0 < 2 ^ w := Nat.two_pow_pos w
  simp only [word_sub]
  refine ⟨?_, Nat.mod_lt _ h2, by split <;> simp⟩
  by_cases hlt : a < b + c
  · simp only [if_pos hlt, mul_one]
    rcases Nat.lt_or_ge (b + c) (2 ^ w) with h | h
    · rw [Nat.mod_eq_of_lt h, Nat.mod_eq_of_lt (by omega)]; omega
    · have e : b + c = 2 ^ w := by omega
      rw [e, Nat.mod_self, Nat.sub_zero, Nat.add_mod_right, Nat.mod_eq_of_lt ha]
  · simp only [if_neg hlt, mul_zero, add_zero]
    have e : a + (2 ^ w - (b + c) % 2 ^ w) = (a - (b + c)) + 2 ^ w := by
      rw [Nat.mod_eq_of_lt (by omega)]; omega
    rw [e, Nat.add_mod_right, Nat.mod_eq_of_lt (by omega)]; omega

theorem add_chain_value (w : Nat) (x y : List Nat) (n lo c : Nat) :
    value w (chainList (addG w x y) lo n c).1 + 2 ^ (w * n) * (chainList (addG w x y) lo n c).2
      = value w (slice x lo n) + value w (slice y lo n) + c := by
  induction n generalizing lo c with
  | zero => simp [chainList, slice, value]
  | succ n ih =>
    simp only [chainList, slice_succ, value_cons]
    have h := ih (lo + 1) (addG w x y lo c).2
    have hd : (addG w x y lo c).1 + 2 ^ w * (addG w x y lo c).2 = rd x lo + rd y lo + c := by
      simp only [addG, word_add]; exact Nat.mod_add_div _ _
    rw [Nat.mul_succ, pow_add]
    calc (addG w x y lo c).1 + 2 ^ w * value w (chainList (addG w x y) (lo + 1) n (addG w x y lo c).2).1
          + 2 ^ (w * n) * 2 ^ w * (chainList (addG w x y) (lo + 1) n (addG w x y lo c).2).2
        = (addG w x y lo c).1 + 2 ^ w *
            (value w (chainList (addG w x y) (lo + 1) n (addG w x y lo c).2).1
              + 2 ^ (w * n) * (chainList (addG w x y) (lo + 1) n (addG w x y lo c).2).2) := by ring
      _ = ((addG w x y lo c).1 + 2 ^ w * (addG w x y lo c).2)
            + 2 ^ w * (value w (slice x (lo + 1) n) + value w (slice y (lo + 1) n)) := by
          rw [h]; ring
      _ = _ := by rw [hd]; ring

theorem add_chain_words (w : Nat) (x y : List Nat) (n lo c : Nat) :
    IsWords w (chainList (addG w x y) lo n c).1 := by
  induction n generalizing lo c with
  | zero => intro a ha; simp [chainList] at ha
  | succ n ih =>
    intro a ha
    simp only [chainList, List.mem_cons] at ha
    rcases ha with rfl | ha
    · exact Nat.mod_lt _ (Nat.two_pow_pos w)
    · exact ih _ _ a ha

theorem add_chain_carry (w : Nat) (x y : List Nat) (hx : IsWords w x) (hy : IsWords w y)
    (n lo c : Nat) (hc : c ≤ 1) : (chainList (addG w x y) lo n c).2 ≤ 1 := by
  have h := add_chain_value w x y n lo c
  have h1 := value_lt w _ (isWords_slice w x hx lo n)
  have h2 := value_lt w _ (isWords_slice w y hy lo n)
  rw [slice_length] at h1 h2
  by_contra hcon
  have h3 : 2 ≤ (chainList (addG w x y) lo n c).2 := by omega
  have h4 : 2 ^ (w * n) * 2 ≤ 2 ^ (w * n) * (chainList (addG w x y) lo n c).2 :=
    Nat.mul_le_mul_left _ h3
  omega

theorem sub_chain_value (w : Nat) (x y : List Nat) (hx : IsWords w x) (hy : IsWords w y)
    (n lo c : Nat) (hc : c ≤ 1) :
    value w (chainList (subG w x y) lo n c).1 + value w (slice y lo n) + c
        = value w (slice x lo n) + 2 ^ (w * n) * (chainList (subG w x y) lo n c).2 ∧
      (chainList (subG w x y) lo n c).2 ≤ 1 ∧ IsWords w (chainList (subG w x y) lo n c).1 := by
  induction n generalizing lo c with
  | zero =>
    refine ⟨by simp [chainList, slice, value], by simpa [chainList] using hc, ?_⟩
    intro a ha; simp [chainList] at ha
  | succ n ih =>
    obtain ⟨hd, hlt, hb⟩ := word_sub_spec w (rd x lo) (rd y lo) c (rd_lt w x hx lo)
      (rd_lt w y hy lo) hc
    obtain ⟨h, hc2, hw2⟩ := ih (lo + 1) (subG w x y lo c).2 hb
    simp only [chainList, slice_succ, value_cons]
    refine ⟨?_, hc2, ?_⟩
    · rw [Nat.mul_succ, pow_add]
      have hd2 : (subG w x y lo c).1 + (rd y lo + c) = rd x lo + 2 ^ w * (subG w x y lo c).2 := hd
      have e1 : 2 ^ w * (value w (chainList (subG w x y) (lo + 1) n (subG w x y lo c).2).1
            + value w (slice y (lo + 1) n) + (subG w x y lo c).2)
          = 2 ^ w * (value w (slice x (lo + 1) n)
            + 2 ^ (w * n) * (chainList (subG w x y) (lo + 1) n (subG w x y lo c).2).2) := by
        rw [h]
      nlinarith [e1, hd2]
    · intro a ha
      simp only [List.mem_cons] at ha
      rcases ha with rfl | ha
      · exact hlt
      · exact hw2 a ha

/-- Word arrays of one length with one value are the same array. -/
theorem value_inj (w : Nat) (a b : List Nat) (ha : IsWords w a) (hb : IsWords w b)
    (hl : a.length = b.length) (hv : value w a = value w b) : a = b := by
  induction a generalizing b with
  | nil => cases b with
    | nil => rfl
    | cons _ _ => simp at hl
  | cons x xs ih =>
    cases b with
    | nil => simp at hl
    | cons y ys =>
      have hx : x < 2 ^ w := ha x (List.mem_cons_self _ _)
      have hy : y < 2 ^ w := hb y (List.mem_cons_self _ _)
      simp only [value] at hv
      have h1 : x = y := by
        have := congrArg (· % 2 ^ w) hv
        simpa [Nat.add_mul_mod_self_left, Nat.mod_eq_of_lt hx, Nat.mod_eq_of_lt hy] using this
      subst h1
      have h2 : value w xs = value w ys := by
        have : 2 ^ w * value w xs = 2 ^ w * value w ys := by omega
        exact Nat.eq_of_mul_eq_mul_left (Nat.two_pow_pos w) this
      rw [ih ys (fun a h => ha a (List.mem_cons_of_mem _ h))
        (fun a h => hb a (List.mem_cons_of_mem _ h)) (by simpa using hl) h2]

/-- The three loops of `bigint_add3` are one addition chain over `z[0 .. x_size)`. -/
theorem bigint_add3_main_loop (w : Nat) (z x : List Nat) (x_size : Nat) (y : List Nat)
    (y_size : Nat) (hy : y.length = y_size) (hxy : y_size ≤ x_size) :
    bigint_add3_main w z x x_size y y_size
      = forRange 0 x_size (chainBody (addG w x y)) (z, 0) := by
  unfold bigint_add3_main
  simp only []
  rw [blocks_eq, forBlocks8_eq (y_size / 8) _ (chainBody (addG w x y))]
  · rw [forRange_split 0 y_size x_size (Nat.zero_le _) hxy,
      forRange_split 0 (8 * (y_size / 8)) y_size (Nat.zero_le _) (by omega)]
    have e2 : ∀ t, forRange y_size x_size (fun i s =>
          ((s.1.set i (word_add w (rd x i) 0 s.2).1), (word_add w (rd x i) 0 s.2).2)) t
        = forRange y_size x_size (chainBody (addG w x y)) t := by
      intro t
      apply forRange_congr
      intro i u h1 _
      simp only [chainBody, addG, rd_of_ge y i (by omega)]
    rw [← e2]
    rfl
  · intro i t
    rw [← forRange_shift]
    rfl

theorem bigint_add3_main_eq (w : Nat) (z x : List Nat) (x_size : Nat) (y : List Nat)
    (y_size : Nat) (hy : y.length = y_size) (hxy : y_size ≤ x_size) (hz : x_size ≤ z.length) :
    bigint_add3_main w z x x_size y y_size
      = ((chainList (addG w x y) 0 x_size 0).1 ++ z.drop x_size,
          (chainList (addG w x y) 0 x_size 0).2) := by
  rw [bigint_add3_main_loop w z x x_size y y_size hy hxy]
  have := chain_forRange (addG w x y) x_size 0 z 0 (by omega)
  simpa using this

/-- The three loops of `bigint_sub3` are one subtraction chain over `z[0 .. x_size)`. -/
theorem bigint_sub3_loop (w : Nat) (z x : List Nat) (x_size : Nat) (y : List Nat)
    (y_size : Nat) (hy : y.length = y_size) (hxy : y_size ≤ x_size) :
    bigint_sub3 w z x x_size y y_size
      = .ok (forRange 0 x_size (chainBody (subG w x y)) (z, 0)) := by
  unfold bigint_sub3
  rw [if_neg (by omega)]
  simp only []
  rw [blocks_eq, forBlocks8_eq (y_size / 8) _ (chainBody (subG w x y))]
  · rw [forRange_split 0 y_size x_size (Nat.zero_le _) hxy,
      forRange_split 0 (8 * (y_size / 8)) y_size (Nat.zero_le _) (by omega)]
    have e2 : ∀ t, forRange y_size x_size (fun i s =>
          ((s.1.set i (word_sub w (rd x i) 0 s.2).1), (word_sub w (rd x i) 0 s.2).2)) t
        = forRange y_size x_size (chainBody (subG w x y)) t := by
      intro t
      apply forRange_congr
      intro i u h1 _
      simp only [chainBody, subG, rd_of_ge y i (by omega)]
    rw [← e2]
    rfl
  · intro i t
    rw [← forRange_shift]
    rfl

theorem bigint_sub3_eq (w : Nat) (z x : List Nat) (x_size : Nat) (y : List Nat)
    (y_size : Nat) (hy : y.length = y_size) (hxy : y_size ≤ x_size) (hz : x_size ≤ z.length) :
    bigint_sub3 w z x x_size y y_size
      = .ok ((chainList (subG w x y) 0 x_size 0).1 ++ z.drop x_size,
          (chainList (subG w x y) 0 x_size 0).2) := by
  rw [bigint_sub3_loop w z x x_size y y_size hy hxy]
  have := chain_forRange (subG w x y) x_size 0 z 0 (by omega)
  simp only [Nat.zero_add, List.take_zero, List.nil_append] at this
  rw [this]

theorem take_chain_append (g : Nat → Nat → Nat × Nat) (n c : Nat) (t : List Nat) :
    ((chainList g 0 n c).1 ++ t).take n = (chainList g 0 n c).1 := by
  rw [List.take_append_eq_append_take, chainList_length]
  simp [List.take_of_length_le, chainList_length]

theorem drop_chain_append (g : Nat → Nat → Nat × Nat) (n c : Nat) (t : List Nat) :
    ((chainList g 0 n c).1 ++ t).drop n = t := by
  rw [List.drop_append_eq_append_drop, chainList_length]
  simp [List.drop_of_length_le, chainList_length]

/-! ## `monty_inverse` -/

/-- Loop invariant of `monty_inverse` after `i` passes: `r` holds the `i` low bits `X` of
the inverse in its top bits, and `a * X + 2 ^ i * b ≡ 1`. -/
theorem monty_inverse_loop (w a : Nat) (ha : a < 2 ^ w) (hodd : a % 2 = 1) (i : Nat)
    (hi : i ≤ w) :
    ∃ X, X < 2 ^ i ∧
      (forRange 0 i (fun _ s => monty_inverse_body w a s) (1 % 2 ^ w, 0)).2 = X * 2 ^ (w - i) ∧
      (forRange 0 i (fun _ s => monty_inverse_body w a s) (1 % 2 ^ w, 0)).1 < 2 ^ w ∧
      (a * X + 2 ^ i *
        (forRange 0 i (fun _ s => monty_inverse_body w a s) (1 % 2 ^ w, 0)).1) % 2 ^ w
        = 1 % 2 ^ w := by
  have hw : 0 < w := by
    rcases Nat.eq_zero_or_pos w with h | h
    · subst h; simp at ha; subst ha; simp at hodd
    · exact h
  have h2w : 0 < 2 ^ w := Nat.two_pow_pos w
  induction i with
  | zero =>
    refine ⟨0, by simp, by simp [forRange_self], ?_, ?_⟩
    · simp only [forRange_self]; exact Nat.mod_lt _ h2w
    · simp [forRange_self]
  | succ i ih =>
    obtain ⟨X, hX, hr, hb, hinv⟩ := ih (by omega)
    rw [forRange_succ 0 i (Nat.zero_le _)]
    generalize forRange 0 i (fun _ s => monty_inverse_body w a s) (1 % 2 ^ w, 0) = st at hr hb hinv
    obtain ⟨b, r⟩ := st
    simp only at hr hb hinv
    subst hr
    have hsplit : w - i = (w - (i + 1)) + 1 := by omega
    have hw1 : w = (w - 1) + 1 := by omega
    have hpw : 2 ^ w = 2 * 2 ^ (w - 1) := by rw [← pow_succ']; congr 1
    have hpi : 2 ^ (w - 1) = 2 ^ i * 2 ^ (w - (i + 1)) := by
      rw [← pow_add]; congr 1; omega
    have hpos : 0 < 2 ^ (w - (i + 1)) := Nat.two_pow_pos _
    have hbi : b % 2 < 2 := Nat.mod_lt _ (by norm_num)
    refine ⟨X + (b % 2) * 2 ^ i, ?_, ?_, ?_, ?_⟩
    · rw [pow_succ]; nlinarith
    · simp only [monty_inverse_body]
      have e1 : X * 2 ^ (w - i) / 2 = X * 2 ^ (w - (i + 1)) := by
        rw [hsplit, pow_succ, ← mul_assoc]; exact Nat.mul_div_cancel _ (by norm_num)
      have e2 : (b % 2 * 2 ^ (w - 1)) % 2 ^ w = b % 2 * 2 ^ (w - 1) := by
        apply Nat.mod_eq_of_lt; rw [hpw]; nlinarith [Nat.two_pow_pos (w - 1)]
      rw [e1, e2, hpi]
      have e3 : X * 2 ^ (w - (i + 1)) + b % 2 * (2 ^ i * 2 ^ (w - (i + 1)))
          = (X + b % 2 * 2 ^ i) * 2 ^ (w - (i + 1)) := by ring
      rw [e3]
      apply Nat.mod_eq_of_lt
      rw [hpw, hpi]
      have : X + b % 2 * 2 ^ i < 2 * 2 ^ i := by nlinarith
      calc (X + b % 2 * 2 ^ i) * 2 ^ (w - (i + 1)) < (2 * 2 ^ i) * 2 ^ (w - (i + 1)) :=
            Nat.mul_lt_mul_of_pos_right this hpos
        _ = 2 * (2 ^ i * 2 ^ (w - (i + 1))) := by ring
    · simp only [monty_inverse_body]
      exact lt_of_le_of_lt (Nat.div_le_self _ _) (Nat.mod_lt _ h2w)
    · simp only [monty_inverse_body]
      -- the new b is half of an even word b1 with b1 + a * bi ≡ b
      set b1 := (b + 2 ^ w - (a * (b % 2)) % 2 ^ w) % 2 ^ w with hb1
      have hmod : (b1 + a * (b % 2)) % 2 ^ w = b % 2 ^ w := by
        rw [hb1]
        have hle : (a * (b % 2)) % 2 ^ w ≤ 2 ^ w := (Nat.mod_lt _ h2w).le
        have : (b + 2 ^ w - (a * (b % 2)) % 2 ^ w + (a * (b % 2)) % 2 ^ w) % 2 ^ w = b % 2 ^ w := by
          rw [Nat.sub_add_cancel (by omega)]; simp
        rw [← this]
        conv_lhs => rw [Nat.add_mod]
        conv_rhs => rw [Nat.add_mod]
        simp
      have heven : b1 % 2 = 0 := by
        have h2 : (b1 + a * (b % 2)) % 2 = b % 2 := by
          have := congrArg (· % 2) hmod
          simp only at this
          rwa [Nat.mod_mod_of_dvd _ (Dvd.intro _ hpw.symm),
            Nat.mod_mod_of_dvd _ (Dvd.intro _ hpw.symm)] at this
        rcases Nat.mod_two_eq_zero_or_one b with hb0 | hb0
        · rw [hb0] at h2; simpa using h2
        · rw [hb0] at h2
          have : (b1 + a) % 2 = 1 := by simpa using h2
          omega
      have hhalf : 2 * (b1 / 2) = b1 := by omega
      have e : a * (X + b % 2 * 2 ^ i) + 2 ^ (i + 1) * (b1 / 2)
          = a * X + 2 ^ i * (b1 + a * (b % 2)) := by
        rw [pow_succ, mul_assoc, hhalf]; ring
      rw [e, ← hinv]
      have hm : b1 + a * (b % 2) ≡ b [MOD 2 ^ w] := hmod
      exact Nat.ModEq.add_left _ (Nat.ModEq.mul_left _ hm)

/-- C1: for every odd word `a`, `monty_inverse(a)` returns a word `r` with
`(a * r) mod 2^w = 2^w - 1`, that is `a * r ≡ -1 (mod 2^w)` under wraparound
multiplication. -/
theorem monty_inverse_spec (w a : Nat) (ha : a < 2 ^ w) (hodd : a % 2 = 1) :
    ∃ r, monty_inverse w a = .ok r ∧ r < 2 ^ w ∧ (a * r) % 2 ^ w = 2 ^ w - 1 := by
  have h2w : 0 < 2 ^ w := Nat.two_pow_pos w
  obtain ⟨X, hX, hr, -, hinv⟩ := monty_inverse_loop w a ha hodd w le_rfl
  simp only [monty_inverse, hodd, if_true]
  refine ⟨_, rfl, Nat.mod_lt _ h2w, ?_⟩
  simp only [hr, Nat.sub_self, pow_zero, mul_one, word_max]
  have h1 : (a * X) % 2 ^ w = 1 % 2 ^ w := by
    rw [← hinv]; simp [Nat.add_mod]
  have hw1 : 1 < 2 ^ w := by
    have : 1 ≤ a := by omega
    omega
  rw [Nat.mod_eq_of_lt hw1] at h1
  have hXpos : 0 < X := by
    rcases Nat.eq_zero_or_pos X with h | h
    · subst h; simp at h1
    · exact h
  have e : (2 ^ w - 1 - X + 1) % 2 ^ w = 2 ^ w - X := by
    rw [Nat.mod_eq_of_lt (by omega)]; omega
  rw [e]
  have : (a * (2 ^ w - X) + a * X) % 2 ^ w = 0 := by
    rw [← mul_add, Nat.sub_add_cancel hX.le]; simp
  have hlt := Nat.mod_lt (a * (2 ^ w - X)) h2w
  have hsum : (a * (2 ^ w - X) % 2 ^ w + 1) % 2 ^ w = 0 := by
    rw [← h1, ← Nat.add_mod]; exact this
  by_contra hne
  have : a * (2 ^ w - X) % 2 ^ w + 1 < 2 ^ w := by omega
  rw [Nat.mod_eq_of_lt this] at hsum
  omega

/-- The statement of `monty_inverse_spec` at the 64-bit word `a = 3`. -/
theorem monty_inverse_spec_witness :
    ∃ r, monty_inverse 64 3 = .ok r ∧ r < 2 ^ 64 ∧ (3 * r) % 2 ^ 64 = 2 ^ 64 - 1 :=
  monty_inverse_spec 64 3 (by norm_num) (by norm_num)

/-! ## `bigint_add3`, `bigint_sub3` -/

/-- C4: for `x_size ≥ y_size`, `bigint_add3(z, x, x_size, y, y_size)` writes exactly the
`x_size` low words of `z` and returns a carry `c ∈ {0, 1}` with
`value(z[0:x_size]) + c * 2^(x_size*w) = value(x) + value(y)`; the outcome is that of the
plain word-by-word loop, whatever the split of `y_size` into blocks of eight and a
remainder. -/
theorem bigint_add3_spec (w : Nat) (z x y : List Nat) (x_size y_size : Nat)
    (hx : x.length = x_size) (hy : y.length = y_size) (hxy : x_size ≥ y_size)
    (hz : x_size ≤ z.length) (hwx : IsWords w x) (hwy : IsWords w y) :
    ∃ z' c, bigint_add3 w z x x_size y y_size = (z', c) ∧
      z'.length = z.length ∧ z'.drop x_size = z.drop x_size ∧ IsWords w (z'.take x_size) ∧
      (c = 0 ∨ c = 1) ∧
      value w (z'.take x_size) + c * 2 ^ (x_size * w) = value w x + value w y ∧
      (z', c) = forRange 0 x_size (fun i s =>
        ((s.1.set i (word_add w (rd x i) (rd y i) s.2).1),
          (word_add w (rd x i) (rd y i) s.2).2)) (z, 0) := by
  have hmain := bigint_add3_main_eq w z x x_size y y_size hy hxy hz
  have hloop := bigint_add3_main_loop w z x x_size y y_size hy hxy
  have hv := add_chain_value w x y x_size 0 0
  have hc := add_chain_carry w x y hwx hwy x_size 0 0 (by omega)
  have hw := add_chain_words w x y x_size 0 0
  rw [value_slice_ge w x x_size (by omega), value_slice_ge w y x_size (by omega)] at hv
  refine ⟨(chainList (addG w x y) 0 x_size 0).1 ++ z.drop x_size,
    (chainList (addG w x y) 0 x_size 0).2, ?_, ?_, ?_, ?_, ?_, ?_, ?_⟩
  · unfold bigint_add3; rw [if_neg (by omega)]; exact hmain
  · simp [chainList_length]; omega
  · exact drop_chain_append _ _ _ _
  · rw [take_chain_append]; exact hw
  · omega
  · rw [take_chain_append, Nat.mul_comm x_size w]; linarith
  · rw [← hmain, hloop]; rfl

/-- The statement of `bigint_add3_spec` on 64-bit words, with a carry out of the top word. -/
theorem bigint_add3_spec_witness :
    ∃ z' c, bigint_add3 64 [7, 7, 7] [2 ^ 64 - 1, 2 ^ 64 - 1] 2 [1] 1 = (z', c) ∧
      z'.length = [7, 7, 7].length ∧ z'.drop 2 = [7, 7, 7].drop 2 ∧ IsWords 64 (z'.take 2) ∧
      (c = 0 ∨ c = 1) ∧
      value 64 (z'.take 2) + c * 2 ^ (2 * 64) = value 64 [2 ^ 64 - 1, 2 ^ 64 - 1] + value 64 [1] ∧
      (z', c) = forRange 0 2 (fun i s =>
        ((s.1.set i (word_add 64 (rd [2 ^ 64 - 1, 2 ^ 64 - 1] i) (rd [1] i) s.2).1),
          (word_add 64 (rd [2 ^ 64 - 1, 2 ^ 64 - 1] i) (rd [1] i) s.2).2)) ([7, 7, 7], 0) :=
  bigint_add3_spec 64 [7, 7, 7] [2 ^ 64 - 1, 2 ^ 64 - 1] [1] 2 1 rfl rfl (by decide)
    (by decide) (by unfold IsWords; simp) (by unfold IsWords; simp)

/-- C5: for `x_size ≥ y_size`, `bigint_sub3(z, x, x_size, y, y_size)` writes the `x_size`
low words of `z` and returns a borrow `b ∈ {0, 1}` with
`value(z[0:x_size]) - b * 2^(x_size*w) = value(x) - value(y)`; in particular `b = 0` if and
only if `value(x) ≥ value(y)`. -/
theorem bigint_sub3_spec (w : Nat) (z x y : List Nat) (x_size y_size : Nat)
    (hx : x.length = x_size) (hy : y.length = y_size) (hxy : x_size ≥ y_size)
    (hz : x_size ≤ z.length) (hwx : IsWords w x) (hwy : IsWords w y) :
    ∃ z' b, bigint_sub3 w z x x_size y y_size = .ok (z', b) ∧
      z'.length = z.length ∧ z'.drop x_size = z.drop x_size ∧ IsWords w (z'.take x_size) ∧
      (b = 0 ∨ b = 1) ∧
      (value w (z'.take x_size) : Int) - b * 2 ^ (x_size * w)
        = (value w x : Int) - (value w y : Int) ∧
      (b = 0 ↔ value w x ≥ value w y) := by
  have hmain := bigint_sub3_eq w z x x_size y y_size hy hxy hz
  obtain ⟨hv, hc, hw⟩ := sub_chain_value w x y hwx hwy x_size 0 0 (by omega)
  rw [value_slice_ge w x x_size (by omega), value_slice_ge w y x_size (by omega)] at hv
  have hlt := value_lt w _ hw
  rw [chainList_length] at hlt
  have hxlt := value_lt w x hwx
  rw [hx] at hxlt
  refine ⟨_, _, hmain, ?_, ?_, ?_, ?_, ?_, ?_⟩
  · simp [chainList_length]; omega
  · exact drop_chain_append _ _ _ _
  · rw [take_chain_append]; exact hw
  · omega
  · rw [take_chain_append, Nat.mul_comm x_size w]
    have : (value w (chainList (subG w x y) 0 x_size 0).1 : Int) + value w y + 0
        = value w x + 2 ^ (w * x_size) * (chainList (subG w x y) 0 x_size 0).2 := by
      exact_mod_cast hv
    linarith
  · constructor
    · intro h0; rw [h0] at hv; simp at hv; omega
    · intro hge
      by_contra hne
      have h1 : (chainList (subG w x y) 0 x_size 0).2 = 1 := by omega
      rw [h1] at hv
      omega

/-- The statement of `bigint_sub3_spec` on 64-bit words, with a borrow out of the top word. -/
theorem bigint_sub3_spec_witness :
    ∃ z' b, bigint_sub3 64 [7, 7, 7] [0, 1] 2 [1, 1] 2 = .ok (z', b) ∧
      z'.length = [7, 7, 7].length ∧ z'.drop 2 = [7, 7, 7].drop 2 ∧ IsWords 64 (z'.take 2) ∧
      (b = 0 ∨ b = 1) ∧
      (value 64 (z'.take 2) : Int) - b * 2 ^ (2 * 64)
        = (value 64 [0, 1] : Int) - (value 64 [1, 1] : Int) ∧
      (b = 0 ↔ value 64 [0, 1] ≥ value 64 [1, 1]) :=
  bigint_sub3_spec 64 [7, 7, 7] [0, 1] [1, 1] 2 2 rfl rfl (by decide)
    (by decide) (by unfold IsWords; simp) (by unfold IsWords; simp)

/-- C6: for `x_size ≥ y_size`, `bigint_add3(z, x, x_size, y, y_size)` followed by
`bigint_sub3(z, z, x_size, y, y_size)` leaves `z[0:x_size]` word for word equal to
`x[0:x_size]`, whether or not the addition overflowed. -/
theorem bigint_add3_sub3_roundtrip (w : Nat) (z x y : List Nat) (x_size y_size : Nat)
    (hx : x.length = x_size) (hy : y.length = y_size) (hxy : x_size ≥ y_size)
    (hz : x_size ≤ z.length) (hwx : IsWords w x) (hwy : IsWords w y) :
    ∃ z1 c z2 b, bigint_add3 w z x x_size y y_size = (z1, c) ∧
      bigint_sub3 w z1 z1 x_size y y_size = .ok (z2, b) ∧
      z2.take x_size = x.take x_size := by
  have hadd : bigint_add3 w z x x_size y y_size
      = ((chainList (addG w x y) 0 x_size 0).1 ++ z.drop x_size,
          (chainList (addG w x y) 0 x_size 0).2) := by
    unfold bigint_add3; rw [if_neg (by omega)]
    exact bigint_add3_main_eq w z x x_size y y_size hy hxy hz
  have hv := add_chain_value w x y x_size 0 0
  have hc := add_chain_carry w x y hwx hwy x_size 0 0 (by omega)
  have hw := add_chain_words w x y x_size 0 0
  rw [value_slice_ge w x x_size (by omega), value_slice_ge w y x_size (by omega)] at hv
  set z1 := (chainList (addG w x y) 0 x_size 0).1 ++ z.drop x_size with hz1
  have hz1len : x_size ≤ z1.length := by simp [hz1, chainList_length]
  have hsub := bigint_sub3_eq w z1 z1 x_size y y_size hy hxy hz1len
  -- the subtraction chain only reads z1[0 .. x_size)
  have hcongr : chainList (subG w z1 y) 0 x_size 0
      = chainList (subG w (chainList (addG w x y) 0 x_size 0).1 y) 0 x_size 0 := by
    apply chainList_congr
    intro i d _ hi
    simp only [subG, rd, hz1]
    rw [List.getD_append _ _ _ _ (by rw [chainList_length]; omega)]
  rw [hcongr] at hsub
  obtain ⟨hv2, hc2, hw2⟩ := sub_chain_value w (chainList (addG w x y) 0 x_size 0).1 y hw hwy
    x_size 0 0 (by omega)
  rw [value_slice_ge w (chainList (addG w x y) 0 x_size 0).1 x_size
      (by rw [chainList_length]), value_slice_ge w y x_size (by omega)] at hv2
  refine ⟨_, _, _, _, hadd, hsub, ?_⟩
  rw [take_chain_append, List.take_of_length_le (by omega)]
  have hlt2 := value_lt w _ hw2
  rw [chainList_length] at hlt2
  have hxlt := value_lt w x hwx
  rw [hx] at hxlt
  apply value_inj w _ _ hw2 hwx (by rw [chainList_length, hx])
  -- value z2 + Y = value z1 + b * B and value z1 + c * B = X + Y, all below B
  generalize (chainList (subG w (chainList (addG w x y) 0 x_size 0).1 y) 0 x_size 0).2 = b
    at hv2 hc2
  generalize (chainList (addG w x y) 0 x_size 0).2 = c at hv hc
  have hb : b = 0 ∨ b = 1 := by omega
  have hc' : c = 0 ∨ c = 1 := by omega
  rcases hb with rfl | rfl <;> rcases hc' with rfl | rfl <;> simp at hv hv2 <;> omega

/-- The statement of `bigint_add3_sub3_roundtrip` on 64-bit words, the addition
overflowing. -/
theorem bigint_add3_sub3_roundtrip_witness :
    ∃ z1 c z2 b, bigint_add3 64 [7, 7, 7] [2 ^ 64 - 1, 2 ^ 64 - 1] 2 [1] 1 = (z1, c) ∧
      bigint_sub3 64 z1 z1 2 [1] 1 = .ok (z2, b) ∧
      z2.take 2 = [2 ^ 64 - 1, 2 ^ 64 - 1].take 2 :=
  bigint_add3_sub3_roundtrip 64 [7, 7, 7] [2 ^ 64 - 1, 2 ^ 64 - 1] [1] 2 1 rfl rfl (by decide)
    (by decide) (by unfold IsWords; simp) (by unfold IsWords; simp)

/-! ## Masks -/

theorem word_max_lt (w : Nat) : word_max w < 2 ^ w := by
  have := Nat.two_pow_pos w
  unfold word_max; omega

theorem select_set (w a b : Nat) (ha : a < 2 ^ w) (hb : b < 2 ^ w) :
    Mask.select (word_max w) a b = a := by
  unfold Mask.select word_max
  rw [Nat.and_comm, Nat.and_pow_two_sub_one_eq_mod,
    Nat.mod_eq_of_lt (Nat.xor_lt_two_pow ha hb), Nat.xor_comm a b, ← Nat.xor_assoc,
    Nat.xor_self, Nat.zero_xor]

theorem select_clear (a b : Nat) : Mask.select 0 a b = b := by
  simp [Mask.select]

theorem or_eq_zero (a b : Nat) : a ||| b = 0 ↔ a = 0 ∧ b = 0 := by
  constructor
  · intro h
    constructor
    · apply Nat.eq_of_testBit_eq; intro i
      have := congrArg (fun n => Nat.testBit n i) h
      simp at this; simp [this.1]
    · apply Nat.eq_of_testBit_eq; intro i
      have := congrArg (fun n => Nat.testBit n i) h
      simp at this; simp [this.2]
  · rintro ⟨rfl, rfl⟩; simp

/-- An accumulated OR is zero exactly when it started at zero and every word OR-ed in is
zero. -/
theorem or_fold_zero (f : Nat → Nat) (n lo m0 : Nat) :
    forRange lo (lo + n) (fun i m => m ||| f i) m0 = 0
      ↔ m0 = 0 ∧ ∀ i, lo ≤ i → i < lo + n → f i = 0 := by
  induction n generalizing lo m0 with
  | zero => simp [forRange_self]; intro _ i h1 h2; omega
  | succ n ih =>
    rw [forRange_first lo _ (by omega)]
    have e : lo + (n + 1) = (lo + 1) + n := by omega
    rw [e, ih, or_eq_zero]
    constructor
    · rintro ⟨⟨h0, hlo⟩, h⟩
      refine ⟨h0, fun i h1 h2 => ?_⟩
      rcases Nat.eq_or_lt_of_le h1 with rfl | h3
      · exact hlo
      · exact h i h3 h2
    · rintro ⟨h0, h⟩
      exact ⟨⟨h0, h lo le_rfl (by omega)⟩, fun i h1 h2 => h i (by omega) h2⟩

theorem value_slice_eq_zero (w : Nat) (y : List Nat) (n lo : Nat) :
    value w (slice y lo n) = 0 ↔ ∀ i, lo ≤ i → i < lo + n → rd y i = 0 := by
  have h2 : 0 < 2 ^ w := Nat.two_pow_pos w
  induction n generalizing lo with
  | zero => simp [slice_zero, value_nil]; intro i h1 h2; omega
  | succ n ih =>
    rw [slice_succ, value_cons]
    constructor
    · intro h i h1 h3
      have ha : rd y lo = 0 := by omega
      have hb : value w (slice y (lo + 1) n) = 0 := by
        have : 2 ^ w * value w (slice y (lo + 1) n) = 0 := by omega
        rcases Nat.mul_eq_zero.mp this with h | h
        · omega
        · exact h
      rcases Nat.eq_or_lt_of_le h1 with rfl | h4
      · exact ha
      · exact (ih (lo + 1)).mp hb i h4 (by omega)
    · intro h
      rw [h lo le_rfl (by omega), (ih (lo + 1)).mpr (fun i h1 h3 => h i (by omega) (by omega))]
      simp

/-- Splitting an array at `m`: the low `m` words and the words above. -/
theorem value_slice_split (w : Nat) (y : List Nat) (m n : Nat) :
    value w (slice y 0 (m + n))
      = value w (slice y 0 m) + 2 ^ (w * m) * value w (slice y m n) := by
  rw [slice_add, value_append, slice_length, Nat.zero_add]

/-! ## Comparison -/

theorem cmpWord_lt (w a b : Nat) (hw : 1 ≤ w) : cmpWord w a b < 2 ^ w := by
  have h1 : 1 < 2 ^ w := Nat.one_lt_two_pow (by omega)
  unfold cmpWord
  split
  · exact word_max_lt w
  · split <;> omega

/-- Comparing two integers by their top words first. -/
theorem cmpWord_step (w B lx ly a b : Nat) (hlx : lx < B) (hly : ly < B) :
    cmpWord w (lx + B * a) (ly + B * b)
      = if a = b then cmpWord w lx ly else if a < b then word_max w else 1 := by
  unfold cmpWord
  by_cases hab : a = b
  · subst hab; simp
  · rw [if_neg hab]
    rcases Nat.lt_or_gt_of_ne hab with h | h
    · have h3 : B * (a + 1) ≤ B * b := Nat.mul_le_mul_left _ h
      have h4 : lx + B * a < ly + B * b := by rw [Nat.mul_succ] at h3; omega
      rw [if_pos h, if_pos h4]
    · have h3 : B * (b + 1) ≤ B * a := Nat.mul_le_mul_left _ h
      rw [Nat.mul_succ] at h3
      have h4 : ¬ lx + B * a < ly + B * b := by omega
      have h5 : ¬ lx + B * a = ly + B * b := by omega
      have h6 : ¬ a < b := by omega
      rw [if_neg h4, if_neg h5, if_neg h6]

/-- The main loop of `bigint_cmp` over the `k` low words. -/
theorem bigint_cmp_loop (w : Nat) (hw : 1 ≤ w) (x y : List Nat) (hx : IsWords w x)
    (hy : IsWords w y) (k : Nat) :
    forRange 0 k (fun i result =>
        Mask.select (Mask.is_equal w (rd x i) (rd y i)) result
          (Mask.select (Mask.is_lt w (rd x i) (rd y i)) (word_max w) 1)) 0
      = cmpWord w (value w (slice x 0 k)) (value w (slice y 0 k)) := by
  have h1 : 1 < 2 ^ w := Nat.one_lt_two_pow (by omega)
  induction k with
  | zero => simp [forRange_self, slice_zero, value_nil, cmpWord]
  | succ k ih =>
    rw [forRange_succ 0 k (Nat.zero_le _), ih, value_slice_split, value_slice_split]
    have hlx := value_lt w _ (isWords_slice w x hx 0 k)
    have hly := value_lt w _ (isWords_slice w y hy 0 k)
    rw [slice_length] at hlx hly
    have e1 : ∀ z : List Nat, value w (slice z k 1) = rd z k := by
      intro z; simp [slice_succ, slice_zero, value_cons, value_nil]
    rw [e1, e1, cmpWord_step w _ _ _ _ _ hlx hly]
    simp only [Mask.is_equal, Mask.is_lt]
    by_cases hab : rd x k = rd y k
    · rw [if_pos hab, if_pos hab]
      apply select_set w _ _ (cmpWord_lt w _ _ hw)
      rw [hab, if_neg (lt_irrefl _), select_clear]; exact h1
    · rw [if_neg hab, if_neg hab, select_clear]
      by_cases hlt : rd x k < rd y k
      · rw [if_pos hlt, if_pos hlt, select_set w _ _ (word_max_lt w) h1]
      · rw [if_neg hlt, if_neg hlt, select_clear]

theorem to_int32_cmpWord (w : Nat) (hw : 32 ≤ w) (a b : Nat) :
    to_int32 (cmpWord w a b) = if a < b then -1 else if a = b then 0 else 1 := by
  unfold cmpWord to_int32
  obtain ⟨d, rfl⟩ := Nat.exists_eq_add_of_le hw
  have hpos : 0 < 2 ^ d := Nat.two_pow_pos d
  have e : word_max (32 + d) % 2 ^ 32 = 2 ^ 32 - 1 := by
    unfold word_max
    rw [pow_add]
    generalize 2 ^ d = t at hpos
    norm_num
    omega
  by_cases h1 : a < b
  · simp only [if_pos h1, e]; norm_num
  · simp only [if_neg h1]
    by_cases h2 : a = b
    · simp only [if_pos h2]; norm_num
    · simp only [if_neg h2]; norm_num

/-- What `bigint_cmp` computes, for arrays of any two lengths. -/
theorem bigint_cmp_eq (w : Nat) (hw : 32 ≤ w) (x y : List Nat) (x_size y_size : Nat)
    (hx : x.length = x_size) (hy : y.length = y_size) (hwx : IsWords w x)
    (hwy : IsWords w y) :
    bigint_cmp w x x_size y y_size
      = if value w x < value w y then -1 else if value w x = value w y then 0 else 1 := by
  have h1 : 1 < 2 ^ w := Nat.one_lt_two_pow (by omega)
  have hxl := value_lt w x hwx
  have hyl := value_lt w y hwy
  rw [hx] at hxl
  rw [hy] at hyl
  unfold bigint_cmp
  simp only []
  rw [bigint_cmp_loop w (by omega) x y hwx hwy, ← to_int32_cmpWord w hw]
  congr 1
  rcases Nat.lt_trichotomy x_size y_size with hlt | heq | hgt
  · rw [if_pos hlt, Nat.min_eq_left hlt.le]
    obtain ⟨d, rfl⟩ := Nat.exists_eq_add_of_le hlt.le
    have hsp := value_slice_split w y x_size d
    rw [← hy, slice_full] at hsp
    have hxs : value w (slice x 0 x_size) = value w x := by rw [← hx, slice_full]
    rw [hxs]
    simp only [Mask.is_zero]
    by_cases hz : forRange x_size (x_size + d) (fun i mask => mask ||| rd y i) 0 = 0
    · rw [if_pos hz, select_set w _ _ (cmpWord_lt w _ _ (by omega)) (word_max_lt w)]
      have := (value_slice_eq_zero w y d x_size).mpr ((or_fold_zero _ _ _ _).mp hz).2
      rw [this] at hsp
      rw [hsp]; simp
    · rw [if_neg hz, select_clear]
      have hne : value w (slice y x_size d) ≠ 0 := by
        intro h0
        exact hz ((or_fold_zero _ _ _ _).mpr ⟨rfl, (value_slice_eq_zero w y d x_size).mp h0⟩)
      have : 2 ^ (w * x_size) * 1 ≤ 2 ^ (w * x_size) * value w (slice y x_size d) :=
        Nat.mul_le_mul_left _ (by omega)
      unfold cmpWord
      rw [if_pos (by omega)]
  · subst heq
    rw [if_neg (lt_irrefl _), if_neg (lt_irrefl _), Nat.min_self]
    have hxs : value w (slice x 0 x_size) = value w x := by rw [← hx, slice_full]
    have hys : value w (slice y 0 x_size) = value w y := by rw [← hy, slice_full]
    rw [hxs, hys]
  · rw [if_neg (by omega), if_pos hgt, Nat.min_eq_right hgt.le]
    obtain ⟨d, rfl⟩ := Nat.exists_eq_add_of_le hgt.le
    have hsp := value_slice_split w x y_size d
    rw [← hx, slice_full] at hsp
    have hys : value w (slice y 0 y_size) = value w y := by rw [← hy, slice_full]
    rw [hys]
    simp only [Mask.is_zero]
    by_cases hz : forRange y_size (y_size + d) (fun i mask => mask ||| rd x i) 0 = 0
    · rw [if_pos hz, select_set w _ _ (cmpWord_lt w _ _ (by omega)) h1]
      have := (value_slice_eq_zero w x d y_size).mpr ((or_fold_zero _ _ _ _).mp hz).2
      rw [this] at hsp
      rw [hsp]; simp
    · rw [if_neg hz, select_clear]
      have hne : value w (slice x y_size d) ≠ 0 := by
        intro h0
        exact hz ((or_fold_zero _ _ _ _).mpr ⟨rfl, (value_slice_eq_zero w x d y_size).mp h0⟩)
      have : 2 ^ (w * y_size) * 1 ≤ 2 ^ (w * y_size) * value w (slice x y_size d) :=
        Nat.mul_le_mul_left _ (by omega)
      unfold cmpWord
      rw [if_neg (by omega), if_neg (by omega)]

/-- C7: for arrays of any, possibly different, lengths `bigint_cmp(x, x_size, y, y_size)`
returns -1 if `value(x) < value(y)`, 0 if `value(x) = value(y)` and 1 if
`value(x) > value(y)`, the values being the little-endian integers; it returns nothing
else. -/
theorem bigint_cmp_spec (w : Nat) (hw : 32 ≤ w) (x y : List Nat) (x_size y_size : Nat)
    (hx : x.length = x_size) (hy : y.length = y_size) (hwx : IsWords w x)
    (hwy : IsWords w y) :
    (value w x < value w y → bigint_cmp w x x_size y y_size = -1) ∧
    (value w x = value w y → bigint_cmp w x x_size y y_size = 0) ∧
    (value w x > value w y → bigint_cmp w x x_size y y_size = 1) ∧
    (bigint_cmp w x x_size y y_size = -1 ∨ bigint_cmp w x x_size y y_size = 0 ∨
      bigint_cmp w x x_size y y_size = 1) := by
  rw [bigint_cmp_eq w hw x y x_size y_size hx hy hwx hwy]
  refine ⟨fun h => by rw [if_pos h], fun h => by rw [if_neg (by omega), if_pos h],
    fun h => by rw [if_neg (by omega), if_neg (by omega)], ?_⟩
  split
  · exact Or.inl rfl
  · split
    · exact Or.inr (Or.inl rfl)
    · exact Or.inr (Or.inr rfl)

/-- The statement of `bigint_cmp_spec` on 32-bit words: `x` is longer than `y` but its
high words are zero. -/
theorem bigint_cmp_spec_witness :
    (value 32 [5, 0, 0] < value 32 [6] → bigint_cmp 32 [5, 0, 0] 3 [6] 1 = -1) ∧
    (value 32 [5, 0, 0] = value 32 [6] → bigint_cmp 32 [5, 0, 0] 3 [6] 1 = 0) ∧
    (value 32 [5, 0, 0] > value 32 [6] → bigint_cmp 32 [5, 0, 0] 3 [6] 1 = 1) ∧
    (bigint_cmp 32 [5, 0, 0] 3 [6] 1 = -1 ∨ bigint_cmp 32 [5, 0, 0] 3 [6] 1 = 0 ∨
      bigint_cmp 32 [5, 0, 0] 3 [6] 1 = 1) :=
  bigint_cmp_spec 32 (by decide) [5, 0, 0] [6] 3 1 rfl rfl (by unfold IsWords; simp)
    (by unfold IsWords; simp)

theorem split_eq (B lx ly a b : Nat) (hlx : lx < B) (hly : ly < B) :
    lx + B * a = ly + B * b ↔ lx = ly ∧ a = b := by
  constructor
  · intro h
    have hab : a = b := by
      rcases Nat.lt_trichotomy a b with h1 | h1 | h1
      · have h3 : B * (a + 1) ≤ B * b := Nat.mul_le_mul_left _ h1
        rw [Nat.mul_succ] at h3; omega
      · exact h1
      · have h3 : B * (b + 1) ≤ B * a := Nat.mul_le_mul_left _ h1
        rw [Nat.mul_succ] at h3; omega
    subst hab
    exact ⟨by omega, rfl⟩
  · rintro ⟨rfl, rfl⟩; rfl

theorem ltWord_step (w : Nat) (le : Bool) (B lx ly a b : Nat) (hlx : lx < B) (hly : ly < B) :
    ltWord w le (lx + B * a) (ly + B * b)
      = if a = b then ltWord w le lx ly else if a < b then word_max w else 0 := by
  unfold ltWord
  by_cases hab : a = b
  · subst hab; simp
  · rw [if_neg hab]
    rcases Nat.lt_or_gt_of_ne hab with h | h
    · have h3 : B * (a + 1) ≤ B * b := Nat.mul_le_mul_left _ h
      have h4 : lx + B * a < ly + B * b := by rw [Nat.mul_succ] at h3; omega
      rw [if_pos h, if_pos (Or.inl h4)]
    · have h3 : B * (b + 1) ≤ B * a := Nat.mul_le_mul_left _ h
      rw [Nat.mul_succ] at h3
      have h4 : ¬ (lx + B * a < ly + B * b ∨ (le = true ∧ lx + B * a = ly + B * b)) := by
        rintro (h5 | ⟨-, h5⟩) <;> omega
      have h6 : ¬ a < b := by omega
      rw [if_neg h4, if_neg h6]

theorem ltWord_lt (w : Nat) (le : Bool) (a b : Nat) : ltWord w le a b < 2 ^ w := by
  unfold ltWord
  split
  · exact word_max_lt w
  · exact Nat.two_pow_pos w

theorem ltWord_isMask (w : Nat) (le : Bool) (a b : Nat) : IsMask w (ltWord w le a b) := by
  unfold ltWord IsMask
  split
  · exact Or.inr rfl
  · exact Or.inl rfl

/-- The main loop of `bigint_ct_is_lt` over the `k` low words. -/
theorem bigint_ct_is_lt_loop (w : Nat) (le : Bool) (x y : List Nat) (hx : IsWords w x)
    (hy : IsWords w y) (k : Nat) :
    forRange 0 k (fun i is_lt =>
        Mask.select_mask (Mask.is_equal w (rd x i) (rd y i)) is_lt
          (Mask.is_lt w (rd x i) (rd y i))) (Mask.expand w (if le then 1 else 0))
      = ltWord w le (value w (slice x 0 k)) (value w (slice y 0 k)) := by
  induction k with
  | zero =>
    cases le <;> simp [forRange_self, slice_zero, value_nil, ltWord, Mask.expand]
  | succ k ih =>
    rw [forRange_succ 0 k (Nat.zero_le _), ih, value_slice_split, value_slice_split]
    have hlx := value_lt w _ (isWords_slice w x hx 0 k)
    have hly := value_lt w _ (isWords_slice w y hy 0 k)
    rw [slice_length] at hlx hly
    have e1 : ∀ z : List Nat, value w (slice z k 1) = rd z k := by
      intro z; simp [slice_succ, slice_zero, value_cons, value_nil]
    rw [e1, e1, ltWord_step w le _ _ _ _ _ hlx hly]
    simp only [Mask.is_equal, Mask.is_lt, Mask.select_mask]
    by_cases hab : rd x k = rd y k
    · rw [if_pos hab, if_pos hab]
      apply select_set w _ _ (ltWord_lt w le _ _)
      split
      · exact word_max_lt w
      · exact Nat.two_pow_pos w
    · rw [if_neg hab, if_neg hab, select_clear]

theorem mask_or_set (w m : Nat) (h : IsMask w m) : m ||| word_max w = word_max w := by
  rcases h with rfl | rfl <;> simp

theorem mask_and_set (w m : Nat) (h : IsMask w m) : m &&& word_max w = m := by
  rcases h with rfl | rfl <;> simp

/-- What `bigint_ct_is_lt` computes, for arrays of any two lengths. -/
theorem bigint_ct_is_lt_eq (w : Nat) (x y : List Nat) (x_size y_size : Nat) (le : Bool)
    (hx : x.length = x_size) (hy : y.length = y_size) (hwx : IsWords w x)
    (hwy : IsWords w y) :
    bigint_ct_is_lt w x x_size y y_size le = ltWord w le (value w x) (value w y) := by
  have hxl := value_lt w x hwx
  have hyl := value_lt w y hwy
  rw [hx] at hxl
  rw [hy] at hyl
  unfold bigint_ct_is_lt
  simp only []
  rw [bigint_ct_is_lt_loop w le x y hwx hwy]
  rcases Nat.lt_trichotomy x_size y_size with hlt | heq | hgt
  · rw [if_pos hlt, Nat.min_eq_left hlt.le]
    obtain ⟨d, rfl⟩ := Nat.exists_eq_add_of_le hlt.le
    have hsp := value_slice_split w y x_size d
    rw [← hy, slice_full] at hsp
    have hxs : value w (slice x 0 x_size) = value w x := by rw [← hx, slice_full]
    rw [hxs]
    simp only [Mask.expand]
    by_cases hz : forRange x_size (x_size + d) (fun i mask => mask ||| rd y i) 0 = 0
    · rw [if_neg (not_not.mpr hz), Nat.or_zero]
      have := (value_slice_eq_zero w y d x_size).mpr ((or_fold_zero _ _ _ _).mp hz).2
      rw [this] at hsp
      rw [hsp]; simp
    · rw [if_pos hz, mask_or_set w _ (ltWord_isMask w le _ _)]
      have hne : value w (slice y x_size d) ≠ 0 := by
        intro h0
        exact hz ((or_fold_zero _ _ _ _).mpr ⟨rfl, (value_slice_eq_zero w y d x_size).mp h0⟩)
      have : 2 ^ (w * x_size) * 1 ≤ 2 ^ (w * x_size) * value w (slice y x_size d) :=
        Nat.mul_le_mul_left _ (by omega)
      unfold ltWord
      rw [if_pos (Or.inl (by omega))]
  · subst heq
    rw [if_neg (lt_irrefl _), if_neg (lt_irrefl _), Nat.min_self]
    have hxs : value w (slice x 0 x_size) = value w x := by rw [← hx, slice_full]
    have hys : value w (slice y 0 x_size) = value w y := by rw [← hy, slice_full]
    rw [hxs, hys]
  · rw [if_neg (by omega), if_pos hgt, Nat.min_eq_right hgt.le]
    obtain ⟨d, rfl⟩ := Nat.exists_eq_add_of_le hgt.le
    have hsp := value_slice_split w x y_size d
    rw [← hx, slice_full] at hsp
    have hys : value w (slice y 0 y_size) = value w y := by rw [← hy, slice_full]
    rw [hys]
    simp only [Mask.is_zero]
    by_cases hz : forRange y_size (y_size + d) (fun i mask => mask ||| rd x i) 0 = 0
    · rw [if_pos hz, mask_and_set w _ (ltWord_isMask w le _ _)]
      have := (value_slice_eq_zero w x d y_size).mpr ((or_fold_zero _ _ _ _).mp hz).2
      rw [this] at hsp
      rw [hsp]; simp
    · rw [if_neg hz, Nat.and_zero]
      have hne : value w (slice x y_size d) ≠ 0 := by
        intro h0
        exact hz ((or_fold_zero _ _ _ _).mpr ⟨rfl, (value_slice_eq_zero w x d y_size).mp h0⟩)
      have : 2 ^ (w * y_size) * 1 ≤ 2 ^ (w * y_size) * value w (slice x y_size d) :=
        Nat.mul_le_mul_left _ (by omega)
      unfold ltWord
      rw [if_neg]
      rintro (h5 | ⟨-, h5⟩) <;> omega

/-- The XOR-OR loop of `bigint_ct_is_eq` leaves zero exactly when the `k` low words
agree. -/
theorem value_slice_eq_iff (w : Nat) (x y : List Nat) (hx : IsWords w x) (hy : IsWords w y)
    (k : Nat) :
    value w (slice x 0 k) = value w (slice y 0 k)
      ↔ ∀ i, 0 ≤ i → i < 0 + k → rd x i ^^^ rd y i = 0 := by
  induction k with
  | zero => simp [slice_zero]
  | succ k ih =>
    have hlx := value_lt w _ (isWords_slice w x hx 0 k)
    have hly := value_lt w _ (isWords_slice w y hy 0 k)
    rw [slice_length] at hlx hly
    have e1 : ∀ z : List Nat, value w (slice z k 1) = rd z k := by
      intro z; simp [slice_succ, slice_zero, value_cons, value_nil]
    rw [value_slice_split, value_slice_split, e1, e1, split_eq _ _ _ _ _ hlx hly, ih]
    constructor
    · rintro ⟨h1, h2⟩ i hi0 hi
      rcases Nat.lt_or_ge i k with h3 | h3
      · exact h1 i hi0 (by omega)
      · have : i = k := by omega
        subst this; exact Nat.xor_eq_zero.mpr h2
    · intro h
      exact ⟨fun i hi0 hi => h i hi0 (by omega), Nat.xor_eq_zero.mp (h k (Nat.zero_le _) (by omega))⟩

/-- What `bigint_ct_is_eq` computes, for arrays of any two lengths. -/
theorem bigint_ct_is_eq_eq (w : Nat) (x y : List Nat) (x_size y_size : Nat)
    (hx : x.length = x_size) (hy : y.length = y_size) (hwx : IsWords w x)
    (hwy : IsWords w y) :
    bigint_ct_is_eq w x x_size y y_size = if value w x = value w y then word_max w else 0 := by
  have hxl := value_lt w x hwx
  have hyl := value_lt w y hwy
  rw [hx] at hxl
  rw [hy] at hyl
  unfold bigint_ct_is_eq
  simp only [Mask.is_zero]
  congr 1
  have hlow : ∀ k, (forRange 0 k (fun i diff => diff ||| (rd x i ^^^ rd y i)) 0 = 0)
      ↔ value w (slice x 0 k) = value w (slice y 0 k) := by
    intro k
    have := or_fold_zero (fun i => rd x i ^^^ rd y i) k 0 0
    rw [Nat.zero_add] at this
    rw [this, value_slice_eq_iff w x y hwx hwy k]
    simp
  rcases Nat.lt_trichotomy x_size y_size with hlt | heq | hgt
  · rw [if_pos hlt, Nat.min_eq_left hlt.le]
    obtain ⟨d, rfl⟩ := Nat.exists_eq_add_of_le hlt.le
    have hsp := value_slice_split w y x_size d
    rw [← hy, slice_full] at hsp
    have hxs : value w (slice x 0 x_size) = value w x := by rw [← hx, slice_full]
    have hyl' := value_lt w _ (isWords_slice w y hwy 0 x_size)
    rw [slice_length] at hyl'
    rw [or_fold_zero, hlow, ← value_slice_eq_zero w y d x_size, hxs, hsp]
    apply propext
    constructor
    · rintro ⟨h1, h2⟩; rw [h1, h2]; simp
    · intro h
      have := (split_eq (2 ^ (w * x_size)) (value w x) (value w (slice y 0 x_size)) 0
        (value w (slice y x_size d)) hxl hyl').mp (by simpa using h)
      exact ⟨this.1, this.2.symm⟩
  · subst heq
    rw [if_neg (lt_irrefl _), if_neg (lt_irrefl _), Nat.min_self, hlow]
    have hxs : value w (slice x 0 x_size) = value w x := by rw [← hx, slice_full]
    have hys : value w (slice y 0 x_size) = value w y := by rw [← hy, slice_full]
    rw [hxs, hys]
  · rw [if_neg (by omega), if_pos hgt, Nat.min_eq_right hgt.le]
    obtain ⟨d, rfl⟩ := Nat.exists_eq_add_of_le hgt.le
    have hsp := value_slice_split w x y_size d
    rw [← hx, slice_full] at hsp
    have hys : value w (slice y 0 y_size) = value w y := by rw [← hy, slice_full]
    have hxl' := value_lt w _ (isWords_slice w x hwx 0 y_size)
    rw [slice_length] at hxl'
    rw [or_fold_zero, hlow, ← value_slice_eq_zero w x d y_size, hys, hsp]
    apply propext
    constructor
    · rintro ⟨h1, h2⟩; rw [h1, h2]; simp
    · intro h
      have := (split_eq (2 ^ (w * y_size)) (value w (slice x 0 y_size)) (value w y)
        (value w (slice x y_size d)) 0 hxl' hyl).mp (by simpa using h)
      exact ⟨this.1, this.2⟩

theorem word_max_pos (w : Nat) (hw : 1 ≤ w) : word_max w ≠ 0 := by
  have h1 : 1 < 2 ^ w := Nat.one_lt_two_pow (by omega)
  unfold word_max; omega

/-- C8: for arrays of any lengths and either value of `lt_or_equal`,
`bigint_ct_is_lt(x, x_size, y, y_size, lt_or_equal)` is the all-ones mask if
`value(x) < value(y)` or (`lt_or_equal` and `value(x) = value(y)`), and the all-zeros mask
otherwise; the mask is never partially set. -/
theorem bigint_ct_is_lt_spec (w : Nat) (x y : List Nat) (x_size y_size : Nat)
    (lt_or_equal : Bool) (hx : x.length = x_size) (hy : y.length = y_size)
    (hwx : IsWords w x) (hwy : IsWords w y) :
    ((value w x < value w y ∨ (lt_or_equal = true ∧ value w x = value w y)) →
      bigint_ct_is_lt w x x_size y y_size lt_or_equal = word_max w) ∧
    (¬ (value w x < value w y ∨ (lt_or_equal = true ∧ value w x = value w y)) →
      bigint_ct_is_lt w x x_size y y_size lt_or_equal = 0) ∧
    IsMask w (bigint_ct_is_lt w x x_size y y_size lt_or_equal) := by
  rw [bigint_ct_is_lt_eq w x y x_size y_size lt_or_equal hx hy hwx hwy]
  exact ⟨fun h => by rw [ltWord, if_pos h], fun h => by rw [ltWord, if_neg h],
    ltWord_isMask w _ _ _⟩

/-- The statement of `bigint_ct_is_lt_spec` on 64-bit words, in the inclusive mode on two
equal values of different lengths. -/
theorem bigint_ct_is_lt_spec_witness :
    ((value 64 [5, 0] < value 64 [5] ∨ (true = true ∧ value 64 [5, 0] = value 64 [5])) →
      bigint_ct_is_lt 64 [5, 0] 2 [5] 1 true = word_max 64) ∧
    (¬ (value 64 [5, 0] < value 64 [5] ∨ (true = true ∧ value 64 [5, 0] = value 64 [5])) →
      bigint_ct_is_lt 64 [5, 0] 2 [5] 1 true = 0) ∧
    IsMask 64 (bigint_ct_is_lt 64 [5, 0] 2 [5] 1 true) :=
  bigint_ct_is_lt_spec 64 [5, 0] [5] 2 1 true rfl rfl (by unfold IsWords; simp)
    (by unfold IsWords; simp)

/-- C9: for arrays of any lengths exactly one of the masks `bigint_ct_is_lt(x, y)`,
`bigint_ct_is_eq(x, y)`, `bigint_ct_is_lt(y, x)` is set, and it is the first, second or
third exactly when `bigint_cmp(x, y)` returns -1, 0 or 1. -/
theorem bigint_ct_masks_trichotomy (w : Nat) (hw : 32 ≤ w) (x y : List Nat)
    (x_size y_size : Nat) (hx : x.length = x_size) (hy : y.length = y_size)
    (hwx : IsWords w x) (hwy : IsWords w y) :
    word_max w ≠ 0 ∧
    ((bigint_ct_is_lt w x x_size y y_size false = word_max w ∧
        bigint_ct_is_eq w x x_size y y_size = 0 ∧
        bigint_ct_is_lt w y y_size x x_size false = 0 ∧
        bigint_cmp w x x_size y y_size = -1) ∨
      (bigint_ct_is_lt w x x_size y y_size false = 0 ∧
        bigint_ct_is_eq w x x_size y y_size = word_max w ∧
        bigint_ct_is_lt w y y_size x x_size false = 0 ∧
        bigint_cmp w x x_size y y_size = 0) ∨
      (bigint_ct_is_lt w x x_size y y_size false = 0 ∧
        bigint_ct_is_eq w x x_size y y_size = 0 ∧
        bigint_ct_is_lt w y y_size x x_size false = word_max w ∧
        bigint_cmp w x x_size y y_size = 1)) := by
  refine ⟨word_max_pos w (by omega), ?_⟩
  rw [bigint_ct_is_lt_eq w x y x_size y_size false hx hy hwx hwy,
    bigint_ct_is_lt_eq w y x y_size x_size false hy hx hwy hwx,
    bigint_ct_is_eq_eq w x y x_size y_size hx hy hwx hwy,
    bigint_cmp_eq w hw x y x_size y_size hx hy hwx hwy]
  unfold ltWord
  rcases Nat.lt_trichotomy (value w x) (value w y) with h | h | h
  · left
    refine ⟨by simp [h], by rw [if_neg (by omega)], ?_, by rw [if_pos h]⟩
    rw [if_neg]; rintro (h5 | ⟨h5, -⟩)
    · omega
    · simp at h5
  · right; left
    refine ⟨?_, by rw [if_pos h], ?_, by rw [if_neg (by omega), if_pos h]⟩
    · rw [if_neg]; rintro (h5 | ⟨h5, -⟩)
      · omega
      · simp at h5
    · rw [if_neg]; rintro (h5 | ⟨h5, -⟩)
      · omega
      · simp at h5
  · right; right
    refine ⟨?_, by rw [if_neg (by omega)], by simp [h],
      by rw [if_neg (by omega), if_neg (by omega)]⟩
    rw [if_neg]; rintro (h5 | ⟨h5, -⟩)
    · omega
    · simp at h5

/-- The statement of `bigint_ct_masks_trichotomy` on 32-bit words, at `x > y` with `y` the
longer array. -/
theorem bigint_ct_masks_trichotomy_witness :
    word_max 32 ≠ 0 ∧
    ((bigint_ct_is_lt 32 [9] 1 [3, 0] 2 false = word_max 32 ∧
        bigint_ct_is_eq 32 [9] 1 [3, 0] 2 = 0 ∧
        bigint_ct_is_lt 32 [3, 0] 2 [9] 1 false = 0 ∧
        bigint_cmp 32 [9] 1 [3, 0] 2 = -1) ∨
      (bigint_ct_is_lt 32 [9] 1 [3, 0] 2 false = 0 ∧
        bigint_ct_is_eq 32 [9] 1 [3, 0] 2 = word_max 32 ∧
        bigint_ct_is_lt 32 [3, 0] 2 [9] 1 false = 0 ∧
        bigint_cmp 32 [9] 1 [3, 0] 2 = 0) ∨
      (bigint_ct_is_lt 32 [9] 1 [3, 0] 2 false = 0 ∧
        bigint_ct_is_eq 32 [9] 1 [3, 0] 2 = 0 ∧
        bigint_ct_is_lt 32 [3, 0] 2 [9] 1 false = word_max 32 ∧
        bigint_cmp 32 [9] 1 [3, 0] 2 = 1)) :=
  bigint_ct_masks_trichotomy 32 (by decide) [9] [3, 0] 1 2 rfl rfl (by unfold IsWords; simp)
    (by unfold IsWords; simp)

/-- C10: for arrays of any, possibly different, lengths
`bigint_cmp(x, x_size, y, y_size) = -bigint_cmp(y, y_size, x, x_size)`. -/
theorem bigint_cmp_antisymm (w : Nat) (hw : 32 ≤ w) (x y : List Nat) (x_size y_size : Nat)
    (hx : x.length = x_size) (hy : y.length = y_size) (hwx : IsWords w x)
    (hwy : IsWords w y) :
    bigint_cmp w x x_size y y_size = - bigint_cmp w y y_size x x_size := by
  rw [bigint_cmp_eq w hw x y x_size y_size hx hy hwx hwy,
    bigint_cmp_eq w hw y x y_size x_size hy hx hwy hwx]
  rcases Nat.lt_trichotomy (value w x) (value w y) with h | h | h
  · rw [if_pos h, if_neg (by omega), if_neg (by omega)]
  · rw [if_neg (by omega), if_pos h, if_neg (by omega), if_pos h.symm]; simp
  · rw [if_neg (by omega), if_neg (by omega), if_pos h]; simp

/-- The statement of `bigint_cmp_antisymm` on 64-bit words of different lengths. -/
theorem bigint_cmp_antisymm_witness :
    bigint_cmp 64 [1, 2, 3] 3 [4, 5] 2 = - bigint_cmp 64 [4, 5] 2 [1, 2, 3] 3 :=
  bigint_cmp_antisymm 64 (by decide) [1, 2, 3] [4, 5] 3 2 rfl rfl (by unfold IsWords; simp)
    (by unfold IsWords; simp)

/-! ## Comba multiplication -/

theorem value_slice_sum (w : Nat) (y : List Nat) (n : Nat) :
    value w (slice y 0 n) = ∑ i ∈ Finset.range n, rd y i * (2 ^ w) ^ i := by
  induction n with
  | zero => simp [slice_zero, value_nil]
  | succ n ih =>
    rw [value_slice_split, ih, Finset.sum_range_succ]
    simp [slice_succ, slice_zero, value_cons, value_nil, pow_mul]
    ring

theorem rd_cons_succ (a : Nat) (x : List Nat) (j : Nat) : rd (a :: x) (j + 1) = rd x j := by
  simp [rd]

theorem rd_cons_zero (a : Nat) (x : List Nat) : rd (a :: x) 0 = a := by
  simp [rd]

theorem column_cons_zero (a : Nat) (x y : List Nat) : column (a :: x) y 0 = a * rd y 0 := by
  simp [column, rd_cons_zero]

theorem column_cons_succ (a : Nat) (x y : List Nat) (i : Nat) :
    column (a :: x) y (i + 1) = a * rd y (i + 1) + column x y i := by
  unfold column
  rw [Finset.sum_range_succ' _ (i + 1)]
  simp only [rd_cons_succ, rd_cons_zero, Nat.sub_zero, Nat.add_sub_add_right]
  ring

/-- The columns of the schoolbook product, weighted by their position, add up to the
product of the two values. -/
theorem column_sum (w : Nat) (x y : List Nat) (K : Nat) (hK : x.length + y.length ≤ K + 1) :
    ∑ i ∈ Finset.range K, column x y i * (2 ^ w) ^ i = value w x * value w y := by
  induction x generalizing K with
  | nil =>
    simp [column, value_nil, rd]
  | cons a x ih =>
    cases K with
    | zero =>
      simp only [List.length_cons] at hK
      have hx : x = [] := List.length_eq_zero.mp (by omega)
      have hy : y = [] := List.length_eq_zero.mp (by omega)
      subst hx hy
      simp [value_nil]
    | succ K =>
      rw [Finset.sum_range_succ']
      simp only [column_cons_succ, column_cons_zero]
      have h1 : ∑ i ∈ Finset.range K, (a * rd y (i + 1) + column x y i) * (2 ^ w) ^ (i + 1)
            + a * rd y 0 * (2 ^ w) ^ 0
          = a * (∑ i ∈ Finset.range (K + 1), rd y i * (2 ^ w) ^ i)
            + 2 ^ w * ∑ i ∈ Finset.range K, column x y i * (2 ^ w) ^ i := by
        rw [Finset.sum_range_succ' _ K]
        have e : ∀ i ∈ Finset.range K, (a * rd y (i + 1) + column x y i) * (2 ^ w) ^ (i + 1)
            = a * (rd y (i + 1) * (2 ^ w) ^ (i + 1)) + 2 ^ w * (column x y i * (2 ^ w) ^ i) :=
          fun i _ => by ring
        rw [Finset.sum_congr rfl e, Finset.sum_add_distrib, ← Finset.mul_sum, ← Finset.mul_sum]
        ring
      rw [h1, ← value_slice_sum, value_slice_ge w y (K + 1) (by simp at hK; omega),
        ih K (by simp at hK; omega), value_cons]
      ring

/-- The inner loop of `comba_mul` adds the products of one column to the accumulator,
modulo the capacity of the accumulator. -/
theorem comba_inner (w : Nat) (f : Nat → Nat) (lo n c : Nat) :
    forRange lo (lo + n) (fun j accum => (accum + f j) % 2 ^ (3 * w)) c % 2 ^ (3 * w)
      = (c + ∑ j ∈ Finset.Ico lo (lo + n), f j) % 2 ^ (3 * w) := by
  induction n with
  | zero => simp [forRange_self]
  | succ n ih =>
    rw [← Nat.add_assoc, forRange_succ lo _ (by omega), Nat.mod_mod,
      Finset.sum_Ico_succ_top (by omega), ← Nat.add_assoc, Nat.add_mod, ih, ← Nat.add_mod]

theorem comba_inner_exact (w : Nat) (f : Nat → Nat) (lo hi c : Nat) (h : lo ≤ hi)
    (hlt : c + ∑ j ∈ Finset.Ico lo hi, f j < 2 ^ (3 * w)) :
    forRange lo hi (fun j accum => (accum + f j) % 2 ^ (3 * w)) c
      = c + ∑ j ∈ Finset.Ico lo hi, f j := by
  obtain ⟨n, rfl⟩ := Nat.exists_eq_add_of_le h
  have h1 := comba_inner w f lo n c
  rw [Nat.mod_eq_of_lt hlt] at h1
  rw [← h1]
  symm
  apply Nat.mod_eq_of_lt
  cases n with
  | zero =>
    simp only [Nat.add_zero, forRange_self]
    simp at hlt; exact hlt
  | succ n =>
    rw [← Nat.add_assoc, forRange_succ lo _ (by omega)]
    exact Nat.mod_lt _ (Nat.two_pow_pos _)

/-- The products `comba_mul` adds up in column `i` are all the nonzero terms of the
column. -/
theorem column_eq_Ico (x y : List Nat) (N : Nat) (hx : x.length = N) (hy : y.length = N)
    (i : Nat) :
    ∑ j ∈ Finset.Ico (if i + 1 < N then 0 else i + 1 - N) (min N (i + 1)),
        rd x j * rd y (i - j) = column x y i := by
  unfold column
  apply Finset.sum_subset
  · intro j hj
    simp only [Finset.mem_Ico, Finset.mem_range] at hj ⊢
    omega
  · intro j hj hnot
    simp only [Finset.mem_Ico, Finset.mem_range, not_and, not_lt] at hj hnot
    rcases Nat.lt_or_ge j N with h1 | h1
    · have h2 : N ≤ i - j := by
        by_contra hc
        have := hnot (by split <;> omega)
        omega
      rw [rd_of_ge y _ (by omega)]; simp
    · rw [rd_of_ge x _ (by omega)]; simp

theorem column_le (w : Nat) (x y : List Nat) (N : Nat) (hx : x.length = N) (hy : y.length = N)
    (hwx : IsWords w x) (hwy : IsWords w y) (i : Nat) :
    column x y i ≤ N * ((2 ^ w - 1) * (2 ^ w - 1)) := by
  rw [← column_eq_Ico x y N hx hy i]
  have hcard : (Finset.Ico (if i + 1 < N then 0 else i + 1 - N) (min N (i + 1))).card ≤ N := by
    rw [Nat.card_Ico]; split <;> omega
  calc ∑ j ∈ Finset.Ico (if i + 1 < N then 0 else i + 1 - N) (min N (i + 1)),
          rd x j * rd y (i - j)
      ≤ ∑ _j ∈ Finset.Ico (if i + 1 < N then 0 else i + 1 - N) (min N (i + 1)),
          (2 ^ w - 1) * (2 ^ w - 1) := by
        apply Finset.sum_le_sum
        intro j _
        have h1 := rd_lt w x hwx j
        have h2 := rd_lt w y hwy (i - j)
        exact Nat.mul_le_mul (by omega) (by omega)
    _ = _ * ((2 ^ w - 1) * (2 ^ w - 1)) := by rw [Finset.sum_const, smul_eq_mul]
    _ ≤ N * ((2 ^ w - 1) * (2 ^ w - 1)) := Nat.mul_le_mul_right _ hcard

theorem comba_bound (M N c col : Nat) (hM : 0 < M) (hN : N ≤ M) (hc : c ≤ N * (M - 1))
    (hcol : col ≤ N * ((M - 1) * (M - 1))) :
    c + col ≤ M * (N * (M - 1)) ∧ c + col < M ^ 3 := by
  obtain ⟨m, rfl⟩ : ∃ m, M = m + 1 := ⟨M - 1, by omega⟩
  simp only [Nat.add_sub_cancel] at hc hcol ⊢
  have h1 : c + col ≤ (m + 1) * (N * m) := by nlinarith
  refine ⟨h1, lt_of_le_of_lt h1 ?_⟩
  have h2 : N * m ≤ (m + 1) * m := Nat.mul_le_mul_right _ hN
  have h3 : (m + 1) * (N * m) ≤ (m + 1) * ((m + 1) * m) := Nat.mul_le_mul_left _ h2
  have h4 : (m + 1) * ((m + 1) * m) < (m + 1) ^ 3 := by
    have : (m + 1) ^ 3 = (m + 1) * ((m + 1) * m) + (m + 1) * (m + 1) := by ring
    rw [this]
    have : 0 < (m + 1) * (m + 1) := by positivity
    omega
  omega

/-- One column of `comba_mul` when the accumulator does not overflow. -/
theorem comba_step (w N : Nat) (x y : List Nat) (hx : x.length = N) (hy : y.length = N)
    (i c : Nat) (hi : i < 2 * N) (hlt : c + column x y i < 2 ^ (3 * w)) :
    combaG w N x y i c = ((c + column x y i) % 2 ^ w, (c + column x y i) / 2 ^ w) := by
  unfold combaG word3.extract
  have hle : (if i + 1 < N then 0 else i + 1 - N) ≤ min N (i + 1) := by split <;> omega
  have h := comba_inner_exact w (fun j => rd x j * rd y (i - j)) _ _ c hle
    (by rw [column_eq_Ico x y N hx hy i]; exact hlt)
  rw [column_eq_Ico x y N hx hy i] at h
  show ((forRange _ _ (fun j accum => (accum + rd x j * rd y (i - j)) % 2 ^ (3 * w)) c) % 2 ^ w,
    (forRange _ _ (fun j accum => (accum + rd x j * rd y (i - j)) % 2 ^ (3 * w)) c) / 2 ^ w) = _
  rw [h]

/-- The columns `lo, …, lo + n - 1` of `comba_mul`: the words written and the accumulator
left stand for the incoming accumulator plus the weighted columns. -/
theorem comba_chain (w N : Nat) (x y : List Nat) (hx : x.length = N) (hy : y.length = N)
    (hwx : IsWords w x) (hwy : IsWords w y) (hN : N ≤ 2 ^ w) (n lo c : Nat)
    (hlo : lo + n ≤ 2 * N) (hc : c ≤ N * (2 ^ w - 1)) :
    value w (chainList (combaG w N x y) lo n c).1
        + (2 ^ w) ^ n * (chainList (combaG w N x y) lo n c).2
      = c + ∑ i ∈ Finset.range n, column x y (lo + i) * (2 ^ w) ^ i ∧
    IsWords w (chainList (combaG w N x y) lo n c).1 := by
  have hM : 0 < 2 ^ w := Nat.two_pow_pos w
  induction n generalizing lo c with
  | zero =>
    refine ⟨by simp [chainList, value_nil], ?_⟩
    intro a ha; simp [chainList] at ha
  | succ n ih =>
    obtain ⟨hb1, hb2⟩ := comba_bound (2 ^ w) N c (column x y lo) hM hN hc
      (column_le w x y N hx hy hwx hwy lo)
    have h3 : 2 ^ (3 * w) = (2 ^ w) ^ 3 := by rw [Nat.mul_comm, pow_mul]
    have hstep := comba_step w N x y hx hy lo c (by omega) (by rw [h3]; exact hb2)
    have hc' : (c + column x y lo) / 2 ^ w ≤ N * (2 ^ w - 1) :=
      Nat.div_le_of_le_mul hb1
    obtain ⟨ihv, ihw⟩ := ih (lo + 1) ((c + column x y lo) / 2 ^ w) (by omega) hc'
    simp only [chainList, hstep, value_cons]
    refine ⟨?_, ?_⟩
    · rw [Finset.sum_range_succ']
      have e : ∀ i ∈ Finset.range n, column x y (lo + (i + 1)) * (2 ^ w) ^ (i + 1)
          = 2 ^ w * (column x y (lo + 1 + i) * (2 ^ w) ^ i) := by
        intro i _
        have : lo + (i + 1) = lo + 1 + i := by omega
        rw [this]; ring
      rw [Finset.sum_congr rfl e, ← Finset.mul_sum]
      have hd := Nat.mod_add_div (c + column x y lo) (2 ^ w)
      have e2 : (c + column x y lo) % 2 ^ w
            + 2 ^ w * value w (chainList (combaG w N x y) (lo + 1) n
                ((c + column x y lo) / 2 ^ w)).1
            + (2 ^ w) ^ (n + 1) * (chainList (combaG w N x y) (lo + 1) n
                ((c + column x y lo) / 2 ^ w)).2
          = (c + column x y lo) % 2 ^ w + 2 ^ w *
              (value w (chainList (combaG w N x y) (lo + 1) n
                  ((c + column x y lo) / 2 ^ w)).1
                + (2 ^ w) ^ n * (chainList (combaG w N x y) (lo + 1) n
                  ((c + column x y lo) / 2 ^ w)).2) := by ring
      rw [e2, ihv]
      simp only [Nat.add_zero, pow_zero, mul_one]
      linarith
    · intro a ha
      simp only [List.mem_cons] at ha
      rcases ha with rfl | ha
      · exact Nat.mod_lt _ hM
      · exact ihw a ha

/-- C3: for every `N` (a word count that itself fits in a word, `N ≤ 2^w`; `N ≥ 1` is not
needed) and all
`N`-word arrays `x` and `y`, the generic path of `comba_mul<N>` writes to `z[0:2N]` exactly
the `2N`-word little-endian representation of `value(x) * value(y)`: the three-word
accumulator never overflows. -/
theorem comba_mul_spec (w N : Nat) (z x y : List Nat) (hN : N ≤ 2 ^ w)
    (hx : x.length = N) (hy : y.length = N) (hz : 2 * N ≤ z.length)
    (hwx : IsWords w x) (hwy : IsWords w y) :
    (comba_mul w N z x y).length = z.length ∧
    (comba_mul w N z x y).drop (2 * N) = z.drop (2 * N) ∧
    IsWords w ((comba_mul w N z x y).take (2 * N)) ∧
    value w ((comba_mul w N z x y).take (2 * N)) = value w x * value w y := by
  have hloop : comba_mul w N z x y
      = (forRange 0 (0 + 2 * N) (chainBody (combaG w N x y)) (z, 0)).1 := by
    rw [Nat.zero_add]; rfl
  rw [hloop, chain_forRange (combaG w N x y) (2 * N) 0 z 0 (by omega)]
  simp only [Nat.zero_add, List.take_zero, List.nil_append]
  obtain ⟨hv, hw⟩ := comba_chain w N x y hx hy hwx hwy hN (2 * N) 0 0 (by omega)
    (Nat.zero_le _)
  simp only [Nat.zero_add] at hv
  rw [column_sum w x y (2 * N) (by omega)] at hv
  have hlt := value_lt w _ hw
  rw [chainList_length] at hlt
  have hxl := value_lt w x hwx
  have hyl := value_lt w y hwy
  rw [hx] at hxl
  rw [hy] at hyl
  have hprod : value w x * value w y < (2 ^ w) ^ (2 * N) := by
    have e : (2 ^ w) ^ (2 * N) = 2 ^ (w * N) * 2 ^ (w * N) := by
      rw [← pow_mul, ← pow_add]; congr 1; ring
    rw [e]
    exact Nat.mul_lt_mul'' hxl hyl
  have hcz : (chainList (combaG w N x y) 0 (2 * N) 0).2 = 0 := by
    by_contra hne
    have h1 : 1 ≤ (chainList (combaG w N x y) 0 (2 * N) 0).2 := by omega
    have h2 : (2 ^ w) ^ (2 * N) * 1 ≤ (2 ^ w) ^ (2 * N) * (chainList (combaG w N x y) 0 (2 * N) 0).2 :=
      Nat.mul_le_mul_left _ h1
    omega
  rw [hcz] at hv
  refine ⟨by simp [chainList_length]; omega, drop_chain_append _ _ _ _, ?_, ?_⟩
  · rw [take_chain_append]; exact hw
  · rw [take_chain_append]; simpa using hv

/-- The statement of `comba_mul_spec` on 64-bit words, at two 2-word operands whose
column sums exceed two words. -/
theorem comba_mul_spec_witness :
    (comba_mul 64 2 [7, 7, 7, 7, 7] [2 ^ 64 - 1, 2 ^ 64 - 1] [2 ^ 64 - 1, 2 ^ 64 - 1]).length
      = [7, 7, 7, 7, 7].length ∧
    (comba_mul 64 2 [7, 7, 7, 7, 7] [2 ^ 64 - 1, 2 ^ 64 - 1] [2 ^ 64 - 1, 2 ^ 64 - 1]).drop (2 * 2)
      = [7, 7, 7, 7, 7].drop (2 * 2) ∧
    IsWords 64 ((comba_mul 64 2 [7, 7, 7, 7, 7] [2 ^ 64 - 1, 2 ^ 64 - 1]
      [2 ^ 64 - 1, 2 ^ 64 - 1]).take (2 * 2)) ∧
    value 64 ((comba_mul 64 2 [7, 7, 7, 7, 7] [2 ^ 64 - 1, 2 ^ 64 - 1]
      [2 ^ 64 - 1, 2 ^ 64 - 1]).take (2 * 2))
      = value 64 [2 ^ 64 - 1, 2 ^ 64 - 1] * value 64 [2 ^ 64 - 1, 2 ^ 64 - 1] :=
  comba_mul_spec 64 2 [7, 7, 7, 7, 7] [2 ^ 64 - 1, 2 ^ 64 - 1] [2 ^ 64 - 1, 2 ^ 64 - 1]
    (by norm_num) rfl rfl (by decide) (by unfold IsWords; simp)
    (by unfold IsWords; simp)

/-! ## Crandall reduction -/

/-- The three loops of `bigint_add2` are one addition chain over `x[0 .. x_size)`. -/
theorem bigint_add2_eq (w : Nat) (x : List Nat) (x_size : Nat) (y : List Nat)
    (y_size : Nat) (hy : y.length = y_size) (hxy : y_size ≤ x_size) (hx : x_size ≤ x.length) :
    bigint_add2 w x x_size y y_size
      = .ok ((chainList (addG w x y) 0 x_size 0).1 ++ x.drop x_size,
          (chainList (addG w x y) 0 x_size 0).2) := by
  unfold bigint_add2
  rw [if_neg (by omega)]
  simp only []
  have hbody : ∀ t, forRange y_size x_size (fun i s =>
        ((s.1.set i (word_add w (rd s.1 i) 0 s.2).1), (word_add w (rd s.1 i) 0 s.2).2)) t
      = forRange y_size x_size (fun i s =>
        ((s.1.set i (word_add w (rd s.1 i) (rd y i) s.2).1),
          (word_add w (rd s.1 i) (rd y i) s.2).2)) t := by
    intro t
    apply forRange_congr
    intro i u h1 _
    simp only [rd_of_ge y i (by omega)]
  rw [blocks_eq, forBlocks8_eq (y_size / 8) _ (fun i s =>
    ((s.1.set i (word_add w (rd s.1 i) (rd y i) s.2).1),
      (word_add w (rd s.1 i) (rd y i) s.2).2))]
  · rw [hbody, ← forRange_split 0 (8 * (y_size / 8)) y_size (Nat.zero_le _) (by omega),
      ← forRange_split 0 y_size x_size (Nat.zero_le _) hxy,
      inplace_forRange (fun i a d => word_add w a (rd y i) d) 0 x_size x 0]
    have := chain_forRange (addG w x y) x_size 0 x 0 (by omega)
    simp only [Nat.zero_add, List.take_zero, List.nil_append] at this
    exact congrArg Except.ok this
  · intro i t
    rw [← forRange_shift]
    rfl

theorem madd_chain_value (w N C : Nat) (z : List Nat) (n lo c : Nat) :
    value w (chainList (maddG w N C z) lo n c).1
        + 2 ^ (w * n) * (chainList (maddG w N C z) lo n c).2
      = C * value w (slice z (lo + N) n) + value w (slice z lo n) + c ∧
    IsWords w (chainList (maddG w N C z) lo n c).1 := by
  induction n generalizing lo c with
  | zero =>
    refine ⟨by simp [chainList, slice_zero, value_nil], ?_⟩
    intro a ha; simp [chainList] at ha
  | succ n ih =>
    obtain ⟨h, hw⟩ := ih (lo + 1) (maddG w N C z lo c).2
    simp only [chainList, slice_succ, value_cons]
    refine ⟨?_, ?_⟩
    · have hd : (maddG w N C z lo c).1 + 2 ^ w * (maddG w N C z lo c).2
          = rd z (lo + N) * C + rd z lo + c := by
        simp only [maddG, word_madd3]; exact Nat.mod_add_div _ _
      have e : lo + 1 + N = lo + N + 1 := by omega
      rw [e] at h
      rw [Nat.mul_succ, pow_add]
      have e2 : (maddG w N C z lo c).1
            + 2 ^ w * value w (chainList (maddG w N C z) (lo + 1) n (maddG w N C z lo c).2).1
            + 2 ^ (w * n) * 2 ^ w * (chainList (maddG w N C z) (lo + 1) n (maddG w N C z lo c).2).2
          = (maddG w N C z lo c).1 + 2 ^ w *
              (value w (chainList (maddG w N C z) (lo + 1) n (maddG w N C z lo c).2).1
                + 2 ^ (w * n) * (chainList (maddG w N C z) (lo + 1) n (maddG w N C z lo c).2).2) := by
        ring
      rw [e2, h]
      linarith
    · intro a ha
      simp only [List.mem_cons] at ha
      rcases ha with rfl | ha
      · exact Nat.mod_lt _ (Nat.two_pow_pos w)
      · exact hw a ha

theorem value_replicate_max (w n : Nat) :
    value w (List.replicate n (word_max w)) + 1 = 2 ^ (w * n) := by
  induction n with
  | zero => simp [value_nil]
  | succ n ih =>
    rw [List.replicate_succ, value_cons, Nat.mul_succ, pow_add]
    have h := Nat.two_pow_pos w
    have e : word_max w + 1 = 2 ^ w := by unfold word_max; omega
    calc word_max w + 2 ^ w * value w (List.replicate n (word_max w)) + 1
        = (word_max w + 1) + 2 ^ w * value w (List.replicate n (word_max w)) := by ring
      _ = 2 ^ w * (value w (List.replicate n (word_max w)) + 1) := by rw [e]; ring
      _ = 2 ^ (w * n) * 2 ^ w := by rw [ih]; ring

theorem crandallP_spec (w N C : Nat) (hN : 1 ≤ N) (hC1 : 1 ≤ C) (hC : C < 2 ^ w) :
    value w (crandallP w N C) + C = 2 ^ (w * N) ∧ IsWords w (crandallP w N C) ∧
      (crandallP w N C).length = N := by
  have h := Nat.two_pow_pos w
  have hP0 : (word_max w + (2 ^ w - (C - 1) % 2 ^ w)) % 2 ^ w = 2 ^ w - C := by
    rw [Nat.mod_eq_of_lt (by omega : C - 1 < 2 ^ w)]
    have e : word_max w + (2 ^ w - (C - 1)) = (2 ^ w - C) + 2 ^ w := by unfold word_max; omega
    rw [e, Nat.add_mod_right, Nat.mod_eq_of_lt (by omega)]
  unfold crandallP
  rw [hP0]
  refine ⟨?_, ?_, by simp; omega⟩
  · obtain ⟨n, rfl⟩ : ∃ n, N = n + 1 := ⟨N - 1, by omega⟩
    have hr := value_replicate_max w n
    rw [value_cons, Nat.add_sub_cancel, Nat.mul_succ, pow_add]
    have e : 2 ^ w * value w (List.replicate n (word_max w)) + 2 ^ w = 2 ^ (w * n) * 2 ^ w := by
      rw [← hr]; ring
    omega
  · intro a ha
    simp only [List.mem_cons] at ha
    rcases ha with rfl | ha
    · omega
    · rw [List.eq_of_mem_replicate ha]; exact word_max_lt w

/-- A loop that rewrites `d[i]` from `d[i]` alone, for `i < n`. -/
theorem map_forRange (f : Nat → Nat → Nat) (n : Nat) (d : List Nat) (hn : n ≤ d.length) :
    forRange 0 n (fun i t => t.set i (f i (rd t i))) d
      = (List.range n).map (fun i => f i (rd d i)) ++ d.drop n := by
  induction n with
  | zero => simp [forRange_self]
  | succ n ih =>
    rw [forRange_succ 0 n (Nat.zero_le _), ih (by omega), List.range_succ, List.map_append]
    have hlen : ((List.range n).map (fun i => f i (rd d i))).length = n := by simp
    generalize (List.range n).map (fun i => f i (rd d i)) = L at hlen
    have hd : d.drop n = d[n] :: d.drop (n + 1) := by
      rw [List.drop_eq_getElem_cons (by omega)]
    have hrd : rd (L ++ d.drop n) n = rd d n := by
      simp only [rd, List.getD_eq_getElem?_getD]
      rw [List.getElem?_append_right (by omega), hlen, Nat.sub_self, List.getElem?_drop,
        Nat.add_zero]
    rw [hrd, List.set_append_right _ _ (by omega), hlen, Nat.sub_self, hd, List.set_cons_zero]
    simp

theorem conditional_assign_mem_clear (w : Nat) (dest src : List Nat) (n : Nat)
    (hn : n ≤ dest.length) : conditional_assign_mem w 0 dest src n = dest := by
  unfold conditional_assign_mem Mask.expand
  simp only [ne_eq, not_true_eq_false, if_false, select_clear]
  refine (map_forRange (fun _ a => a) n dest hn).trans ?_
  have : (List.range n).map (fun i => rd dest i) = dest.take n := by
    apply List.ext_getElem
    · simp [hn]
    · intro i h1 h2
      simp only [List.length_map, List.length_range] at h1
      simp [rd, List.getElem?_eq_getElem (by omega : i < dest.length)]
  rw [this, List.take_append_drop]

theorem conditional_assign_mem_set (w cnd : Nat) (hc : cnd ≠ 0) (dest src : List Nat)
    (hd : IsWords w dest) (hs : IsWords w src) (hn : src.length = dest.length) :
    conditional_assign_mem w cnd dest src src.length = src := by
  unfold conditional_assign_mem Mask.expand
  simp only [ne_eq, hc, not_false_eq_true, if_true]
  have hb : ∀ t : List Nat, forRange 0 src.length
        (fun i t => t.set i (Mask.select (word_max w) (rd src i) (rd t i))) t
      = forRange 0 src.length (fun i t => t.set i (if rd t i < 2 ^ w then rd src i else
          Mask.select (word_max w) (rd src i) (rd t i))) t := by
    intro t
    apply forRange_congr
    intro i u _ _
    split
    · rename_i h; rw [select_set w _ _ (rd_lt w src hs i) h]
    · rfl
  rw [hb]
  refine (map_forRange (fun j a => if a < 2 ^ w then rd src j else
    Mask.select (word_max w) (rd src j) a) src.length dest (by omega)).trans ?_
  rw [List.drop_of_length_le (by omega), List.append_nil]
  apply List.ext_getElem
  · simp
  · intro i h1 h2
    have h3 := rd_lt w dest hd i
    simp only [List.getElem_map, List.getElem_range, if_pos h3]
    exact rd_eq_getElem src i h2

theorem crandall_fold_loop (w N C : Nat) (z : List Nat) :
    forRange 0 N (fun i s =>
        ((s.1.set i (word_madd3 w (rd z (i + N)) C (rd z i) s.2).1),
          (word_madd3 w (rd z (i + N)) C (rd z i) s.2).2)) (List.replicate N 0, 0)
      = chainList (maddG w N C z) 0 N 0 := by
  have h := chain_forRange (maddG w N C z) N 0 (List.replicate N 0) 0 (by simp)
  simp only [Nat.zero_add, List.take_zero, List.nil_append] at h
  rw [List.drop_of_length_le (by simp), List.append_nil] at h
  exact h

theorem crandall_sub_loop (w N C : Nat) (hi : List Nat) (hN : 1 ≤ N) :
    forRange 1 N (fun i s =>
        ((s.1.set i (word_sub w (rd hi i) (word_max w) s.2).1),
          (word_sub w (rd hi i) (word_max w) s.2).2))
        ((List.replicate N 0).set 0
          (word_sub w (rd hi 0) ((word_max w + (2 ^ w - (C - 1) % 2 ^ w)) % 2 ^ w) 0).1,
          (word_sub w (rd hi 0) ((word_max w + (2 ^ w - (C - 1) % 2 ^ w)) % 2 ^ w) 0).2)
      = chainList (subG w hi (crandallP w N C)) 0 N 0 := by
  have h := chain_forRange (subG w hi (crandallP w N C)) N 0 (List.replicate N 0) 0 (by simp)
  simp only [Nat.zero_add, List.take_zero, List.nil_append] at h
  rw [List.drop_of_length_le (by simp), List.append_nil, Prod.mk.eta] at h
  rw [← h, forRange_first 0 N (by omega)]
  have e : chainBody (subG w hi (crandallP w N C)) 0 (List.replicate N 0, 0)
      = ((List.replicate N 0).set 0
          (word_sub w (rd hi 0) ((word_max w + (2 ^ w - (C - 1) % 2 ^ w)) % 2 ^ w) 0).1,
          (word_sub w (rd hi 0) ((word_max w + (2 ^ w - (C - 1) % 2 ^ w)) % 2 ^ w) 0).2) := by
    simp [chainBody, subG, crandallP, rd_cons_zero]
  rw [e]
  apply forRange_congr
  intro i t h1 h2
  have hr : rd (crandallP w N C) i = word_max w := by
    obtain ⟨j, rfl⟩ : ∃ j, i = j + 1 := ⟨i - 1, by omega⟩
    unfold crandallP
    rw [rd_cons_succ, rd_eq_getElem _ _ (by simp; omega)]
    simp
  simp only [chainBody, subG, hr]

/-- The portable path of `redc_crandall` as four chains: fold, add the folded carry,
subtract `p`, select. -/
theorem redc_crandall_unfold (w N C : Nat) (z : List Nat) (hN : 2 ≤ N) :
    redc_crandall w N C z = .ok (conditional_assign_mem w
      (if ((chainList (addG w (chainList (maddG w N C z) 0 N 0).1
              [(word_madd2 w (chainList (maddG w N C z) 0 N 0).2 C 0).1,
                (word_madd2 w (chainList (maddG w N C z) 0 N 0).2 C 0).2]) 0 N 0).2
            + (2 ^ w - (chainList (subG w (chainList (addG w (chainList (maddG w N C z) 0 N 0).1
              [(word_madd2 w (chainList (maddG w N C z) 0 N 0).2 C 0).1,
                (word_madd2 w (chainList (maddG w N C z) 0 N 0).2 C 0).2]) 0 N 0).1
              (crandallP w N C)) 0 N 0).2 % 2 ^ w)) % 2 ^ w
          > (chainList (addG w (chainList (maddG w N C z) 0 N 0).1
              [(word_madd2 w (chainList (maddG w N C z) 0 N 0).2 C 0).1,
                (word_madd2 w (chainList (maddG w N C z) 0 N 0).2 C 0).2]) 0 N 0).2
        then 1 else 0)
      (chainList (subG w (chainList (addG w (chainList (maddG w N C z) 0 N 0).1
          [(word_madd2 w (chainList (maddG w N C z) 0 N 0).2 C 0).1,
            (word_madd2 w (chainList (maddG w N C z) 0 N 0).2 C 0).2]) 0 N 0).1
          (crandallP w N C)) 0 N 0).1
      (chainList (addG w (chainList (maddG w N C z) 0 N 0).1
          [(word_madd2 w (chainList (maddG w N C z) 0 N 0).2 C 0).1,
            (word_madd2 w (chainList (maddG w N C z) 0 N 0).2 C 0).2]) 0 N 0).1
      N) := by
  unfold redc_crandall
  simp only [crandall_fold_loop]
  have hcc : ∀ m : Nat × Nat, ([0, 0].set 1 m.2).set 0 m.1 = [m.1, m.2] := fun m => rfl
  have hrd : rd [0, 0] 1 = 0 := rfl
  simp only [hcc, hrd]
  rw [bigint_add2_eq w (chainList (maddG w N C z) 0 N 0).1 N
    [(word_madd2 w (chainList (maddG w N C z) 0 N 0).2 C 0).1,
      (word_madd2 w (chainList (maddG w N C z) 0 N 0).2 C 0).2] 2 rfl hN
    (by rw [chainList_length])]
  simp only [bind, Except.bind, pure, Except.pure]
  rw [List.drop_of_length_le (by rw [chainList_length]), List.append_nil]
  rw [crandall_sub_loop w N C _ (by omega)]

/-- The arithmetic of `redc_crandall`: with `B = 2^(N*w)`, `(c1, H1)` the folded value,
`(c2, H2)` the value after the folded carry is added, `b` and `R` the borrow and the words
of the trial subtraction of `p = B - C`, the selected words are the residue. -/
theorem crandall_arith (M B C Zl Zh H1 c1 H2 c2 R b : Nat) (hC1 : 1 ≤ C) (hC : C < M)
    (hB : M * M ≤ B) (hZl : Zl < B) (hZh : Zh < B) (hH1 : H1 < B) (hR : R < B)
    (h1 : H1 + B * c1 = C * Zh + Zl) (h2 : H2 + B * c2 = H1 + c1 * C) (hc2 : c2 ≤ 1)
    (h3 : R + (B - C) = H2 + B * b) (hb : b ≤ 1) :
    (if c2 = 0 ∧ b = 1 then H2 else R) = (Zl + B * Zh) % (B - C) ∧
      (if c2 = 0 ∧ b = 1 then H2 else R) < B - C := by
  have hCC : (C + 1) * (C + 1) ≤ M * M := Nat.mul_le_mul (by omega) (by omega)
  have hCC2 : C * C + 2 * C + 1 ≤ B := by
    have : (C + 1) * (C + 1) = C * C + 2 * C + 1 := by ring
    omega
  obtain ⟨p, rfl⟩ : ∃ p, B = p + C := ⟨B - C, by omega⟩
  rw [Nat.add_sub_cancel] at h3 ⊢
  have hc1 : c1 ≤ C := by
    by_contra hcon
    have ha : C * Zh ≤ C * (p + C) := Nat.mul_le_mul_left _ hZh.le
    have hb' : (p + C) * (C + 1) ≤ (p + C) * c1 := Nat.mul_le_mul_left _ (by omega)
    rw [Nat.mul_succ, Nat.mul_comm (p + C) C] at hb'
    omega
  have hc1C : c1 * C ≤ C * C := Nat.mul_le_mul_right _ hc1
  have key : Zl + (p + C) * Zh = H2 + (p + C) * c2 + p * (c1 + Zh) := by linarith
  have hmod : ∀ r k, r < p → Zl + (p + C) * Zh = r + p * k → r = (Zl + (p + C) * Zh) % p := by
    intro r k hr he
    rw [he, Nat.add_mul_mod_self_left, Nat.mod_eq_of_lt hr]
  have hc2' : c2 = 0 ∨ c2 = 1 := by omega
  have hb2 : b = 0 ∨ b = 1 := by omega
  rcases hc2' with rfl | rfl <;> rcases hb2 with rfl | rfl
  · simp only [mul_zero, add_zero] at h2 h3 key
    have hR2 : R < p := by omega
    simp only [(by decide : ¬ ((0 : Nat) = 0 ∧ (0 : Nat) = 1)), if_false]
    exact ⟨hmod R (c1 + Zh + 1) hR2 (by rw [key, ← h3]; ring), hR2⟩
  · simp only [mul_zero, add_zero, mul_one] at h2 h3 key
    have hH2 : H2 < p := by omega
    simp only [and_self, if_true]
    exact ⟨hmod H2 (c1 + Zh) hH2 key, hH2⟩
  · simp only [mul_zero, add_zero, mul_one] at h2 h3 key
    omega
  · simp only [mul_one] at h2 h3 key
    have hR2 : R < p := by omega
    simp only [(by decide : ¬ ((1 : Nat) = 0 ∧ (1 : Nat) = 1)), if_false]
    exact ⟨hmod R (c1 + Zh + 1) hR2 (by rw [key, ← h3]; ring), hR2⟩

/-- C2: for every `N ≥ 2`, every word constant `C ≥ 1` and every `2N`-word input `z`,
with `p = 2^(N*w) - C`, the portable path of `redc_crandall<W, N, C>(z)` returns an
`N`-word array whose value is `value(z) mod p`, so strictly below `p` also when the folded
value is exactly `p`. This holds for every `2N`-word `z`, in particular for the inputs of
value at most `(p - 1)^2` the function is documented for. -/
theorem redc_crandall_spec (w N C : Nat) (z : List Nat) (hN : 2 ≤ N) (hC1 : 1 ≤ C)
    (hC : C < 2 ^ w) (hz : z.length = 2 * N) (hwz : IsWords w z) :
    ∃ r, redc_crandall w N C z = .ok r ∧ r.length = N ∧ IsWords w r ∧
      value w r = value w z % (2 ^ (N * w) - C) ∧ value w r < 2 ^ (N * w) - C := by
  have hM : 0 < 2 ^ w := Nat.two_pow_pos w
  have hM1 : 1 < 2 ^ w := by omega
  rw [redc_crandall_unfold w N C z hN]
  -- the fold
  obtain ⟨hv1, hw1⟩ := madd_chain_value w N C z N 0 0
  set F := chainList (maddG w N C z) 0 N 0 with hF
  have hl1 : F.1.length = N := chainList_length _ _ _ _
  have hH1 := value_lt w _ hw1
  rw [hl1] at hH1
  have hZl := value_lt w _ (isWords_slice w z hwz 0 N)
  have hZh := value_lt w _ (isWords_slice w z hwz (0 + N) N)
  rw [slice_length] at hZl hZh
  have hzv : value w z = value w (slice z 0 N) + 2 ^ (w * N) * value w (slice z (0 + N) N) := by
    have := value_slice_split w z N N
    rw [← two_mul, ← hz, slice_full] at this
    rw [this, Nat.zero_add]
  -- the folded carry is at most C, so carry * C fits two words
  have hc1 : F.2 ≤ C := by
    by_contra hcon
    have ha : C * value w (slice z (0 + N) N) ≤ C * 2 ^ (w * N) := Nat.mul_le_mul_left _ hZh.le
    have hb' : 2 ^ (w * N) * (C + 1) ≤ 2 ^ (w * N) * F.2 := Nat.mul_le_mul_left _ (by omega)
    rw [Nat.mul_succ, Nat.mul_comm (2 ^ (w * N)) C] at hb'
    omega
  set cc := [(word_madd2 w F.2 C 0).1, (word_madd2 w F.2 C 0).2] with hcc
  have hccv : value w cc = F.2 * C := by
    simp only [hcc, value_cons, value_nil, word_madd2, Nat.add_zero, Nat.mul_zero]
    exact Nat.mod_add_div _ _
  have hccw : IsWords w cc := by
    intro a ha
    simp only [hcc, List.mem_cons, List.mem_singleton, List.not_mem_nil, or_false] at ha
    have hlt : F.2 * C < 2 ^ w * 2 ^ w := Nat.mul_lt_mul'' (by omega) hC
    rcases ha with rfl | rfl
    · exact Nat.mod_lt _ hM
    · simp only [word_madd2, Nat.add_zero]
      exact Nat.div_lt_of_lt_mul hlt
  -- the addition of the folded carry
  have hv2 := add_chain_value w F.1 cc N 0 0
  have hc2 := add_chain_carry w F.1 cc hw1 hccw N 0 0 (by omega)
  have hw2 := add_chain_words w F.1 cc N 0 0
  rw [value_slice_ge w F.1 N (by omega), value_slice_ge w cc N (by simp [hcc]; omega), hccv]
    at hv2
  set A := chainList (addG w F.1 cc) 0 N 0 with hA
  have hl2 : A.1.length = N := chainList_length _ _ _ _
  -- the trial subtraction
  obtain ⟨hpv, hpw, hpl⟩ := crandallP_spec w N C (by omega) hC1 hC
  obtain ⟨hv3, hb3, hw3⟩ := sub_chain_value w A.1 (crandallP w N C) hw2 hpw N 0 0 (by omega)
  rw [value_slice_ge w A.1 N (by omega), value_slice_ge w (crandallP w N C) N (by omega)] at hv3
  set S := chainList (subG w A.1 (crandallP w N C)) 0 N 0 with hS
  have hl3 : S.1.length = N := chainList_length _ _ _ _
  have hR := value_lt w _ hw3
  rw [hl3] at hR
  have hBB : 2 ^ w * 2 ^ w ≤ 2 ^ (w * N) := by
    rw [← pow_add]
    apply Nat.pow_le_pow_right (by norm_num)
    have := Nat.mul_le_mul_left w hN
    omega
  have hNw : 2 ^ (N * w) = 2 ^ (w * N) := by rw [Nat.mul_comm]
  have harith := crandall_arith (2 ^ w) (2 ^ (w * N)) C (value w (slice z 0 N))
    (value w (slice z (0 + N) N)) (value w F.1) F.2 (value w A.1) A.2 (value w S.1) S.2
    hC1 hC hBB hZl hZh hH1 hR (by linarith) (by linarith) hc2 (by omega) hb3
  rw [← hzv, ← hNw] at harith
  -- the selection
  by_cases hsel : A.2 = 0 ∧ S.2 = 1
  · have hcnd : (if (A.2 + (2 ^ w - S.2 % 2 ^ w)) % 2 ^ w > A.2 then 1 else 0) ≠ 0 := by
      rw [hsel.1, hsel.2, Nat.mod_eq_of_lt hM1, Nat.zero_add, Nat.mod_eq_of_lt (by omega),
        if_pos (by omega)]
      omega
    have hres := conditional_assign_mem_set w _ hcnd S.1 A.1 hw3 hw2 (by omega)
    rw [hl2] at hres
    rw [if_pos hsel] at harith
    exact ⟨A.1, by rw [hres], hl2, hw2, harith.1, harith.2⟩
  · have hcnd : (if (A.2 + (2 ^ w - S.2 % 2 ^ w)) % 2 ^ w > A.2 then 1 else 0) = 0 := by
      have ha : A.2 = 0 ∨ A.2 = 1 := by omega
      have hs : S.2 = 0 ∨ S.2 = 1 := by omega
      rcases ha with ha | ha <;> rcases hs with hs | hs
      · rw [ha, hs]; simp
      · exact absurd ⟨ha, hs⟩ hsel
      · rw [ha, hs]
        simp only [Nat.zero_mod, Nat.sub_zero, Nat.add_mod_right, Nat.mod_eq_of_lt hM1]
        simp
      · rw [ha, hs, Nat.mod_eq_of_lt hM1]
        have e : 1 + (2 ^ w - 1) = 2 ^ w := by omega
        rw [e, Nat.mod_self]; simp
    rw [hcnd, conditional_assign_mem_clear w S.1 A.1 N (by omega)]
    rw [if_neg hsel] at harith
    exact ⟨S.1, rfl, hl3, hw3, harith.1, harith.2⟩

/-- The statement of `redc_crandall_spec` on 64-bit words with `N = 2`, `C = 3`, at the
input whose folded value is exactly `p = 2^128 - 3`. -/
theorem redc_crandall_spec_witness :
    ∃ r, redc_crandall 64 2 3 [2 ^ 64 - 3, 2 ^ 64 - 1, 0, 0] = .ok r ∧ r.length = 2 ∧
      IsWords 64 r ∧
      value 64 r = value 64 [2 ^ 64 - 3, 2 ^ 64 - 1, 0, 0] % (2 ^ (2 * 64) - 3) ∧
      value 64 r < 2 ^ (2 * 64) - 3 :=
  redc_crandall_spec 64 2 3 [2 ^ 64 - 3, 2 ^ 64 - 1, 0, 0] (by decide) (by decide)
    (by norm_num) rfl (by unfold IsWords; simp)

/-! ## `bigint_monty_maybe_sub` -/

theorem range_map_rd (x : List Nat) (n : Nat) : (List.range n).map (rd x) = slice x 0 n := by
  unfold slice; rw [List.range_eq_range']

/-- The outcome of `conditional_assign_mem` on the `n` low words of `dest`. -/
theorem conditional_assign_mem_eq (w cnd : Nat) (dest src : List Nat) (n : Nat)
    (hn : n ≤ dest.length) (hd : ∀ i, i < n → rd dest i < 2 ^ w)
    (hs : ∀ i, i < n → rd src i < 2 ^ w) :
    conditional_assign_mem w cnd dest src n
      = if cnd ≠ 0 then slice src 0 n ++ dest.drop n else dest := by
  by_cases hc : cnd = 0
  · subst hc
    rw [if_neg (by simp), conditional_assign_mem_clear w dest src n hn]
  · rw [if_pos hc]
    unfold conditional_assign_mem Mask.expand
    simp only [ne_eq, hc, not_false_eq_true, if_true]
    refine (map_forRange (fun j a => Mask.select (word_max w) (rd src j) a) n dest hn).trans ?_
    congr 1
    rw [← range_map_rd]
    apply List.map_congr_left
    intro i hi
    rw [List.mem_range] at hi
    exact select_set w _ _ (hs i hi) (hd i hi)

theorem rd_append_left (a b : List Nat) (i : Nat) (h : i < a.length) :
    rd (a ++ b) i = rd a i := by
  unfold rd; exact List.getD_append _ _ _ _ h

/-- The block loop and the remainder loop of the dynamic `bigint_monty_maybe_sub` are one
subtraction chain. -/
theorem monty_sub_loop (w N : Nat) (z x p : List Nat) :
    forRange (N - N % 8) N (fun i s =>
        ((s.1.set i (word_sub w (rd x i) (rd p i) s.2).1),
          (word_sub w (rd x i) (rd p i) s.2).2))
        (forBlocks8 (N - N % 8) (fun i s => word8_sub3 w s.1 x p i s.2) (z, 0))
      = forRange 0 N (chainBody (subG w x p)) (z, 0) := by
  rw [blocks_eq, forBlocks8_eq (N / 8) _ (chainBody (subG w x p))]
  · rw [forRange_split 0 (8 * (N / 8)) N (Nat.zero_le _) (by omega)]
    rfl
  · intro i t
    rw [← forRange_shift]
    rfl

/-- The arithmetic of the conditional subtraction: `R` and `b` are the words and the borrow
of `X - P` over `B = M^N`, and `x0` is the word above `X`. -/
theorem maybe_sub_arith (M B x0 X P R b : Nat) (hM : 0 < M) (hx0 : x0 < M) (hX : X < B)
    (hP : P < B) (hR : R < B) (hb : b ≤ 1) (h : R + P = X + B * b) (hMB : M = 1 → B = 1) :
    ((if (x0 + (M - b % M)) % M > x0 then 1 else 0) ≠ 0 ↔ x0 * B + X < P) ∧
    (P ≤ x0 * B + X → R = (x0 * B + X - P) % B) := by
  have hb' : b = 0 ∨ b = 1 := by omega
  rcases hb' with rfl | rfl
  · simp only [Nat.zero_mod, Nat.sub_zero, Nat.add_mod_right, Nat.mod_eq_of_lt hx0,
      mul_zero, add_zero] at h ⊢
    refine ⟨?_, ?_⟩
    · simp only [gt_iff_lt, lt_irrefl, if_false, ne_eq, not_true_eq_false, false_iff, not_lt]
      have : 0 ≤ x0 * B := Nat.zero_le _
      omega
    · intro _
      have e : x0 * B + X - P = R + B * x0 := by rw [Nat.mul_comm]; omega
      rw [e, Nat.add_mul_mod_self_left, Nat.mod_eq_of_lt hR]
  · have hM1 : 1 < M := by
      by_contra hcon
      have : M = 1 := by omega
      have := hMB this
      omega
    rw [Nat.mod_eq_of_lt hM1]
    simp only [mul_one] at h
    rcases Nat.eq_zero_or_pos x0 with rfl | hpos
    · simp only [Nat.zero_add, Nat.zero_mul]
      rw [Nat.mod_eq_of_lt (by omega), if_pos (by omega)]
      exact ⟨by simp; omega, by intro h2; omega⟩
    · have e : x0 + (M - 1) = (x0 - 1) + M := by omega
      rw [e, Nat.add_mod_right, Nat.mod_eq_of_lt (by omega), if_neg (by omega)]
      have hge : B ≤ x0 * B := Nat.le_mul_of_pos_left _ hpos
      refine ⟨by simp; omega, ?_⟩
      intro _
      obtain ⟨k, rfl⟩ : ∃ k, x0 = k + 1 := ⟨x0 - 1, by omega⟩
      have e2 : (k + 1) * B + X - P = R + B * k := by
        rw [Nat.succ_mul, Nat.mul_comm k B]; omega
      rw [e2, Nat.add_mul_mod_self_left, Nat.mod_eq_of_lt hR]

/-- What both overloads of `bigint_monty_maybe_sub` leave in `z`. -/
theorem bigint_monty_maybe_sub_eq (w N : Nat) (z : List Nat) (x0 : Nat) (x p : List Nat)
    (hx : x.length = N) (hp : p.length = N) (hz : N ≤ z.length) (hx0 : x0 < 2 ^ w)
    (hwx : IsWords w x) (hwp : IsWords w p) :
    bigint_monty_maybe_sub_N w N z x0 x p = bigint_monty_maybe_sub w N z x0 x p ∧
    (x0 * 2 ^ (N * w) + value w x < value w p →
      bigint_monty_maybe_sub w N z x0 x p = x ++ z.drop N) ∧
    (value w p ≤ x0 * 2 ^ (N * w) + value w x →
      ∃ r, bigint_monty_maybe_sub w N z x0 x p = r ++ z.drop N ∧ r.length = N ∧
        IsWords w r ∧ value w r = (x0 * 2 ^ (N * w) + value w x - value w p) % 2 ^ (N * w)) := by
  have hM : 0 < 2 ^ w := Nat.two_pow_pos w
  have hsame : bigint_monty_maybe_sub_N w N z x0 x p = bigint_monty_maybe_sub w N z x0 x p := by
    unfold bigint_monty_maybe_sub_N bigint_monty_maybe_sub
    simp only []
    rw [monty_sub_loop]
    rfl
  refine ⟨hsame, ?_⟩
  rw [← hsame]
  unfold bigint_monty_maybe_sub_N
  simp only []
  have hloop : forRange 0 N (fun i s =>
        ((s.1.set i (word_sub w (rd x i) (rd p i) s.2).1),
          (word_sub w (rd x i) (rd p i) s.2).2)) (z, 0)
      = ((chainList (subG w x p) 0 N 0).1 ++ z.drop N, (chainList (subG w x p) 0 N 0).2) := by
    have := chain_forRange (subG w x p) N 0 z 0 (by omega)
    simp only [Nat.zero_add, List.take_zero, List.nil_append] at this
    exact this
  rw [hloop]
  obtain ⟨hv, hb, hw⟩ := sub_chain_value w x p hwx hwp N 0 0 (by omega)
  rw [value_slice_ge w x N (by omega), value_slice_ge w p N (by omega)] at hv
  have hl : (chainList (subG w x p) 0 N 0).1.length = N := chainList_length _ _ _ _
  have hR := value_lt w _ hw
  have hX := value_lt w x hwx
  have hP := value_lt w p hwp
  rw [hl] at hR
  rw [hx] at hX
  rw [hp] at hP
  have hNw : 2 ^ (N * w) = 2 ^ (w * N) := by rw [Nat.mul_comm]
  have hMB : 2 ^ w = 1 → 2 ^ (w * N) = 1 := by
    intro h1; rw [pow_mul, h1, one_pow]
  obtain ⟨hcnd, hval⟩ := maybe_sub_arith (2 ^ w) (2 ^ (w * N)) x0 (value w x) (value w p)
    (value w (chainList (subG w x p) 0 N 0).1) (chainList (subG w x p) 0 N 0).2 hM hx0 hX hP
    hR hb (by omega) hMB
  rw [conditional_assign_mem_eq w _ _ x N (by simp [hl])
    (fun i hi => by
      rw [rd_append_left _ _ _ (by omega)]
      exact rd_lt w _ hw i)
    (fun i _ => rd_lt w x hwx i)]
  rw [drop_chain_append, ← hx, slice_full, hx, hNw]
  constructor
  · intro hlt
    rw [if_pos (hcnd.mpr hlt)]
  · intro hge
    rw [if_neg (fun h => by have := hcnd.mp h; omega)]
    exact ⟨_, rfl, hl, hw, hval hge⟩

/-- C11: with `V = x0 * 2^(N*w) + value(x)` and `P = value(p)`, after either overload of
`bigint_monty_maybe_sub` the words `z[0:N]` are those of `x` if `V < P`, and otherwise
`value(z[0:N]) = (V - P) mod 2^(N*w)`; so whenever `V < 2*P`, `value(z[0:N]) = V mod P`.
The two overloads leave the same `z`. -/
theorem bigint_monty_maybe_sub_spec (w N : Nat) (z : List Nat) (x0 : Nat) (x p : List Nat)
    (hx : x.length = N) (hp : p.length = N) (hz : N ≤ z.length) (hx0 : x0 < 2 ^ w)
    (hwx : IsWords w x) (hwp : IsWords w p) :
    bigint_monty_maybe_sub_N w N z x0 x p = bigint_monty_maybe_sub w N z x0 x p ∧
    (bigint_monty_maybe_sub w N z x0 x p).drop N = z.drop N ∧
    (x0 * 2 ^ (N * w) + value w x < value w p →
      (bigint_monty_maybe_sub w N z x0 x p).take N = x) ∧
    (value w p ≤ x0 * 2 ^ (N * w) + value w x →
      value w ((bigint_monty_maybe_sub w N z x0 x p).take N)
        = (x0 * 2 ^ (N * w) + value w x - value w p) % 2 ^ (N * w)) ∧
    (x0 * 2 ^ (N * w) + value w x < 2 * value w p →
      value w ((bigint_monty_maybe_sub w N z x0 x p).take N)
        = (x0 * 2 ^ (N * w) + value w x) % value w p) := by
  obtain ⟨h1, h2, h3⟩ := bigint_monty_maybe_sub_eq w N z x0 x p hx hp hz hx0 hwx hwp
  have hP := value_lt w p hwp
  rw [hp, Nat.mul_comm] at hP
  have hlt : x0 * 2 ^ (N * w) + value w x < value w p →
      (bigint_monty_maybe_sub w N z x0 x p).take N = x := by
    intro h; rw [h2 h, List.take_left' hx]
  have hge : value w p ≤ x0 * 2 ^ (N * w) + value w x →
      value w ((bigint_monty_maybe_sub w N z x0 x p).take N)
        = (x0 * 2 ^ (N * w) + value w x - value w p) % 2 ^ (N * w) := by
    intro h
    obtain ⟨r, hr, hl, -, hv⟩ := h3 h
    rw [hr, List.take_left' hl, hv]
  refine ⟨h1, ?_, hlt, hge, ?_⟩
  · rcases Nat.lt_or_ge (x0 * 2 ^ (N * w) + value w x) (value w p) with h | h
    · rw [h2 h, List.drop_left' hx]
    · obtain ⟨r, hr, hl, -, -⟩ := h3 h
      rw [hr, List.drop_left' hl]
  · intro h2P
    rcases Nat.lt_or_ge (x0 * 2 ^ (N * w) + value w x) (value w p) with h | h
    · rw [hlt h, Nat.mod_eq_of_lt h]
      have : x0 = 0 := by
        by_contra hne
        have : 2 ^ (N * w) ≤ x0 * 2 ^ (N * w) := Nat.le_mul_of_pos_left _ (by omega)
        omega
      subst this; simp
    · rw [hge h, Nat.mod_eq_of_lt (by omega), Nat.mod_eq_sub_mod h, Nat.mod_eq_of_lt (by omega)]

/-- The statement of `bigint_monty_maybe_sub_spec` on 64-bit words, at `x0 = 1`. -/
theorem bigint_monty_maybe_sub_spec_witness :
    bigint_monty_maybe_sub_N 64 2 [9, 9, 9] 1 [5, 0] [7, 2 ^ 63]
      = bigint_monty_maybe_sub 64 2 [9, 9, 9] 1 [5, 0] [7, 2 ^ 63] ∧
    (bigint_monty_maybe_sub 64 2 [9, 9, 9] 1 [5, 0] [7, 2 ^ 63]).drop 2 = [9, 9, 9].drop 2 ∧
    (1 * 2 ^ (2 * 64) + value 64 [5, 0] < value 64 [7, 2 ^ 63] →
      (bigint_monty_maybe_sub 64 2 [9, 9, 9] 1 [5, 0] [7, 2 ^ 63]).take 2 = [5, 0]) ∧
    (value 64 [7, 2 ^ 63] ≤ 1 * 2 ^ (2 * 64) + value 64 [5, 0] →
      value 64 ((bigint_monty_maybe_sub 64 2 [9, 9, 9] 1 [5, 0] [7, 2 ^ 63]).take 2)
        = (1 * 2 ^ (2 * 64) + value 64 [5, 0] - value 64 [7, 2 ^ 63]) % 2 ^ (2 * 64)) ∧
    (1 * 2 ^ (2 * 64) + value 64 [5, 0] < 2 * value 64 [7, 2 ^ 63] →
      value 64 ((bigint_monty_maybe_sub 64 2 [9, 9, 9] 1 [5, 0] [7, 2 ^ 63]).take 2)
        = (1 * 2 ^ (2 * 64) + value 64 [5, 0]) % value 64 [7, 2 ^ 63]) :=
  bigint_monty_maybe_sub_spec 64 2 [9, 9, 9] 1 [5, 0] [7, 2 ^ 63] rfl rfl (by decide)
    (by norm_num) (by unfold IsWords; simp) (by unfold IsWords; simp)

/-! ## Conditional operations -/

theorem set_rd_self (l : List Nat) (i : Nat) : l.set i (rd l i) = l := by
  induction l generalizing i with
  | nil => simp
  | cons a as ih =>
    cases i with
    | zero => simp [rd]
    | succ i => rw [rd_cons_succ, List.set_cons_succ, ih]

/-- Writing index `k` of a buffer whose first `k` words have been rewritten already. -/
theorem set_append_drop (A l : List Nat) (k v : Nat) (hA : A.length = k) (hk : k < l.length) :
    (A ++ l.drop k).set k v = (A ++ [v]) ++ l.drop (k + 1) := by
  have hd : l.drop k = l[k] :: l.drop (k + 1) := by rw [List.drop_eq_getElem_cons hk]
  rw [List.set_append_right _ _ (by omega), hA, Nat.sub_self, hd, List.set_cons_zero]
  simp

theorem rd_append_drop (A l : List Nat) (k : Nat) (hA : A.length = k) :
    rd (A ++ l.drop k) k = rd l k := by
  simp only [rd, List.getD_eq_getElem?_getD]
  rw [List.getElem?_append_right (by omega), hA, Nat.sub_self, List.getElem?_drop, Nat.add_zero]

theorem slice_snoc (x : List Nat) (k : Nat) : slice x 0 (k + 1) = slice x 0 k ++ [rd x k] := by
  rw [slice_add, Nat.zero_add, slice_succ, slice_zero]

theorem bigint_cnd_swap_clear (w : Nat) (x y : List Nat) (size : Nat) :
    bigint_cnd_swap w 0 x y size = (x, y) := by
  unfold bigint_cnd_swap Mask.expand
  simp only [ne_eq, not_true_eq_false, if_false, select_clear, set_rd_self]
  induction size with
  | zero => simp [forRange_self]
  | succ n ih => rw [forRange_succ 0 n (Nat.zero_le _), ih]

theorem bigint_cnd_swap_set (w cnd : Nat) (hc : cnd ≠ 0) (x y : List Nat) (hwx : IsWords w x)
    (hwy : IsWords w y) (k : Nat) (hkx : k ≤ x.length) (hky : k ≤ y.length) :
    bigint_cnd_swap w cnd x y k = (slice y 0 k ++ x.drop k, slice x 0 k ++ y.drop k) := by
  unfold bigint_cnd_swap Mask.expand
  simp only [ne_eq, hc, not_false_eq_true, if_true]
  induction k with
  | zero => simp [forRange_self, slice_zero]
  | succ k ih =>
    rw [forRange_succ 0 k (Nat.zero_le _), ih (by omega) (by omega)]
    simp only [rd_append_drop _ _ _ (slice_length _ _ _)]
    rw [select_set w _ _ (rd_lt w y hwy k) (rd_lt w x hwx k),
      select_set w _ _ (rd_lt w x hwx k) (rd_lt w y hwy k),
      set_append_drop _ x k _ (slice_length _ _ _) (by omega),
      set_append_drop _ y k _ (slice_length _ _ _) (by omega), ← slice_snoc, ← slice_snoc]

/-- C14: for every size and all arrays `x`, `y` of that size, `bigint_cnd_swap(0, x, y, N)`
leaves `x` and `y` unchanged, and `bigint_cnd_swap(cnd, x, y, N)` with any nonzero word
`cnd` leaves `x' = y` and `y' = x` word for word. -/
theorem bigint_cnd_swap_spec (w cnd N : Nat) (x y : List Nat) (hx : x.length = N)
    (hy : y.length = N) (hwx : IsWords w x) (hwy : IsWords w y) :
    bigint_cnd_swap w 0 x y N = (x, y) ∧
    (cnd ≠ 0 → bigint_cnd_swap w cnd x y N = (y, x)) := by
  refine ⟨bigint_cnd_swap_clear w x y N, fun hc => ?_⟩
  rw [bigint_cnd_swap_set w cnd hc x y hwx hwy N (by omega) (by omega)]
  rw [List.drop_of_length_le (by omega), List.drop_of_length_le (by omega)]
  conv_lhs => rw [← hx]
  conv_lhs => arg 1; rw [hx, ← hy]
  simp [slice_full]

/-- The statement of `bigint_cnd_swap_spec` on 64-bit words with the condition word 6. -/
theorem bigint_cnd_swap_spec_witness :
    bigint_cnd_swap 64 0 [1, 2, 3] [4, 5, 6] 3 = ([1, 2, 3], [4, 5, 6]) ∧
    (6 ≠ 0 → bigint_cnd_swap 64 6 [1, 2, 3] [4, 5, 6] 3 = ([4, 5, 6], [1, 2, 3])) :=
  bigint_cnd_swap_spec 64 6 3 [1, 2, 3] [4, 5, 6] rfl rfl (by unfold IsWords; simp)
    (by unfold IsWords; simp)

theorem word_and_max (w a : Nat) (ha : a < 2 ^ w) : a &&& word_max w = a := by
  unfold word_max; rw [Nat.and_pow_two_sub_one_eq_mod, Nat.mod_eq_of_lt ha]

theorem word_max_and (w a : Nat) (ha : a < 2 ^ w) : word_max w &&& a = a := by
  rw [Nat.and_comm, word_and_max w a ha]

theorem one_lt_of_word (w cnd : Nat) (hc : cnd < 2 ^ w) (hne : cnd ≠ 0) : 1 < 2 ^ w := by
  omega

/-- With a zero condition the loops of `bigint_cnd_add` and `bigint_cnd_sub` write back
what they read. -/
theorem cnd_loop_clear (w : Nat) (f : Nat → Nat → Nat → Nat × Nat)
    (hf : ∀ a, a < 2 ^ w → f a 0 0 = (a, 0)) (x y : List Nat) (hwx : IsWords w x) (n : Nat) :
    forRange 0 n (fun i s =>
        ((s.1.set i (f (rd s.1 i) (rd y i &&& 0) s.2).1), (f (rd s.1 i) (rd y i &&& 0) s.2).2))
        (x, 0) = (x, 0) := by
  induction n with
  | zero => simp [forRange_self]
  | succ n ih =>
    rw [forRange_succ 0 n (Nat.zero_le _), ih]
    simp only [Nat.and_zero, hf _ (rd_lt w x hwx n), set_rd_self]

theorem word_add_zero (w a : Nat) (ha : a < 2 ^ w) : word_add w a 0 0 = (a, 0) := by
  simp [word_add, Nat.mod_eq_of_lt ha, Nat.div_eq_of_lt ha]

theorem word_sub_zero (w a : Nat) (ha : a < 2 ^ w) : word_sub w a 0 0 = (a, 0) := by
  simp [word_sub, Nat.mod_eq_of_lt ha]

/-- The loop of `bigint_cnd_add` under a set mask is the addition chain. -/
theorem bigint_cnd_add_set (w cnd : Nat) (hc : cnd ≠ 0) (x y : List Nat) (size : Nat)
    (hx : x.length = size) (hwy : IsWords w y) :
    bigint_cnd_add w cnd x y size
      = ((chainList (addG w x y) 0 size 0).1,
          word_max w &&& (chainList (addG w x y) 0 size 0).2) := by
  unfold bigint_cnd_add Mask.expand
  simp only [ne_eq, hc, not_false_eq_true, if_true]
  rw [inplace_forRange (fun i a d => word_add w a (rd y i &&& word_max w) d) 0 size x 0]
  have hg : forRange 0 size
        (chainBody (fun i d => word_add w (rd x i) (rd y i &&& word_max w) d)) (x, 0)
      = forRange 0 size (chainBody (addG w x y)) (x, 0) := by
    apply forRange_congr
    intro i t _ _
    simp only [chainBody, addG, word_and_max w _ (rd_lt w y hwy i)]
  rw [hg]
  have := chain_forRange (addG w x y) size 0 x 0 (by omega)
  simp only [Nat.zero_add, List.take_zero, List.nil_append] at this
  rw [this, List.drop_of_length_le (by omega), List.append_nil]

/-- The loop of `bigint_cnd_sub` under a set mask is the subtraction chain. -/
theorem bigint_cnd_sub_set (w cnd : Nat) (hc : cnd ≠ 0) (x y : List Nat) (size : Nat)
    (hx : x.length = size) (hwy : IsWords w y) :
    bigint_cnd_sub w cnd x y size
      = ((chainList (subG w x y) 0 size 0).1,
          word_max w &&& (chainList (subG w x y) 0 size 0).2) := by
  unfold bigint_cnd_sub Mask.expand
  simp only [ne_eq, hc, not_false_eq_true, if_true]
  rw [inplace_forRange (fun i a d => word_sub w a (rd y i &&& word_max w) d) 0 size x 0]
  have hg : forRange 0 size
        (chainBody (fun i d => word_sub w (rd x i) (rd y i &&& word_max w) d)) (x, 0)
      = forRange 0 size (chainBody (subG w x y)) (x, 0) := by
    apply forRange_congr
    intro i t _ _
    simp only [chainBody, subG, word_and_max w _ (rd_lt w y hwy i)]
  rw [hg]
  have := chain_forRange (subG w x y) size 0 x 0 (by omega)
  simp only [Nat.zero_add, List.take_zero, List.nil_append] at this
  rw [this, List.drop_of_length_le (by omega), List.append_nil]

/-- C15: for arrays `x`, `y` of one size: with `cnd = 0`, `bigint_cnd_add` and
`bigint_cnd_sub` leave `x` unchanged and return 0; with any nonzero word `cnd`,
`bigint_cnd_add` returns `c ∈ {0, 1}` with
`value(x') + c * 2^(size*w) = value(x) + value(y)` and `bigint_cnd_sub` returns
`b ∈ {0, 1}` with `value(x') - b * 2^(size*w) = value(x) - value(y)`. -/
theorem bigint_cnd_add_sub_spec (w cnd size : Nat) (x y : List Nat) (hx : x.length = size)
    (hy : y.length = size) (hwx : IsWords w x) (hwy : IsWords w y) (hc : cnd < 2 ^ w) :
    bigint_cnd_add w 0 x y size = (x, 0) ∧
    bigint_cnd_sub w 0 x y size = (x, 0) ∧
    (cnd ≠ 0 → ∃ x' c, bigint_cnd_add w cnd x y size = (x', c) ∧ x'.length = size ∧
      IsWords w x' ∧ (c = 0 ∨ c = 1) ∧
      value w x' + c * 2 ^ (size * w) = value w x + value w y) ∧
    (cnd ≠ 0 → ∃ x' b, bigint_cnd_sub w cnd x y size = (x', b) ∧ x'.length = size ∧
      IsWords w x' ∧ (b = 0 ∨ b = 1) ∧
      (value w x' : Int) - b * 2 ^ (size * w) = (value w x : Int) - (value w y : Int)) := by
  refine ⟨?_, ?_, ?_, ?_⟩
  · unfold bigint_cnd_add Mask.expand
    simp only [ne_eq, not_true_eq_false, if_false]
    rw [cnd_loop_clear w (word_add w) (word_add_zero w) x y hwx size]
    simp
  · unfold bigint_cnd_sub Mask.expand
    simp only [ne_eq, not_true_eq_false, if_false]
    rw [cnd_loop_clear w (word_sub w) (word_sub_zero w) x y hwx size]
    simp
  · intro hne
    have h1 := one_lt_of_word w cnd hc hne
    have hv := add_chain_value w x y size 0 0
    have hcar := add_chain_carry w x y hwx hwy size 0 0 (by omega)
    rw [value_slice_ge w x size (by omega), value_slice_ge w y size (by omega)] at hv
    refine ⟨_, _, bigint_cnd_add_set w cnd hne x y size hx hwy, chainList_length _ _ _ _,
      add_chain_words w x y size 0 0, ?_, ?_⟩
    · rw [word_max_and w _ (by omega)]; omega
    · rw [word_max_and w _ (by omega), Nat.mul_comm size w]; linarith
  · intro hne
    have h1 := one_lt_of_word w cnd hc hne
    obtain ⟨hv, hb, hw⟩ := sub_chain_value w x y hwx hwy size 0 0 (by omega)
    rw [value_slice_ge w x size (by omega), value_slice_ge w y size (by omega)] at hv
    refine ⟨_, _, bigint_cnd_sub_set w cnd hne x y size hx hwy, chainList_length _ _ _ _,
      hw, ?_, ?_⟩
    · rw [word_max_and w _ (by omega)]; omega
    · rw [word_max_and w _ (by omega), Nat.mul_comm size w]
      have : (value w (chainList (subG w x y) 0 size 0).1 : Int) + value w y + 0
          = value w x + 2 ^ (w * size) * (chainList (subG w x y) 0 size 0).2 := by
        exact_mod_cast hv
      linarith

/-- The statement of `bigint_cnd_add_sub_spec` on 64-bit words with the condition word 2,
at an addition that carries and a subtraction that borrows. -/
theorem bigint_cnd_add_sub_spec_witness :
    bigint_cnd_add 64 0 [2 ^ 64 - 1, 0] [1, 2 ^ 64 - 1] 2 = ([2 ^ 64 - 1, 0], 0) ∧
    bigint_cnd_sub 64 0 [2 ^ 64 - 1, 0] [1, 2 ^ 64 - 1] 2 = ([2 ^ 64 - 1, 0], 0) ∧
    (2 ≠ 0 → ∃ x' c, bigint_cnd_add 64 2 [2 ^ 64 - 1, 0] [1, 2 ^ 64 - 1] 2 = (x', c) ∧
      x'.length = 2 ∧ IsWords 64 x' ∧ (c = 0 ∨ c = 1) ∧
      value 64 x' + c * 2 ^ (2 * 64)
        = value 64 [2 ^ 64 - 1, 0] + value 64 [1, 2 ^ 64 - 1]) ∧
    (2 ≠ 0 → ∃ x' b, bigint_cnd_sub 64 2 [2 ^ 64 - 1, 0] [1, 2 ^ 64 - 1] 2 = (x', b) ∧
      x'.length = 2 ∧ IsWords 64 x' ∧ (b = 0 ∨ b = 1) ∧
      (value 64 x' : Int) - b * 2 ^ (2 * 64)
        = (value 64 [2 ^ 64 - 1, 0] : Int) - (value 64 [1, 2 ^ 64 - 1] : Int)) :=
  bigint_cnd_add_sub_spec 64 2 2 [2 ^ 64 - 1, 0] [1, 2 ^ 64 - 1] rfl rfl
    (by unfold IsWords; simp) (by unfold IsWords; simp) (by norm_num)

theorem bigint_cnd_abs_clear (w : Nat) (x : List Nat) (size : Nat) :
    bigint_cnd_abs w 0 x size = x := by
  unfold bigint_cnd_abs Mask.expand
  simp only [ne_eq, not_true_eq_false, if_false, select_clear, set_rd_self]
  generalize Mask.if_set_return 0 1 = c
  suffices H : ∀ n, ∃ d, forRange 0 n (fun i (s : List Nat × Nat) =>
      (s.1, (word_add w (word_not w (rd s.1 i)) 0 s.2).2)) (x, c) = (x, d) by
    obtain ⟨d, hd⟩ := H size
    rw [hd]
  intro n
  induction n with
  | zero => exact ⟨c, by simp [forRange_self]⟩
  | succ n ih =>
    obtain ⟨d, hd⟩ := ih
    exact ⟨_, by rw [forRange_succ 0 n (Nat.zero_le _), hd]⟩

theorem rd_map (f : Nat → Nat) (x : List Nat) (i : Nat) (h : i < x.length) :
    rd (x.map f) i = f (rd x i) := by
  rw [rd_eq_getElem _ _ (by simpa using h), rd_eq_getElem _ _ h, List.getElem_map]

theorem value_map_not (w : Nat) (x : List Nat) (hwx : IsWords w x) :
    value w (x.map (word_not w)) + value w x + 1 = 2 ^ (w * x.length) := by
  induction x with
  | nil => simp [value_nil]
  | cons a as ih =>
    have ha : a < 2 ^ w := hwx a (List.mem_cons_self _ _)
    have h := ih (fun b hb => hwx b (List.mem_cons_of_mem _ hb))
    rw [List.map_cons, value_cons, value_cons, List.length_cons, Nat.mul_succ, pow_add, ← h]
    unfold word_not word_max
    have e : 2 ^ w - 1 - a + 2 ^ w * value w (as.map (fun b => 2 ^ w - 1 - b))
          + (a + 2 ^ w * value w as) + 1
        = 2 ^ w + 2 ^ w * value w (as.map (fun b => 2 ^ w - 1 - b)) + 2 ^ w * value w as := by
      omega
    show 2 ^ w - 1 - a + 2 ^ w * value w (as.map (fun b => 2 ^ w - 1 - b))
          + (a + 2 ^ w * value w as) + 1 = _
    rw [e]
    show _ = (value w (as.map (fun b => 2 ^ w - 1 - b)) + value w as + 1) * 2 ^ w
    ring

theorem isWords_map_not (w : Nat) (x : List Nat) : IsWords w (x.map (word_not w)) := by
  intro a ha
  simp only [List.mem_map] at ha
  obtain ⟨b, -, rfl⟩ := ha
  have := Nat.two_pow_pos w
  unfold word_not word_max; omega

/-- What `bigint_cnd_abs` leaves in `x` under a nonzero condition word. -/
theorem bigint_cnd_abs_set (w cnd size : Nat) (x : List Nat) (hx : x.length = size)
    (hwx : IsWords w x) (hc : cnd < 2 ^ w) (hne : cnd ≠ 0) :
    (bigint_cnd_abs w cnd x size).length = size ∧ IsWords w (bigint_cnd_abs w cnd x size) ∧
      value w (bigint_cnd_abs w cnd x size) = (2 ^ (size * w) - value w x) % 2 ^ (size * w) := by
  have h1 := one_lt_of_word w cnd hc hne
  have hres : bigint_cnd_abs w cnd x size
      = (chainList (addG w (x.map (word_not w)) []) 0 size 1).1 := by
    unfold bigint_cnd_abs Mask.expand Mask.if_set_return
    simp only [ne_eq, hne, not_false_eq_true, if_true, word_max_and w 1 h1]
    rw [inplace_forRange (fun _ a d => (Mask.select (word_max w)
      (word_add w (word_not w a) 0 d).1 a, (word_add w (word_not w a) 0 d).2)) 0 size x 1]
    have hg : forRange 0 size (chainBody (fun i d => (Mask.select (word_max w)
          (word_add w (word_not w (rd x i)) 0 d).1 (rd x i),
          (word_add w (word_not w (rd x i)) 0 d).2))) (x, 1)
        = forRange 0 size (chainBody (addG w (x.map (word_not w)) [])) (x, 1) := by
      apply forRange_congr
      intro i t _ hi
      simp only [chainBody, addG, rd_map _ x i (by omega), rd_of_ge [] i (by simp)]
      have hlt : (word_add w (word_not w (rd x i)) 0 t.2).1 < 2 ^ w :=
        Nat.mod_lt _ (Nat.two_pow_pos w)
      rw [select_set w _ _ hlt (rd_lt w x hwx i)]
    rw [hg]
    have := chain_forRange (addG w (x.map (word_not w)) []) size 0 x 1 (by omega)
    simp only [Nat.zero_add, List.take_zero, List.nil_append] at this
    rw [this, List.drop_of_length_le (by omega), List.append_nil]
  rw [hres]
  have hv := add_chain_value w (x.map (word_not w)) [] size 0 1
  have hw := add_chain_words w (x.map (word_not w)) [] size 0 1
  rw [value_slice_ge w _ size (by simp [hx]), value_slice_ge w [] size (by simp), value_nil]
    at hv
  have hn := value_map_not w x hwx
  rw [hx] at hn
  have hlt := value_lt w _ hw
  rw [chainList_length] at hlt
  refine ⟨chainList_length _ _ _ _, hw, ?_⟩
  rw [Nat.mul_comm size w]
  have e : 2 ^ (w * size) - value w x
      = value w (chainList (addG w (x.map (word_not w)) []) 0 size 1).1
        + 2 ^ (w * size) * (chainList (addG w (x.map (word_not w)) []) 0 size 1).2 := by
    omega
  rw [e, Nat.add_mul_mod_self_left, Nat.mod_eq_of_lt hlt]

/-- C16: `bigint_cnd_abs(0, x, size)` leaves `x` unchanged; with a nonzero word `cnd`,
`bigint_cnd_abs(cnd, x, size)` leaves the two's-complement negation of `x` over `size`
words, `value(x') = (2^(size*w) - value(x)) mod 2^(size*w)`; a second call with a nonzero
condition word restores `x`. -/
theorem bigint_cnd_abs_spec (w cnd cnd2 size : Nat) (x : List Nat) (hx : x.length = size)
    (hwx : IsWords w x) (hc : cnd < 2 ^ w) (hc2 : cnd2 < 2 ^ w) :
    bigint_cnd_abs w 0 x size = x ∧
    (cnd ≠ 0 →
      (bigint_cnd_abs w cnd x size).length = size ∧
      IsWords w (bigint_cnd_abs w cnd x size) ∧
      value w (bigint_cnd_abs w cnd x size)
        = (2 ^ (size * w) - value w x) % 2 ^ (size * w) ∧
      (cnd2 ≠ 0 → bigint_cnd_abs w cnd2 (bigint_cnd_abs w cnd x size) size = x)) := by
  refine ⟨bigint_cnd_abs_clear w x size, fun hne => ?_⟩
  obtain ⟨hl, hw, hv⟩ := bigint_cnd_abs_set w cnd size x hx hwx hc hne
  refine ⟨hl, hw, hv, fun hne2 => ?_⟩
  obtain ⟨hl2, hw2, hv2⟩ := bigint_cnd_abs_set w cnd2 size _ hl hw hc2 hne2
  apply value_inj w _ _ hw2 hwx (by omega)
  rw [hv2, hv]
  have hX := value_lt w x hwx
  rw [hx, Nat.mul_comm] at hX
  have hpos : 0 < 2 ^ (size * w) := Nat.two_pow_pos _
  rcases Nat.eq_zero_or_pos (value w x) with h0 | h0
  · rw [h0]; simp
  · rw [Nat.mod_eq_of_lt (by omega : 2 ^ (size * w) - value w x < 2 ^ (size * w)),
      Nat.sub_sub_self hX.le, Nat.mod_eq_of_lt hX]

/-- The statement of `bigint_cnd_abs_spec` on 64-bit words with the condition words 5 and
1. -/
theorem bigint_cnd_abs_spec_witness :
    bigint_cnd_abs 64 0 [0, 3] 2 = [0, 3] ∧
    (5 ≠ 0 →
      (bigint_cnd_abs 64 5 [0, 3] 2).length = 2 ∧
      IsWords 64 (bigint_cnd_abs 64 5 [0, 3] 2) ∧
      value 64 (bigint_cnd_abs 64 5 [0, 3] 2)
        = (2 ^ (2 * 64) - value 64 [0, 3]) % 2 ^ (2 * 64) ∧
      (1 ≠ 0 → bigint_cnd_abs 64 1 (bigint_cnd_abs 64 5 [0, 3] 2) 2 = [0, 3])) :=
  bigint_cnd_abs_spec 64 5 1 2 [0, 3] rfl (by unfold IsWords; simp) (by norm_num)
    (by norm_num)

/-! ## `bigint_sub_abs` -/

/-- A loop over a pair of states whose body acts on each component alone is a pair of
loops. -/
theorem forRange_pair {α β : Type} (lo hi : Nat) (f : Nat → α → α) (g : Nat → β → β)
    (a : α) (b : β) :
    forRange lo hi (fun i (s : α × β) => (f i s.1, g i s.2)) (a, b)
      = (forRange lo hi f a, forRange lo hi g b) := by
  rcases Nat.lt_or_ge hi lo with hlt | hge
  · simp [forRange, Nat.sub_eq_zero_of_le hlt.le]
  · obtain ⟨d, rfl⟩ := Nat.exists_eq_add_of_le hge
    clear hge
    induction d with
    | zero => simp [forRange_self]
    | succ d ih =>
      rw [← Nat.add_assoc, forRange_succ lo _ (by omega), forRange_succ lo _ (by omega),
        forRange_succ lo _ (by omega), ih]

/-- The two subtraction chains of `bigint_sub_abs` and its conditional copy. -/
theorem bigint_sub_abs_eq (w : Nat) (z x y : List Nat) (N : Nat) (ws : List Nat)
    (hz : N ≤ z.length) (hws : 2 * N ≤ ws.length) :
    bigint_sub_abs w z x y N ws
      = ((List.range N).map (fun i =>
            Mask.select (Mask.expand w (chainList (subG w x y) 0 N 0).2)
              (rd ((chainList (subG w y x) 0 N 0).1 ++ ws.drop (2 * N)) i)
              (rd (chainList (subG w x y) 0 N 0).1 i)) ++ z.drop N,
          (chainList (subG w x y) 0 N 0).1
            ++ ((chainList (subG w y x) 0 N 0).1 ++ ws.drop (2 * N)),
          Mask.expand w (chainList (subG w x y) 0 N 0).2) := by
  unfold bigint_sub_abs
  simp only []
  have h8 : forBlocks8 (N - N % 8) (fun i (s : (List Nat × Nat) × (List Nat × Nat)) =>
        (word8_sub3 w s.1.1 x y i s.1.2, word8_sub3 w s.2.1 y x i s.2.2))
        ((ws.take N, 0), (ws.drop N, 0))
      = (forBlocks8 (N - N % 8) (fun i s => word8_sub3 w s.1 x y i s.2) (ws.take N, 0),
          forBlocks8 (N - N % 8) (fun i s => word8_sub3 w s.1 y x i s.2) (ws.drop N, 0)) := by
    unfold forBlocks8
    exact forRange_pair 0 _ (fun j (s : List Nat × Nat) => word8_sub3 w s.1 x y (8 * j) s.2)
      (fun j (s : List Nat × Nat) => word8_sub3 w s.1 y x (8 * j) s.2) _ _
  rw [h8]
  have hr := forRange_pair (N - N % 8) N
    (fun i (s : List Nat × Nat) => ((s.1.set i (word_sub w (rd x i) (rd y i) s.2).1),
      (word_sub w (rd x i) (rd y i) s.2).2))
    (fun i (s : List Nat × Nat) => ((s.1.set i (word_sub w (rd y i) (rd x i) s.2).1),
      (word_sub w (rd y i) (rd x i) s.2).2))
    (forBlocks8 (N - N % 8) (fun i s => word8_sub3 w s.1 x y i s.2) (ws.take N, 0))
    (forBlocks8 (N - N % 8) (fun i s => word8_sub3 w s.1 y x i s.2) (ws.drop N, 0))
  rw [hr, monty_sub_loop w N (ws.take N) x y, monty_sub_loop w N (ws.drop N) y x]
  have h0 := chain_forRange (subG w x y) N 0 (ws.take N) 0 (by simp; omega)
  have h1 := chain_forRange (subG w y x) N 0 (ws.drop N) 0 (by simp; omega)
  simp only [Nat.zero_add, List.take_zero, List.nil_append] at h0 h1
  rw [List.drop_of_length_le (by simp), List.append_nil] at h0
  rw [List.drop_drop] at h1
  have e2 : N + N = 2 * N := by omega
  rw [e2] at h1
  rw [h0, h1]
  unfold conditional_copy_mem
  simp only []
  rw [map_forRange (fun i _ => Mask.select (Mask.expand w (chainList (subG w x y) 0 N 0).2)
    (rd ((chainList (subG w y x) 0 N 0).1 ++ ws.drop (2 * N)) i)
    (rd (chainList (subG w x y) 0 N 0).1 i)) N z hz]

/-- C12: for all `N`-word arrays `x` and `y` and a workspace of `2N` words,
`bigint_sub_abs(z, x, y, N, ws)` leaves `value(z[0:N]) = |value(x) - value(y)|`. -/
theorem bigint_sub_abs_value (w : Nat) (z x y : List Nat) (N : Nat) (ws : List Nat)
    (hx : x.length = N) (hy : y.length = N) (hz : N ≤ z.length) (hws : ws.length = 2 * N)
    (hwx : IsWords w x) (hwy : IsWords w y) :
    (bigint_sub_abs w z x y N ws).1.length = z.length ∧
    (bigint_sub_abs w z x y N ws).1.drop N = z.drop N ∧
    IsWords w ((bigint_sub_abs w z x y N ws).1.take N) ∧
    (value w ((bigint_sub_abs w z x y N ws).1.take N) : Int)
      = |(value w x : Int) - (value w y : Int)| := by
  rw [bigint_sub_abs_eq w z x y N ws hz (by omega)]
  simp only []
  obtain ⟨hv0, hb0, hw0⟩ := sub_chain_value w x y hwx hwy N 0 0 (by omega)
  obtain ⟨hv1, hb1, hw1⟩ := sub_chain_value w y x hwy hwx N 0 0 (by omega)
  rw [value_slice_ge w x N (by omega), value_slice_ge w y N (by omega)] at hv0 hv1
  have hl0 : (chainList (subG w x y) 0 N 0).1.length = N := chainList_length _ _ _ _
  have hl1 : (chainList (subG w y x) 0 N 0).1.length = N := chainList_length _ _ _ _
  have hR0 := value_lt w _ hw0
  have hR1 := value_lt w _ hw1
  have hX := value_lt w x hwx
  have hY := value_lt w y hwy
  rw [hl0] at hR0
  rw [hl1] at hR1
  rw [hx] at hX
  rw [hy] at hY
  -- the words selected
  have hsel : (List.range N).map (fun i =>
        Mask.select (Mask.expand w (chainList (subG w x y) 0 N 0).2)
          (rd ((chainList (subG w y x) 0 N 0).1 ++ ws.drop (2 * N)) i)
          (rd (chainList (subG w x y) 0 N 0).1 i))
      = if (chainList (subG w x y) 0 N 0).2 ≠ 0 then (chainList (subG w y x) 0 N 0).1
        else (chainList (subG w x y) 0 N 0).1 := by
    by_cases hb : (chainList (subG w x y) 0 N 0).2 = 0
    · rw [if_neg (by simpa using hb)]
      conv_rhs => rw [← slice_full (chainList (subG w x y) 0 N 0).1, hl0, ← range_map_rd]
      apply List.map_congr_left
      intro i _
      simp only [Mask.expand, hb, ne_eq, not_true_eq_false, if_false, select_clear]
    · rw [if_pos hb]
      conv_rhs => rw [← slice_full (chainList (subG w y x) 0 N 0).1, hl1, ← range_map_rd]
      apply List.map_congr_left
      intro i hi
      rw [List.mem_range] at hi
      simp only [Mask.expand, hb, ne_eq, not_false_eq_true, if_true]
      rw [rd_append_left _ _ _ (by omega), select_set w _ _ (rd_lt w _ hw1 i) (rd_lt w _ hw0 i)]
  rw [hsel]
  have hlen : (if (chainList (subG w x y) 0 N 0).2 ≠ 0 then (chainList (subG w y x) 0 N 0).1
      else (chainList (subG w x y) 0 N 0).1).length = N := by
    split <;> assumption
  refine ⟨by rw [List.length_append, hlen, List.length_drop]; omega,
    List.drop_left' hlen, ?_, ?_⟩
  · rw [List.take_left' hlen]; split <;> assumption
  · rw [List.take_left' hlen]
    have hb0' : (chainList (subG w x y) 0 N 0).2 = 0 ∨ (chainList (subG w x y) 0 N 0).2 = 1 := by
      omega
    have hb1' : (chainList (subG w y x) 0 N 0).2 = 0 ∨ (chainList (subG w y x) 0 N 0).2 = 1 := by
      omega
    rcases hb0' with h0 | h0
    · rw [if_neg (by simp [h0])]
      rw [h0] at hv0
      have hge : value w y ≤ value w x := by omega
      rw [abs_of_nonneg (by omega)]
      omega
    · rw [if_pos (by simp [h0])]
      rw [h0] at hv0
      have hlt : value w x < value w y := by omega
      rw [abs_of_neg (by omega)]
      rcases hb1' with h1 | h1
      · rw [h1] at hv1; omega
      · rw [h1] at hv1; omega

/-- The statement of `bigint_sub_abs_value` on 64-bit words, at `x < y`. -/
theorem bigint_sub_abs_value_witness :
    (bigint_sub_abs 64 [9, 9, 9] [3, 1] [5, 2] 2 [0, 0, 0, 0]).1.length = [9, 9, 9].length ∧
    (bigint_sub_abs 64 [9, 9, 9] [3, 1] [5, 2] 2 [0, 0, 0, 0]).1.drop 2 = [9, 9, 9].drop 2 ∧
    IsWords 64 ((bigint_sub_abs 64 [9, 9, 9] [3, 1] [5, 2] 2 [0, 0, 0, 0]).1.take 2) ∧
    (value 64 ((bigint_sub_abs 64 [9, 9, 9] [3, 1] [5, 2] 2 [0, 0, 0, 0]).1.take 2) : Int)
      = |(value 64 [3, 1] : Int) - (value 64 [5, 2] : Int)| :=
  bigint_sub_abs_value 64 [9, 9, 9] [3, 1] [5, 2] 2 [0, 0, 0, 0] rfl rfl (by decide) rfl
    (by unfold IsWords; simp) (by unfold IsWords; simp)

/-- The mask `bigint_sub_abs` returns is the mask of the borrow of `x - y`: set when
`value(x) < value(y)`, clear when `value(x) ≥ value(y)`. -/
theorem bigint_sub_abs_mask (w : Nat) (z x y : List Nat) (N : Nat) (ws : List Nat)
    (hx : x.length = N) (hy : y.length = N) (hz : N ≤ z.length) (hws : ws.length = 2 * N)
    (hwx : IsWords w x) (hwy : IsWords w y) :
    (bigint_sub_abs w z x y N ws).2.2 = if value w x < value w y then word_max w else 0 := by
  rw [bigint_sub_abs_eq w z x y N ws hz (by omega)]
  simp only [Mask.expand]
  obtain ⟨hv0, hb0, hw0⟩ := sub_chain_value w x y hwx hwy N 0 0 (by omega)
  rw [value_slice_ge w x N (by omega), value_slice_ge w y N (by omega)] at hv0
  have hR0 := value_lt w _ hw0
  have hX := value_lt w x hwx
  rw [chainList_length] at hR0
  rw [hx] at hX
  have hb0' : (chainList (subG w x y) 0 N 0).2 = 0 ∨ (chainList (subG w x y) 0 N 0).2 = 1 := by
    omega
  rcases hb0' with h0 | h0
  · rw [h0] at hv0 ⊢
    rw [if_neg (by simp), if_neg (by omega)]
  · rw [h0] at hv0 ⊢
    rw [if_pos (by simp), if_pos (by omega)]

/-- C13: the mask `bigint_sub_abs` returns, evaluated on 64-bit words with `N = 1`: at
`x = [0]`, `y = [1]` it is all ones although `value(x) < value(y)`, and at `x = [1]`,
`y = [0]` it is all zeros although `value(x) ≥ value(y)`; the doc comment of the function
and the claim say the opposite. -/
theorem bigint_sub_abs_mask_eval :
    (bigint_sub_abs 64 [0] [0] [1] 1 [0, 0]).2.2 = word_max 64 ∧
    value 64 [0] < value 64 [1] ∧
    (bigint_sub_abs 64 [0] [1] [0] 1 [0, 0]).2.2 = 0 ∧
    value 64 [1] ≥ value 64 [0] := by
  refine ⟨?_, by decide, ?_, by decide⟩
  · rw [bigint_sub_abs_mask 64 [0] [0] [1] 1 [0, 0] rfl rfl (by decide) rfl
      (by unfold IsWords; simp) (by unfold IsWords; simp)]
    decide
  · rw [bigint_sub_abs_mask 64 [0] [1] [0] 1 [0, 0] rfl rfl (by decide) rfl
      (by unfold IsWords; simp) (by unfold IsWords; simp)]
    decide

/-! ## Shifts -/

theorem rd_set (l : List Nat) (i v j : Nat) :
    rd (l.set i v) j = if j = i ∧ i < l.length then v else rd l j := by
  simp only [rd, List.getD_eq_getElem?_getD, List.getElem?_set]
  by_cases h1 : i = j
  · subst h1
    by_cases h2 : i < l.length
    · simp [h2]
    · simp [h2, List.getElem?_eq_none (Nat.le_of_not_lt h2)]
  · have : ¬ (j = i ∧ i < l.length) := fun h => h1 h.1.symm
    simp [h1, this]

/-- A loop writing `out[off + k] = f k` for `k < n`. -/
theorem write_range (f : Nat → Nat) (off n : Nat) (out : List Nat) (h : off + n ≤ out.length) :
    (forRange 0 n (fun k o => o.set (off + k) (f k)) out).length = out.length ∧
    ∀ j, rd (forRange 0 n (fun k o => o.set (off + k) (f k)) out) j
      = if off ≤ j ∧ j < off + n then f (j - off) else rd out j := by
  induction n with
  | zero =>
    refine ⟨by simp [forRange_self], fun j => ?_⟩
    rw [forRange_self, if_neg (by omega)]
  | succ n ih =>
    obtain ⟨hl, hr⟩ := ih (by omega)
    rw [forRange_succ 0 n (Nat.zero_le _)]
    refine ⟨by rw [List.length_set, hl], fun j => ?_⟩
    rw [rd_set, hl, hr]
    by_cases hj : j = off + n
    · subst hj
      rw [if_pos ⟨rfl, by omega⟩, if_pos ⟨by omega, by omega⟩, Nat.add_sub_cancel_left]
    · rw [if_neg (fun hh => hj hh.1)]
      by_cases h2 : off ≤ j ∧ j < off + n
      · rw [if_pos h2, if_pos ⟨h2.1, by omega⟩]
      · rw [if_neg h2, if_neg (by omega)]

theorem slice_congr (a b : List Nat) (lo lo' n : Nat)
    (h : ∀ k, k < n → rd a (lo + k) = rd b (lo' + k)) : slice a lo n = slice b lo' n := by
  induction n generalizing lo lo' with
  | zero => simp [slice_zero]
  | succ n ih =>
    rw [slice_succ, slice_succ, ih (lo + 1) (lo' + 1) (fun k hk => by
      have := h (k + 1) (by omega)
      rw [show lo + 1 + k = lo + (k + 1) by omega, show lo' + 1 + k = lo' + (k + 1) by omega]
      exact this)]
    have := h 0 (by omega)
    simp only [Nat.add_zero] at this
    rw [this]

theorem take_eq_slice (l : List Nat) (n : Nat) (h : n ≤ l.length) : l.take n = slice l 0 n := by
  apply List.ext_getElem
  · simp [slice_length, h]
  · intro i h1 h2
    rw [slice_length] at h2
    simp only [slice, List.getElem_take, List.getElem_map, List.getElem_range', Nat.zero_add,
      Nat.one_mul]
    exact (rd_eq_getElem l i (by omega)).symm

theorem rd_take (l : List Nat) (n i : Nat) (h : i < n) : rd (l.take n) i = rd l i := by
  simp only [rd, List.getD_eq_getElem?_getD, List.getElem?_take, if_pos h]

theorem rd_take_ge (l : List Nat) (n i : Nat) (h : n ≤ i) : rd (l.take n) i = 0 := by
  apply rd_of_ge; rw [List.length_take]; omega

theorem slice_zeros (b : List Nat) (lo n : Nat) (h : ∀ k, k < n → rd b (lo + k) = 0) :
    slice b lo n = List.replicate n 0 := by
  rw [slice_congr b [] lo 0 n (fun k hk => by rw [h k hk, rd_of_ge [] _ (by simp)]),
    slice_past [] 0 n (by simp)]

theorem isWords_replicate_zero (w n : Nat) : IsWords w (List.replicate n 0) := by
  intro a ha
  rw [List.eq_of_mem_replicate ha]; exact Nat.two_pow_pos w

theorem isWords_append (w : Nat) (a b : List Nat) (ha : IsWords w a) (hb : IsWords w b) :
    IsWords w (a ++ b) := by
  intro c hc
  rcases List.mem_append.mp hc with h | h
  · exact ha c h
  · exact hb c h

/-- One pass of the sub-word left shift is the multiplication of the word by
`2 ^ bit_shift` with carry. -/
theorem shl_step (w s a c : Nat) (hs : s < w) (ha : a < 2 ^ w) (hc : c < 2 ^ s) :
    ((a * 2 ^ s) % 2 ^ w ||| c,
      Mask.if_set_return (Mask.expand w s)
        (a / 2 ^ Mask.if_set_return (Mask.expand w s) (w - s)))
      = ((a * 2 ^ s + c) % 2 ^ w, (a * 2 ^ s + c) / 2 ^ w) ∧
    (a * 2 ^ s + c) / 2 ^ w < 2 ^ s := by
  have hM : 0 < 2 ^ w := Nat.two_pow_pos w
  have hS : 0 < 2 ^ s := Nat.two_pow_pos s
  have hpw : 2 ^ w = 2 ^ (w - s) * 2 ^ s := by rw [← pow_add]; congr 1; omega
  have hcarry : (a * 2 ^ s + c) / 2 ^ w = a / 2 ^ (w - s) := by
    rw [hpw, Nat.mul_comm (2 ^ (w - s)), ← Nat.div_div_eq_div_mul, Nat.mul_comm a,
      Nat.mul_add_div hS, Nat.div_eq_of_lt hc, Nat.add_zero]
  have hlt : (a * 2 ^ s + c) / 2 ^ w < 2 ^ s := by
    rw [hcarry]
    apply Nat.div_lt_of_lt_mul
    rw [← hpw]; exact ha
  refine ⟨?_, hlt⟩
  rcases Nat.eq_zero_or_pos s with h0 | h0
  · subst h0
    have hc0 : c = 0 := by simpa using hc
    subst hc0
    simp [Mask.expand, Mask.if_set_return, Nat.mod_eq_of_lt ha, Nat.div_eq_of_lt ha]
  · have hne : s ≠ 0 := by omega
    have hws : w - s < 2 ^ w := lt_of_le_of_lt (Nat.sub_le _ _) (Nat.lt_two_pow w)
    simp only [Mask.expand, Mask.if_set_return, ne_eq, hne, not_false_eq_true, if_true,
      word_max_and w _ hws]
    rw [word_max_and w _ (lt_of_le_of_lt (Nat.div_le_self _ _) ha), hcarry]
    congr 1
    have hr : a % 2 ^ (w - s) < 2 ^ (w - s) := Nat.mod_lt _ (Nat.two_pow_pos _)
    have hmod : (a * 2 ^ s) % 2 ^ w = 2 ^ s * (a % 2 ^ (w - s)) := by
      rw [hpw, Nat.mul_mod_mul_right, Nat.mul_comm]
    have hbound : 2 ^ s * (a % 2 ^ (w - s)) + c < 2 ^ w := by
      have := Nat.mul_le_mul_left (2 ^ s) (Nat.succ_le_of_lt hr)
      rw [Nat.mul_succ, Nat.mul_comm (2 ^ s) (2 ^ (w - s)), ← hpw] at this
      omega
    rw [hmod, ← Nat.mul_add_lt_is_or hc]
    have hsplit : a * 2 ^ s + c
        = (2 ^ s * (a % 2 ^ (w - s)) + c) + 2 ^ w * (a / 2 ^ (w - s)) := by
      have hd := Nat.mod_add_div a (2 ^ (w - s))
      calc a * 2 ^ s + c = (a % 2 ^ (w - s) + 2 ^ (w - s) * (a / 2 ^ (w - s))) * 2 ^ s + c := by
            rw [hd]
        _ = _ := by rw [hpw]; ring
    rw [hsplit, Nat.add_mul_mod_self_left, Nat.mod_eq_of_lt hbound]

/-- The sub-word left shift over `x[lo .. lo + n)`: the words written and the carry left
stand for `2 ^ bit_shift` times the words read, plus the incoming carry. -/
theorem shl_chain_value (w s : Nat) (hs : s < w) (x : List Nat) (hwx : ∀ i, rd x i < 2 ^ w)
    (n lo c : Nat) (hc : c < 2 ^ s) :
    value w (chainList (shlG w s x) lo n c).1 + 2 ^ (w * n) * (chainList (shlG w s x) lo n c).2
      = 2 ^ s * value w (slice x lo n) + c ∧
    (chainList (shlG w s x) lo n c).2 < 2 ^ s ∧
    IsWords w (chainList (shlG w s x) lo n c).1 := by
  induction n generalizing lo c with
  | zero =>
    refine ⟨by simp [chainList, slice_zero, value_nil], by simpa [chainList] using hc, ?_⟩
    intro a ha; simp [chainList] at ha
  | succ n ih =>
    obtain ⟨hstep, hlt⟩ := shl_step w s (rd x lo) c hs (hwx lo) hc
    have hg : shlG w s x lo c
        = ((rd x lo * 2 ^ s + c) % 2 ^ w, (rd x lo * 2 ^ s + c) / 2 ^ w) := hstep
    obtain ⟨h, hc2, hw2⟩ := ih (lo + 1) ((rd x lo * 2 ^ s + c) / 2 ^ w) hlt
    simp only [chainList, hg, slice_succ, value_cons]
    refine ⟨?_, hc2, ?_⟩
    · have hd := Nat.mod_add_div (rd x lo * 2 ^ s + c) (2 ^ w)
      rw [Nat.mul_succ, pow_add]
      have e2 : (rd x lo * 2 ^ s + c) % 2 ^ w
            + 2 ^ w * value w (chainList (shlG w s x) (lo + 1) n
                ((rd x lo * 2 ^ s + c) / 2 ^ w)).1
            + 2 ^ (w * n) * 2 ^ w * (chainList (shlG w s x) (lo + 1) n
                ((rd x lo * 2 ^ s + c) / 2 ^ w)).2
          = (rd x lo * 2 ^ s + c) % 2 ^ w + 2 ^ w *
              (value w (chainList (shlG w s x) (lo + 1) n
                  ((rd x lo * 2 ^ s + c) / 2 ^ w)).1
                + 2 ^ (w * n) * (chainList (shlG w s x) (lo + 1) n
                  ((rd x lo * 2 ^ s + c) / 2 ^ w)).2) := by ring
      rw [e2, h]
      linarith
    · intro a ha
      simp only [List.mem_cons] at ha
      rcases ha with rfl | ha
      · exact Nat.mod_lt _ (Nat.two_pow_pos w)
      · exact hw2 a ha

/-- The sub-word shift loop of `bigint_shl1` and `bigint_shl2`, run in place on the buffer
`b` over the indices `lo .. lo + n - 1`. -/
theorem shl_loop (w s : Nat) (b : List Nat) (lo n : Nat) (h : lo + n ≤ b.length) :
    forRange lo (lo + n) (fun i (t : List Nat × Nat) =>
        ((t.1.set i ((rd t.1 i * 2 ^ s) % 2 ^ w ||| t.2)),
          Mask.if_set_return (Mask.expand w s)
            (rd t.1 i / 2 ^ Mask.if_set_return (Mask.expand w s) (w - s)))) (b, 0)
      = (b.take lo ++ (chainList (shlG w s b) lo n 0).1 ++ b.drop (lo + n),
          (chainList (shlG w s b) lo n 0).2) := by
  rw [← chain_forRange (shlG w s b) n lo b 0 h]
  exact inplace_forRange (fun _ a c => ((a * 2 ^ s) % 2 ^ w ||| c,
    Mask.if_set_return (Mask.expand w s)
      (a / 2 ^ Mask.if_set_return (Mask.expand w s) (w - s)))) lo (lo + n) b 0

theorem two_pow_shift (w shift : Nat) :
    2 ^ shift = 2 ^ (w * (shift / w)) * 2 ^ (shift % w) := by
  rw [← pow_add, Nat.div_add_mod]

/-- The body of `bigint_shl1` for a whole-word shift `ws` and a sub-word shift `s`. -/
theorem bigint_shl1_core (w : Nat) (x : List Nat) (x_size x_words ws s : Nat) (hs : s < w)
    (hx : x.length = x_size) (hwx : IsWords w x)
    (hzero : ∀ i, x_words ≤ i → i < x_size → rd x i = 0) (hfit : x_words + ws ≤ x_size) :
    ∃ r c, (forRange ws x_size (fun i (t : List Nat × Nat) =>
        ((t.1.set i ((rd t.1 i * 2 ^ s) % 2 ^ w ||| t.2)),
          Mask.if_set_return (Mask.expand w s)
            (rd t.1 i / 2 ^ Mask.if_set_return (Mask.expand w s) (w - s))))
        (clear_mem (copy_mem x ws x 0 x_words) 0 ws, 0)).1 = r ∧
      r.length = x_size ∧ IsWords w r ∧
      value w (x.take x_words) * (2 ^ (w * ws) * 2 ^ s) = value w r + 2 ^ (w * x_size) * c := by
  obtain ⟨n, hn⟩ : ∃ n, x_size = ws + n := ⟨x_size - ws, by omega⟩
  -- the buffer after the whole-word move
  obtain ⟨hl1, hr1⟩ := write_range (fun k => rd x (0 + k)) ws x_words x (by omega)
  obtain ⟨hl2, hr2⟩ := write_range (fun _ => 0) 0 ws
    (forRange 0 x_words (fun k o => o.set (ws + k) (rd x (0 + k))) x) (by omega)
  unfold copy_mem clear_mem
  generalize hb : forRange 0 ws (fun k o => o.set (0 + k) 0)
    (forRange 0 x_words (fun k o => o.set (ws + k) (rd x (0 + k))) x) = b at hl2 hr2
  have hbl : b.length = x_size := by rw [hl2, hl1, hx]
  have hbrd : ∀ j, rd b j = if j < ws then 0 else rd (x.take x_words) (j - ws) := by
    intro j
    rw [hr2, hr1]
    by_cases h1 : j < ws
    · rw [if_pos ⟨Nat.zero_le _, by omega⟩, if_pos h1]
    · rw [if_neg (by omega), if_neg h1]
      by_cases h2 : j < ws + x_words
      · rw [if_pos ⟨by omega, h2⟩, Nat.zero_add, rd_take _ _ _ (by omega)]
      · rw [if_neg (by omega), rd_take_ge _ _ _ (by omega)]
        rcases Nat.lt_or_ge j x_size with h3 | h3
        · exact hzero j (by omega) h3
        · exact rd_of_ge x j (by omega)
  have hbw : ∀ i, rd b i < 2 ^ w := by
    intro i
    rw [hbrd]
    split
    · exact Nat.two_pow_pos w
    · exact rd_lt w _ (fun a ha => hwx a (List.mem_of_mem_take ha)) _
  rw [hn, shl_loop w s b ws n (by omega)]
  simp only []
  obtain ⟨hv, hc, hwo⟩ := shl_chain_value w s hs b hbw n ws 0 (Nat.two_pow_pos _)
  have hlow : b.take ws = List.replicate ws 0 := by
    rw [take_eq_slice b _ (by omega)]
    exact slice_zeros b 0 _ (fun k hk => by rw [hbrd, if_pos (by omega)])
  have hhigh : b.drop (ws + n) = [] := List.drop_of_length_le (by omega)
  have hmid : slice b ws n = slice (x.take x_words) 0 n :=
    slice_congr b (x.take x_words) ws 0 n (fun k _ => by
      rw [hbrd, if_neg (by omega), Nat.add_sub_cancel_left, Nat.zero_add])
  rw [hmid, value_slice_ge w _ n (by rw [List.length_take]; omega), Nat.add_zero] at hv
  rw [hlow, hhigh, List.append_nil]
  refine ⟨_, (chainList (shlG w s b) ws n 0).2, rfl, ?_,
    isWords_append w _ _ (isWords_replicate_zero w _) hwo, ?_⟩
  · rw [List.length_append, List.length_replicate, chainList_length]
  · rw [value_append, value_replicate_zero, List.length_replicate, Nat.zero_add, Nat.mul_add,
      pow_add]
    calc value w (x.take x_words) * (2 ^ (w * ws) * 2 ^ s)
        = 2 ^ (w * ws) * (2 ^ s * value w (x.take x_words)) := by ring
      _ = 2 ^ (w * ws) * (value w (chainList (shlG w s b) ws n 0).1
            + 2 ^ (w * n) * (chainList (shlG w s b) ws n 0).2) := by rw [hv]
      _ = _ := by ring

/-- C17: for a buffer `x` of `x_size` words whose words at the indices
`x_words .. x_size - 1` are zero, and a shift with `x_words + floor(shift / w) ≤ x_size`:
after `bigint_shl1(x, x_size, x_words, shift)`,
`value(x') = (value(x[0:x_words]) * 2^shift) mod 2^(x_size*w)`, for whole-word shifts as
for sub-word shifts. -/
theorem bigint_shl1_spec (w : Nat) (x : List Nat) (x_size x_words shift : Nat) (hw : 0 < w)
    (hx : x.length = x_size) (hwx : IsWords w x)
    (hzero : ∀ i, x_words ≤ i → i < x_size → rd x i = 0)
    (hfit : x_words + shift / w ≤ x_size) :
    (bigint_shl1 w x x_size x_words shift).length = x_size ∧
    IsWords w (bigint_shl1 w x x_size x_words shift) ∧
    value w (bigint_shl1 w x x_size x_words shift)
      = (value w (x.take x_words) * 2 ^ shift) % 2 ^ (x_size * w) := by
  obtain ⟨r, c, hr, hl, hwr, hv⟩ := bigint_shl1_core w x x_size x_words (shift / w)
    (shift % w) (Nat.mod_lt _ hw) hx hwx hzero hfit
  have hres : bigint_shl1 w x x_size x_words shift = r := hr
  rw [hres]
  refine ⟨hl, hwr, ?_⟩
  have hlt := value_lt w r hwr
  rw [hl] at hlt
  rw [two_pow_shift w shift, hv, Nat.mul_comm x_size w, Nat.add_mul_mod_self_left,
    Nat.mod_eq_of_lt hlt]

/-- The statement of `bigint_shl1_spec` on 8-bit words: a 3-word value in a 4-word buffer,
shifted by 12 bits, the top bits leaving the buffer. -/
theorem bigint_shl1_spec_witness :
    (bigint_shl1 8 [171, 205, 239, 0] 4 3 12).length = 4 ∧
    IsWords 8 (bigint_shl1 8 [171, 205, 239, 0] 4 3 12) ∧
    value 8 (bigint_shl1 8 [171, 205, 239, 0] 4 3 12)
      = (value 8 ([171, 205, 239, 0].take 3) * 2 ^ 12) % 2 ^ (4 * 8) :=
  bigint_shl1_spec 8 [171, 205, 239, 0] 4 3 12 (by decide) rfl (by unfold IsWords; simp)
    (by
      intro i h1 h2
      have : i = 3 := by omega
      subst this; rfl)
    (by decide)

/-- The body of `bigint_shl2` for a whole-word shift `ws` and a sub-word shift `s`. -/
theorem bigint_shl2_core (w : Nat) (y x : List Nat) (x_size ws s : Nat) (hs : s < w)
    (hx : x.length = x_size) (hwx : IsWords w x) (hy : y.length = x_size + ws + 1)
    (hlow : ∀ i, i < ws → rd y i = 0) (htop : rd y (x_size + ws) = 0) :
    ∃ r, (forRange ws (x_size + ws + 1) (fun i (t : List Nat × Nat) =>
        ((t.1.set i ((rd t.1 i * 2 ^ s) % 2 ^ w ||| t.2)),
          Mask.if_set_return (Mask.expand w s)
            (rd t.1 i / 2 ^ Mask.if_set_return (Mask.expand w s) (w - s))))
        (copy_mem y ws x 0 x_size, 0)).1 = r ∧
      r.length = x_size + ws + 1 ∧ IsWords w r ∧
      value w r = value w x * (2 ^ (w * ws) * 2 ^ s) := by
  obtain ⟨hl1, hr1⟩ := write_range (fun k => rd x (0 + k)) ws x_size y (by omega)
  unfold copy_mem
  generalize hb : forRange 0 x_size (fun k o => o.set (ws + k) (rd x (0 + k))) y = b
    at hl1 hr1
  have hbrd : ∀ j, rd b j = if j < ws then 0 else rd x (j - ws) := by
    intro j
    rw [hr1]
    by_cases h1 : j < ws
    · rw [if_neg (by omega), if_pos h1]; exact hlow j h1
    · rw [if_neg h1]
      by_cases h2 : j < ws + x_size
      · rw [if_pos ⟨by omega, h2⟩, Nat.zero_add]
      · rw [if_neg (by omega), rd_of_ge x _ (by omega)]
        rcases Nat.lt_or_ge j (x_size + ws + 1) with h3 | h3
        · have : j = x_size + ws := by omega
          rw [this]; exact htop
        · exact rd_of_ge y j (by omega)
  have hbw : ∀ i, rd b i < 2 ^ w := by
    intro i
    rw [hbrd]
    split
    · exact Nat.two_pow_pos w
    · exact rd_lt w x hwx _
  have e : x_size + ws + 1 = ws + (x_size + 1) := by omega
  rw [e, shl_loop w s b ws (x_size + 1) (by omega)]
  simp only []
  obtain ⟨hv, hc, hwo⟩ := shl_chain_value w s hs b hbw (x_size + 1) ws 0 (Nat.two_pow_pos _)
  have hlo : b.take ws = List.replicate ws 0 := by
    rw [take_eq_slice b _ (by omega)]
    exact slice_zeros b 0 _ (fun k hk => by rw [hbrd, if_pos (by omega)])
  have hhigh : b.drop (ws + (x_size + 1)) = [] := List.drop_of_length_le (by omega)
  have hmid : slice b ws (x_size + 1) = slice x 0 (x_size + 1) :=
    slice_congr b x ws 0 (x_size + 1) (fun k _ => by
      rw [hbrd, if_neg (by omega), Nat.add_sub_cancel_left, Nat.zero_add])
  rw [hmid, value_slice_ge w _ (x_size + 1) (by omega), Nat.add_zero] at hv
  -- the carry out of the extra top word is zero: no bit is lost
  have hX := value_lt w x hwx
  rw [hx] at hX
  have hcz : (chainList (shlG w s b) ws (x_size + 1) 0).2 = 0 := by
    by_contra hne
    have h1 : 2 ^ (w * (x_size + 1))
        ≤ 2 ^ (w * (x_size + 1)) * (chainList (shlG w s b) ws (x_size + 1) 0).2 :=
      Nat.le_mul_of_pos_right _ (by omega)
    have h2 : 2 ^ s * value w x < 2 ^ w * 2 ^ (w * x_size) :=
      Nat.mul_lt_mul'' (Nat.pow_lt_pow_right (by norm_num) hs) hX
    have hp : 2 ^ (w * (x_size + 1)) = 2 ^ w * 2 ^ (w * x_size) := by
      rw [Nat.mul_succ, pow_add, Nat.mul_comm]
    rw [hp] at h1 hv
    omega
  rw [hcz, Nat.mul_zero, Nat.add_zero, Nat.add_zero] at hv
  rw [hlo, hhigh, List.append_nil]
  refine ⟨_, rfl, ?_, isWords_append w _ _ (isWords_replicate_zero w _) hwo, ?_⟩
  · rw [List.length_append, List.length_replicate, chainList_length]
  · rw [value_append, value_replicate_zero, List.length_replicate, Nat.zero_add, hv]
    ring

/-- C19: for `x` of `x_size` words and an output buffer `y` of
`x_size + word_shift + 1` words (`word_shift = floor(shift / w)`) whose words
`y[0:word_shift]` and `y[x_size + word_shift]` are zero before the call: after
`bigint_shl2(y, x, x_size, shift)`, `value(y) = value(x) * 2^shift` exactly. -/
theorem bigint_shl2_spec (w : Nat) (y x : List Nat) (x_size shift : Nat) (hw : 0 < w)
    (hx : x.length = x_size) (hwx : IsWords w x) (hy : y.length = x_size + shift / w + 1)
    (hlow : ∀ i, i < shift / w → rd y i = 0) (htop : rd y (x_size + shift / w) = 0) :
    (bigint_shl2 w y x x_size shift).length = x_size + shift / w + 1 ∧
    IsWords w (bigint_shl2 w y x x_size shift) ∧
    value w (bigint_shl2 w y x x_size shift) = value w x * 2 ^ shift := by
  obtain ⟨r, hr, hl, hwr, hv⟩ := bigint_shl2_core w y x x_size (shift / w) (shift % w)
    (Nat.mod_lt _ hw) hx hwx hy hlow htop
  have hres : bigint_shl2 w y x x_size shift = r := hr
  rw [hres, two_pow_shift w shift]
  exact ⟨hl, hwr, hv⟩

/-- The statement of `bigint_shl2_spec` on 8-bit words: three words shifted by 12 bits into
a five-word buffer whose middle words hold stale data. -/
theorem bigint_shl2_spec_witness :
    (bigint_shl2 8 [0, 7, 7, 7, 0] [171, 205, 239] 3 12).length = 3 + 12 / 8 + 1 ∧
    IsWords 8 (bigint_shl2 8 [0, 7, 7, 7, 0] [171, 205, 239] 3 12) ∧
    value 8 (bigint_shl2 8 [0, 7, 7, 7, 0] [171, 205, 239] 3 12)
      = value 8 [171, 205, 239] * 2 ^ 12 :=
  bigint_shl2_spec 8 [0, 7, 7, 7, 0] [171, 205, 239] 3 12 (by decide) rfl
    (by unfold IsWords; simp) rfl
    (by
      intro i h
      have : i = 0 := by omega
      subst this; rfl)
    rfl

theorem chainDown_length (g : Nat → Nat → Nat × Nat) (n c : Nat) :
    (chainDown g n c).1.length = n := by
  induction n generalizing c with
  | zero => simp [chainDown]
  | succ n ih => simp [chainDown, ih]

theorem chainDown_congr (g g' : Nat → Nat → Nat × Nat) (n c : Nat)
    (h : ∀ i d, i < n → g i d = g' i d) : chainDown g n c = chainDown g' n c := by
  induction n generalizing c with
  | zero => simp [chainDown]
  | succ n ih =>
    simp only [chainDown]
    rw [h n c (by omega), ih _ (fun i d hi => h i d (by omega))]

theorem forRange_first_shift {σ : Type} (n : Nat) (body : Nat → σ → σ) (s : σ) :
    forRange 0 (n + 1) body s = forRange 0 n (fun k t => body (k + 1) t) (body 0 s) := by
  induction n with
  | zero => rw [forRange_succ 0 0 le_rfl, forRange_self, forRange_self]
  | succ n ih =>
    rw [forRange_succ 0 (n + 1) (Nat.zero_le _), ih, forRange_succ 0 n (Nat.zero_le _)]

/-- The loop `for(size_t i = n; i > 0; --i)` visits `n - k` at its pass number `k`. -/
theorem forDown_eq {σ : Type} (n : Nat) (body : Nat → σ → σ) (s : σ) :
    forDown n body s = forRange 0 n (fun k t => body (n - k) t) s := by
  induction n generalizing s with
  | zero => simp [forDown, forRange_self]
  | succ n ih =>
    rw [forDown, ih, forRange_first_shift, Nat.sub_zero]
    apply forRange_congr
    intro k t _ _
    rw [Nat.add_sub_add_right]

/-- A carry chain running in place from index `n - 1` down to `0` rewrites exactly these
words, each pass reading the word that was there on entry. -/
theorem down_forRange (h : Nat → Nat → Nat × Nat) (n : Nat) (z : List Nat) (c : Nat)
    (hn : n ≤ z.length) :
    forRange 0 n (fun i (t : List Nat × Nat) =>
        ((t.1.set (n - i - 1) (h (rd t.1 (n - i - 1)) t.2).1),
          (h (rd t.1 (n - i - 1)) t.2).2)) (z, c)
      = ((chainDown (fun j d => h (rd z j) d) n c).1 ++ z.drop n,
          (chainDown (fun j d => h (rd z j) d) n c).2) := by
  induction n generalizing z c with
  | zero => simp [forRange_self, chainDown]
  | succ n ih =>
    rw [forRange_first_shift]
    have hcongr : ∀ t0, forRange 0 n (fun k (t : List Nat × Nat) =>
          ((t.1.set (n + 1 - (k + 1) - 1) (h (rd t.1 (n + 1 - (k + 1) - 1)) t.2).1),
            (h (rd t.1 (n + 1 - (k + 1) - 1)) t.2).2)) t0
        = forRange 0 n (fun k (t : List Nat × Nat) =>
          ((t.1.set (n - k - 1) (h (rd t.1 (n - k - 1)) t.2).1),
            (h (rd t.1 (n - k - 1)) t.2).2)) t0 := by
      intro t0
      apply forRange_congr
      intro k t _ _
      rw [show n + 1 - (k + 1) - 1 = n - k - 1 by omega]
    rw [hcongr]
    simp only [Nat.sub_zero, Nat.add_sub_cancel]
    rw [ih (z.set n (h (rd z n) c).1) (h (rd z n) c).2 (by rw [List.length_set]; omega)]
    have hg : chainDown (fun j d => h (rd (z.set n (h (rd z n) c).1) j) d) n (h (rd z n) c).2
        = chainDown (fun j d => h (rd z j) d) n (h (rd z n) c).2 := by
      apply chainDown_congr
      intro i d hi
      rw [rd_set, if_neg (by omega)]
    rw [hg]
    simp only [chainDown]
    rw [List.drop_set, if_neg (by omega), Nat.sub_self,
      (List.drop_eq_getElem_cons (by omega : n < z.length)), List.set_cons_zero]
    simp

/-- One pass of the sub-word right shift, the incoming carry holding `k` in its top
`bit_shift` bits. -/
theorem shr_step (w s a k : Nat) (hs : s < w) (ha : a < 2 ^ w) (hk : k < 2 ^ s) :
    (a / 2 ^ s ||| k * 2 ^ (w - s),
      Mask.if_set_return (Mask.expand w s)
        ((a * 2 ^ Mask.if_set_return (Mask.expand w s) (w - s)) % 2 ^ w))
      = (a / 2 ^ s + k * 2 ^ (w - s), (a % 2 ^ s) * 2 ^ (w - s)) ∧
    a / 2 ^ s + k * 2 ^ (w - s) < 2 ^ w := by
  have hM : 0 < 2 ^ w := Nat.two_pow_pos w
  have hpw : 2 ^ w = 2 ^ s * 2 ^ (w - s) := by rw [← pow_add]; congr 1; omega
  have hq : a / 2 ^ s < 2 ^ (w - s) := by
    apply Nat.div_lt_of_lt_mul; rw [← hpw]; exact ha
  have hbound : a / 2 ^ s + k * 2 ^ (w - s) < 2 ^ w := by
    have := Nat.mul_le_mul_right (2 ^ (w - s)) (Nat.succ_le_of_lt hk)
    rw [Nat.succ_mul, ← hpw] at this
    omega
  refine ⟨?_, hbound⟩
  have hor : a / 2 ^ s ||| k * 2 ^ (w - s) = a / 2 ^ s + k * 2 ^ (w - s) := by
    rw [Nat.or_comm, Nat.mul_comm k, ← Nat.mul_add_lt_is_or hq, Nat.add_comm]
  rw [hor]
  congr 1
  rcases Nat.eq_zero_or_pos s with h0 | h0
  · subst h0
    simp [Mask.expand, Mask.if_set_return, Nat.mod_one]
  · have hne : s ≠ 0 := by omega
    have hws : w - s < 2 ^ w := lt_of_le_of_lt (Nat.sub_le _ _) (Nat.lt_two_pow w)
    simp only [Mask.expand, Mask.if_set_return, ne_eq, hne, not_false_eq_true, if_true,
      word_max_and w _ hws]
    rw [word_max_and w _ (Nat.mod_lt _ hM), hpw, Nat.mul_mod_mul_right]

/-- The sub-word right shift over `x[0 .. n)`: the words written, times `2 ^ bit_shift`,
plus the bits shifted out at the bottom, are the words read plus the incoming carry. -/
theorem shr_chain_value (w s : Nat) (hs : s < w) (x : List Nat) (hwx : ∀ i, rd x i < 2 ^ w)
    (n k : Nat) (hk : k < 2 ^ s) :
    ∃ k', k' < 2 ^ s ∧ (chainDown (shrG w s x) n (k * 2 ^ (w - s))).2 = k' * 2 ^ (w - s) ∧
      value w (chainDown (shrG w s x) n (k * 2 ^ (w - s))).1 * 2 ^ s + k'
        = value w (slice x 0 n) + k * 2 ^ (w * n) ∧
      IsWords w (chainDown (shrG w s x) n (k * 2 ^ (w - s))).1 := by
  have hpw : 2 ^ w = 2 ^ s * 2 ^ (w - s) := by rw [← pow_add]; congr 1; omega
  induction n generalizing k with
  | zero =>
    refine ⟨k, hk, by simp [chainDown], by simp [chainDown, slice_zero, value_nil], ?_⟩
    intro a ha; simp [chainDown] at ha
  | succ n ih =>
    obtain ⟨hstep, hlt⟩ := shr_step w s (rd x n) k hs (hwx n) hk
    have hg : shrG w s x n (k * 2 ^ (w - s))
        = (rd x n / 2 ^ s + k * 2 ^ (w - s), (rd x n % 2 ^ s) * 2 ^ (w - s)) := hstep
    obtain ⟨k', hk', hc', hv', hw'⟩ := ih (rd x n % 2 ^ s) (Nat.mod_lt _ (Nat.two_pow_pos s))
    simp only [chainDown, hg]
    refine ⟨k', hk', hc', ?_, ?_⟩
    · rw [value_append, chainDown_length, slice_snoc, value_append, slice_length]
      simp only [value_cons, value_nil, Nat.mul_zero, Nat.add_zero]
      have hd := Nat.mod_add_div (rd x n) (2 ^ s)
      have e1 : (rd x n / 2 ^ s + k * 2 ^ (w - s)) * 2 ^ s + rd x n % 2 ^ s
          = rd x n + k * 2 ^ w := by
        rw [hpw]
        calc (rd x n / 2 ^ s + k * 2 ^ (w - s)) * 2 ^ s + rd x n % 2 ^ s
            = (rd x n % 2 ^ s + 2 ^ s * (rd x n / 2 ^ s)) + k * (2 ^ s * 2 ^ (w - s)) := by ring
          _ = _ := by rw [hd]
      have e2 : 2 ^ (w * (n + 1)) = 2 ^ (w * n) * 2 ^ w := by rw [Nat.mul_succ, pow_add]
      rw [e2]
      calc (value w (chainDown (shrG w s x) n (rd x n % 2 ^ s * 2 ^ (w - s))).1
              + 2 ^ (w * n) * (rd x n / 2 ^ s + k * 2 ^ (w - s))) * 2 ^ s + k'
          = (value w (chainDown (shrG w s x) n (rd x n % 2 ^ s * 2 ^ (w - s))).1 * 2 ^ s + k')
              + 2 ^ (w * n) * ((rd x n / 2 ^ s + k * 2 ^ (w - s)) * 2 ^ s) := by ring
        _ = value w (slice x 0 n) + (rd x n % 2 ^ s) * 2 ^ (w * n)
              + 2 ^ (w * n) * ((rd x n / 2 ^ s + k * 2 ^ (w - s)) * 2 ^ s) := by rw [hv']
        _ = value w (slice x 0 n) + 2 ^ (w * n)
              * ((rd x n / 2 ^ s + k * 2 ^ (w - s)) * 2 ^ s + rd x n % 2 ^ s) := by ring
        _ = _ := by rw [e1]; ring
    · exact isWords_append w _ _ hw' (fun a ha => by
        simp only [List.mem_singleton] at ha
        rw [ha]; exact hlt)

/-- The words of `x` from index `ws` upwards stand for `value(x)` shifted down by `ws`
words. -/
theorem value_slice_high (w : Nat) (x : List Nat) (hwx : IsWords w x) (ws : Nat) :
    value w (slice x ws (x.length - ws)) = value w x / 2 ^ (w * ws) := by
  have hX := value_lt w x hwx
  rcases Nat.lt_or_ge x.length ws with h | h
  · rw [Nat.sub_eq_zero_of_le h.le, slice_zero, value_nil]
    symm
    apply Nat.div_eq_of_lt
    exact lt_of_lt_of_le hX (Nat.pow_le_pow_right (by norm_num) (Nat.mul_le_mul_left _ h.le))
  · have hsp := value_slice_split w x ws (x.length - ws)
    rw [Nat.add_sub_cancel' h, slice_full] at hsp
    have hlo := value_lt w _ (isWords_slice w x hwx 0 ws)
    rw [slice_length] at hlo
    rw [hsp, Nat.add_comm, Nat.mul_add_div (Nat.two_pow_pos _), Nat.div_eq_of_lt hlo,
      Nat.add_zero]

theorem rd_drop (l : List Nat) (n i : Nat) : rd (l.drop n) i = rd l (n + i) := by
  simp only [rd, List.getD_eq_getElem?_getD, List.getElem?_drop]

theorem list_ext_rd (a b : List Nat) (hl : a.length = b.length) (h : ∀ i, rd a i = rd b i) :
    a = b := by
  apply List.ext_getElem hl
  intro i h1 h2
  rw [← rd_eq_getElem a i h1, ← rd_eq_getElem b i h2]
  exact h i

theorem drop_eq_replicate (l : List Nat) (n : Nat) (h : ∀ i, n ≤ i → rd l i = 0) :
    l.drop n = List.replicate (l.length - n) 0 := by
  apply list_ext_rd
  · simp
  · intro i
    rw [rd_drop, h _ (by omega)]
    rcases Nat.lt_or_ge i (l.length - n) with h1 | h1
    · rw [rd_eq_getElem _ _ (by simpa using h1)]; simp
    · rw [rd_of_ge _ _ (by simpa using h1)]

theorem rd_replicate_zero (n i : Nat) : rd (List.replicate n 0) i = 0 := by
  rcases Nat.lt_or_ge i n with h | h
  · rw [rd_eq_getElem _ _ (by simpa using h)]; simp
  · exact rd_of_ge _ _ (by simpa using h)

theorem rd_append_right (a b : List Nat) (i : Nat) (h : a.length ≤ i) :
    rd (a ++ b) i = rd b (i - a.length) := by
  unfold rd; exact List.getD_append_right _ _ _ _ h

/-- The sub-word shift loop of `bigint_shr1` and `bigint_shr2`, run in place on the buffer
`b` from index `n - 1` down to `0`. -/
theorem shr_loop (w s : Nat) (b : List Nat) (n : Nat) (h : n ≤ b.length) :
    forRange 0 n (fun i (t : List Nat × Nat) =>
        ((t.1.set (n - i - 1) (rd t.1 (n - i - 1) / 2 ^ s ||| t.2)),
          Mask.if_set_return (Mask.expand w s)
            ((rd t.1 (n - i - 1) * 2 ^ Mask.if_set_return (Mask.expand w s) (w - s))
              % 2 ^ w))) (b, 0)
      = ((chainDown (shrG w s b) n 0).1 ++ b.drop n, (chainDown (shrG w s b) n 0).2) :=
  down_forRange (fun a c => (a / 2 ^ s ||| c,
    Mask.if_set_return (Mask.expand w s)
      ((a * 2 ^ Mask.if_set_return (Mask.expand w s) (w - s)) % 2 ^ w))) n b 0 h

/-- The words the sub-word right shift leaves in `b[0 .. n)` stand for the value of the
words read, shifted down by `s` bits. -/
theorem shr_chain_div (w s : Nat) (hs : s < w) (b : List Nat) (hwb : ∀ i, rd b i < 2 ^ w)
    (n : Nat) :
    value w (chainDown (shrG w s b) n 0).1 = value w (slice b 0 n) / 2 ^ s ∧
      IsWords w (chainDown (shrG w s b) n 0).1 := by
  obtain ⟨k', hk', -, hv, hw⟩ := shr_chain_value w s hs b hwb n 0 (Nat.two_pow_pos s)
  rw [Nat.zero_mul] at hv hw
  refine ⟨?_, hw⟩
  rw [Nat.zero_mul, Nat.add_zero] at hv
  rw [← hv, Nat.add_comm, Nat.add_mul_div_right _ _ (Nat.two_pow_pos s), Nat.div_eq_of_lt hk',
    Nat.zero_add]

/-- The body of `bigint_shr1` for a whole-word shift `ws` and a sub-word shift `s`, `T`
being the number of words that remain. -/
theorem bigint_shr1_core (w : Nat) (x : List Nat) (x_size ws s T : Nat) (hs : s < w)
    (hx : x.length = x_size) (hwx : IsWords w x) (hT : T = x_size - ws) :
    ∃ r, (forRange 0 T (fun i (t : List Nat × Nat) =>
        ((t.1.set (T - i - 1) (rd t.1 (T - i - 1) / 2 ^ s ||| t.2)),
          Mask.if_set_return (Mask.expand w s)
            ((rd t.1 (T - i - 1) * 2 ^ Mask.if_set_return (Mask.expand w s) (w - s))
              % 2 ^ w)))
        (clear_mem (if T > 0 then copy_mem x 0 x ws T else x) T (min ws x_size), 0)).1 = r ∧
      r.length = x_size ∧ IsWords w r ∧
      value w r = value w x / (2 ^ (w * ws) * 2 ^ s) ∧
      ∀ i, x_size - ws ≤ i → i < x_size → rd r i = 0 := by
  -- the buffer after the whole-word move
  have hbuf : ∃ b, clear_mem (if T > 0 then copy_mem x 0 x ws T else x) T (min ws x_size) = b ∧
      b.length = x_size ∧ ∀ j, rd b j = if j < T then rd x (ws + j) else 0 := by
    by_cases hT0 : T > 0
    · rw [if_pos hT0]
      unfold copy_mem clear_mem
      obtain ⟨hl1, hr1⟩ := write_range (fun k => rd x (ws + k)) 0 T x (by omega)
      obtain ⟨hl2, hr2⟩ := write_range (fun _ => 0) T (min ws x_size)
        (forRange 0 T (fun k o => o.set (0 + k) (rd x (ws + k))) x) (by omega)
      refine ⟨_, rfl, by rw [hl2, hl1, hx], fun j => ?_⟩
      rw [hr2, hr1]
      by_cases h1 : j < T
      · rw [if_neg (by omega), if_pos ⟨Nat.zero_le _, by omega⟩, if_pos h1, Nat.sub_zero]
      · rw [if_neg h1]
        by_cases h2 : j < T + min ws x_size
        · rw [if_pos ⟨by omega, h2⟩]
        · rw [if_neg (by omega), if_neg (by omega)]
          exact rd_of_ge x j (by omega)
    · rw [if_neg hT0]
      unfold clear_mem
      obtain ⟨hl2, hr2⟩ := write_range (fun _ => 0) T (min ws x_size) x (by omega)
      refine ⟨_, rfl, by rw [hl2, hx], fun j => ?_⟩
      rw [hr2, if_neg (by omega : ¬ j < T)]
      by_cases h2 : T ≤ j ∧ j < T + min ws x_size
      · rw [if_pos h2]
      · rw [if_neg h2]
        exact rd_of_ge x j (by omega)
  obtain ⟨b, hb, hbl, hbrd⟩ := hbuf
  rw [hb, shr_loop w s b T (by omega)]
  simp only []
  have hbw : ∀ i, rd b i < 2 ^ w := by
    intro i
    rw [hbrd]
    split
    · exact rd_lt w x hwx _
    · exact Nat.two_pow_pos w
  obtain ⟨hv, hwo⟩ := shr_chain_div w s hs b hbw T
  have hmid : slice b 0 T = slice x ws T :=
    slice_congr b x 0 ws T (fun k hk => by rw [Nat.zero_add, hbrd, if_pos hk])
  have hhigh : value w (slice x ws T) = value w x / 2 ^ (w * ws) := by
    rw [hT, ← hx]; exact value_slice_high w x hwx ws
  rw [hmid, hhigh, Nat.div_div_eq_div_mul] at hv
  have hdrop : b.drop T = List.replicate (x_size - T) 0 := by
    rw [← hbl]
    exact drop_eq_replicate b T (fun i hi => by rw [hbrd, if_neg (by omega)])
  rw [hdrop]
  refine ⟨_, rfl, ?_, isWords_append w _ _ hwo (isWords_replicate_zero w _), ?_, ?_⟩
  · rw [List.length_append, chainDown_length, List.length_replicate]; omega
  · rw [value_append, value_replicate_zero, Nat.mul_zero, Nat.add_zero, hv]
  · intro i h1 _
    rw [rd_append_right _ _ _ (by rw [chainDown_length]; omega)]
    exact rd_replicate_zero _ _

/-- C18: for a buffer `x` of `x_size` words and every shift (also one of `x_size * w` bits
or more): after `bigint_shr1(x, x_size, shift)`,
`value(x') = floor(value(x) / 2^shift)`, and the vacated high words are zero. -/
theorem bigint_shr1_spec (w : Nat) (x : List Nat) (x_size shift : Nat) (hw : 0 < w)
    (hx : x.length = x_size) (hwx : IsWords w x) :
    (bigint_shr1 w x x_size shift).length = x_size ∧
    IsWords w (bigint_shr1 w x x_size shift) ∧
    value w (bigint_shr1 w x x_size shift) = value w x / 2 ^ shift ∧
    ∀ i, x_size - shift / w ≤ i → i < x_size → rd (bigint_shr1 w x x_size shift) i = 0 := by
  have hT : (if x_size ≥ shift / w then x_size - shift / w else 0) = x_size - shift / w := by
    generalize shift / w = ws
    split <;> omega
  obtain ⟨r, hr, hl, hwr, hv, hz⟩ := bigint_shr1_core w x x_size (shift / w) (shift % w)
    (if x_size ≥ shift / w then x_size - shift / w else 0) (Nat.mod_lt _ hw) hx hwx hT
  have hres : bigint_shr1 w x x_size shift = r := hr
  rw [hres, two_pow_shift w shift]
  exact ⟨hl, hwr, hv, hz⟩

/-- The statement of `bigint_shr1_spec` on 8-bit words: four words shifted down by 12
bits. -/
theorem bigint_shr1_spec_witness :
    (bigint_shr1 8 [171, 205, 239, 18] 4 12).length = 4 ∧
    IsWords 8 (bigint_shr1 8 [171, 205, 239, 18] 4 12) ∧
    value 8 (bigint_shr1 8 [171, 205, 239, 18] 4 12) = value 8 [171, 205, 239, 18] / 2 ^ 12 ∧
    ∀ i, 4 - 12 / 8 ≤ i → i < 4 → rd (bigint_shr1 8 [171, 205, 239, 18] 4 12) i = 0 :=
  bigint_shr1_spec 8 [171, 205, 239, 18] 4 12 (by decide) rfl (by unfold IsWords; simp)

theorem rd_slice (x : List Nat) (lo n i : Nat) (h : i < n) :
    rd (slice x lo n) i = rd x (lo + i) := by
  have hl : i < (slice x lo n).length := by rw [slice_length]; exact h
  rw [rd_eq_getElem (slice x lo n) i hl]
  simp [slice]

/-- The body of `bigint_shr2` for a whole-word shift `ws` and a sub-word shift `s`, `T`
being `new_size`. -/
theorem bigint_shr2_core (w : Nat) (y x : List Nat) (x_size ws s T : Nat) (hs : s < w)
    (hx : x.length = x_size) (hwx : IsWords w x) (hT : T = x_size - ws) (hy : T ≤ y.length) :
    ∃ r, (forDown T (fun i (t : List Nat × Nat) =>
        ((t.1.set (i - 1) (rd t.1 (i - 1) / 2 ^ s ||| t.2)),
          Mask.if_set_return (Mask.expand w s)
            ((rd t.1 (i - 1) * 2 ^ Mask.if_set_return (Mask.expand w s) (w - s)) % 2 ^ w)))
        (if T > 0 then copy_mem y 0 x ws T else y, 0)).1 = r ∧
      r.length = y.length ∧ r.drop T = y.drop T ∧ IsWords w (r.take T) ∧
      value w (r.take T) = value w x / (2 ^ (w * ws) * 2 ^ s) := by
  have hbuf : ∃ b, (if T > 0 then copy_mem y 0 x ws T else y) = b ∧
      b.length = y.length ∧ ∀ j, rd b j = if j < T then rd x (ws + j) else rd y j := by
    by_cases hT0 : T > 0
    · rw [if_pos hT0]
      unfold copy_mem
      obtain ⟨hl1, hr1⟩ := write_range (fun k => rd x (ws + k)) 0 T y (by omega)
      refine ⟨_, rfl, hl1, fun j => ?_⟩
      rw [hr1]
      by_cases h1 : j < T
      · rw [if_pos ⟨Nat.zero_le _, by omega⟩, if_pos h1, Nat.sub_zero]
      · rw [if_neg (by omega), if_neg h1]
    · rw [if_neg hT0]
      exact ⟨y, rfl, rfl, fun j => by rw [if_neg (by omega)]⟩
  obtain ⟨b, hb, hbl, hbrd⟩ := hbuf
  rw [hb, forDown_eq, shr_loop w s b T (by omega)]
  simp only []
  -- the sub-word shift reads only `b[0 .. T)`, which holds words of `x`
  have hcongr : chainDown (shrG w s b) T 0 = chainDown (shrG w s (slice x ws T)) T 0 := by
    apply chainDown_congr
    intro i d hi
    have : rd b i = rd (slice x ws T) i := by
      rw [hbrd, if_pos hi, rd_slice x ws T i hi]
    simp only [shrG, this]
  have hsw : ∀ i, rd (slice x ws T) i < 2 ^ w := fun i => rd_lt w _ (isWords_slice w x hwx ws T) i
  obtain ⟨hv, hwo⟩ := shr_chain_div w s hs (slice x ws T) hsw T
  have hfull : slice (slice x ws T) 0 T = slice x ws T := by
    have := slice_full (slice x ws T)
    rwa [slice_length] at this
  have hhigh : value w (slice x ws T) = value w x / 2 ^ (w * ws) := by
    rw [hT, ← hx]; exact value_slice_high w x hwx ws
  rw [hfull, hhigh, Nat.div_div_eq_div_mul] at hv
  rw [hcongr]
  have hdrop : b.drop T = y.drop T := by
    apply list_ext_rd
    · simp [hbl]
    · intro i
      rw [rd_drop, rd_drop, hbrd, if_neg (by omega)]
  rw [hdrop]
  have hlen : (chainDown (shrG w s (slice x ws T)) T 0).1.length = T := chainDown_length _ _ _
  refine ⟨_, rfl, ?_, List.drop_left' hlen, ?_, ?_⟩
  · rw [List.length_append, hlen, List.length_drop]; omega
  · rw [List.take_left' hlen]; exact hwo
  · rw [List.take_left' hlen]; exact hv

/-- C20: for `x` of `x_size` words, every shift and an output buffer `y` of at least
`new_size = x_size - floor(shift / w)` words (0 when `floor(shift / w) > x_size`): after
`bigint_shr2(y, x, x_size, shift)`, `value(y'[0:new_size]) = floor(value(x) / 2^shift)`,
and every word `y[i]` with `i ≥ new_size` is left unchanged. -/
theorem bigint_shr2_spec (w : Nat) (y x : List Nat) (x_size shift : Nat) (hw : 0 < w)
    (hx : x.length = x_size) (hwx : IsWords w x) (hy : x_size - shift / w ≤ y.length) :
    (bigint_shr2 w y x x_size shift).length = y.length ∧
    (bigint_shr2 w y x x_size shift).drop (x_size - shift / w) = y.drop (x_size - shift / w) ∧
    IsWords w ((bigint_shr2 w y x x_size shift).take (x_size - shift / w)) ∧
    value w ((bigint_shr2 w y x x_size shift).take (x_size - shift / w))
      = value w x / 2 ^ shift := by
  have hT : (if x_size < shift / w then 0 else x_size - shift / w) = x_size - shift / w := by
    generalize shift / w = ws
    split <;> omega
  obtain ⟨r, hr, hl, hd, hwr, hv⟩ := bigint_shr2_core w y x x_size (shift / w) (shift % w)
    (if x_size < shift / w then 0 else x_size - shift / w) (Nat.mod_lt _ hw) hx hwx hT
    (by rw [hT]; exact hy)
  have hres : bigint_shr2 w y x x_size shift = r := hr
  rw [hT] at hd hwr hv
  rw [hres, two_pow_shift w shift]
  exact ⟨hl, hd, hwr, hv⟩

/-- The statement of `bigint_shr2_spec` on 8-bit words: four words shifted down by 12 bits
into a five-word buffer holding stale data. -/
theorem bigint_shr2_spec_witness :
    (bigint_shr2 8 [7, 7, 7, 7, 7] [171, 205, 239, 18] 4 12).length = [7, 7, 7, 7, 7].length ∧
    (bigint_shr2 8 [7, 7, 7, 7, 7] [171, 205, 239, 18] 4 12).drop (4 - 12 / 8)
      = [7, 7, 7, 7, 7].drop (4 - 12 / 8) ∧
    IsWords 8 ((bigint_shr2 8 [7, 7, 7, 7, 7] [171, 205, 239, 18] 4 12).take (4 - 12 / 8)) ∧
    value 8 ((bigint_shr2 8 [7, 7, 7, 7, 7] [171, 205, 239, 18] 4 12).take (4 - 12 / 8))
      = value 8 [171, 205, 239, 18] / 2 ^ 12 :=
  bigint_shr2_spec 8 [7, 7, 7, 7, 7] [171, 205, 239, 18] 4 12 (by decide) rfl
    (by unfold IsWords; simp) (by decide)

/-! ## Division of a double word by a word -/

theorem shl1_or_bit (w h b : Nat) (hw : 0 < w) (hh : h < 2 ^ w) (hb : b < 2) :
    ((h * 2) % 2 ^ w ||| b) + 2 ^ w * (h / 2 ^ (w - 1)) = 2 * h + b := by
  obtain ⟨k, rfl⟩ : ∃ k, w = k + 1 := ⟨w - 1, by omega⟩
  simp only [Nat.add_sub_cancel]
  have e1 : (h * 2) % 2 ^ (k + 1) = 2 ^ 1 * (h % 2 ^ k) := by
    rw [pow_succ, Nat.mul_comm h 2, Nat.mul_comm (2 ^ k) 2, Nat.mul_mod_mul_left]; simp
  rw [e1, ← Nat.mul_add_lt_is_or (by simpa using hb)]
  have := Nat.mod_add_div h (2 ^ k)
  have e2 : 2 ^ (k + 1) * (h / 2 ^ k) = 2 * (2 ^ k * (h / 2 ^ k)) := by ring
  rw [e2, pow_one]
  omega

theorem div_step (w n0 d i h q : Nat) (hi : i < w) (hdw : d < 2 ^ w)
    (hh : h < d) (hq : q < 2 ^ i) :
    (divStep w n0 d i (h, q)).2 * d + (divStep w n0 d i (h, q)).1
        = 2 * (q * d + h) + (n0 / 2 ^ (w - 1 - i)) % 2 ∧
      (divStep w n0 d i (h, q)).1 < d ∧ (divStep w n0 d i (h, q)).2 < 2 ^ (i + 1) := by
  have hb : (n0 / 2 ^ (w - 1 - i)) &&& 1 = (n0 / 2 ^ (w - 1 - i)) % 2 := Nat.and_one_is_mod _
  have hb2 : (n0 / 2 ^ (w - 1 - i)) % 2 < 2 := Nat.mod_lt _ (by omega)
  have hs := shl1_or_bit w h ((n0 / 2 ^ (w - 1 - i)) % 2) (by omega) (by omega) hb2
  have hq2 : (q * 2) % 2 ^ w = 2 ^ 1 * q := by
    rw [Nat.mod_eq_of_lt]
    · ring
    · have : 2 ^ (i + 1) ≤ 2 ^ w := Nat.pow_le_pow_right (by omega) (by omega)
      rw [pow_succ] at this; omega
  have hq3 : (q * 2) % 2 ^ w ||| 1 = 2 * q + 1 := by
    rw [hq2, ← Nat.mul_add_lt_is_or (by norm_num)]
  have htop : h / 2 ^ (w - 1) ≤ 1 := by
    have : h / 2 ^ (w - 1) < 2 := by
      apply Nat.div_lt_of_lt_mul
      have : 2 ^ (w - 1) * 2 = 2 ^ w := by
        rw [← pow_succ]; congr 1; omega
      omega
    omega
  have hmod : d % 2 ^ w = d := Nat.mod_eq_of_lt hdw
  simp only [divStep, hb, hmod]
  generalize (n0 / 2 ^ (w - 1 - i)) % 2 = b at hs hb2 ⊢
  generalize (h * 2) % 2 ^ w ||| b = h2 at hs ⊢
  generalize h / 2 ^ (w - 1) = t at hs htop ⊢
  have hp : 2 ^ (i + 1) = 2 * 2 ^ i := by rw [pow_succ]; ring
  split
  · rename_i hc
    simp only [hq3]
    have ht : t = 0 ∨ t = 1 := by omega
    rcases ht with rfl | rfl
    · simp at hc hs
      have e : (h2 + (2 ^ w - d)) % 2 ^ w = h2 - d := by
        have : h2 + (2 ^ w - d) = (h2 - d) + 2 ^ w := by omega
        rw [this, Nat.add_mod_right, Nat.mod_eq_of_lt (by omega)]
      rw [e]
      refine ⟨?_, by omega, by omega⟩
      have : (2 * q + 1) * d = 2 * (q * d) + d := by ring
      omega
    · simp at hs
      have e : (h2 + (2 ^ w - d)) % 2 ^ w = h2 + 2 ^ w - d := by
        rw [Nat.mod_eq_of_lt (by omega)]; omega
      rw [e]
      refine ⟨?_, by omega, by omega⟩
      have : (2 * q + 1) * d = 2 * (q * d) + d := by ring
      omega
  · rename_i hc
    push_neg at hc
    obtain ⟨hc1, hc2⟩ := hc
    subst hc1
    simp at hs
    rw [hq2]
    dsimp only
    refine ⟨?_, by omega, by omega⟩
    have : 2 ^ 1 * q * d = 2 * (q * d) := by ring
    omega


theorem div_loop (w n0 d h0 : Nat) (hn0 : n0 < 2 ^ w) (hdw : d < 2 ^ w)
    (hh : h0 < d) (i : Nat) (hi : i ≤ w) :
    (forRange 0 i (divStep w n0 d) (h0, 0)).2 * d + (forRange 0 i (divStep w n0 d) (h0, 0)).1
        = h0 * 2 ^ i + n0 / 2 ^ (w - i) ∧
      (forRange 0 i (divStep w n0 d) (h0, 0)).1 < d ∧
      (forRange 0 i (divStep w n0 d) (h0, 0)).2 < 2 ^ i := by
  induction i with
  | zero =>
    rw [forRange_self]
    refine ⟨?_, hh, by simp⟩
    simp [Nat.div_eq_of_lt hn0]
  | succ i ih =>
    obtain ⟨h1, h2, h3⟩ := ih (by omega)
    rw [forRange_succ 0 i (Nat.zero_le _)]
    generalize forRange 0 i (divStep w n0 d) (h0, 0) = s at h1 h2 h3 ⊢
    obtain ⟨h, q⟩ := s
    obtain ⟨e1, e2, e3⟩ := div_step w n0 d i h q (by omega) hdw h2 h3
    refine ⟨?_, e2, e3⟩
    rw [e1]
    simp only at h1
    rw [h1]
    have hp : 2 ^ (w - i) = 2 ^ (w - 1 - i) * 2 := by
      rw [← pow_succ]; congr 1; omega
    have hdiv : n0 / 2 ^ (w - i) = n0 / 2 ^ (w - 1 - i) / 2 := by
      rw [hp, Nat.div_div_eq_div_mul]
    have hw1 : w - (i + 1) = w - 1 - i := by omega
    rw [hdiv, hw1, pow_succ]
    have := Nat.div_add_mod (n0 / 2 ^ (w - 1 - i)) 2
    have e : h0 * (2 ^ i * 2) = 2 * (h0 * 2 ^ i) := by ring
    omega

/-- The quotient of the double word `n1 * 2^w + n0` by `d`, reduced to a word, is the
quotient of `(n1 mod d) * 2^w + n0` by `d`. -/
theorem div_high_mod (w n1 n0 d : Nat) (hd : 0 < d) (hn0 : n0 < 2 ^ w) :
    (n1 * 2 ^ w + n0) / d % 2 ^ w = ((n1 % d) * 2 ^ w + n0) / d := by
  have e : n1 * 2 ^ w + n0 = ((n1 % d) * 2 ^ w + n0) + d * ((n1 / d) * 2 ^ w) := by
    have := Nat.mod_add_div n1 d
    calc n1 * 2 ^ w + n0 = (n1 % d + d * (n1 / d)) * 2 ^ w + n0 := by rw [this]
      _ = _ := by ring
  rw [e, Nat.add_mul_div_left _ _ hd, Nat.add_mul_mod_self_right]
  apply Nat.mod_eq_of_lt
  apply Nat.div_lt_of_lt_mul
  have := Nat.mod_lt n1 hd
  have h2 : (n1 % d + 1) * 2 ^ w ≤ d * 2 ^ w := Nat.mul_le_mul_right _ (by omega)
  have h3 : (n1 % d + 1) * 2 ^ w = n1 % d * 2 ^ w + 2 ^ w := by ring
  omega

theorem bigint_divop_vartime_eq (w : Nat) (dword_is_native : Bool) (n1 n0 d : Nat)
    (hn1 : n1 < 2 ^ w) (hn0 : n0 < 2 ^ w) (hdw : d < 2 ^ w) (hd : d ≠ 0) :
    bigint_divop_vartime w dword_is_native n1 n0 d = .ok ((n1 * 2 ^ w + n0) / d % 2 ^ w) := by
  unfold bigint_divop_vartime
  rw [if_neg (by simpa using hd)]
  cases dword_is_native with
  | true =>
    simp only [if_true]
    have h1 : n1 * 2 ^ w < 2 ^ (2 * w) := by
      rw [two_mul, pow_add]
      exact Nat.mul_lt_mul_of_pos_right hn1 (Nat.two_pow_pos w)
    rw [Nat.mod_eq_of_lt h1, Nat.mul_comm n1, ← Nat.mul_add_lt_is_or hn0]
  | false =>
    simp only [Bool.false_eq_true, if_false]
    have hloop := div_loop w n0 d (n1 % d) hn0 hdw (Nat.mod_lt _ (by omega)) w le_rfl
    change Except.ok (forRange 0 w (divStep w n0 d) (n1 % d, 0)).2 = _
    obtain ⟨h1, h2, h3⟩ := hloop
    rw [Nat.sub_self, pow_zero, Nat.div_one] at h1
    rw [div_high_mod w n1 n0 d (by omega) hn0, ← h1]
    congr 1
    rw [Nat.mul_comm, Nat.mul_add_div (by omega), Nat.div_eq_of_lt h2, Nat.add_zero]


theorem modop_arith (M n1 n0 d Q : Nat) (hM : 0 < M) (hdM : d < M) (hd : 0 < d)
    (hQ : Q = (n1 * M + n0) / d) :
    (n0 + (M - (Q % M * d + 0) % M % M)) % M = (n1 * M + n0) % d := by
  have hR : (n1 * M + n0) % d < M := lt_trans (Nat.mod_lt _ hd) hdM
  rw [Nat.add_zero, Nat.mod_mod]
  have ha : (Q % M * d) % M < M := Nat.mod_lt _ hM
  have key : (n0 + (M - (Q % M * d) % M)) + (Q % M * d) % M
      ≡ (n1 * M + n0) % d + (Q % M * d) % M [MOD M] := by
    have e1 : (n0 + (M - (Q % M * d) % M)) + (Q % M * d) % M = n0 + M := by omega
    rw [e1]
    have e2 : (Q % M * d) % M ≡ Q * d [MOD M] := by
      have : Q % M * d ≡ Q * d [MOD M] := Nat.ModEq.mul_right d (Nat.mod_modEq Q M)
      exact (Nat.mod_modEq _ M).trans this
    have e3 : (n1 * M + n0) % d + (Q % M * d) % M ≡ (n1 * M + n0) % d + Q * d [MOD M] :=
      Nat.ModEq.add_left _ e2
    have e4 : (n1 * M + n0) % d + Q * d = n1 * M + n0 := by
      rw [hQ]; exact Nat.mod_add_div' _ _
    rw [e4] at e3
    have e5 : n0 + M ≡ n1 * M + n0 [MOD M] := by
      unfold Nat.ModEq
      rw [Nat.add_mod_right, Nat.mul_comm, Nat.mul_add_mod]
    exact e5.trans e3.symm
  have h := Nat.ModEq.add_right_cancel' _ key
  unfold Nat.ModEq at h
  rw [h, Nat.mod_eq_of_lt hR]

/-- C21: for words `n1`, `n0` and a word `d ≠ 0`, `bigint_divop_vartime(n1, n0, d)` returns
`floor((n1 * 2^w + n0) / d) mod 2^w` on the native-double-word branch and on the bit-serial
branch alike; with `n1 < d` this is the exact quotient. -/
theorem bigint_divop_vartime_spec (w n1 n0 d : Nat) (hn1 : n1 < 2 ^ w) (hn0 : n0 < 2 ^ w)
    (hdw : d < 2 ^ w) (hd : d ≠ 0) :
    (∀ native : Bool,
      bigint_divop_vartime w native n1 n0 d = .ok ((n1 * 2 ^ w + n0) / d % 2 ^ w)) ∧
    (n1 < d → ∀ native : Bool,
      bigint_divop_vartime w native n1 n0 d = .ok ((n1 * 2 ^ w + n0) / d)) ∧
    bigint_divop_vartime w true n1 n0 d = bigint_divop_vartime w false n1 n0 d := by
  refine ⟨fun b => bigint_divop_vartime_eq w b n1 n0 d hn1 hn0 hdw hd, ?_, ?_⟩
  · intro hlt b
    rw [bigint_divop_vartime_eq w b n1 n0 d hn1 hn0 hdw hd,
      div_high_mod w n1 n0 d (by omega) hn0, Nat.mod_eq_of_lt hlt]
  · rw [bigint_divop_vartime_eq w true n1 n0 d hn1 hn0 hdw hd,
      bigint_divop_vartime_eq w false n1 n0 d hn1 hn0 hdw hd]

/-- The statement of `bigint_divop_vartime_spec` on 8-bit words, at `n1 ≥ d`, where the
quotient does not fit in a word. -/
theorem bigint_divop_vartime_spec_witness :
    (∀ native : Bool,
      bigint_divop_vartime 8 native 200 77 13 = .ok ((200 * 2 ^ 8 + 77) / 13 % 2 ^ 8)) ∧
    (200 < 13 → ∀ native : Bool,
      bigint_divop_vartime 8 native 200 77 13 = .ok ((200 * 2 ^ 8 + 77) / 13)) ∧
    bigint_divop_vartime 8 true 200 77 13 = bigint_divop_vartime 8 false 200 77 13 :=
  bigint_divop_vartime_spec 8 200 77 13 (by decide) (by decide) (by decide) (by decide)

/-- C22: for words `n1`, `n0` and a word `d ≠ 0`, also with `n1 ≥ d`,
`bigint_modop_vartime(n1, n0, d)` returns exactly `(n1 * 2^w + n0) mod d`. -/
theorem bigint_modop_vartime_spec (w : Nat) (native : Bool) (n1 n0 d : Nat)
    (hn1 : n1 < 2 ^ w) (hn0 : n0 < 2 ^ w) (hdw : d < 2 ^ w) (hd : d ≠ 0) :
    bigint_modop_vartime w native n1 n0 d = .ok ((n1 * 2 ^ w + n0) % d) := by
  unfold bigint_modop_vartime
  rw [if_neg (by simpa using hd), bigint_divop_vartime_eq w native n1 n0 d hn1 hn0 hdw hd]
  simp only [word_madd2]
  rw [modop_arith (2 ^ w) n1 n0 d _ (Nat.two_pow_pos w) hdw (by omega) rfl]

/-- The statement of `bigint_modop_vartime_spec` on 8-bit words, at `n1 ≥ d`, through the
bit-serial division. -/
theorem bigint_modop_vartime_spec_witness :
    bigint_modop_vartime 8 false 200 77 13 = .ok ((200 * 2 ^ 8 + 77) % 13) :=
  bigint_modop_vartime_spec 8 false 200 77 13 (by decide) (by decide) (by decide) (by decide)

theorem bigint_divop_vartime_error (w : Nat) (native : Bool) (n1 n0 d : Nat) (e : Failure) :
    bigint_divop_vartime w native n1 n0 d = .error e
      ↔ d = 0 ∧ e = .invalid_argument "Division by zero" := by
  unfold bigint_divop_vartime
  by_cases hd : d = 0
  · subst hd
    simp [eq_comm]
  · rw [if_neg (by simpa using hd)]
    cases native <;> simp [hd]

/-- C28: `bigint_divop_vartime(n1, n0, d)` and `bigint_modop_vartime(n1, n0, d)` fail if
and only if `d = 0`, whatever `n1` and `n0`, and the failure is the `Invalid_Argument`
"Division by zero". -/
theorem bigint_divop_modop_zero (w : Nat) (native : Bool) (n1 n0 d : Nat) (e : Failure) :
    (bigint_divop_vartime w native n1 n0 d = .error e
      ↔ d = 0 ∧ e = .invalid_argument "Division by zero") ∧
    (bigint_modop_vartime w native n1 n0 d = .error e
      ↔ d = 0 ∧ e = .invalid_argument "Division by zero") := by
  refine ⟨bigint_divop_vartime_error w native n1 n0 d e, ?_⟩
  unfold bigint_modop_vartime
  by_cases hd : d = 0
  · subst hd
    simp [eq_comm]
  · rw [if_neg (by simpa using hd)]
    cases hr : bigint_divop_vartime w native n1 n0 d with
    | error e2 =>
      exact absurd ((bigint_divop_vartime_error w native n1 n0 d e2).1 hr).1 hd
    | ok z => simp [hd]

/-! ## Size preconditions and failures -/

/-- The three loops of `bigint_sub2` are one subtraction chain over `x[0 .. x_size)`. -/
theorem bigint_sub2_eq (w : Nat) (x : List Nat) (x_size : Nat) (y : List Nat)
    (y_size : Nat) (hy : y.length = y_size) (hxy : y_size ≤ x_size) (hx : x_size ≤ x.length) :
    bigint_sub2 w x x_size y y_size
      = .ok ((chainList (subG w x y) 0 x_size 0).1 ++ x.drop x_size,
          (chainList (subG w x y) 0 x_size 0).2) := by
  unfold bigint_sub2
  rw [if_neg (by omega)]
  simp only []
  have hbody : ∀ t, forRange y_size x_size (fun i s =>
        ((s.1.set i (word_sub w (rd s.1 i) 0 s.2).1), (word_sub w (rd s.1 i) 0 s.2).2)) t
      = forRange y_size x_size (fun i s =>
        ((s.1.set i (word_sub w (rd s.1 i) (rd y i) s.2).1),
          (word_sub w (rd s.1 i) (rd y i) s.2).2)) t := by
    intro t
    apply forRange_congr
    intro i u h1 _
    simp only [rd_of_ge y i (by omega)]
  rw [blocks_eq, forBlocks8_eq (y_size / 8) _ (fun i s =>
    ((s.1.set i (word_sub w (rd s.1 i) (rd y i) s.2).1),
      (word_sub w (rd s.1 i) (rd y i) s.2).2))]
  · rw [hbody, ← forRange_split 0 (8 * (y_size / 8)) y_size (Nat.zero_le _) (by omega),
      ← forRange_split 0 y_size x_size (Nat.zero_le _) hxy,
      inplace_forRange (fun i a d => word_sub w a (rd y i) d) 0 x_size x 0]
    have := chain_forRange (subG w x y) x_size 0 x 0 (by omega)
    simp only [Nat.zero_add, List.take_zero, List.nil_append] at this
    exact congrArg Except.ok this
  · intro i t
    rw [← forRange_shift]
    rfl

/-- C24: each of `bigint_add2`, `bigint_sub2` and `bigint_sub3` fails, with the assertion
"Expected sizes", if and only if `x_size < y_size`; for `x_size ≥ y_size` they complete,
and `bigint_add2` / `bigint_sub2` leave in `x[0:x_size]` the words and return the
carry / borrow that `bigint_add3` / `bigint_sub3` give with a separate `z`. -/
theorem bigint_add2_sub2_sub3_sizes (w : Nat) (z x y : List Nat) (x_size y_size : Nat)
    (hx : x.length = x_size) (hy : y.length = y_size) (hz : x_size ≤ z.length) :
    (∀ e, bigint_add2 w x x_size y y_size = .error e
      ↔ x_size < y_size ∧ e = .assertion_failure "Expected sizes") ∧
    (∀ e, bigint_sub2 w x x_size y y_size = .error e
      ↔ x_size < y_size ∧ e = .assertion_failure "Expected sizes") ∧
    (∀ e, bigint_sub3 w z x x_size y y_size = .error e
      ↔ x_size < y_size ∧ e = .assertion_failure "Expected sizes") ∧
    (x_size ≥ y_size →
      ∃ xa c xs b zs, bigint_add2 w x x_size y y_size = .ok (xa, c) ∧
        ((bigint_add3 w z x x_size y y_size).1.take x_size, (bigint_add3 w z x x_size y y_size).2)
          = (xa, c) ∧
        bigint_sub2 w x x_size y y_size = .ok (xs, b) ∧
        bigint_sub3 w z x x_size y y_size = .ok (zs, b) ∧ zs.take x_size = xs) := by
  refine ⟨?_, ?_, ?_, ?_⟩
  · intro e
    unfold bigint_add2
    by_cases h : x_size < y_size
    · rw [if_pos (by omega)]; simp [h, eq_comm]
    · rw [if_neg (by omega)]; simp [h]
  · intro e
    unfold bigint_sub2
    by_cases h : x_size < y_size
    · rw [if_pos (by omega)]; simp [h, eq_comm]
    · rw [if_neg (by omega)]; simp [h]
  · intro e
    unfold bigint_sub3
    by_cases h : x_size < y_size
    · rw [if_pos (by omega)]; simp [h, eq_comm]
    · rw [if_neg (by omega)]; simp [h]
  · intro hxy
    have hdrop : x.drop x_size = [] := List.drop_of_length_le (by omega)
    have hadd3 : bigint_add3 w z x x_size y y_size
        = ((chainList (addG w x y) 0 x_size 0).1 ++ z.drop x_size,
            (chainList (addG w x y) 0 x_size 0).2) := by
      unfold bigint_add3; rw [if_neg (by omega)]
      exact bigint_add3_main_eq w z x x_size y y_size hy hxy hz
    refine ⟨_, _, _, _, _, bigint_add2_eq w x x_size y y_size hy hxy (by omega), ?_,
      bigint_sub2_eq w x x_size y y_size hy hxy (by omega),
      bigint_sub3_eq w z x x_size y y_size hy hxy hz, ?_⟩
    · rw [hadd3, hdrop, List.append_nil, take_chain_append]
    · rw [hdrop, List.append_nil, take_chain_append]

/-- The statement of `bigint_add2_sub2_sub3_sizes` on 64-bit words, with a carry and a
borrow out of the top word. -/
theorem bigint_add2_sub2_sub3_sizes_witness :
    (∀ e, bigint_add2 64 [2 ^ 64 - 1, 0] 2 [5] 1 = .error e
      ↔ 2 < 1 ∧ e = .assertion_failure "Expected sizes") ∧
    (∀ e, bigint_sub2 64 [2 ^ 64 - 1, 0] 2 [5] 1 = .error e
      ↔ 2 < 1 ∧ e = .assertion_failure "Expected sizes") ∧
    (∀ e, bigint_sub3 64 [7, 7, 7] [2 ^ 64 - 1, 0] 2 [5] 1 = .error e
      ↔ 2 < 1 ∧ e = .assertion_failure "Expected sizes") ∧
    (2 ≥ 1 →
      ∃ xa c xs b zs, bigint_add2 64 [2 ^ 64 - 1, 0] 2 [5] 1 = .ok (xa, c) ∧
        ((bigint_add3 64 [7, 7, 7] [2 ^ 64 - 1, 0] 2 [5] 1).1.take 2,
            (bigint_add3 64 [7, 7, 7] [2 ^ 64 - 1, 0] 2 [5] 1).2)
          = (xa, c) ∧
        bigint_sub2 64 [2 ^ 64 - 1, 0] 2 [5] 1 = .ok (xs, b) ∧
        bigint_sub3 64 [7, 7, 7] [2 ^ 64 - 1, 0] 2 [5] 1 = .ok (zs, b) ∧ zs.take 2 = xs) :=
  bigint_add2_sub2_sub3_sizes 64 [7, 7, 7] [2 ^ 64 - 1, 0] [5] 2 1 rfl rfl (by decide)

/-- The addition loops of `bigint_add3`, for `x_size ≥ y_size`: what they write and
return. -/
theorem bigint_add3_main_value (w : Nat) (z x y : List Nat) (x_size y_size : Nat)
    (hx : x.length = x_size) (hy : y.length = y_size) (hxy : y_size ≤ x_size)
    (hz : x_size ≤ z.length) (hwx : IsWords w x) (hwy : IsWords w y) :
    (bigint_add3_main w z x x_size y y_size).1.length = z.length ∧
    (bigint_add3_main w z x x_size y y_size).1.drop x_size = z.drop x_size ∧
    IsWords w ((bigint_add3_main w z x x_size y y_size).1.take x_size) ∧
    (bigint_add3_main w z x x_size y y_size).2 ≤ 1 ∧
    value w ((bigint_add3_main w z x x_size y y_size).1.take x_size)
      + (bigint_add3_main w z x x_size y y_size).2 * 2 ^ (x_size * w)
      = value w x + value w y := by
  rw [bigint_add3_main_eq w z x x_size y y_size hy hxy hz]
  have hv := add_chain_value w x y x_size 0 0
  have hc := add_chain_carry w x y hwx hwy x_size 0 0 (by omega)
  have hw := add_chain_words w x y x_size 0 0
  rw [value_slice_ge w x x_size (by omega), value_slice_ge w y x_size (by omega)] at hv
  refine ⟨?_, ?_, ?_, hc, ?_⟩
  · simp [chainList_length]; omega
  · exact drop_chain_append _ _ _ _
  · rw [take_chain_append]; exact hw
  · rw [take_chain_append, Nat.mul_comm x_size w]; linarith

/-- C25 (counterexample): called with `x_size = 1 < y_size = 2`, `bigint_add3` does not
fail: it returns a carry, and it has written two words of `z`, not `x_size = 1`. -/
theorem bigint_add3_short_x_eval :
    bigint_add3 64 [7, 7, 7] [1] 1 [2, 3] 2 = ([3, 3, 7], 0) := by
  decide

/-- C25 (amended): `bigint_add3(z, x, x_size, y, y_size)` never fails. With
`x_size < y_size` it runs as `bigint_add3(z, y, y_size, x, x_size)`. For every pair of
sizes it writes exactly the `max(x_size, y_size)` low words of `z` and returns a carry
`c ∈ {0, 1}` with `value(z[0:max]) + c * 2^(max*w) = value(x) + value(y)`. -/
theorem bigint_add3_any_sizes (w : Nat) (z x y : List Nat) (x_size y_size : Nat)
    (hx : x.length = x_size) (hy : y.length = y_size) (hz : max x_size y_size ≤ z.length)
    (hwx : IsWords w x) (hwy : IsWords w y) :
    ∃ z' c, bigint_add3 w z x x_size y y_size = (z', c) ∧
      (x_size < y_size → bigint_add3 w z y y_size x x_size = (z', c)) ∧
      z'.length = z.length ∧ z'.drop (max x_size y_size) = z.drop (max x_size y_size) ∧
      IsWords w (z'.take (max x_size y_size)) ∧ (c = 0 ∨ c = 1) ∧
      value w (z'.take (max x_size y_size)) + c * 2 ^ (max x_size y_size * w)
        = value w x + value w y := by
  rcases Nat.lt_or_ge x_size y_size with hlt | hge
  · have hm : max x_size y_size = y_size := by omega
    rw [hm] at hz ⊢
    obtain ⟨h1, h2, h3, h4, h5⟩ :=
      bigint_add3_main_value w z y x y_size x_size hy hx (by omega) hz hwy hwx
    refine ⟨(bigint_add3_main w z y y_size x x_size).1,
      (bigint_add3_main w z y y_size x x_size).2, ?_, ?_, h1, h2, h3, by omega, ?_⟩
    · unfold bigint_add3; rw [if_pos hlt]
    · intro _; unfold bigint_add3; rw [if_neg (by omega)]
    · rw [h5]; ring
  · have hm : max x_size y_size = x_size := by omega
    rw [hm] at hz ⊢
    obtain ⟨h1, h2, h3, h4, h5⟩ :=
      bigint_add3_main_value w z x y x_size y_size hx hy hge hz hwx hwy
    refine ⟨(bigint_add3_main w z x x_size y y_size).1,
      (bigint_add3_main w z x x_size y y_size).2, ?_, ?_, h1, h2, h3, by omega, h5⟩
    · unfold bigint_add3; rw [if_neg (by omega)]
    · intro h; omega

/-- The statement of `bigint_add3_any_sizes` on 64-bit words, at `x_size < y_size`. -/
theorem bigint_add3_any_sizes_witness :
    ∃ z' c, bigint_add3 64 [7, 7, 7] [1] 1 [2 ^ 64 - 1, 2 ^ 64 - 1] 2 = (z', c) ∧
      (1 < 2 → bigint_add3 64 [7, 7, 7] [2 ^ 64 - 1, 2 ^ 64 - 1] 2 [1] 1 = (z', c)) ∧
      z'.length = [7, 7, 7].length ∧ z'.drop (max 1 2) = [7, 7, 7].drop (max 1 2) ∧
      IsWords 64 (z'.take (max 1 2)) ∧ (c = 0 ∨ c = 1) ∧
      value 64 (z'.take (max 1 2)) + c * 2 ^ (max 1 2 * 64)
        = value 64 [1] + value 64 [2 ^ 64 - 1, 2 ^ 64 - 1] :=
  bigint_add3_any_sizes 64 [7, 7, 7] [1] [2 ^ 64 - 1, 2 ^ 64 - 1] 1 2 rfl rfl (by decide)
    (by unfold IsWords; simp) (by unfold IsWords; simp)

/-- C29 (counterexample): the carry of `bigint_add3` and the borrow of the following
`bigint_sub3` are both 0 at `x = [0]`, `y = [0]` and both 1 at `x = [2^64 - 1]`,
`y = [1]`: in neither case is exactly one of them 1. -/
theorem bigint_add3_sub3_flags_eval :
    bigint_add3 64 [0] [0] 1 [0] 1 = ([0], 0) ∧
    bigint_sub3 64 [0] [0] 1 [0] 1 = .ok ([0], 0) ∧
    bigint_add3 64 [0] [2 ^ 64 - 1] 1 [1] 1 = ([0], 1) ∧
    bigint_sub3 64 [0] [0] 1 [1] 1 = .ok ([2 ^ 64 - 1], 1) :=
  ⟨by decide, rfl, by decide, rfl⟩

/-- C29 (amended): for `x_size ≥ y_size`, the carry `c` returned by
`bigint_add3(z, x, x_size, y, y_size)` and the borrow `b` returned by the following
`bigint_sub3(z, z, x_size, y, y_size)` are equal: the subtraction borrows exactly when the
addition overflowed. -/
theorem bigint_add3_sub3_flags (w : Nat) (z x y : List Nat) (x_size y_size : Nat)
    (hx : x.length = x_size) (hy : y.length = y_size) (hxy : x_size ≥ y_size)
    (hz : x_size ≤ z.length) (hwx : IsWords w x) (hwy : IsWords w y) :
    ∃ z1 c z2 b, bigint_add3 w z x x_size y y_size = (z1, c) ∧
      bigint_sub3 w z1 z1 x_size y y_size = .ok (z2, b) ∧
      b = c ∧ (c = 0 ∨ c = 1) := by
  have hadd : bigint_add3 w z x x_size y y_size
      = ((chainList (addG w x y) 0 x_size 0).1 ++ z.drop x_size,
          (chainList (addG w x y) 0 x_size 0).2) := by
    unfold bigint_add3; rw [if_neg (by omega)]
    exact bigint_add3_main_eq w z x x_size y y_size hy hxy hz
  have hv := add_chain_value w x y x_size 0 0
  have hc := add_chain_carry w x y hwx hwy x_size 0 0 (by omega)
  have hw := add_chain_words w x y x_size 0 0
  rw [value_slice_ge w x x_size (by omega), value_slice_ge w y x_size (by omega)] at hv
  set z1 := (chainList (addG w x y) 0 x_size 0).1 ++ z.drop x_size with hz1
  have hz1len : x_size ≤ z1.length := by simp [hz1, chainList_length]
  have hsub := bigint_sub3_eq w z1 z1 x_size y y_size hy hxy hz1len
  have hcongr : chainList (subG w z1 y) 0 x_size 0
      = chainList (subG w (chainList (addG w x y) 0 x_size 0).1 y) 0 x_size 0 := by
    apply chainList_congr
    intro i d _ hi
    simp only [subG, rd, hz1]
    rw [List.getD_append _ _ _ _ (by rw [chainList_length]; omega)]
  rw [hcongr] at hsub
  obtain ⟨hv2, hc2, hw2⟩ := sub_chain_value w (chainList (addG w x y) 0 x_size 0).1 y hw hwy
    x_size 0 0 (by omega)
  rw [value_slice_ge w (chainList (addG w x y) 0 x_size 0).1 x_size
      (by rw [chainList_length]), value_slice_ge w y x_size (by omega)] at hv2
  refine ⟨_, _, _, _, hadd, hsub, ?_, by omega⟩
  have hlt1 := value_lt w _ hw
  have hlt2 := value_lt w _ hw2
  rw [chainList_length] at hlt1 hlt2
  have hxlt := value_lt w x hwx
  rw [hx] at hxlt
  generalize (chainList (subG w (chainList (addG w x y) 0 x_size 0).1 y) 0 x_size 0).2 = b
    at hv2 hc2 ⊢
  generalize (chainList (addG w x y) 0 x_size 0).2 = c at hv hc ⊢
  have hb : b = 0 ∨ b = 1 := by omega
  have hc' : c = 0 ∨ c = 1 := by omega
  rcases hb with rfl | rfl <;> rcases hc' with rfl | rfl <;> simp at hv hv2 <;> omega

/-- The statement of `bigint_add3_sub3_flags` on 64-bit words, the addition
overflowing. -/
theorem bigint_add3_sub3_flags_witness :
    ∃ z1 c z2 b, bigint_add3 64 [7, 7, 7] [2 ^ 64 - 1, 2 ^ 64 - 1] 2 [1] 1 = (z1, c) ∧
      bigint_sub3 64 z1 z1 2 [1] 1 = .ok (z2, b) ∧
      b = c ∧ (c = 0 ∨ c = 1) :=
  bigint_add3_sub3_flags 64 [7, 7, 7] [2 ^ 64 - 1, 2 ^ 64 - 1] [1] 2 1 rfl rfl (by decide)
    (by decide) (by unfold IsWords; simp) (by unfold IsWords; simp)

/-- The loop of `bigint_sub2_rev` is one subtraction chain `y - x` over `x[0 .. y_size)`. -/
theorem bigint_sub2_rev_loop (w : Nat) (x y : List Nat) (y_size : Nat)
    (hx : y_size ≤ x.length) :
    forRange 0 y_size (fun i s =>
        ((s.1.set i (word_sub w (rd y i) (rd s.1 i) s.2).1),
          (word_sub w (rd y i) (rd s.1 i) s.2).2)) (x, 0)
      = ((chainList (subG w y x) 0 y_size 0).1 ++ x.drop y_size,
          (chainList (subG w y x) 0 y_size 0).2) := by
  rw [inplace_forRange (fun i a d => word_sub w (rd y i) a d) 0 y_size x 0]
  have := chain_forRange (subG w y x) y_size 0 x 0 (by omega)
  simp only [Nat.zero_add, List.take_zero, List.nil_append] at this
  exact this

/-- C26: for arrays `x`, `y` of `y_size` words, `bigint_sub2_rev(x, y, y_size)` fails, with
the assertion "y must be greater than x", if and only if `value(x) > value(y)`; otherwise,
also at `value(x) = value(y)`, it completes with `value(x') = value(y) - value(x)`. -/
theorem bigint_sub2_rev_spec (w : Nat) (x y : List Nat) (y_size : Nat)
    (hx : x.length = y_size) (hy : y.length = y_size) (hwx : IsWords w x)
    (hwy : IsWords w y) :
    (∀ e, bigint_sub2_rev w x y y_size = .error e
      ↔ value w x > value w y ∧ e = .assertion_failure "y must be greater than x") ∧
    (value w x ≤ value w y →
      ∃ x', bigint_sub2_rev w x y y_size = .ok x' ∧ x'.length = y_size ∧ IsWords w x' ∧
        value w x' = value w y - value w x) := by
  obtain ⟨hv, hb, hw⟩ := sub_chain_value w y x hwy hwx y_size 0 0 (by omega)
  rw [value_slice_ge w x y_size (by omega), value_slice_ge w y y_size (by omega)] at hv
  have hlt := value_lt w _ hw
  rw [chainList_length] at hlt
  have hxlt := value_lt w x hwx
  have hylt := value_lt w y hwy
  rw [hx] at hxlt
  rw [hy] at hylt
  have hdrop : x.drop y_size = [] := List.drop_of_length_le (by omega)
  unfold bigint_sub2_rev
  simp only []
  rw [bigint_sub2_rev_loop w x y y_size (by omega), hdrop, List.append_nil]
  have hb' : (chainList (subG w y x) 0 y_size 0).2 = 0
      ∨ (chainList (subG w y x) 0 y_size 0).2 = 1 := by omega
  rcases hb' with h0 | h1
  · rw [h0] at hv
    simp only [h0, not_true_eq_false, if_false]
    have hle : value w x ≤ value w y := by omega
    refine ⟨?_, ?_⟩
    · intro e
      constructor
      · intro h; cases h
      · intro h; omega
    · intro _
      exact ⟨_, rfl, chainList_length _ _ _ _, hw, by omega⟩
  · rw [h1] at hv
    simp only [h1]
    have hgt : value w x > value w y := by omega
    refine ⟨?_, ?_⟩
    · intro e
      simp [hgt, eq_comm]
    · intro h; omega

/-- The statement of `bigint_sub2_rev_spec` on 64-bit words, at `value(x) = value(y)`. -/
theorem bigint_sub2_rev_spec_witness :
    (∀ e, bigint_sub2_rev 64 [5, 2] [5, 2] 2 = .error e
      ↔ value 64 [5, 2] > value 64 [5, 2]
        ∧ e = .assertion_failure "y must be greater than x") ∧
    (value 64 [5, 2] ≤ value 64 [5, 2] →
      ∃ x', bigint_sub2_rev 64 [5, 2] [5, 2] 2 = .ok x' ∧ x'.length = 2 ∧ IsWords 64 x' ∧
        value 64 x' = value 64 [5, 2] - value 64 [5, 2]) :=
  bigint_sub2_rev_spec 64 [5, 2] [5, 2] 2 rfl rfl (by unfold IsWords; simp)
    (by unfold IsWords; simp)

/-- C27: `monty_inverse(a)` fails if and only if `a` is even, the failure being the
rejection of the argument; for every odd `a` it returns a word. -/
theorem monty_inverse_fails_iff_even (w a : Nat) (e : Failure) :
    (monty_inverse w a = .error e ↔ a % 2 = 0 ∧
      e = .invalid_argument "Cannot compute Montgomery inverse of an even integer") ∧
    ((∃ r, monty_inverse w a = .ok r) ↔ a % 2 = 1) := by
  unfold monty_inverse
  rcases Nat.mod_two_eq_zero_or_one a with h | h
  · rw [if_neg (by omega)]
    simp [h, eq_comm]
  · rw [if_pos h]
    simp [h]

/-! ## The x86-64 path of `redc_crandall` -/

/-- C23: on 64-bit words with `N = 4` and `C = 2^32 + 977` (the constant of secp256k1), at
`z = [P0, 0, max, max, 0, 0, 0, 0]`, whose value is below `p`, the portable `word_sub` loop
returns `z[0:4]` and the x86-64 inline-assembly path returns `[0, 0, 0, 0]`: the assembly
reads `16(%[x])`, the word `hi[2]`, where the portable loop reads `hi[1]`. -/
theorem redc_crandall_asm_differs :
    redc_crandall 64 4 4294968273
        [2 ^ 64 - 4294968273, 0, 2 ^ 64 - 1, 2 ^ 64 - 1, 0, 0, 0, 0]
      = .ok [2 ^ 64 - 4294968273, 0, 2 ^ 64 - 1, 2 ^ 64 - 1] ∧
    redc_crandall_asm 4294968273
        [2 ^ 64 - 4294968273, 0, 2 ^ 64 - 1, 2 ^ 64 - 1, 0, 0, 0, 0]
      = .ok [0, 0, 0, 0] ∧
    value 64 [2 ^ 64 - 4294968273, 0, 2 ^ 64 - 1, 2 ^ 64 - 1, 0, 0, 0, 0]
      < 2 ^ (4 * 64) - 4294968273 :=
  ⟨rfl, rfl, by decide⟩

/-! ## Montgomery reduction in place -/

theorem bigint_monty_redc_ok (w : Nat) (r z p : List Nat) (p_size p_dash : Nat)
    (ws : List Nat) (ws_size : Nat) (h : p_size ≤ ws_size) :
    bigint_monty_redc w r z p p_size p_dash ws ws_size
      = ((bigint_monty_redc_generic w r z (2 * p_size) p p_size p_dash ws).1,
          (bigint_monty_redc_generic w r z (2 * p_size) p p_size p_dash ws).2, .ok ()) := by
  unfold bigint_monty_redc
  rw [if_neg (by omega)]
  simp only []
  split_ifs with h4 h6 h8 h12 h16 h24 h32
  · subst h4; rfl
  · subst h6; rfl
  · subst h8; rfl
  · subst h12; rfl
  · subst h16; rfl
  · subst h24; rfl
  · subst h32; rfl
  · rfl


/-- What the model of the reduction kernel writes: the `p_size` low words of `r`, with
values that do not depend on `r`. -/
theorem bigint_monty_redc_generic_frame (w : Nat) (r r2 z : List Nat) (z_size : Nat)
    (p : List Nat) (p_size p_dash : Nat) (ws : List Nat) (hr : p_size ≤ r.length) :
    (bigint_monty_redc_generic w r z z_size p p_size p_dash ws).1.length = r.length ∧
    (∀ j, p_size ≤ j →
      rd (bigint_monty_redc_generic w r z z_size p p_size p_dash ws).1 j = rd r j) ∧
    (p_size ≤ r2.length → ∀ j, j < p_size →
      rd (bigint_monty_redc_generic w r z z_size p p_size p_dash ws).1 j
        = rd (bigint_monty_redc_generic w r2 z z_size p p_size p_dash ws).1 j) := by
  unfold bigint_monty_redc_generic
  simp only []
  generalize (if forRange 0 p_size (fun i t =>
      t + (((t / 2 ^ (i * w)) % 2 ^ w * p_dash) % 2 ^ w) * value w (p.take p_size)
        * 2 ^ (i * w)) (value w (z.take z_size)) / 2 ^ (p_size * w) ≥ value w (p.take p_size)
    then forRange 0 p_size (fun i t =>
      t + (((t / 2 ^ (i * w)) % 2 ^ w * p_dash) % 2 ^ w) * value w (p.take p_size)
        * 2 ^ (i * w)) (value w (z.take z_size)) / 2 ^ (p_size * w) - value w (p.take p_size)
    else forRange 0 p_size (fun i t =>
      t + (((t / 2 ^ (i * w)) % 2 ^ w * p_dash) % 2 ^ w) * value w (p.take p_size)
        * 2 ^ (i * w)) (value w (z.take z_size)) / 2 ^ (p_size * w)) = t
  have h1 := write_range (fun i => (t / 2 ^ (i * w)) % 2 ^ w) 0 p_size r (by omega)
  simp only [Nat.zero_add, Nat.sub_zero] at h1
  refine ⟨h1.1, ?_, ?_⟩
  · intro j hj
    rw [h1.2 j, if_neg (by omega)]
  · intro hr2 j hj
    have h2 := write_range (fun i => (t / 2 ^ (i * w)) % 2 ^ w) 0 p_size r2 (by omega)
    simp only [Nat.zero_add, Nat.sub_zero] at h2
    rw [h1.2 j, h2.2 j, if_pos ⟨Nat.zero_le _, hj⟩, if_pos ⟨Nat.zero_le _, hj⟩]

/-- C30: for a `2 * p_size`-word buffer `z` and `ws_size ≥ p_size`, after
`bigint_monty_redc_inplace(z, p, p_size, p_dash, ws, ws_size)` the words `z[0:p_size]` are
those `bigint_monty_redc` writes to a separate `r` for the same inputs, and every word
`z[p_size : 2*p_size]` is zero; both functions fail, with `Invalid_Argument` and the
buffer as it was, if and only if `ws_size < p_size`. -/
theorem bigint_monty_redc_inplace_spec (w : Nat) (r z p : List Nat) (p_size p_dash : Nat)
    (ws : List Nat) (ws_size : Nat) (hz : z.length = 2 * p_size) (hr : p_size ≤ r.length) :
    (p_size ≤ ws_size →
      (bigint_monty_redc_inplace w z p p_size p_dash ws ws_size).2.2 = .ok () ∧
      (bigint_monty_redc w r z p p_size p_dash ws ws_size).2.2 = .ok () ∧
      (bigint_monty_redc_inplace w z p p_size p_dash ws ws_size).1.length = 2 * p_size ∧
      (∀ i, i < p_size →
        rd (bigint_monty_redc_inplace w z p p_size p_dash ws ws_size).1 i
          = rd (bigint_monty_redc w r z p p_size p_dash ws ws_size).1 i) ∧
      (∀ i, p_size ≤ i → i < 2 * p_size →
        rd (bigint_monty_redc_inplace w z p p_size p_dash ws ws_size).1 i = 0)) ∧
    (∀ e, (bigint_monty_redc w r z p p_size p_dash ws ws_size).2.2 = .error e
      ↔ ws_size < p_size
        ∧ e = .invalid_argument "Montgomery reduction workspace too small") ∧
    (∀ e, (bigint_monty_redc_inplace w z p p_size p_dash ws ws_size).2.2 = .error e
      ↔ ws_size < p_size
        ∧ e = .invalid_argument "Montgomery reduction workspace too small") ∧
    (ws_size < p_size →
      (bigint_monty_redc w r z p p_size p_dash ws ws_size).1 = r ∧
      (bigint_monty_redc_inplace w z p p_size p_dash ws ws_size).1 = z) := by
  rcases Nat.lt_or_ge ws_size p_size with hlt | hge
  · have h1 : ∀ r, bigint_monty_redc w r z p p_size p_dash ws ws_size
        = (r, ws, .error (.invalid_argument "Montgomery reduction workspace too small")) := by
      intro r
      unfold bigint_monty_redc
      rw [if_pos (by omega)]
    have h2 : bigint_monty_redc_inplace w z p p_size p_dash ws ws_size
        = (z, ws, .error (.invalid_argument "Montgomery reduction workspace too small")) := by
      unfold bigint_monty_redc_inplace
      rw [h1 z]
    rw [h1 r, h2]
    refine ⟨fun h => by omega, ?_, ?_, fun _ => ⟨rfl, rfl⟩⟩
    · intro e; simp [hlt, eq_comm]
    · intro e; simp [hlt, eq_comm]
  · have h1 := bigint_monty_redc_ok w r z p p_size p_dash ws ws_size hge
    have h2 : bigint_monty_redc_inplace w z p p_size p_dash ws ws_size
        = (clear_mem (bigint_monty_redc_generic w z z (2 * p_size) p p_size p_dash ws).1
            p_size p_size,
          (bigint_monty_redc_generic w z z (2 * p_size) p p_size p_dash ws).2, .ok ()) := by
      unfold bigint_monty_redc_inplace
      rw [bigint_monty_redc_ok w z z p p_size p_dash ws ws_size hge]
    obtain ⟨f1, f2, f3⟩ := bigint_monty_redc_generic_frame w z r z (2 * p_size) p p_size
      p_dash ws (by omega)
    have hc := write_range (fun _ => 0) p_size p_size
      (bigint_monty_redc_generic w z z (2 * p_size) p p_size p_dash ws).1 (by omega)
    have hcl : clear_mem (bigint_monty_redc_generic w z z (2 * p_size) p p_size p_dash ws).1
          p_size p_size
        = forRange 0 p_size (fun k o => o.set (p_size + k) ((fun _ => 0) k))
          (bigint_monty_redc_generic w z z (2 * p_size) p p_size p_dash ws).1 := rfl
    rw [← hcl] at hc
    rw [h1, h2]
    refine ⟨fun _ => ⟨rfl, rfl, ?_, ?_, ?_⟩, ?_, ?_, fun h => by omega⟩
    · rw [hc.1, f1, hz]
    · intro i hi
      simp only []
      rw [hc.2 i, if_neg (by omega)]
      exact f3 hr i hi
    · intro i h1 h2
      simp only []
      rw [hc.2 i, if_pos ⟨h1, by omega⟩]
    · intro e
      constructor
      · intro h; cases h
      · intro h; omega
    · intro e
      constructor
      · intro h; cases h
      · intro h; omega

/-- The statement of `bigint_monty_redc_inplace_spec` on 8-bit words, with `p_size = 2`
and a workspace of exactly `p_size` words. -/
theorem bigint_monty_redc_inplace_spec_witness :
    (2 ≤ 2 →
      (bigint_monty_redc_inplace 8 [1, 2, 3, 4] [7, 201] 2 73 [0, 0] 2).2.2 = .ok () ∧
      (bigint_monty_redc 8 [9, 9, 9] [1, 2, 3, 4] [7, 201] 2 73 [0, 0] 2).2.2 = .ok () ∧
      (bigint_monty_redc_inplace 8 [1, 2, 3, 4] [7, 201] 2 73 [0, 0] 2).1.length = 2 * 2 ∧
      (∀ i, i < 2 →
        rd (bigint_monty_redc_inplace 8 [1, 2, 3, 4] [7, 201] 2 73 [0, 0] 2).1 i
          = rd (bigint_monty_redc 8 [9, 9, 9] [1, 2, 3, 4] [7, 201] 2 73 [0, 0] 2).1 i) ∧
      (∀ i, 2 ≤ i → i < 2 * 2 →
        rd (bigint_monty_redc_inplace 8 [1, 2, 3, 4] [7, 201] 2 73 [0, 0] 2).1 i = 0)) ∧
    (∀ e, (bigint_monty_redc 8 [9, 9, 9] [1, 2, 3, 4] [7, 201] 2 73 [0, 0] 2).2.2 = .error e
      ↔ 2 < 2 ∧ e = .invalid_argument "Montgomery reduction workspace too small") ∧
    (∀ e, (bigint_monty_redc_inplace 8 [1, 2, 3, 4] [7, 201] 2 73 [0, 0] 2).2.2 = .error e
      ↔ 2 < 2 ∧ e = .invalid_argument "Montgomery reduction workspace too small") ∧
    (2 < 2 →
      (bigint_monty_redc 8 [9, 9, 9] [1, 2, 3, 4] [7, 201] 2 73 [0, 0] 2).1 = [9, 9, 9] ∧
      (bigint_monty_redc_inplace 8 [1, 2, 3, 4] [7, 201] 2 73 [0, 0] 2).1 = [1, 2, 3, 4]) :=
  bigint_monty_redc_inplace_spec 8 [9, 9, 9] [1, 2, 3, 4] [7, 201] 2 73 [0, 0] 2 rfl
    (by decide)

/-! ## Squaring and shifts of zero -/

/-- C31: for every `N` and every array `x`, the generic path of `comba_sqr<N>(z, x)` leaves
in `z` exactly the words the generic path of `comba_mul<N>(z, x, x)` leaves: the two loops
are the same loop, with `x` read for `y`. -/
theorem comba_sqr_eq_comba_mul (w N : Nat) (z x : List Nat) :
    comba_sqr w N z x = comba_mul w N z x x ∧
    (comba_sqr w N z x).take (2 * N) = (comba_mul w N z x x).take (2 * N) := by
  have h : comba_sqr w N z x = comba_mul w N z x x := by
    unfold comba_sqr comba_mul
    rfl
  exact ⟨h, by rw [h]⟩

theorem be_value_snoc (s : List Nat) (b : Nat) : be_value (s ++ [b]) = be_value s * 256 + b := by
  simp [be_value, List.foldl_append]

theorem be_value_lt (s : List Nat) (h : IsBytes s) : be_value s < 256 ^ s.length := by
  induction s using List.reverseRecOn with
  | nil => simp [be_value]
  | append_singleton s b ih =>
    have hb : b < 256 := h b (by simp)
    have hs := ih (fun a ha => h a (by simp [ha]))
    rw [be_value_snoc, List.length_append, List.length_singleton, pow_succ]
    omega

/-- The increment loop entered at `j` leaves the bytes from index `j` on as they are. -/
theorem increment_from_append (pre suf : List Nat) :
    Seed.increment_from pre.length (pre ++ suf) = Seed.increment_from pre.length pre ++ suf := by
  induction pre using List.reverseRecOn generalizing suf with
  | nil => simp [Seed.increment_from]
  | append_singleton pre b ih =>
    rw [List.length_append, List.length_singleton]
    simp only [Seed.increment_from]
    have e1 : rd (pre ++ [b] ++ suf) pre.length = b := by
      rw [List.append_assoc, rd_append_right _ _ _ le_rfl, Nat.sub_self]; rfl
    have e2 : rd (pre ++ [b]) pre.length = b := by
      rw [rd_append_right _ _ _ le_rfl, Nat.sub_self]; rfl
    have e3 : ∀ v t, (pre ++ [b] ++ t).set pre.length v = pre ++ [v] ++ t := by
      intro v t
      rw [List.append_assoc, List.set_append_right _ _ le_rfl, Nat.sub_self]
      simp
    have e4 : ∀ v, (pre ++ [b]).set pre.length v = pre ++ [v] := by
      intro v
      simp
    have e5 : ∀ v t, rd (pre ++ [v] ++ t) pre.length = v := by
      intro v t
      rw [List.append_assoc, rd_append_right _ _ _ le_rfl, Nat.sub_self]; rfl
    have e6 : ∀ v, rd (pre ++ [v]) pre.length = v := by
      intro v
      have := e5 v []
      simpa using this
    rw [e1, e2, e3, e4, e5, e6]
    split
    · rfl
    · rw [List.append_assoc, ih, ih [(b + 1) % 256], List.append_assoc]

theorem increment_snoc (pre : List Nat) (b : Nat) :
    Seed.increment (pre ++ [b])
      = if (b + 1) % 256 ≠ 0 then pre ++ [(b + 1) % 256]
        else Seed.increment pre ++ [(b + 1) % 256] := by
  unfold Seed.increment
  rw [List.length_append, List.length_singleton]
  simp only [Seed.increment_from]
  have e2 : rd (pre ++ [b]) pre.length = b := by
    rw [rd_append_right _ _ _ le_rfl, Nat.sub_self]; rfl
  have e4 : (pre ++ [b]).set pre.length ((b + 1) % 256) = pre ++ [(b + 1) % 256] := by
    rw [List.set_append_right _ _ le_rfl, Nat.sub_self]
    simp
  have e6 : rd (pre ++ [(b + 1) % 256]) pre.length = (b + 1) % 256 := by
    rw [rd_append_right _ _ _ le_rfl, Nat.sub_self]; rfl
  rw [e2, e4, e6]
  split
  · rfl
  · rw [increment_from_append]

/-- C38: for a byte sequence `s` of length `L`, `Seed::operator++` yields a byte sequence
of length `L` whose big-endian value is `(value(s) + 1) mod 256^L`; an all-`0xFF` seed
wraps to all zeros and an empty seed is unchanged. -/
theorem seed_increment_spec (s : List Nat) (hs : IsBytes s) :
    (Seed.increment s).length = s.length ∧ IsBytes (Seed.increment s) ∧
    be_value (Seed.increment s) = (be_value s + 1) % 256 ^ s.length ∧
    Seed.increment (List.replicate s.length 255) = List.replicate s.length 0 ∧
    Seed.increment [] = [] := by
  have main : ∀ s : List Nat, IsBytes s →
      (Seed.increment s).length = s.length ∧ IsBytes (Seed.increment s) ∧
      be_value (Seed.increment s) = (be_value s + 1) % 256 ^ s.length := by
    intro s
    induction s using List.reverseRecOn with
    | nil =>
      intro _
      refine ⟨rfl, ?_, ?_⟩
      · intro b hb; simp [Seed.increment, Seed.increment_from] at hb
      · simp [Seed.increment, Seed.increment_from, be_value]
    | append_singleton pre b ih =>
      intro h
      have hb : b < 256 := h b (by simp)
      have hpre : IsBytes pre := fun a ha => h a (by simp [ha])
      obtain ⟨i1, i2, i3⟩ := ih hpre
      have hlt := be_value_lt pre hpre
      rw [increment_snoc]
      by_cases h255 : b = 255
      · subst h255
        rw [if_neg (by simp)]
        refine ⟨by simp [i1], ?_, ?_⟩
        · intro a ha
          simp only [List.mem_append, List.mem_singleton] at ha
          rcases ha with ha | ha
          · exact i2 a ha
          · omega
        · rw [be_value_snoc, be_value_snoc, i3, List.length_append, List.length_singleton,
            pow_succ]
          have e : be_value pre * 256 + 255 + 1 = (be_value pre + 1) * 256 := by ring
          rw [e, Nat.mul_mod_mul_right]
          simp
      · have hne : (b + 1) % 256 ≠ 0 := by omega
        have hval : (b + 1) % 256 = b + 1 := by omega
        rw [if_pos hne, hval]
        refine ⟨by simp, ?_, ?_⟩
        · intro a ha
          simp only [List.mem_append, List.mem_singleton] at ha
          rcases ha with ha | ha
          · exact hpre a ha
          · omega
        · rw [be_value_snoc, be_value_snoc, List.length_append, List.length_singleton,
            pow_succ, Nat.mod_eq_of_lt (by omega)]
          ring
  obtain ⟨m1, m2, m3⟩ := main s hs
  refine ⟨m1, m2, m3, ?_, rfl⟩
  generalize s.length = L
  induction L with
  | zero => rfl
  | succ L ih =>
    rw [List.replicate_succ', increment_snoc, if_neg (by simp), ih, List.replicate_succ']

/-- The statement of `seed_increment_spec` on a three-byte seed whose last two bytes
wrap. -/
theorem seed_increment_spec_witness :
    (Seed.increment [7, 255, 255]).length = [7, 255, 255].length ∧
    IsBytes (Seed.increment [7, 255, 255]) ∧
    be_value (Seed.increment [7, 255, 255])
      = (be_value [7, 255, 255] + 1) % 256 ^ [7, 255, 255].length ∧
    Seed.increment (List.replicate [7, 255, 255].length 255)
      = List.replicate [7, 255, 255].length 0 ∧
    Seed.increment [] = [] :=
  seed_increment_spec [7, 255, 255] (by unfold IsBytes; simp)

/-! ## DSA parameter generation -/

theorem fips186_3_valid_size_iff (pbits qbits : Nat) :
    fips186_3_valid_size pbits qbits = true
      ↔ (pbits = 1024 ∧ qbits = 160) ∨ (pbits = 2048 ∧ qbits = 224)
        ∨ (pbits = 2048 ∧ qbits = 256) ∨ (pbits = 3072 ∧ qbits = 256) := by
  unfold fips186_3_valid_size
  by_cases h1 : qbits = 160
  · subst h1; simp
  · by_cases h2 : qbits = 224
    · subst h2; simp
    · by_cases h3 : qbits = 256
      · subst h3; simp
      · simp [h1, h2, h3]

/-- The seeded generator past its two argument checks. -/
theorem generate_dsa_primes_valid {ρ : Type} (c : Collaborators ρ) (s : DsaState ρ)
    (pbits qbits : Nat) (seed_c : List Nat) (offset : Nat)
    (hv : fips186_3_valid_size pbits qbits = true) (hs : ¬ seed_c.length * 8 < qbits) :
    generate_dsa_primes c s pbits qbits seed_c offset
      = if (c.is_prime (dsa_q c qbits seed_c) s.rng).1 = true then
          ((dsa_main c s pbits qbits seed_c offset).1,
            .ok (dsa_main c s pbits qbits seed_c offset).2)
        else (dsa_state_q c s qbits seed_c, .ok false) := by
  unfold generate_dsa_primes
  rw [if_neg (by simp [hv]), if_neg hs]
  simp only [Int.toNat_ofNat]
  by_cases h : (c.is_prime (dsa_q c qbits seed_c) s.rng).1 = true
  · rw [if_pos h, if_neg]
    · rfl
    · simpa [dsa_is_prime, dsa_q] using h
  · rw [if_neg h, if_pos]
    · rfl
    · simpa [dsa_is_prime, dsa_q] using h

/-- The hashing loop of a round keeps the calls made before it, and the seed and `V` it
leaves do not depend on them. -/
theorem dsa_fill_V_spec {ρ : Type} (c : Collaborators ρ) (hash_name : String)
    (HASH_SIZE n : Nat) (seed V : List Nat) (calls calls2 : List Call) :
    (∀ e ∈ calls, e ∈ (dsa_fill_V c hash_name HASH_SIZE n (seed, V, calls)).2.2) ∧
    (dsa_fill_V c hash_name HASH_SIZE n (seed, V, calls)).1
      = (dsa_fill_V c hash_name HASH_SIZE n (seed, V, calls2)).1 ∧
    (dsa_fill_V c hash_name HASH_SIZE n (seed, V, calls)).2.1
      = (dsa_fill_V c hash_name HASH_SIZE n (seed, V, calls2)).2.1 := by
  unfold dsa_fill_V
  generalize n + 1 = m
  induction m with
  | zero => simp [forRange_self]
  | succ m ih =>
    obtain ⟨h1, h2, h3⟩ := ih
    rw [forRange_succ 0 m (Nat.zero_le _), forRange_succ 0 m (Nat.zero_le _)]
    refine ⟨?_, ?_, ?_⟩
    · intro e he
      simp only [List.mem_append]
      exact Or.inl (h1 e he)
    · simp only [h2]
    · simp only [h2, h3]

/-- What the rounds of the seeded generator leave: `q` is not written, the calls made
before are kept, `p` is not written while the round index is below `offset`, and after a
return of `true` the `p` left is a candidate `X - ((X mod q2) - 1)` of `pbits` bits that
the primality test accepted. -/
theorem dsa_rounds_spec {ρ : Type} (c : Collaborators ρ) (hash_name : String)
    (pbits HASH_SIZE n b offset : Nat) (q2 : Int) (rounds j : Nat) (seed V : List Nat)
    (s : DsaState ρ) :
    (dsa_rounds c hash_name pbits HASH_SIZE n b offset q2 rounds j seed V s).1.q = s.q ∧
    (∀ e ∈ s.calls,
      e ∈ (dsa_rounds c hash_name pbits HASH_SIZE n b offset q2 rounds j seed V s).1.calls) ∧
    (j + rounds ≤ offset →
      (dsa_rounds c hash_name pbits HASH_SIZE n b offset q2 rounds j seed V s).1.p = s.p) ∧
    ((dsa_rounds c hash_name pbits HASH_SIZE n b offset q2 rounds j seed V s).2 = true →
      (∃ X : Nat,
        (dsa_rounds c hash_name pbits HASH_SIZE n b offset q2 rounds j seed V s).1.p
          = (X : Int) - ((X : Int) % q2 - 1)) ∧
      BigInt.bits (dsa_rounds c hash_name pbits HASH_SIZE n b offset q2 rounds j seed V s).1.p
        = pbits ∧
      Call.is_prime (dsa_rounds c hash_name pbits HASH_SIZE n b offset q2 rounds j seed V s).1.p
          true
        ∈ (dsa_rounds c hash_name pbits HASH_SIZE n b offset q2 rounds j seed V s).1.calls) := by
  induction rounds generalizing j seed V s with
  | zero =>
    simp [dsa_rounds]
  | succ r ih =>
    have hf := (dsa_fill_V_spec c hash_name HASH_SIZE n seed V s.calls []).1
    simp only [dsa_rounds]
    split_ifs with h1 h2 h3
    · -- accepted
      refine ⟨rfl, ?_, fun h => by omega, fun _ => ⟨⟨_, rfl⟩, h2, ?_⟩⟩
      · intro e he
        simp only [dsa_is_prime, List.mem_append]
        exact Or.inl (hf e he)
      · simp only [dsa_is_prime, List.mem_append, List.mem_singleton]
        right
        simp only [dsa_is_prime] at h3
        rw [h3]
    · -- rejected by the test
      obtain ⟨i1, i2, i3, i4⟩ := ih (j + 1) _ _
        (dsa_is_prime c _
          { p := _, q := s.q, rng := s.rng,
            calls := (dsa_fill_V c hash_name HASH_SIZE n (seed, V, s.calls)).2.2 }).2
      refine ⟨i1, ?_, fun h => by omega, i4⟩
      intro e he
      apply i2
      simp only [dsa_is_prime, List.mem_append]
      exact Or.inl (hf e he)
    · -- wrong bit length
      obtain ⟨i1, i2, i3, i4⟩ := ih (j + 1) _ _
        { p := _, q := s.q, rng := s.rng,
          calls := (dsa_fill_V c hash_name HASH_SIZE n (seed, V, s.calls)).2.2 }
      refine ⟨i1, ?_, fun h => by omega, i4⟩
      intro e he
      exact i2 e (hf e he)
    · -- below the offset
      obtain ⟨i1, i2, i3, i4⟩ := ih (j + 1) _ _
        { p := s.p, q := s.q, rng := s.rng,
          calls := (dsa_fill_V c hash_name HASH_SIZE n (seed, V, s.calls)).2.2 }
      refine ⟨i1, ?_, fun h => i3 (by omega), i4⟩
      intro e he
      exact i2 e (hf e he)

/-- C33: the seeded `generate_dsa_primes` fails if and only if `(pbits, qbits)` is not one
of (1024,160), (2048,224), (2048,256), (3072,256) or `seed.size() * 8 < qbits`; the
failure is `Invalid_Argument`, and the state is then the one on entry: `p` and `q` are
unchanged and no call to the hash, the primality test or the random number generator has
been made. So it is for (2048, 500) with any seed and for a 10-byte seed with
(1024, 160). -/
theorem generate_dsa_primes_invalid {ρ : Type} (c : Collaborators ρ) (s : DsaState ρ)
    (pbits qbits : Nat) (seed_c : List Nat) (offset : Nat) :
    ((∃ e, (generate_dsa_primes c s pbits qbits seed_c offset).2 = .error e)
      ↔ ¬ ((pbits = 1024 ∧ qbits = 160) ∨ (pbits = 2048 ∧ qbits = 224)
          ∨ (pbits = 2048 ∧ qbits = 256) ∨ (pbits = 3072 ∧ qbits = 256))
        ∨ seed_c.length * 8 < qbits) ∧
    (∀ e, (generate_dsa_primes c s pbits qbits seed_c offset).2 = .error e →
      (∃ msg, e = .invalid_argument msg) ∧
      (generate_dsa_primes c s pbits qbits seed_c offset).1 = s) ∧
    (∃ e, (generate_dsa_primes c s 2048 500 seed_c offset).2 = .error e) ∧
    (seed_c.length = 10 → ∃ e, (generate_dsa_primes c s 1024 160 seed_c offset).2 = .error e) := by
  have key : ∀ pbits qbits : Nat,
      ((∃ e, (generate_dsa_primes c s pbits qbits seed_c offset).2 = .error e)
        ↔ ¬ ((pbits = 1024 ∧ qbits = 160) ∨ (pbits = 2048 ∧ qbits = 224)
            ∨ (pbits = 2048 ∧ qbits = 256) ∨ (pbits = 3072 ∧ qbits = 256))
          ∨ seed_c.length * 8 < qbits) ∧
      (∀ e, (generate_dsa_primes c s pbits qbits seed_c offset).2 = .error e →
        (∃ msg, e = .invalid_argument msg) ∧
        (generate_dsa_primes c s pbits qbits seed_c offset).1 = s) := by
    intro pbits qbits
    rw [← fips186_3_valid_size_iff]
    by_cases hv : fips186_3_valid_size pbits qbits = true
    · by_cases hs : seed_c.length * 8 < qbits
      · have e : generate_dsa_primes c s pbits qbits seed_c offset
            = (s, .error (.invalid_argument ("Generating a DSA parameter set with a "
                ++ toString qbits
                ++ " bit long q requires a seed at least as many bits long"))) := by
          unfold generate_dsa_primes
          rw [if_neg (by simp [hv]), if_pos hs]
        rw [e]
        refine ⟨⟨fun _ => Or.inr hs, fun _ => ⟨_, rfl⟩⟩, ?_⟩
        intro e1 he
        cases he
        exact ⟨⟨_, rfl⟩, rfl⟩
      · rw [generate_dsa_primes_valid c s pbits qbits seed_c offset hv hs]
        split
        · refine ⟨⟨fun h => ?_, fun h => ?_⟩, fun e1 he => by cases he⟩
          · obtain ⟨e1, he⟩ := h; cases he
          · rcases h with h | h
            · exact absurd hv h
            · exact absurd h hs
        · refine ⟨⟨fun h => ?_, fun h => ?_⟩, fun e1 he => by cases he⟩
          · obtain ⟨e1, he⟩ := h; cases he
          · rcases h with h | h
            · exact absurd hv h
            · exact absurd h hs
    · have e : generate_dsa_primes c s pbits qbits seed_c offset
          = (s, .error (.invalid_argument
              ("FIPS 186-3 does not allow DSA domain parameters of "
                ++ toString pbits ++ "/" ++ toString qbits ++ " bits long"))) := by
        unfold generate_dsa_primes
        rw [if_pos (by simp [hv])]
      rw [e]
      refine ⟨⟨fun _ => Or.inl hv, fun _ => ⟨_, rfl⟩⟩, ?_⟩
      intro e1 he
      cases he
      exact ⟨⟨_, rfl⟩, rfl⟩
  refine ⟨(key pbits qbits).1, (key pbits qbits).2, ?_, ?_⟩
  · exact (key 2048 500).1.mpr (Or.inl (by omega))
  · intro h10
    exact (key 1024 160).1.mpr (Or.inr (by omega))

/-- C34 (counterexample): the unseeded `generate_dsa_primes` called with (2048, 500) fails
with `Invalid_Argument` after `rng.randomize` has been called for 62 bytes: the generator,
whose state counts the bytes drawn, has advanced from 0 to 62. -/
theorem generate_dsa_primes_unseeded_eval :
    (generate_dsa_primes_unseeded demo_collaborators 2048 500 1 ⟨0, 0, 0, []⟩).1.calls
      = [Call.randomize 62] ∧
    (generate_dsa_primes_unseeded demo_collaborators 2048 500 1 ⟨0, 0, 0, []⟩).1.rng = 62 ∧
    (generate_dsa_primes_unseeded demo_collaborators 2048 500 1 ⟨0, 0, 0, []⟩).2
      = some (.error (.invalid_argument
          "FIPS 186-3 does not allow DSA domain parameters of 2048/500 bits long")) :=
  ⟨by decide, by decide, rfl⟩

/-- C34 (amended): the unseeded `generate_dsa_primes`, called with a `(pbits, qbits)` pair
outside the FIPS table, fails with `Invalid_Argument` in its first pass, after one call of
`rng.randomize` for `qbits / 8` bytes and before any call to the hash or to the primality
test; `p` and `q` are unchanged. -/
theorem generate_dsa_primes_unseeded_invalid {ρ : Type} (c : Collaborators ρ)
    (s : DsaState ρ) (pbits qbits fuel : Nat)
    (hv : ¬ ((pbits = 1024 ∧ qbits = 160) ∨ (pbits = 2048 ∧ qbits = 224)
          ∨ (pbits = 2048 ∧ qbits = 256) ∨ (pbits = 3072 ∧ qbits = 256))) :
    (∃ msg, (generate_dsa_primes_unseeded c pbits qbits (fuel + 1) s).2
      = some (.error (.invalid_argument msg))) ∧
    (generate_dsa_primes_unseeded c pbits qbits (fuel + 1) s).1.calls
      = s.calls ++ [Call.randomize (qbits / 8)] ∧
    (generate_dsa_primes_unseeded c pbits qbits (fuel + 1) s).1.rng
      = (c.randomize (qbits / 8) s.rng).2 ∧
    (generate_dsa_primes_unseeded c pbits qbits (fuel + 1) s).1.p = s.p ∧
    (generate_dsa_primes_unseeded c pbits qbits (fuel + 1) s).1.q = s.q := by
  rw [← fips186_3_valid_size_iff] at hv
  have e : ∀ (t : DsaState ρ) (seed : List Nat), generate_dsa_primes c t pbits qbits seed 0
      = (t, .error (.invalid_argument
          ("FIPS 186-3 does not allow DSA domain parameters of "
            ++ toString pbits ++ "/" ++ toString qbits ++ " bits long"))) := by
    intro t seed
    unfold generate_dsa_primes
    rw [if_pos (by simp [hv])]
  simp [generate_dsa_primes_unseeded, e]

/-- The statement of `generate_dsa_primes_unseeded_invalid` at (2048, 500). -/
theorem generate_dsa_primes_unseeded_invalid_witness :
    (∃ msg, (generate_dsa_primes_unseeded demo_collaborators 2048 500 (0 + 1) ⟨0, 0, 0, []⟩).2
      = some (.error (.invalid_argument msg))) ∧
    (generate_dsa_primes_unseeded demo_collaborators 2048 500 (0 + 1) ⟨0, 0, 0, []⟩).1.calls
      = (⟨0, 0, 0, []⟩ : DsaState Nat).calls ++ [Call.randomize (500 / 8)] ∧
    (generate_dsa_primes_unseeded demo_collaborators 2048 500 (0 + 1) ⟨0, 0, 0, []⟩).1.rng
      = (demo_collaborators.randomize (500 / 8) (⟨0, 0, 0, []⟩ : DsaState Nat).rng).2 ∧
    (generate_dsa_primes_unseeded demo_collaborators 2048 500 (0 + 1) ⟨0, 0, 0, []⟩).1.p
      = (⟨0, 0, 0, []⟩ : DsaState Nat).p ∧
    (generate_dsa_primes_unseeded demo_collaborators 2048 500 (0 + 1) ⟨0, 0, 0, []⟩).1.q
      = (⟨0, 0, 0, []⟩ : DsaState Nat).q :=
  generate_dsa_primes_unseeded_invalid demo_collaborators ⟨0, 0, 0, []⟩ 2048 500 0 (by omega)

theorem set_bit_testBit (x n : Nat) : (set_bit x n).testBit n = true := by
  unfold set_bit
  rw [Nat.testBit_or, Nat.one_shiftLeft, Nat.testBit_two_pow_self, Bool.or_true]

theorem dsa_q_spec {ρ : Type} (c : Collaborators ρ) (qbits : Nat) (seed_c : List Nat) :
    dsa_q c qbits seed_c % 2 = 1 ∧ (dsa_q c qbits seed_c).toNat.testBit (qbits - 1) = true ∧
    1 ≤ dsa_q c qbits seed_c := by
  unfold dsa_q
  generalize be_value (c.digest (hash_function_for qbits) seed_c) = d
  have h0 : (set_bit (set_bit d (qbits - 1)) 0).testBit 0 = true := set_bit_testBit _ _
  have h1 : (set_bit (set_bit d (qbits - 1)) 0) % 2 = 1 :=
    Nat.mod_two_eq_one_iff_testBit_zero.mpr h0
  have h2 : (set_bit (set_bit d (qbits - 1)) 0).testBit (qbits - 1) = true := by
    unfold set_bit
    rw [Nat.testBit_or, Nat.testBit_or, Nat.one_shiftLeft, Nat.testBit_two_pow_self]
    simp
  refine ⟨by omega, ?_, by omega⟩
  rw [Int.toNat_ofNat]
  exact h2

/-- The candidate `p = X - ((X mod q2) - 1)` is `1` modulo `q2`. -/
theorem dsa_p_mod (X q2 : Int) (h : 2 ≤ q2) : (X - (X % q2 - 1)) % q2 = 1 := by
  have e : X - (X % q2 - 1) = 1 + q2 * (X / q2) := by
    have := Int.emod_add_ediv X q2
    omega
  rw [e, Int.add_mul_emod_self_left]
  exact Int.emod_eq_of_lt (by omega) (by omega)

/-- The count of binary digits, with enough fuel: `x` has exactly that many bits. -/
theorem bit_length_spec (fuel x : Nat) (h : x ≤ fuel) (hx : 0 < x) :
    2 ^ (bit_length fuel x - 1) ≤ x ∧ x < 2 ^ bit_length fuel x ∧ 0 < bit_length fuel x := by
  induction fuel generalizing x with
  | zero => omega
  | succ fuel ih =>
    simp only [bit_length]
    rw [if_neg (by omega)]
    rcases Nat.eq_zero_or_pos (x / 2) with h0 | hpos
    · have hx1 : x = 1 := by omega
      subst hx1
      cases fuel <;> simp [bit_length]
    · obtain ⟨i1, i2, i3⟩ := ih (x / 2) (by omega) hpos
      refine ⟨?_, ?_, by omega⟩
      · rw [Nat.add_sub_cancel]
        have e : bit_length fuel (x / 2) = (bit_length fuel (x / 2) - 1) + 1 := by omega
        rw [e, pow_succ]
        omega
      · rw [pow_succ]
        omega

/-- A byte sequence of `pbits / 8` bytes read as an integer, its bit `pbits - 1` forced, has
exactly `pbits` bits. -/
theorem bits_set_top (l : List Nat) (pbits : Nat) (hl : IsBytes l) (h8 : 8 * l.length = pbits)
    (hp : 0 < pbits) :
    BigInt.bits ((set_bit (be_value l) (pbits - 1) : Nat) : Int) = pbits := by
  have hlt := be_value_lt l hl
  have e256 : (256 : Nat) ^ l.length = 2 ^ pbits := by
    rw [← h8, pow_mul]; norm_num
  rw [e256] at hlt
  have hy : set_bit (be_value l) (pbits - 1) < 2 ^ pbits := by
    unfold set_bit
    rw [Nat.one_shiftLeft]
    exact Nat.or_lt_two_pow hlt (Nat.pow_lt_pow_right (by omega) (by omega))
  have hge : 2 ^ (pbits - 1) ≤ set_bit (be_value l) (pbits - 1) :=
    Nat.testBit_implies_ge (set_bit_testBit _ _)
  have hpos : 0 < set_bit (be_value l) (pbits - 1) := by
    have := Nat.two_pow_pos (pbits - 1)
    omega
  unfold BigInt.bits
  rw [Int.natAbs_ofNat]
  obtain ⟨b1, b2, b3⟩ := bit_length_spec _ _ le_rfl hpos
  generalize bit_length (set_bit (be_value l) (pbits - 1)) (set_bit (be_value l) (pbits - 1))
    = r at b1 b2 b3
  generalize set_bit (be_value l) (pbits - 1) = y at hy hge b1 b2
  rcases Nat.lt_trichotomy r pbits with h | h | h
  · have : 2 ^ r ≤ 2 ^ (pbits - 1) := Nat.pow_le_pow_right (by omega) (by omega)
    omega
  · exact h
  · have : 2 ^ pbits ≤ 2 ^ (r - 1) := Nat.pow_le_pow_right (by omega) (by omega)
    omega

/-- What a return of `true` or `false` says of the arguments and of the test of `q`. -/
theorem generate_dsa_primes_ok {ρ : Type} (c : Collaborators ρ) (s : DsaState ρ)
    (pbits qbits : Nat) (seed_c : List Nat) (offset : Nat) (b : Bool)
    (hret : (generate_dsa_primes c s pbits qbits seed_c offset).2 = .ok b) :
    fips186_3_valid_size pbits qbits = true ∧ ¬ seed_c.length * 8 < qbits := by
  by_cases hv : fips186_3_valid_size pbits qbits = true
  · refine ⟨hv, fun hs => ?_⟩
    unfold generate_dsa_primes at hret
    rw [if_neg (by simp [hv]), if_pos hs] at hret
    cases hret
  · unfold generate_dsa_primes at hret
    rw [if_pos (by simp [hv])] at hret
    cases hret

/-- C35 (counterexample): with `p = q = 0` on entry and a seed whose digest is twenty zero
bytes, the seeded generator returns `false`, the candidate `q = 2^159 + 1` being a
multiple of 3, and `q` is left holding that candidate. -/
theorem generate_dsa_primes_false_eval :
    (generate_dsa_primes demo_collaborators ⟨0, 0, 0, []⟩ 1024 160 (List.replicate 20 0) 0).2
      = .ok false ∧
    (generate_dsa_primes demo_collaborators ⟨0, 0, 0, []⟩ 1024 160 (List.replicate 20 0) 0).1.q
      = ((2 ^ 159 + 1 : Nat) : Int) ∧
    (generate_dsa_primes demo_collaborators ⟨0, 0, 0, []⟩ 1024 160 (List.replicate 20 0) 0).1.q
      ≠ (⟨0, 0, 0, []⟩ : DsaState Nat).q := by
  have hq : (generate_dsa_primes demo_collaborators ⟨0, 0, 0, []⟩ 1024 160
      (List.replicate 20 0) 0).1.q = ((2 ^ 159 + 1 : Nat) : Int) := rfl
  refine ⟨rfl, hq, ?_⟩
  rw [hq]
  show ((2 ^ 159 + 1 : Nat) : Int) ≠ 0
  omega

/-- C35 (amended): when the seeded `generate_dsa_primes` returns `false`, `q` holds the
candidate derived from the seed (the digest of the seed with bits `qbits - 1` and 0
forced), which is written before it is tested; `p` is the same as before the call when the
candidate `q` was rejected and when `offset ≥ 4 * pbits`. -/
theorem generate_dsa_primes_false_outputs {ρ : Type} (c : Collaborators ρ) (s : DsaState ρ)
    (pbits qbits : Nat) (seed_c : List Nat) (offset : Nat)
    (hret : (generate_dsa_primes c s pbits qbits seed_c offset).2 = .ok false) :
    (generate_dsa_primes c s pbits qbits seed_c offset).1.q = dsa_q c qbits seed_c ∧
    ((c.is_prime (dsa_q c qbits seed_c) s.rng).1 = false →
      (generate_dsa_primes c s pbits qbits seed_c offset).1.p = s.p) ∧
    (4 * pbits ≤ offset → (generate_dsa_primes c s pbits qbits seed_c offset).1.p = s.p) := by
  obtain ⟨hv, hs⟩ := generate_dsa_primes_ok c s pbits qbits seed_c offset false hret
  rw [generate_dsa_primes_valid c s pbits qbits seed_c offset hv hs]
  obtain ⟨r1, -, r3, -⟩ := dsa_rounds_spec c (hash_function_for qbits) pbits
    (c.output_length (hash_function_for qbits))
    ((pbits - 1) / (c.output_length (hash_function_for qbits) * 8))
    ((pbits - 1) % (c.output_length (hash_function_for qbits) * 8)) offset
    (2 * dsa_q c qbits seed_c) (4 * pbits) 0 seed_c
    (List.replicate (c.output_length (hash_function_for qbits)
      * ((pbits - 1) / (c.output_length (hash_function_for qbits) * 8) + 1)) 0)
    (dsa_state_q c s qbits seed_c)
  have hq : (dsa_state_q c s qbits seed_c).q = dsa_q c qbits seed_c := rfl
  have hp : (dsa_state_q c s qbits seed_c).p = s.p := rfl
  split
  · refine ⟨?_, ?_, ?_⟩
    · exact r1.trans hq
    · intro hf
      rename_i ht
      rw [hf] at ht
      cases ht
    · intro ho
      exact (r3 (by omega)).trans hp
  · exact ⟨hq, fun _ => hp, fun _ => hp⟩

/-- The statement of `generate_dsa_primes_false_outputs` where the candidate `q` is
rejected. -/
theorem generate_dsa_primes_false_outputs_witness :
    (generate_dsa_primes demo_collaborators ⟨0, 0, 0, []⟩ 1024 160 (List.replicate 20 0) 0).1.q
      = dsa_q demo_collaborators 160 (List.replicate 20 0) ∧
    ((demo_collaborators.is_prime (dsa_q demo_collaborators 160 (List.replicate 20 0))
        (⟨0, 0, 0, []⟩ : DsaState Nat).rng).1 = false →
      (generate_dsa_primes demo_collaborators ⟨0, 0, 0, []⟩ 1024 160
        (List.replicate 20 0) 0).1.p = (⟨0, 0, 0, []⟩ : DsaState Nat).p) ∧
    (4 * 1024 ≤ 0 →
      (generate_dsa_primes demo_collaborators ⟨0, 0, 0, []⟩ 1024 160
        (List.replicate 20 0) 0).1.p = (⟨0, 0, 0, []⟩ : DsaState Nat).p) :=
  generate_dsa_primes_false_outputs demo_collaborators ⟨0, 0, 0, []⟩ 1024 160
    (List.replicate 20 0) 0 rfl

/-- For each pair of the FIPS table, with a hash of `qbits / 8` bytes: the index
`HASH_SIZE - 1 - b / 8` does not underflow, and the bytes of `V` from that index on are
`pbits / 8` many. -/
theorem dsa_V_suffix (pbits qbits HASH_SIZE : Nat)
    (hv : fips186_3_valid_size pbits qbits = true) (hh : HASH_SIZE * 8 = qbits) :
    (pbits - 1) % (HASH_SIZE * 8) / 8 + 1 ≤ HASH_SIZE ∧
    8 * (HASH_SIZE * ((pbits - 1) / (HASH_SIZE * 8) + 1)
      - (HASH_SIZE - 1 - (pbits - 1) % (HASH_SIZE * 8) / 8)) = pbits ∧ 0 < pbits := by
  rw [fips186_3_valid_size_iff] at hv
  rcases hv with ⟨rfl, rfl⟩ | ⟨rfl, rfl⟩ | ⟨rfl, rfl⟩ | ⟨rfl, rfl⟩
  · have : HASH_SIZE = 20 := by omega
    subst this; decide
  · have : HASH_SIZE = 28 := by omega
    subst this; decide
  · have : HASH_SIZE = 32 := by omega
    subst this; decide
  · have : HASH_SIZE = 32 := by omega
    subst this; decide

/-- C36: when the seeded `generate_dsa_primes` returns `true`: `q` is odd and has bit
`qbits - 1` set, `p mod (2 * q) = 1`, `p` has exactly `pbits` bits, and the primality test
was called on `q` and on `p` and accepted both. Moreover, the pair being one of the FIPS
table and the hash giving `qbits / 8` bytes, the index `HASH_SIZE - 1 - b / 8` does not
underflow and the candidate `X` read from `V` at that index has exactly `pbits` bits once
its top bit is forced. -/
theorem generate_dsa_primes_true {ρ : Type} (c : Collaborators ρ) (s : DsaState ρ)
    (pbits qbits : Nat) (seed_c : List Nat) (offset : Nat)
    (hret : (generate_dsa_primes c s pbits qbits seed_c offset).2 = .ok true) :
    (generate_dsa_primes c s pbits qbits seed_c offset).1.q % 2 = 1 ∧
    (generate_dsa_primes c s pbits qbits seed_c offset).1.q.toNat.testBit (qbits - 1) = true ∧
    (generate_dsa_primes c s pbits qbits seed_c offset).1.p
      % (2 * (generate_dsa_primes c s pbits qbits seed_c offset).1.q) = 1 ∧
    BigInt.bits (generate_dsa_primes c s pbits qbits seed_c offset).1.p = pbits ∧
    Call.is_prime (generate_dsa_primes c s pbits qbits seed_c offset).1.q true
      ∈ (generate_dsa_primes c s pbits qbits seed_c offset).1.calls ∧
    Call.is_prime (generate_dsa_primes c s pbits qbits seed_c offset).1.p true
      ∈ (generate_dsa_primes c s pbits qbits seed_c offset).1.calls ∧
    (c.output_length (hash_function_for qbits) * 8 = qbits →
      (pbits - 1) % (c.output_length (hash_function_for qbits) * 8) / 8 + 1
        ≤ c.output_length (hash_function_for qbits) ∧
      ∀ V : List Nat, IsBytes V →
        V.length = c.output_length (hash_function_for qbits)
          * ((pbits - 1) / (c.output_length (hash_function_for qbits) * 8) + 1) →
        BigInt.bits ((set_bit (be_value (V.drop (c.output_length (hash_function_for qbits) - 1
          - (pbits - 1) % (c.output_length (hash_function_for qbits) * 8) / 8)))
          (pbits - 1) : Nat) : Int) = pbits) := by
  obtain ⟨hv, hs⟩ := generate_dsa_primes_ok c s pbits qbits seed_c offset true hret
  have hX : c.output_length (hash_function_for qbits) * 8 = qbits →
      (pbits - 1) % (c.output_length (hash_function_for qbits) * 8) / 8 + 1
        ≤ c.output_length (hash_function_for qbits) ∧
      ∀ V : List Nat, IsBytes V →
        V.length = c.output_length (hash_function_for qbits)
          * ((pbits - 1) / (c.output_length (hash_function_for qbits) * 8) + 1) →
        BigInt.bits ((set_bit (be_value (V.drop (c.output_length (hash_function_for qbits) - 1
          - (pbits - 1) % (c.output_length (hash_function_for qbits) * 8) / 8)))
          (pbits - 1) : Nat) : Int) = pbits := by
    intro hh
    obtain ⟨u1, u2, u3⟩ := dsa_V_suffix pbits qbits _ hv hh
    refine ⟨u1, fun V hV hlen => ?_⟩
    apply bits_set_top _ _ (fun a ha => hV a (List.mem_of_mem_drop ha)) _ u3
    rw [List.length_drop, hlen]
    exact u2
  rw [generate_dsa_primes_valid c s pbits qbits seed_c offset hv hs] at hret ⊢
  obtain ⟨q1, q2, q3⟩ := dsa_q_spec c qbits seed_c
  obtain ⟨r1, r2, -, r4⟩ := dsa_rounds_spec c (hash_function_for qbits) pbits
    (c.output_length (hash_function_for qbits))
    ((pbits - 1) / (c.output_length (hash_function_for qbits) * 8))
    ((pbits - 1) % (c.output_length (hash_function_for qbits) * 8)) offset
    (2 * dsa_q c qbits seed_c) (4 * pbits) 0 seed_c
    (List.replicate (c.output_length (hash_function_for qbits)
      * ((pbits - 1) / (c.output_length (hash_function_for qbits) * 8) + 1)) 0)
    (dsa_state_q c s qbits seed_c)
  have hq : (dsa_state_q c s qbits seed_c).q = dsa_q c qbits seed_c := rfl
  by_cases ht : (c.is_prime (dsa_q c qbits seed_c) s.rng).1 = true
  · rw [if_pos ht] at hret ⊢
    have hb : (dsa_main c s pbits qbits seed_c offset).2 = true := by
      have := hret
      simp only [Except.ok.injEq] at this
      exact this
    obtain ⟨⟨X, hXp⟩, hbits, hcall⟩ := r4 hb
    have hqm : (dsa_main c s pbits qbits seed_c offset).1.q = dsa_q c qbits seed_c :=
      r1.trans hq
    have hcq : Call.is_prime (dsa_q c qbits seed_c) true ∈ (dsa_state_q c s qbits seed_c).calls := by
      simp only [dsa_state_q, dsa_is_prime, List.mem_append, List.mem_singleton]
      right
      rw [ht]
    simp only []
    rw [hqm]
    refine ⟨q1, q2, ?_, hbits, r2 _ hcq, hcall, hX⟩
    have hXp' : (dsa_main c s pbits qbits seed_c offset).1.p
        = (X : Int) - ((X : Int) % (2 * dsa_q c qbits seed_c) - 1) := hXp
    rw [hXp']
    exact dsa_p_mod _ _ (by omega)
  · rw [if_neg ht] at hret
    cases hret

set_option maxRecDepth 100000 in
/-- The statement of `generate_dsa_primes_true` on a run that returns `true`: (1024, 160)
with the seed of twenty bytes `2`. -/
theorem generate_dsa_primes_true_witness :
    (generate_dsa_primes demo_collaborators ⟨0, 0, 0, []⟩ 1024 160 (List.replicate 20 2) 0).2
      = .ok true ∧
    (generate_dsa_primes demo_collaborators ⟨0, 0, 0, []⟩ 1024 160
      (List.replicate 20 2) 0).1.q % 2 = 1 ∧
    BigInt.bits (generate_dsa_primes demo_collaborators ⟨0, 0, 0, []⟩ 1024 160
      (List.replicate 20 2) 0).1.p = 1024 :=
  ⟨rfl,
    (generate_dsa_primes_true demo_collaborators ⟨0, 0, 0, []⟩ 1024 160
      (List.replicate 20 2) 0 rfl).1,
    (generate_dsa_primes_true demo_collaborators ⟨0, 0, 0, []⟩ 1024 160
      (List.replicate 20 2) 0 rfl).2.2.2.1⟩

/-- With enough fuel, `pow_mod a n fuel e` is `a ^ e mod n`. -/
theorem pow_mod_spec (a n fuel e : Nat) (h : e ≤ fuel) : pow_mod a n fuel e = a ^ e % n := by
  induction fuel generalizing e with
  | zero =>
    have e0 : e = 0 := by omega
    subst e0
    simp [pow_mod]
  | succ fuel ih =>
    rw [pow_mod]
    by_cases e0 : e = 0
    · subst e0
      simp
    · rw [if_neg e0, ih (e / 256) (by omega)]
      have h1 : ((a ^ (e / 256) % n) ^ 16 % n) ^ 16 % n = a ^ (256 * (e / 256)) % n := by
        rw [← Nat.pow_mod, ← pow_mul, ← Nat.pow_mod, ← pow_mul]
        congr 2
        omega
      rw [h1, ← Nat.mul_mod]
      rw [← pow_add, Nat.div_add_mod]

theorem value_drop_div (w : Nat) (l : List Nat) (hl : IsWords w l) (k : Nat) :
    value w l / 2 ^ (w * k) = value w (l.drop k) := by
  induction k generalizing l with
  | zero => simp
  | succ k ih =>
    cases l with
    | nil => simp [value]
    | cons a t =>
      have ha : a < 2 ^ w := hl a (List.mem_cons_self _ _)
      have ht : IsWords w t := fun b hb => hl b (List.mem_cons_of_mem _ hb)
      rw [List.drop_succ_cons, ← ih t ht, value_cons, Nat.mul_succ, Nat.add_comm (w * k) w,
        pow_add, ← Nat.div_div_eq_div_mul, Nat.add_mul_div_left _ _ (Nat.two_pow_pos w),
        Nat.div_eq_of_lt ha, Nat.zero_add]

theorem rd_reverse (l : List Nat) (k : Nat) (h : k < l.length) :
    rd l.reverse k = rd l (l.length - 1 - k) := by
  rw [rd_eq_getElem _ _ (by simpa using h), rd_eq_getElem _ _ (by omega), List.getElem_reverse]

/-- The low `n` bits of a word shifted right inside the word. -/
theorem window_single (w a R s n : Nat) (hn : s + n ≤ w) :
    (a + 2 ^ w * R) / 2 ^ s % 2 ^ n = a / 2 ^ s % 2 ^ n := by
  have e : 2 ^ w = 2 ^ s * (2 ^ n * 2 ^ (w - s - n)) := by
    rw [← pow_add, ← pow_add]; congr 1; omega
  rw [e, Nat.mul_assoc, Nat.add_mul_div_left _ _ (Nat.two_pow_pos s), Nat.mul_assoc,
    Nat.add_mul_mod_self_left]

/-- The low `n` bits of two adjacent words joined at a bit offset `s`. -/
theorem window_joined (w a b R s n : Nat) (ha : a < 2 ^ w) (hs : s < w) (hn : n ≤ w) :
    (a / 2 ^ s ||| (b * 2 ^ (w - s)) % 2 ^ w) % 2 ^ n
      = (a + 2 ^ w * (b + 2 ^ w * R)) / 2 ^ s % 2 ^ n := by
  have hsw : 2 ^ w = 2 ^ s * 2 ^ (w - s) := by
    rw [← pow_add]; congr 1; omega
  have h1 : (b * 2 ^ (w - s)) % 2 ^ w = 2 ^ (w - s) * (b % 2 ^ s) := by
    rw [hsw, Nat.mul_comm b, Nat.mul_comm (2 ^ s), Nat.mul_mod_mul_left]
  have h2 : a / 2 ^ s < 2 ^ (w - s) := by
    apply Nat.div_lt_of_lt_mul
    rw [← hsw]; exact ha
  rw [h1, Nat.lor_comm, ← Nat.mul_add_lt_is_or h2]
  have hwn : 2 ^ w = 2 ^ n * 2 ^ (w - n) := by
    rw [← pow_add]; congr 1; omega
  have hb := Nat.mod_add_div b (2 ^ s)
  have e : a + 2 ^ w * (b + 2 ^ w * R)
      = a + 2 ^ s * (2 ^ (w - s) * (b % 2 ^ s)
          + 2 ^ w * (b / 2 ^ s) + 2 ^ (w - s) * (2 ^ w * R)) := by
    calc a + 2 ^ w * (b + 2 ^ w * R)
        = a + 2 ^ w * ((b % 2 ^ s + 2 ^ s * (b / 2 ^ s)) + 2 ^ w * R) := by rw [hb]
      _ = a + (2 ^ s * 2 ^ (w - s)) * (b % 2 ^ s)
          + 2 ^ s * (2 ^ w * (b / 2 ^ s)) + (2 ^ s * 2 ^ (w - s)) * (2 ^ w * R) := by
        rw [← hsw]; ring
      _ = _ := by ring
  rw [e, Nat.add_mul_div_left _ _ (Nat.two_pow_pos s)]
  have e2 : a / 2 ^ s + (2 ^ (w - s) * (b % 2 ^ s) + 2 ^ w * (b / 2 ^ s)
        + 2 ^ (w - s) * (2 ^ w * R))
      = (2 ^ (w - s) * (b % 2 ^ s) + a / 2 ^ s)
        + 2 ^ n * (2 ^ (w - n) * (b / 2 ^ s) + 2 ^ (w - s) * (2 ^ (w - n) * R)) := by
    rw [hwn]; ring
  rw [e2, Nat.add_mul_mod_self_left]

/-- C40: for `WindowBits` in 1..7, a non-empty span of `N` words of `w ≥ 8` bits stored most
significant word first, with value `V`, and a bit offset below `N * w`:
`read_window_bits<WindowBits>(words, offset) = floor(V / 2^offset) mod 2^WindowBits`, also
when the window straddles two words and when it runs past the top of the most significant
word; the index `word_offset` is in bounds and `word_offset - 1` is read only when
`word_offset` is not zero. -/
theorem read_window_bits_spec (w WindowBits : Nat) (words : List Nat) (offset : Nat)
    (hb1 : 1 ≤ WindowBits) (hb7 : WindowBits ≤ 7) (hw : 8 ≤ w) (hne : words ≠ [])
    (hwords : IsWords w words) (hoff : offset < words.length * w) :
    read_window_bits w WindowBits words offset
      = value w words.reverse / 2 ^ offset % 2 ^ WindowBits ∧
    offset / w ≤ words.length - 1 ∧
    words.length - 1 - offset / w < words.length ∧
    (¬ (offset % w ≤ w - WindowBits ∨ words.length - 1 - offset / w = 0) →
      1 ≤ words.length - 1 - offset / w) := by
  have hN : 0 < words.length := List.length_pos.mpr hne
  have hk0 : offset / w < words.length := by
    apply Nat.div_lt_of_lt_mul
    rw [Nat.mul_comm]; exact hoff
  have hs0 : offset % w < w := Nat.mod_lt _ (by omega)
  have hpow : 2 ^ offset = 2 ^ (w * (offset / w)) * 2 ^ (offset % w) := by
    rw [← pow_add, Nat.div_add_mod]
  unfold read_window_bits
  simp only []
  rw [hpow]
  generalize offset / w = k at hk0 ⊢
  generalize offset % w = s at hs0 ⊢
  refine ⟨?_, by omega, by omega, fun h => by omega⟩
  have hmask : (2 ^ WindowBits) % 256 - 1 = 2 ^ WindowBits - 1 := by
    have : 2 ^ WindowBits < 256 := by
      have : 2 ^ WindowBits ≤ 2 ^ 7 := Nat.pow_le_pow_right (by omega) hb7
      omega
    rw [Nat.mod_eq_of_lt this]
  have hrev : IsWords w words.reverse := fun a ha => hwords a (List.mem_reverse.mp ha)
  have hlen : k < words.reverse.length := by simpa using hk0
  have hdrop : words.reverse.drop k
      = rd words (words.length - 1 - k) :: words.reverse.drop (k + 1) := by
    rw [← rd_reverse words _ hk0, rd_eq_getElem _ _ hlen]
    exact List.drop_eq_getElem_cons hlen
  have hw0 : rd words (words.length - 1 - k) < 2 ^ w := rd_lt w words hwords _
  rw [← Nat.div_div_eq_div_mul, value_drop_div w _ hrev, hdrop, value_cons]
  simp only [hmask, Nat.and_pow_two_sub_one_eq_mod]
  by_cases hsingle : s ≤ w - WindowBits
  · simp only [hsingle, decide_True, Bool.true_or, if_true]
    exact (window_single w _ _ _ _ (by omega)).symm
  · by_cases htop : words.length - 1 - k = 0
    · simp only [htop, decide_True, Bool.or_true, if_true]
      have hnil : words.reverse.drop (k + 1) = [] := by
        apply List.drop_of_length_le
        simp only [List.length_reverse]
        omega
      rw [hnil, value_nil, Nat.mul_zero, Nat.add_zero]
    · simp only [hsingle, htop, decide_False, Bool.or_false, Bool.false_eq_true, if_false]
      have hk1 : k + 1 < words.length := by omega
      have hlen1 : k + 1 < words.reverse.length := by simpa using hk1
      have hdrop1 : words.reverse.drop (k + 1)
          = rd words (words.length - 1 - k - 1) :: words.reverse.drop (k + 1 + 1) := by
        have e : words.length - 1 - k - 1 = words.length - 1 - (k + 1) := by omega
        rw [e, ← rd_reverse words _ hk1, rd_eq_getElem _ _ hlen1]
        exact List.drop_eq_getElem_cons hlen1
      rw [hdrop1, value_cons]
      exact window_joined w _ _ _ _ _ hw0 hs0 (by omega)

/-- The statement of `read_window_bits_spec` on 8-bit words, the window of 5 bits
straddling two words. -/
theorem read_window_bits_spec_witness :
    read_window_bits 8 5 [0xA5, 0x3C, 0xF1] 6
      = value 8 [0xA5, 0x3C, 0xF1].reverse / 2 ^ 6 % 2 ^ 5 ∧
    6 / 8 ≤ [0xA5, 0x3C, 0xF1].length - 1 ∧
    [0xA5, 0x3C, 0xF1].length - 1 - 6 / 8 < [0xA5, 0x3C, 0xF1].length ∧
    (¬ (6 % 8 ≤ 8 - 5 ∨ [0xA5, 0x3C, 0xF1].length - 1 - 6 / 8 = 0) →
      1 ≤ [0xA5, 0x3C, 0xF1].length - 1 - 6 / 8) :=
  read_window_bits_spec 8 5 [0xA5, 0x3C, 0xF1] 6 (by decide) (by decide) (by decide)
    (by simp) (by unfold IsWords; simp) (by decide)

/-! ## Traces of the constant-time kernels -/

/-- For `lo ≤ hi` the loop of a run makes `hi - lo` passes, each after a test of `i != hi`
with outcome `true`, and leaves on a test with outcome `false`. -/
theorem forT_eq {σ : Type} (lo hi : Nat) (h : lo ≤ hi) (body : Nat → σ × Run → σ × Run)
    (s : σ × Run) :
    forT lo hi body s
      = ((forRange lo hi (fun i s => body i (s.1, (Run.test true s.2).2)) s).1,
          (Run.test false
            (forRange lo hi (fun i s => body i (s.1, (Run.test true s.2).2)) s).2).2) := by
  have key : ∀ d lo (s : σ × Run), lo + d = hi →
      forT_from hi body (d + 1) lo s
        = ((forRange lo hi (fun i s => body i (s.1, (Run.test true s.2).2)) s).1,
            (Run.test false
              (forRange lo hi (fun i s => body i (s.1, (Run.test true s.2).2)) s).2).2) := by
    intro d
    induction d with
    | zero =>
      intro lo s e
      have e2 : lo = hi := by omega
      subst e2
      simp [forT_from, forRange_self, Run.test]
    | succ d ih =>
      intro lo s e
      have hne : lo ≠ hi := by omega
      have hd : decide (lo ≠ hi) = true := by simp [hne]
      rw [forT_from, hd]
      simp only [Run.test, if_true]
      rw [ih (lo + 1) _ (by omega), forRange_first lo hi (by omega)]
      simp only [Run.test]
  unfold forT
  exact key (hi - lo) lo s (by omega)

theorem foldl_run_trace {σ : Type} (body : Nat → σ × Run → σ × Run) (g : Nat → List Access)
    (hb : ∀ i s, (body i s).2.trace = s.2.trace ++ g i) (l : List Nat) (s : σ × Run) :
    (l.foldl (fun acc i => body i (acc.1, (Run.test true acc.2).2)) s).2.trace
      = s.2.trace ++ (l.map (fun i => Access.branch true :: g i)).flatten := by
  induction l generalizing s with
  | nil => simp
  | cons i l ih =>
    rw [List.foldl_cons, ih, hb]
    simp [Run.test, List.append_assoc]

/-- A loop of a run whose body at index `i` adds the events `g i`, whatever the data, adds
the trace of the loop. -/
theorem forT_trace {σ : Type} (lo hi : Nat) (h : lo ≤ hi) (body : Nat → σ × Run → σ × Run)
    (g : Nat → List Access) (hb : ∀ i s, (body i s).2.trace = s.2.trace ++ g i)
    (s : σ × Run) :
    (forT lo hi body s).2.trace = s.2.trace ++ loopTrace lo hi g := by
  rw [forT_eq lo hi h]
  unfold forRange loopTrace
  show (List.foldl (fun acc i => body i (acc.1, (Run.test true acc.2).2)) s
      (List.range' lo (hi - lo))).2.trace ++ [Access.branch false] = _
  rw [foldl_run_trace body g hb]
  simp [List.append_assoc]

theorem foldl_run_sim {σ τ : Type} (body : Nat → σ × Run → σ × Run) (g : Nat → τ → τ)
    (rel : σ × Run → τ → Prop)
    (htest : ∀ s t c, rel s t → rel (s.1, (Run.test c s.2).2) t)
    (hb : ∀ i s t, rel s t → rel (body i s) (g i t)) (l : List Nat) (s : σ × Run) (t : τ)
    (h0 : rel s t) :
    rel (l.foldl (fun acc i => body i (acc.1, (Run.test true acc.2).2)) s)
      (l.foldl (fun acc i => g i acc) t) := by
  induction l generalizing s t with
  | nil => exact h0
  | cons i l ih =>
    rw [List.foldl_cons, List.foldl_cons]
    exact ih _ _ (hb i _ _ (htest s t true h0))

/-- A loop of a run computes what the loop of the plain embedding computes: a relation
between the two states that the tests leave alone and the two bodies keep, holds after the
loops when it holds before. -/
theorem forT_sim {σ τ : Type} (lo hi : Nat) (h : lo ≤ hi) (body : Nat → σ × Run → σ × Run)
    (g : Nat → τ → τ) (rel : σ × Run → τ → Prop)
    (htest : ∀ s t c, rel s t → rel (s.1, (Run.test c s.2).2) t)
    (hb : ∀ i s t, rel s t → rel (body i s) (g i t)) (s : σ × Run) (t : τ) (h0 : rel s t) :
    rel (forT lo hi body s) (forRange lo hi g t) := by
  rw [forT_eq lo hi h]
  exact htest _ _ false (foldl_run_sim body g rel htest hb _ s t h0)

theorem bigint_cnd_swap_traced_trace (w cnd size : Nat) (r : Run) :
    (bigint_cnd_swap_traced w cnd size r).trace
      = r.trace ++ loopTrace 0 size (fun i =>
          [Access.read "x" i, Access.read "y" i, Access.write "x" i, Access.write "y" i]) := by
  unfold bigint_cnd_swap_traced
  exact forT_trace 0 size (Nat.zero_le _) _ _
    (fun i s => by simp [Run.load_x, Run.load_y, Run.store_x, Run.store_y]) ((), r)

theorem bigint_cnd_swap_traced_data (w cnd size : Nat) (r : Run) :
    ((bigint_cnd_swap_traced w cnd size r).x, (bigint_cnd_swap_traced w cnd size r).y)
      = bigint_cnd_swap w cnd r.x r.y size := by
  unfold bigint_cnd_swap_traced bigint_cnd_swap
  exact forT_sim 0 size (Nat.zero_le _) _ _
    (fun (s : Unit × Run) (t : List Nat × List Nat) => (s.2.x, s.2.y) = t)
    (fun s t c h => h)
    (fun i s t h => by
      subst h
      simp [Run.load_x, Run.load_y, Run.store_x, Run.store_y])
    ((), r) (r.x, r.y) rfl

theorem bigint_cnd_add_traced_trace (w cnd size : Nat) (r : Run) :
    (bigint_cnd_add_traced w cnd size r).2.trace
      = r.trace ++ loopTrace 0 size (fun i =>
          [Access.read "x" i, Access.read "y" i, Access.write "x" i]) := by
  unfold bigint_cnd_add_traced
  exact forT_trace 0 size (Nat.zero_le _) _ _
    (fun i s => by simp [Run.load_x, Run.load_y, Run.store_x]) (0, r)

theorem bigint_cnd_add_traced_data (w cnd size : Nat) (r : Run) :
    ((bigint_cnd_add_traced w cnd size r).2.x, (bigint_cnd_add_traced w cnd size r).1)
      = bigint_cnd_add w cnd r.x r.y size := by
  unfold bigint_cnd_add_traced bigint_cnd_add
  have h := forT_sim 0 size (Nat.zero_le _)
    (fun i (s : Nat × Run) =>
      ((word_add w (Run.load_x i s.2).1
          ((Run.load_y i (Run.load_x i s.2).2).1 &&& Mask.expand w cnd) s.1).2,
        Run.store_x i (word_add w (Run.load_x i s.2).1
          ((Run.load_y i (Run.load_x i s.2).2).1 &&& Mask.expand w cnd) s.1).1
          (Run.load_y i (Run.load_x i s.2).2).2))
    (fun i (s : List Nat × Nat) =>
      ((s.1.set i (word_add w (rd s.1 i) (rd r.y i &&& Mask.expand w cnd) s.2).1),
        (word_add w (rd s.1 i) (rd r.y i &&& Mask.expand w cnd) s.2).2))
    (fun (s : Nat × Run) (t : List Nat × Nat) => s.2.y = r.y ∧ (s.2.x, s.1) = t)
    (fun s t c h => h)
    (fun i s t h => by
      obtain ⟨h1, h2⟩ := h
      subst h2
      simp [Run.load_x, Run.load_y, Run.store_x, h1])
    (0, r) (r.x, 0) ⟨rfl, rfl⟩
  simp only []
  rw [← h.2]

theorem bigint_cnd_sub_traced_trace (w cnd size : Nat) (r : Run) :
    (bigint_cnd_sub_traced w cnd size r).2.trace
      = r.trace ++ loopTrace 0 size (fun i =>
          [Access.read "x" i, Access.read "y" i, Access.write "x" i]) := by
  unfold bigint_cnd_sub_traced
  exact forT_trace 0 size (Nat.zero_le _) _ _
    (fun i s => by simp [Run.load_x, Run.load_y, Run.store_x]) (0, r)

theorem bigint_cnd_sub_traced_data (w cnd size : Nat) (r : Run) :
    ((bigint_cnd_sub_traced w cnd size r).2.x, (bigint_cnd_sub_traced w cnd size r).1)
      = bigint_cnd_sub w cnd r.x r.y size := by
  unfold bigint_cnd_sub_traced bigint_cnd_sub
  have h := forT_sim 0 size (Nat.zero_le _)
    (fun i (s : Nat × Run) =>
      ((word_sub w (Run.load_x i s.2).1
          ((Run.load_y i (Run.load_x i s.2).2).1 &&& Mask.expand w cnd) s.1).2,
        Run.store_x i (word_sub w (Run.load_x i s.2).1
          ((Run.load_y i (Run.load_x i s.2).2).1 &&& Mask.expand w cnd) s.1).1
          (Run.load_y i (Run.load_x i s.2).2).2))
    (fun i (s : List Nat × Nat) =>
      ((s.1.set i (word_sub w (rd s.1 i) (rd r.y i &&& Mask.expand w cnd) s.2).1),
        (word_sub w (rd s.1 i) (rd r.y i &&& Mask.expand w cnd) s.2).2))
    (fun (s : Nat × Run) (t : List Nat × Nat) => s.2.y = r.y ∧ (s.2.x, s.1) = t)
    (fun s t c h => h)
    (fun i s t h => by
      obtain ⟨h1, h2⟩ := h
      subst h2
      simp [Run.load_x, Run.load_y, Run.store_x, h1])
    (0, r) (r.x, 0) ⟨rfl, rfl⟩
  simp only []
  rw [← h.2]

theorem bigint_cnd_abs_traced_trace (w cnd size : Nat) (r : Run) :
    (bigint_cnd_abs_traced w cnd size r).trace
      = r.trace ++ loopTrace 0 size (fun i =>
          [Access.read "x" i, Access.read "x" i, Access.write "x" i]) := by
  unfold bigint_cnd_abs_traced
  exact forT_trace 0 size (Nat.zero_le _) _ _
    (fun i s => by simp [Run.load_x, Run.store_x]) (_, r)

theorem bigint_cnd_abs_traced_data (w cnd size : Nat) (r : Run) :
    (bigint_cnd_abs_traced w cnd size r).x = bigint_cnd_abs w cnd r.x size := by
  unfold bigint_cnd_abs_traced bigint_cnd_abs
  have h := forT_sim 0 size (Nat.zero_le _)
    (fun i (s : Nat × Run) =>
      ((word_add w (word_not w (Run.load_x i s.2).1) 0 s.1).2,
        Run.store_x i (Mask.select (Mask.expand w cnd)
          (word_add w (word_not w (Run.load_x i s.2).1) 0 s.1).1
          (Run.load_x i (Run.load_x i s.2).2).1) (Run.load_x i (Run.load_x i s.2).2).2))
    (fun i (s : List Nat × Nat) =>
      ((s.1.set i (Mask.select (Mask.expand w cnd)
          (word_add w (word_not w (rd s.1 i)) 0 s.2).1 (rd s.1 i))),
        (word_add w (word_not w (rd s.1 i)) 0 s.2).2))
    (fun (s : Nat × Run) (t : List Nat × Nat) => (s.2.x, s.1) = t)
    (fun s t c h => h)
    (fun i s t h => by
      subst h
      simp [Run.load_x, Run.store_x])
    (Mask.if_set_return (Mask.expand w cnd) 1, r)
    (r.x, Mask.if_set_return (Mask.expand w cnd) 1) rfl
  simp only []
  rw [← h]

/-- The loop over the common words of two operands, which reads `x[i]`, `y[i]`, `x[i]`,
`y[i]` and folds them into a local by `F`: what it computes, and what it records. -/
theorem common4_loop (n : Nat) (F : Nat → Nat → Nat → Nat → Nat → Nat) (a0 : Nat) (r : Run) :
    (forT 0 n (fun i (s : Nat × Run) =>
        (F s.1 (Run.load_x i s.2).1 (Run.load_y i (Run.load_x i s.2).2).1
            (Run.load_x i (Run.load_y i (Run.load_x i s.2).2).2).1
            (Run.load_y i (Run.load_x i (Run.load_y i (Run.load_x i s.2).2).2).2).1,
          (Run.load_y i (Run.load_x i (Run.load_y i (Run.load_x i s.2).2).2).2).2))
        (a0, r)).1
      = forRange 0 n (fun i acc => F acc (rd r.x i) (rd r.y i) (rd r.x i) (rd r.y i)) a0 ∧
    (forT 0 n (fun i (s : Nat × Run) =>
        (F s.1 (Run.load_x i s.2).1 (Run.load_y i (Run.load_x i s.2).2).1
            (Run.load_x i (Run.load_y i (Run.load_x i s.2).2).2).1
            (Run.load_y i (Run.load_x i (Run.load_y i (Run.load_x i s.2).2).2).2).1,
          (Run.load_y i (Run.load_x i (Run.load_y i (Run.load_x i s.2).2).2).2).2))
        (a0, r)).2
      = { r with trace := r.trace ++ loopTrace 0 n (fun i =>
          [Access.read "x" i, Access.read "y" i, Access.read "x" i, Access.read "y" i]) } := by
  have hd := forT_sim 0 n (Nat.zero_le _)
    (fun i (s : Nat × Run) =>
        (F s.1 (Run.load_x i s.2).1 (Run.load_y i (Run.load_x i s.2).2).1
            (Run.load_x i (Run.load_y i (Run.load_x i s.2).2).2).1
            (Run.load_y i (Run.load_x i (Run.load_y i (Run.load_x i s.2).2).2).2).1,
          (Run.load_y i (Run.load_x i (Run.load_y i (Run.load_x i s.2).2).2).2).2))
    (fun i acc => F acc (rd r.x i) (rd r.y i) (rd r.x i) (rd r.y i))
    (fun (s : Nat × Run) (t : Nat) => s.2.x = r.x ∧ s.2.y = r.y ∧ s.1 = t)
    (fun s t c h => h)
    (fun i s t h => by
      obtain ⟨h1, h2, h3⟩ := h
      subst h3
      simp [Run.load_x, Run.load_y, h1, h2])
    (a0, r) a0 ⟨rfl, rfl, rfl⟩
  have ht := forT_trace 0 n (Nat.zero_le _)
    (fun i (s : Nat × Run) =>
        (F s.1 (Run.load_x i s.2).1 (Run.load_y i (Run.load_x i s.2).2).1
            (Run.load_x i (Run.load_y i (Run.load_x i s.2).2).2).1
            (Run.load_y i (Run.load_x i (Run.load_y i (Run.load_x i s.2).2).2).2).1,
          (Run.load_y i (Run.load_x i (Run.load_y i (Run.load_x i s.2).2).2).2).2))
    (fun i => [Access.read "x" i, Access.read "y" i, Access.read "x" i, Access.read "y" i])
    (fun i s => by simp [Run.load_x, Run.load_y]) (a0, r)
  refine ⟨hd.2.2, ?_⟩
  generalize forT 0 n _ (a0, r) = s at hd ht
  obtain ⟨s1, ⟨sx, sy, st⟩⟩ := s
  simp only at hd ht
  obtain ⟨h1, h2, _⟩ := hd
  subst h1 h2 ht
  rfl

/-- The loop over the words `y` has more than `x`, which folds them into a local by
bitwise or. -/
theorem tail_y_loop (lo hi : Nat) (h : lo ≤ hi) (m0 : Nat) (r : Run) :
    (forT lo hi (fun i (m : Nat × Run) => (m.1 ||| (Run.load_y i m.2).1, (Run.load_y i m.2).2))
        (m0, r)).1
      = forRange lo hi (fun i mask => mask ||| rd r.y i) m0 ∧
    (forT lo hi (fun i (m : Nat × Run) => (m.1 ||| (Run.load_y i m.2).1, (Run.load_y i m.2).2))
        (m0, r)).2
      = { r with trace := r.trace ++ loopTrace lo hi (fun i => [Access.read "y" i]) } := by
  have hd := forT_sim lo hi h
    (fun i (m : Nat × Run) => (m.1 ||| (Run.load_y i m.2).1, (Run.load_y i m.2).2))
    (fun i mask => mask ||| rd r.y i)
    (fun (s : Nat × Run) (t : Nat) => s.2.x = r.x ∧ s.2.y = r.y ∧ s.1 = t)
    (fun s t c h => h)
    (fun i s t h => by
      obtain ⟨h1, h2, h3⟩ := h
      subst h3
      simp [Run.load_y, h1, h2])
    (m0, r) m0 ⟨rfl, rfl, rfl⟩
  have ht := forT_trace lo hi h
    (fun i (m : Nat × Run) => (m.1 ||| (Run.load_y i m.2).1, (Run.load_y i m.2).2))
    (fun i => [Access.read "y" i])
    (fun i s => by simp [Run.load_y]) (m0, r)
  refine ⟨hd.2.2, ?_⟩
  generalize forT lo hi _ (m0, r) = s at hd ht
  obtain ⟨s1, ⟨sx, sy, st⟩⟩ := s
  simp only at hd ht
  obtain ⟨h1, h2, _⟩ := hd
  subst h1 h2 ht
  rfl

/-- The loop over the words `x` has more than `y`, which folds them into a local by
bitwise or. -/
theorem tail_x_loop (lo hi : Nat) (h : lo ≤ hi) (m0 : Nat) (r : Run) :
    (forT lo hi (fun i (m : Nat × Run) => (m.1 ||| (Run.load_x i m.2).1, (Run.load_x i m.2).2))
        (m0, r)).1
      = forRange lo hi (fun i mask => mask ||| rd r.x i) m0 ∧
    (forT lo hi (fun i (m : Nat × Run) => (m.1 ||| (Run.load_x i m.2).1, (Run.load_x i m.2).2))
        (m0, r)).2
      = { r with trace := r.trace ++ loopTrace lo hi (fun i => [Access.read "x" i]) } := by
  have hd := forT_sim lo hi h
    (fun i (m : Nat × Run) => (m.1 ||| (Run.load_x i m.2).1, (Run.load_x i m.2).2))
    (fun i mask => mask ||| rd r.x i)
    (fun (s : Nat × Run) (t : Nat) => s.2.x = r.x ∧ s.2.y = r.y ∧ s.1 = t)
    (fun s t c h => h)
    (fun i s t h => by
      obtain ⟨h1, h2, h3⟩ := h
      subst h3
      simp [Run.load_x, h1, h2])
    (m0, r) m0 ⟨rfl, rfl, rfl⟩
  have ht := forT_trace lo hi h
    (fun i (m : Nat × Run) => (m.1 ||| (Run.load_x i m.2).1, (Run.load_x i m.2).2))
    (fun i => [Access.read "x" i])
    (fun i s => by simp [Run.load_x]) (m0, r)
  refine ⟨hd.2.2, ?_⟩
  generalize forT lo hi _ (m0, r) = s at hd ht
  obtain ⟨s1, ⟨sx, sy, st⟩⟩ := s
  simp only at hd ht
  obtain ⟨h1, h2, _⟩ := hd
  subst h1 h2 ht
  rfl

theorem bigint_cmp_traced_release (w x_size y_size : Nat) (r : Run) :
    bigint_cmp_traced false w x_size y_size r
      = (.ok (bigint_cmp w r.x x_size r.y y_size),
          { r with trace := r.trace ++ cmpTrace x_size y_size (fun i =>
            [Access.read "x" i, Access.read "y" i, Access.read "x" i, Access.read "y" i]) }) := by
  obtain ⟨c1, c2⟩ := common4_loop (min x_size y_size)
    (fun acc a b c d => Mask.select (Mask.is_equal w a b) acc
      (Mask.select (Mask.is_lt w c d) (word_max w) 1)) 0 r
  unfold bigint_cmp_traced bigint_cmp cmpTrace
  simp only []
  rw [c1, c2]
  by_cases h1 : x_size < y_size
  · obtain ⟨t1, t2⟩ := tail_y_loop x_size y_size h1.le 0
      (Run.test true { r with trace := r.trace ++ loopTrace 0 (min x_size y_size) (fun i =>
        [Access.read "x" i, Access.read "y" i, Access.read "x" i, Access.read "y" i]) }).2
    simp only [h1, decide_True, if_true, Run.test] at t1 t2 ⊢
    rw [t1, t2]
    simp [List.append_assoc]
  · by_cases h2 : y_size < x_size
    · obtain ⟨t1, t2⟩ := tail_x_loop y_size x_size h2.le 0
        (Run.test true (Run.test false
          { r with trace := r.trace ++ loopTrace 0 (min x_size y_size) (fun i =>
            [Access.read "x" i, Access.read "y" i, Access.read "x" i, Access.read "y" i]) }).2).2
      simp only [h1, h2, decide_True, decide_False, if_true, if_false, Run.test] at t1 t2 ⊢
      rw [t1, t2]
      simp [List.append_assoc]
    · simp [h1, h2, Run.test, List.append_assoc]

theorem bigint_ct_is_lt_traced_eq (w x_size y_size : Nat) (lt_or_equal : Bool) (r : Run) :
    bigint_ct_is_lt_traced w x_size y_size lt_or_equal r
      = (bigint_ct_is_lt w r.x x_size r.y y_size lt_or_equal,
          { r with trace := r.trace ++ cmpTrace x_size y_size (fun i =>
            [Access.read "x" i, Access.read "y" i, Access.read "x" i, Access.read "y" i]) }) := by
  obtain ⟨c1, c2⟩ := common4_loop (min x_size y_size)
    (fun acc a b c d => Mask.select_mask (Mask.is_equal w a b) acc (Mask.is_lt w c d))
    (Mask.expand w (if lt_or_equal then 1 else 0)) r
  unfold bigint_ct_is_lt_traced bigint_ct_is_lt cmpTrace
  simp only []
  rw [c1, c2]
  by_cases h1 : x_size < y_size
  · obtain ⟨t1, t2⟩ := tail_y_loop x_size y_size h1.le 0
      (Run.test true { r with trace := r.trace ++ loopTrace 0 (min x_size y_size) (fun i =>
        [Access.read "x" i, Access.read "y" i, Access.read "x" i, Access.read "y" i]) }).2
    simp only [h1, decide_True, if_true, Run.test] at t1 t2 ⊢
    rw [t1, t2]
    simp [List.append_assoc]
  · by_cases h2 : y_size < x_size
    · obtain ⟨t1, t2⟩ := tail_x_loop y_size x_size h2.le 0
        (Run.test true (Run.test false
          { r with trace := r.trace ++ loopTrace 0 (min x_size y_size) (fun i =>
            [Access.read "x" i, Access.read "y" i, Access.read "x" i, Access.read "y" i]) }).2).2
      simp only [h1, h2, decide_True, decide_False, if_true, if_false, Run.test] at t1 t2 ⊢
      rw [t1, t2]
      simp [List.append_assoc]
    · simp [h1, h2, Run.test, List.append_assoc]

/-- The loop over the common words of two operands, which reads `x[i]` and `y[i]` and folds
them into a local by `F`: what it computes, and what it records. -/
theorem common2_loop (n : Nat) (F : Nat → Nat → Nat → Nat) (a0 : Nat) (r : Run) :
    (forT 0 n (fun i (s : Nat × Run) =>
        (F s.1 (Run.load_x i s.2).1 (Run.load_y i (Run.load_x i s.2).2).1,
          (Run.load_y i (Run.load_x i s.2).2).2)) (a0, r)).1
      = forRange 0 n (fun i acc => F acc (rd r.x i) (rd r.y i)) a0 ∧
    (forT 0 n (fun i (s : Nat × Run) =>
        (F s.1 (Run.load_x i s.2).1 (Run.load_y i (Run.load_x i s.2).2).1,
          (Run.load_y i (Run.load_x i s.2).2).2)) (a0, r)).2
      = { r with trace := r.trace ++ loopTrace 0 n (fun i =>
          [Access.read "x" i, Access.read "y" i]) } := by
  have hd := forT_sim 0 n (Nat.zero_le _)
    (fun i (s : Nat × Run) =>
        (F s.1 (Run.load_x i s.2).1 (Run.load_y i (Run.load_x i s.2).2).1,
          (Run.load_y i (Run.load_x i s.2).2).2))
    (fun i acc => F acc (rd r.x i) (rd r.y i))
    (fun (s : Nat × Run) (t : Nat) => s.2.x = r.x ∧ s.2.y = r.y ∧ s.1 = t)
    (fun s t c h => h)
    (fun i s t h => by
      obtain ⟨h1, h2, h3⟩ := h
      subst h3
      simp [Run.load_x, Run.load_y, h1, h2])
    (a0, r) a0 ⟨rfl, rfl, rfl⟩
  have ht := forT_trace 0 n (Nat.zero_le _)
    (fun i (s : Nat × Run) =>
        (F s.1 (Run.load_x i s.2).1 (Run.load_y i (Run.load_x i s.2).2).1,
          (Run.load_y i (Run.load_x i s.2).2).2))
    (fun i => [Access.read "x" i, Access.read "y" i])
    (fun i s => by simp [Run.load_x, Run.load_y]) (a0, r)
  refine ⟨hd.2.2, ?_⟩
  generalize forT 0 n _ (a0, r) = s at hd ht
  obtain ⟨s1, ⟨sx, sy, st⟩⟩ := s
  simp only at hd ht
  obtain ⟨h1, h2, _⟩ := hd
  subst h1 h2 ht
  rfl

theorem bigint_ct_is_eq_traced_eq (w x_size y_size : Nat) (r : Run) :
    bigint_ct_is_eq_traced w x_size y_size r
      = (bigint_ct_is_eq w r.x x_size r.y y_size,
          { r with trace := r.trace ++ cmpTrace x_size y_size (fun i =>
            [Access.read "x" i, Access.read "y" i]) }) := by
  obtain ⟨c1, c2⟩ := common2_loop (min x_size y_size) (fun acc a b => acc ||| (a ^^^ b)) 0 r
  unfold bigint_ct_is_eq_traced bigint_ct_is_eq cmpTrace
  simp only []
  rw [c1, c2]
  by_cases h1 : x_size < y_size
  · obtain ⟨t1, t2⟩ := tail_y_loop x_size y_size h1.le
      (forRange 0 (min x_size y_size) (fun i acc => acc ||| (rd r.x i ^^^ rd r.y i)) 0)
      (Run.test true { r with trace := r.trace ++ loopTrace 0 (min x_size y_size) (fun i =>
        [Access.read "x" i, Access.read "y" i]) }).2
    simp only [h1, decide_True, if_true, Run.test] at t1 t2 ⊢
    rw [t1, t2]
    simp [List.append_assoc]
  · by_cases h2 : y_size < x_size
    · obtain ⟨t1, t2⟩ := tail_x_loop y_size x_size h2.le
        (forRange 0 (min x_size y_size) (fun i acc => acc ||| (rd r.x i ^^^ rd r.y i)) 0)
        (Run.test true (Run.test false
          { r with trace := r.trace ++ loopTrace 0 (min x_size y_size) (fun i =>
            [Access.read "x" i, Access.read "y" i]) }).2).2
      simp only [h1, h2, decide_True, decide_False, if_true, if_false, Bool.false_eq_true,
        Run.test] at t1 t2 ⊢
      rw [t1, t2]
      simp [List.append_assoc]
    · simp [h1, h2, Run.test, List.append_assoc]

/-- C39 (counterexample): in a build with debug assertions, two runs of `bigint_cmp` on one
word each take different branches: with `x = [1]`, `y = [2]` the first operand of the
assertion, `result == LT`, holds and is the last test made; with `x = [2]`, `y = [1]` it
fails and `result == GT` is tested after it. Up to the assertion the two runs record the
same events. -/
theorem bigint_cmp_traced_debug_eval :
    bigint_cmp_traced true 64 1 1 ⟨[1], [2], []⟩
      = (.ok (-1), ⟨[1], [2],
          [Access.branch true, Access.read "x" 0, Access.read "y" 0, Access.read "x" 0,
            Access.read "y" 0, Access.branch false, Access.branch false, Access.branch false,
            Access.branch true]⟩) ∧
    bigint_cmp_traced true 64 1 1 ⟨[2], [1], []⟩
      = (.ok 1, ⟨[2], [1],
          [Access.branch true, Access.read "x" 0, Access.read "y" 0, Access.read "x" 0,
            Access.read "y" 0, Access.branch false, Access.branch false, Access.branch false,
            Access.branch false, Access.branch true]⟩) ∧
    (bigint_cmp_traced true 64 1 1 ⟨[1], [2], []⟩).2.trace
      ≠ (bigint_cmp_traced true 64 1 1 ⟨[2], [1], []⟩).2.trace := by
  refine ⟨rfl, rfl, ?_⟩
  decide

/-- C39 (amended): for `bigint_cnd_swap`, `bigint_cnd_add`, `bigint_cnd_sub`,
`bigint_cnd_abs`, `bigint_ct_is_lt`, `bigint_ct_is_eq`, and for `bigint_cmp` in a build
without debug assertions, two runs with equal size arguments record the same sequence of
branch outcomes and of reads and writes of array elements, whatever the condition words,
the flag `lt_or_equal` and the words of `x` and `y`; each run computes what the function
computes. -/
theorem ct_kernels_trace (w size x_size y_size : Nat) (cnd cnd2 : Nat) (x y x2 y2 : List Nat)
    (le le2 : Bool) :
    ((bigint_cnd_swap_traced w cnd size ⟨x, y, []⟩).trace
        = (bigint_cnd_swap_traced w cnd2 size ⟨x2, y2, []⟩).trace ∧
      ((bigint_cnd_swap_traced w cnd size ⟨x, y, []⟩).x,
        (bigint_cnd_swap_traced w cnd size ⟨x, y, []⟩).y) = bigint_cnd_swap w cnd x y size) ∧
    ((bigint_cnd_add_traced w cnd size ⟨x, y, []⟩).2.trace
        = (bigint_cnd_add_traced w cnd2 size ⟨x2, y2, []⟩).2.trace ∧
      ((bigint_cnd_add_traced w cnd size ⟨x, y, []⟩).2.x,
        (bigint_cnd_add_traced w cnd size ⟨x, y, []⟩).1) = bigint_cnd_add w cnd x y size) ∧
    ((bigint_cnd_sub_traced w cnd size ⟨x, y, []⟩).2.trace
        = (bigint_cnd_sub_traced w cnd2 size ⟨x2, y2, []⟩).2.trace ∧
      ((bigint_cnd_sub_traced w cnd size ⟨x, y, []⟩).2.x,
        (bigint_cnd_sub_traced w cnd size ⟨x, y, []⟩).1) = bigint_cnd_sub w cnd x y size) ∧
    ((bigint_cnd_abs_traced w cnd size ⟨x, y, []⟩).trace
        = (bigint_cnd_abs_traced w cnd2 size ⟨x2, y2, []⟩).trace ∧
      (bigint_cnd_abs_traced w cnd size ⟨x, y, []⟩).x = bigint_cnd_abs w cnd x size) ∧
    ((bigint_cmp_traced false w x_size y_size ⟨x, y, []⟩).2.trace
        = (bigint_cmp_traced false w x_size y_size ⟨x2, y2, []⟩).2.trace ∧
      (bigint_cmp_traced false w x_size y_size ⟨x, y, []⟩).1
        = .ok (bigint_cmp w x x_size y y_size)) ∧
    ((bigint_ct_is_lt_traced w x_size y_size le ⟨x, y, []⟩).2.trace
        = (bigint_ct_is_lt_traced w x_size y_size le2 ⟨x2, y2, []⟩).2.trace ∧
      (bigint_ct_is_lt_traced w x_size y_size le ⟨x, y, []⟩).1
        = bigint_ct_is_lt w x x_size y y_size le) ∧
    ((bigint_ct_is_eq_traced w x_size y_size ⟨x, y, []⟩).2.trace
        = (bigint_ct_is_eq_traced w x_size y_size ⟨x2, y2, []⟩).2.trace ∧
      (bigint_ct_is_eq_traced w x_size y_size ⟨x, y, []⟩).1
        = bigint_ct_is_eq w x x_size y y_size) := by
  refine ⟨⟨?_, bigint_cnd_swap_traced_data w cnd size ⟨x, y, []⟩⟩,
    ⟨?_, bigint_cnd_add_traced_data w cnd size ⟨x, y, []⟩⟩,
    ⟨?_, bigint_cnd_sub_traced_data w cnd size ⟨x, y, []⟩⟩,
    ⟨?_, bigint_cnd_abs_traced_data w cnd size ⟨x, y, []⟩⟩,
    ⟨?_, ?_⟩, ⟨?_, ?_⟩, ⟨?_, ?_⟩⟩
  · rw [bigint_cnd_swap_traced_trace, bigint_cnd_swap_traced_trace]
  · rw [bigint_cnd_add_traced_trace, bigint_cnd_add_traced_trace]
  · rw [bigint_cnd_sub_traced_trace, bigint_cnd_sub_traced_trace]
  · rw [bigint_cnd_abs_traced_trace, bigint_cnd_abs_traced_trace]
  · rw [bigint_cmp_traced_release, bigint_cmp_traced_release]
  · rw [bigint_cmp_traced_release]
  · rw [bigint_ct_is_lt_traced_eq, bigint_ct_is_lt_traced_eq]
  · rw [bigint_ct_is_lt_traced_eq]
  · rw [bigint_ct_is_eq_traced_eq, bigint_ct_is_eq_traced_eq]
  · rw [bigint_ct_is_eq_traced_eq]

end Botan
